import Mathlib

/-!
# Lattice-Boltzmann D2Q9 solver (`lbmd2q9_mpi.hpp`): embedding and verified properties

The definitions below transcribe the class `LbmD2Q9` of
`examples/lbm-cfd/include/lbmd2q9_mpi.hpp`.

Conventions of the embedding.

* `int` and `uint32_t` quantities that the code keeps non-negative (grid sizes, ranks,
  columns, rows, offsets, array indices) are natural numbers; on such values the truncating
  division and remainder of C++ are `/` and `%` on `Nat`.  The neighbour table, whose entries
  may be the sentinel `-1`, is integer valued.  No width bound is imposed: the statements
  concern index geometry for grids that the constructor is able to allocate.
* An array of the class is a function from the linear index `y * dim_x + x` to the value.
* A `for` loop is the fold of its body over the list of values of the loop counter, in the
  order of execution.
* `double` arithmetic is the arithmetic of an arbitrary linearly ordered field (exact
  arithmetic); the definitions stay executable over the rationals.
-/

set_option autoImplicit false

namespace LbmD2Q9

/-! ## Decomposition planner -/

/-- The loop `while (value % test_num != 0) test_num--;` of `getClosestFactors2`, entered with
the given `test_num`.  With `test_num = 0` the condition divides by zero, which has no defined
result: `none`. -/
def closestLoop (value : Nat) : Nat → Option Nat
  | 0 => none
  | t + 1 => if value % (t + 1) ≠ 0 then closestLoop value t else some (t + 1)

/-- Function `getClosestFactors2(value, &factor_1, &factor_2)`; the result is
`(factor_1, factor_2)`.  `(int)sqrt(value)` is the integer square root: for an `int` argument
the `double` square root is correctly rounded and its truncation is `Nat.sqrt`. -/
def getClosestFactors2 (value : Nat) : Option (Nat × Nat) :=
  match closestLoop value (Nat.sqrt value) with
  | none => none
  | some test_num => some (value / test_num, test_num)

/-- Enumeration `Neighbor` of the class. -/
inductive Neighbor where
  | NeighborN | NeighborE | NeighborS | NeighborW
  | NeighborNE | NeighborNW | NeighborSE | NeighborSW
  deriving DecidableEq, Repr

/-- Enumeration `Column` of the class. -/
inductive Column where
  | LeftBoundaryCol | LeftCol | RightCol | RightBoundaryCol
  deriving DecidableEq, Repr

/-- A two-dimensional datatype made by `MPI_Type_create_subarray(2, array, subsize, offsets,
MPI_ORDER_C, ...)`: index 0 is the row (y) dimension, index 1 the column (x) dimension. -/
structure Subarray where
  array0 : Nat
  array1 : Nat
  subsize0 : Nat
  subsize1 : Nat
  offsets0 : Nat
  offsets1 : Nat
  deriving DecidableEq, Repr

/-- The element displacements selected by a subarray datatype, in the order in which the
elements are packed into (and unpacked from) a message: row by row (`MPI_ORDER_C`). -/
def Subarray.indices (t : Subarray) : List Nat :=
  (List.range t.subsize0).flatMap fun i =>
    (List.range t.subsize1).map fun j => (t.offsets0 + i) * t.array1 + (t.offsets1 + j)

/-- The geometry members of the class, as set by the constructor, together with the
constructor's locals `n_x`, `n_y`, `col` and `row`. -/
structure Geometry where
  rank : Nat
  num_ranks : Nat
  n_x : Nat
  n_y : Nat
  col : Nat
  row : Nat
  total_x : Nat
  total_y : Nat
  dim_x : Nat
  dim_y : Nat
  start_x : Nat
  start_y : Nat
  num_x : Nat
  num_y : Nat
  offset_x : Nat
  offset_y : Nat
  neighbors : Neighbor → Int
  columns_2d : Column → Subarray
  own_scalar : Subarray
  other_scalar : Nat → Subarray
  rank_local_size : Nat → Nat
  rank_local_start : Nat → Nat

/-- The body of the constructor `LbmD2Q9::LbmD2Q9(width, height, scale, task_id, num_tasks)`
after the call `getClosestFactors2(num_ranks, &n_x, &n_y)`.  The datatypes `own_bool` and
`other_bool` have the same shape as `own_scalar` and `other_scalar` (one byte per element) and
are represented by them. -/
def layout (width height task_id num_tasks n_x n_y : Nat) : Geometry :=
  let rank := task_id
  let num_ranks := num_tasks
  let chunk_w := width / n_x
  let chunk_h := height / n_y
  let extra_w := width % n_x
  let extra_h := height % n_y
  let col := rank % n_x
  let row := rank / n_x
  let num_x := chunk_w + (if col < extra_w then 1 else 0)
  let num_y := chunk_h + (if row < extra_h then 1 else 0)
  let offset_x := col * chunk_w + min col extra_w
  let offset_y := row * chunk_h + min row extra_h
  let neighbor_cols :=
    if num_ranks = 1 then 0 else (if col = 0 ∨ (col : Int) = (n_x : Int) - 1 then 1 else 2)
  let neighbor_rows :=
    if num_ranks = 1 then 0 else (if row = 0 ∨ (row : Int) = (n_y : Int) - 1 then 1 else 2)
  let start_x := if col = 0 then 0 else 1
  let start_y := if row = 0 then 0 else 1
  let neighbors : Neighbor → Int := fun d =>
    match d with
    | .NeighborN => if (row : Int) = (n_y : Int) - 1 then -1 else (rank : Int) + n_x
    | .NeighborE => if (col : Int) = (n_x : Int) - 1 then -1 else (rank : Int) + 1
    | .NeighborS => if row = 0 then -1 else (rank : Int) - n_x
    | .NeighborW => if col = 0 then -1 else (rank : Int) - 1
    | .NeighborNE =>
        if (row : Int) = (n_y : Int) - 1 ∨ (col : Int) = (n_x : Int) - 1 then -1
        else (rank : Int) + n_x + 1
    | .NeighborNW =>
        if (row : Int) = (n_y : Int) - 1 ∨ col = 0 then -1 else (rank : Int) + n_x - 1
    | .NeighborSE =>
        if row = 0 ∨ (col : Int) = (n_x : Int) - 1 then -1 else (rank : Int) - n_x + 1
    | .NeighborSW => if row = 0 ∨ col = 0 then -1 else (rank : Int) - n_x - 1
  let block_width := num_x + neighbor_cols
  let block_height := num_y + neighbor_rows
  let columns_2d : Column → Subarray := fun c =>
    match c with
    | .LeftBoundaryCol => ⟨block_height, block_width, num_y, 1, start_y, 0⟩
    | .LeftCol => ⟨block_height, block_width, num_y, 1, start_y, start_x⟩
    | .RightCol => ⟨block_height, block_width, num_y, 1, start_y, start_x + num_x - 1⟩
    | .RightBoundaryCol => ⟨block_height, block_width, num_y, 1, start_y, block_width - 1⟩
  let own_scalar : Subarray := ⟨block_height, block_width, num_y, num_x, start_y, start_x⟩
  let other_scalar : Nat → Subarray := fun i =>
    let other_col := i % n_x
    let other_row := i / n_x
    ⟨height, width,
      chunk_h + (if other_row < extra_h then 1 else 0),
      chunk_w + (if other_col < extra_w then 1 else 0),
      other_row * chunk_h + min other_row extra_h,
      other_col * chunk_w + min other_col extra_w⟩
  let rank_local_size : Nat → Nat := fun k =>
    let i := k / 2
    if k % 2 = 0 then chunk_w + (if i % n_x < extra_w then 1 else 0)
    else chunk_h + (if i / n_x < extra_h then 1 else 0)
  let rank_local_start : Nat → Nat := fun k =>
    let i := k / 2
    if k % 2 = 0 then (if i % n_x = 0 then 0 else 1) else (if i / n_x = 0 then 0 else 1)
  { rank := rank, num_ranks := num_ranks, n_x := n_x, n_y := n_y, col := col, row := row,
    total_x := width, total_y := height, dim_x := block_width, dim_y := block_height,
    start_x := start_x, start_y := start_y, num_x := num_x, num_y := num_y,
    offset_x := offset_x, offset_y := offset_y, neighbors := neighbors,
    columns_2d := columns_2d, own_scalar := own_scalar, other_scalar := other_scalar,
    rank_local_size := rank_local_size, rank_local_start := rank_local_start }

/-- Constructor `LbmD2Q9::LbmD2Q9(width, height, scale, task_id, num_tasks)`, geometry part:
`none` when `getClosestFactors2` has no defined result.  The type creations and the
allocations that follow in the constructor are the `constructorSteps` of the geometry. -/
def create (width height task_id num_tasks : Nat) : Option Geometry :=
  match getClosestFactors2 num_tasks with
  | none => none
  | some (n_x, n_y) => some (layout width height task_id num_tasks n_x n_y)

/-- The opposite direction: N and S, E and W, NE and SW, NW and SE are exchanged. -/
def opposite : Neighbor → Neighbor
  | .NeighborN => .NeighborS
  | .NeighborE => .NeighborW
  | .NeighborS => .NeighborN
  | .NeighborW => .NeighborE
  | .NeighborNE => .NeighborSW
  | .NeighborNW => .NeighborSE
  | .NeighborSE => .NeighborNW
  | .NeighborSW => .NeighborNE

/-- The global cell `(x, y)` lies in the owned rectangle
`[offset_x, offset_x + num_x) x [offset_y, offset_y + num_y)` of a rank. -/
def owns (g : Geometry) (x y : Nat) : Prop :=
  g.offset_x ≤ x ∧ x < g.offset_x + g.num_x ∧ g.offset_y ≤ y ∧ y < g.offset_y + g.num_y

instance (g : Geometry) (x y : Nat) : Decidable (owns g x y) := by
  unfold owns; infer_instance

/-! ## Tile store and kernels -/

/-- The arrays of the class (each of length `dim_x * dim_y`), indexed by the linear index. -/
structure Fields (α : Type) where
  f_0 : Nat → α
  f_N : Nat → α
  f_E : Nat → α
  f_S : Nat → α
  f_W : Nat → α
  f_NE : Nat → α
  f_NW : Nat → α
  f_SE : Nat → α
  f_SW : Nat → α
  density : Nat → α
  velocity_x : Nat → α
  velocity_y : Nat → α
  vorticity : Nat → α
  speed : Nat → α
  barrier : Nat → Bool

/-- A `for` loop: the body is run for each value of the counter, in list order. -/
def forLoop {σ : Type} (counter : List Nat) (body : Nat → σ → σ) (s : σ) : σ :=
  counter.foldl (fun acc k => body k acc) s

/-- Counter values of `for (k = 1; k < n - 1; k++)` for an extent `n ≥ 1`: 1, ..., `n - 2`.
(For `n = 0` the unsigned bound `n - 1` of the C++ loop wraps around; the kernels are run on
tiles with `dim_x, dim_y ≥ 1`.) -/
def interior (n : Nat) : List Nat := List.range' 1 (n - 2)

/-- Counter values of `for (k = n - 2; k > 0; k--)` for an extent `n ≥ 1`: `n - 2`, ..., 1. -/
def interiorDown (n : Nat) : List Nat := (List.range' 1 (n - 2)).reverse

variable {K : Type} [LinearOrderedField K]

/-- Function `setEquilibrium(x, y, new_velocity_x, new_velocity_y, new_density)`. -/
def setEquilibrium (dim_x : Nat) (x y : Nat) (new_velocity_x new_velocity_y new_density : K)
    (s : Fields K) : Fields K :=
  let idx := y * dim_x + x
  let one_ninth : K := 1.0 / 9.0
  let four_ninths : K := 4.0 / 9.0
  let one_thirtysixth : K := 1.0 / 36.0
  let velocity_3x := 3.0 * new_velocity_x
  let velocity_3y := 3.0 * new_velocity_y
  let velocity_x2 := new_velocity_x * new_velocity_x
  let velocity_y2 := new_velocity_y * new_velocity_y
  let velocity_2xy := 2.0 * new_velocity_x * new_velocity_y
  let vecocity_2 := velocity_x2 + velocity_y2
  let vecocity_2_15 := 1.5 * vecocity_2
  { s with
    f_0 := Function.update s.f_0 idx
      (four_ninths * new_density * (1.0 - vecocity_2_15))
    f_E := Function.update s.f_E idx
      (one_ninth * new_density * (1.0 + velocity_3x + 4.5 * velocity_x2 - vecocity_2_15))
    f_W := Function.update s.f_W idx
      (one_ninth * new_density * (1.0 - velocity_3x + 4.5 * velocity_x2 - vecocity_2_15))
    f_N := Function.update s.f_N idx
      (one_ninth * new_density * (1.0 + velocity_3y + 4.5 * velocity_y2 - vecocity_2_15))
    f_S := Function.update s.f_S idx
      (one_ninth * new_density * (1.0 - velocity_3y + 4.5 * velocity_y2 - vecocity_2_15))
    f_NE := Function.update s.f_NE idx
      (one_thirtysixth * new_density *
        (1.0 + velocity_3x + velocity_3y + 4.5 * (vecocity_2 + velocity_2xy) - vecocity_2_15))
    f_SE := Function.update s.f_SE idx
      (one_thirtysixth * new_density *
        (1.0 + velocity_3x - velocity_3y + 4.5 * (vecocity_2 - velocity_2xy) - vecocity_2_15))
    f_NW := Function.update s.f_NW idx
      (one_thirtysixth * new_density *
        (1.0 - velocity_3x + velocity_3y + 4.5 * (vecocity_2 - velocity_2xy) - vecocity_2_15))
    f_SW := Function.update s.f_SW idx
      (one_thirtysixth * new_density *
        (1.0 - velocity_3x - velocity_3y + 4.5 * (vecocity_2 + velocity_2xy) - vecocity_2_15))
    density := Function.update s.density idx new_density
    velocity_x := Function.update s.velocity_x idx new_velocity_x
    velocity_y := Function.update s.velocity_y idx new_velocity_y }

/-- The body of the inner loop of `collide` at linear index `idx`, in exact arithmetic.  The
two quotients are those of the source when the divisor `density[idx]` is not zero;
`collideCellChecked` has no result when it is zero. -/
def collideCell (omega : K) (idx : Nat) (s : Fields K) : Fields K :=
  let density_idx := s.f_0 idx + s.f_N idx + s.f_S idx + s.f_E idx + s.f_W idx + s.f_NW idx
    + s.f_NE idx + s.f_SW idx + s.f_SE idx
  let velocity_x_idx :=
    (s.f_E idx + s.f_NE idx + s.f_SE idx - s.f_W idx - s.f_NW idx - s.f_SW idx) / density_idx
  let velocity_y_idx :=
    (s.f_N idx + s.f_NE idx + s.f_NW idx - s.f_S idx - s.f_SE idx - s.f_SW idx) / density_idx
  let one_ninth_density := (1.0 / 9.0) * density_idx
  let four_ninths_density := (4.0 / 9.0) * density_idx
  let one_thirtysixth_density := (1.0 / 36.0) * density_idx
  let velocity_3x := 3.0 * velocity_x_idx
  let velocity_3y := 3.0 * velocity_y_idx
  let velocity_x2 := velocity_x_idx * velocity_x_idx
  let velocity_y2 := velocity_y_idx * velocity_y_idx
  let velocity_2xy := 2.0 * velocity_x_idx * velocity_y_idx
  let vecocity_2 := velocity_x2 + velocity_y2
  let vecocity_2_15 := 1.5 * vecocity_2
  { s with
    density := Function.update s.density idx density_idx
    velocity_x := Function.update s.velocity_x idx velocity_x_idx
    velocity_y := Function.update s.velocity_y idx velocity_y_idx
    f_0 := Function.update s.f_0 idx (s.f_0 idx +
      omega * (four_ninths_density * (1 - vecocity_2_15) - s.f_0 idx))
    f_E := Function.update s.f_E idx (s.f_E idx +
      omega * (one_ninth_density * (1 + velocity_3x + 4.5 * velocity_x2 - vecocity_2_15)
        - s.f_E idx))
    f_W := Function.update s.f_W idx (s.f_W idx +
      omega * (one_ninth_density * (1 - velocity_3x + 4.5 * velocity_x2 - vecocity_2_15)
        - s.f_W idx))
    f_N := Function.update s.f_N idx (s.f_N idx +
      omega * (one_ninth_density * (1 + velocity_3y + 4.5 * velocity_y2 - vecocity_2_15)
        - s.f_N idx))
    f_S := Function.update s.f_S idx (s.f_S idx +
      omega * (one_ninth_density * (1 - velocity_3y + 4.5 * velocity_y2 - vecocity_2_15)
        - s.f_S idx))
    f_NE := Function.update s.f_NE idx (s.f_NE idx +
      omega * (one_thirtysixth_density *
        (1 + velocity_3x + velocity_3y + 4.5 * (vecocity_2 + velocity_2xy) - vecocity_2_15)
        - s.f_NE idx))
    f_SE := Function.update s.f_SE idx (s.f_SE idx +
      omega * (one_thirtysixth_density *
        (1 + velocity_3x - velocity_3y + 4.5 * (vecocity_2 - velocity_2xy) - vecocity_2_15)
        - s.f_SE idx))
    f_NW := Function.update s.f_NW idx (s.f_NW idx +
      omega * (one_thirtysixth_density *
        (1 - velocity_3x + velocity_3y + 4.5 * (vecocity_2 - velocity_2xy) - vecocity_2_15)
        - s.f_NW idx))
    f_SW := Function.update s.f_SW idx (s.f_SW idx +
      omega * (one_thirtysixth_density *
        (1 - velocity_3x - velocity_3y + 4.5 * (vecocity_2 + velocity_2xy) - vecocity_2_15)
        - s.f_SW idx)) }

/-- Function `collide(viscosity)`: the two nested loops over the interior cells.  The call
`exchangeBoundaries()` that ends the C++ function only communicates and is not part of this
definition. -/
def collide (dim_x dim_y : Nat) (viscosity : K) (s : Fields K) : Fields K :=
  let omega : K := 1.0 / (3.0 * viscosity + 0.5)
  forLoop (interior dim_y) (fun j s =>
    let row := j * dim_x
    forLoop (interior dim_x) (fun i s =>
      let idx := row + i
      collideCell omega idx s) s) s

/-- The body of the inner loop of `collide` with the two divisions of lines 366-367 checked:
the divisor of both is `density[idx]`, the sum of the nine channels.  When it is zero the
doubles the source stores in `velocity_x[idx]`, `velocity_y[idx]` and, computed from them, in
the nine channels are NaN or infinite, and the result is `none`: no state of real numbers
describes the cell.  Otherwise the result is that of `collideCell`. -/
def collideCellChecked (omega : K) (idx : Nat) (s : Fields K) : Option (Fields K) :=
  let density_idx := s.f_0 idx + s.f_N idx + s.f_S idx + s.f_E idx + s.f_W idx + s.f_NW idx
    + s.f_NE idx + s.f_SW idx + s.f_SE idx
  if density_idx = 0 then none else some (collideCell omega idx s)

/-- The property of C12 for the result of one checked cell update: the cell has real values and
its density is the sum of its nine channels. -/
def densityIsChannelSum (r : Option (Fields K)) (idx : Nat) : Prop :=
  ∃ t, r = some t ∧
    t.density idx = t.f_0 idx + t.f_N idx + t.f_E idx + t.f_S idx + t.f_W idx
      + t.f_NE idx + t.f_NW idx + t.f_SE idx + t.f_SW idx

/-- All fifteen arrays of two states hold the same value at linear index `k`. -/
def agreeAt {α : Type} (s t : Fields α) (k : Nat) : Prop :=
  s.f_0 k = t.f_0 k ∧ s.f_N k = t.f_N k ∧ s.f_E k = t.f_E k ∧ s.f_S k = t.f_S k ∧
  s.f_W k = t.f_W k ∧ s.f_NE k = t.f_NE k ∧ s.f_NW k = t.f_NW k ∧ s.f_SE k = t.f_SE k ∧
  s.f_SW k = t.f_SW k ∧ s.density k = t.density k ∧ s.velocity_x k = t.velocity_x k ∧
  s.velocity_y k = t.velocity_y k ∧ s.vorticity k = t.vorticity k ∧ s.speed k = t.speed k ∧
  s.barrier k = t.barrier k

/-- The D2Q9 equilibrium of the specification for a channel with weight `w` and lattice
velocity `(ex, ey)`: `w * rho * (1 + 3 (e.u) + 4.5 (e.u)^2 - 1.5 |u|^2)`. -/
def specEquilibrium (w ex ey rho ux uy : K) : K :=
  w * rho * (1 + 3 * (ex * ux + ey * uy) + 4.5 * (ex * ux + ey * uy) ^ 2
    - 1.5 * (ux ^ 2 + uy ^ 2))

/-- The cell `(x, y)` is an interior cell of a `dim_x x dim_y` tile. -/
def isInterior (dim_x dim_y x y : Nat) : Prop :=
  1 ≤ x ∧ x < dim_x - 1 ∧ 1 ≤ y ∧ y < dim_y - 1

instance (dim_x dim_y x y : Nat) : Decidable (isInterior dim_x dim_y x y) := by
  unfold isInterior; infer_instance

/-- A state all of whose arrays are constant. -/
def uniformFields {α : Type} (v : α) (b : Bool) : Fields α :=
  { f_0 := fun _ => v, f_N := fun _ => v, f_E := fun _ => v, f_S := fun _ => v,
    f_W := fun _ => v, f_NE := fun _ => v, f_NW := fun _ => v, f_SE := fun _ => v,
    f_SW := fun _ => v, density := fun _ => v, velocity_x := fun _ => v,
    velocity_y := fun _ => v, vorticity := fun _ => v, speed := fun _ => v,
    barrier := fun _ => b }

/-- The iteration order of two nested loops: the pairs `(j, i)` of outer and inner counter. -/
def loopNest (js is : List Nat) : List (Nat × Nat) :=
  js.flatMap fun j => is.map fun i => (j, i)

/-- Runs a loop body over a list of iterations `(j, i)`, in order. -/
def runNest {σ : Type} (L : List (Nat × Nat)) (body : Nat → Nat → σ → σ) (s : σ) : σ :=
  L.foldl (fun acc p => body p.1 p.2 acc) s

/-- Body of the first loop nest of `stream` ("first start in NW corner"). -/
def streamNWBody {α : Type} (dim_x : Nat) (j i : Nat) (s : Fields α) : Fields α :=
  let row := j * dim_x
  let rowp := (j - 1) * dim_x
  let s := { s with f_N := Function.update s.f_N (row + i) (s.f_N (rowp + i)) }
  { s with f_NW := Function.update s.f_NW (row + i) (s.f_NW (rowp + i + 1)) }

/-- Body of the second loop nest of `stream` ("then start in NE corner"). -/
def streamNEBody {α : Type} (dim_x : Nat) (j i : Nat) (s : Fields α) : Fields α :=
  let row := j * dim_x
  let rowp := (j - 1) * dim_x
  let s := { s with f_E := Function.update s.f_E (row + i) (s.f_E (row + i - 1)) }
  { s with f_NE := Function.update s.f_NE (row + i) (s.f_NE (rowp + i - 1)) }

/-- Body of the third loop nest of `stream` ("then start in SE corner"). -/
def streamSEBody {α : Type} (dim_x : Nat) (j i : Nat) (s : Fields α) : Fields α :=
  let row := j * dim_x
  let rown := (j + 1) * dim_x
  let s := { s with f_S := Function.update s.f_S (row + i) (s.f_S (rown + i)) }
  { s with f_SE := Function.update s.f_SE (row + i) (s.f_SE (rown + i - 1)) }

/-- Body of the fourth loop nest of `stream` ("then start in the SW corner"). -/
def streamSWBody {α : Type} (dim_x : Nat) (j i : Nat) (s : Fields α) : Fields α :=
  let row := j * dim_x
  let rown := (j + 1) * dim_x
  let s := { s with f_W := Function.update s.f_W (row + i) (s.f_W (row + i + 1)) }
  { s with f_SW := Function.update s.f_SW (row + i) (s.f_SW (rown + i + 1)) }

/-- First loop nest of `stream`: `j` from `dim_y - 2` down to 1, `i` from 1 up to
`dim_x - 2`. -/
def streamNW {α : Type} (dim_x dim_y : Nat) (s : Fields α) : Fields α :=
  forLoop (interiorDown dim_y) (fun j s =>
    forLoop (interior dim_x) (fun i s => streamNWBody dim_x j i s) s) s

/-- Second loop nest of `stream`: `j` from `dim_y - 2` down to 1, `i` from `dim_x - 2` down
to 1. -/
def streamNE {α : Type} (dim_x dim_y : Nat) (s : Fields α) : Fields α :=
  forLoop (interiorDown dim_y) (fun j s =>
    forLoop (interiorDown dim_x) (fun i s => streamNEBody dim_x j i s) s) s

/-- Third loop nest of `stream`: `j` from 1 up to `dim_y - 2`, `i` from `dim_x - 2` down
to 1. -/
def streamSE {α : Type} (dim_x dim_y : Nat) (s : Fields α) : Fields α :=
  forLoop (interior dim_y) (fun j s =>
    forLoop (interiorDown dim_x) (fun i s => streamSEBody dim_x j i s) s) s

/-- Fourth loop nest of `stream`: `j` from 1 up to `dim_y - 2`, `i` from 1 up to
`dim_x - 2`. -/
def streamSW {α : Type} (dim_x dim_y : Nat) (s : Fields α) : Fields α :=
  forLoop (interior dim_y) (fun j s =>
    forLoop (interior dim_x) (fun i s => streamSWBody dim_x j i s) s) s

/-- Function `stream()`: the four loop nests, in order.  The call `exchangeBoundaries()` that
ends the C++ function only communicates and is not part of this definition. -/
def stream {α : Type} (dim_x dim_y : Nat) (s : Fields α) : Fields α :=
  streamSW dim_x dim_y (streamSE dim_x dim_y (streamNE dim_x dim_y (streamNW dim_x dim_y s)))

/-- Statement `if (barrier[row + i - 1]) f_E[idx] = f_W[row + i - 1];`. -/
def bounceE {α : Type} (dim_x : Nat) (j i : Nat) (s : Fields α) : Fields α :=
  let row := j * dim_x
  let idx := row + i
  if s.barrier (row + i - 1) then
    { s with f_E := Function.update s.f_E idx (s.f_W (row + i - 1)) } else s

/-- Statement `if (barrier[row + i + 1]) f_W[idx] = f_E[row + i + 1];`. -/
def bounceW {α : Type} (dim_x : Nat) (j i : Nat) (s : Fields α) : Fields α :=
  let row := j * dim_x
  let idx := row + i
  if s.barrier (row + i + 1) then
    { s with f_W := Function.update s.f_W idx (s.f_E (row + i + 1)) } else s

/-- Statement `if (barrier[rowp + i]) f_N[idx] = f_S[rowp + i];`. -/
def bounceN {α : Type} (dim_x : Nat) (j i : Nat) (s : Fields α) : Fields α :=
  let row := j * dim_x
  let rowp := (j - 1) * dim_x
  let idx := row + i
  if s.barrier (rowp + i) then
    { s with f_N := Function.update s.f_N idx (s.f_S (rowp + i)) } else s

/-- Statement `if (barrier[rown + i]) f_S[idx] = f_N[rown + i];`. -/
def bounceS {α : Type} (dim_x : Nat) (j i : Nat) (s : Fields α) : Fields α :=
  let row := j * dim_x
  let rown := (j + 1) * dim_x
  let idx := row + i
  if s.barrier (rown + i) then
    { s with f_S := Function.update s.f_S idx (s.f_N (rown + i)) } else s

/-- Statement `if (barrier[rowp + i - 1]) f_NE[idx] = f_SW[rowp + i - 1];`. -/
def bounceNE {α : Type} (dim_x : Nat) (j i : Nat) (s : Fields α) : Fields α :=
  let row := j * dim_x
  let rowp := (j - 1) * dim_x
  let idx := row + i
  if s.barrier (rowp + i - 1) then
    { s with f_NE := Function.update s.f_NE idx (s.f_SW (rowp + i - 1)) } else s

/-- Statement `if (barrier[rowp + i + 1]) f_NW[idx] = f_SE[rowp + i + 1];`. -/
def bounceNW {α : Type} (dim_x : Nat) (j i : Nat) (s : Fields α) : Fields α :=
  let row := j * dim_x
  let rowp := (j - 1) * dim_x
  let idx := row + i
  if s.barrier (rowp + i + 1) then
    { s with f_NW := Function.update s.f_NW idx (s.f_SE (rowp + i + 1)) } else s

/-- Statement `if (barrier[rown + i - 1]) f_SE[idx] = f_NW[rown + i - 1];`. -/
def bounceSE {α : Type} (dim_x : Nat) (j i : Nat) (s : Fields α) : Fields α :=
  let row := j * dim_x
  let rown := (j + 1) * dim_x
  let idx := row + i
  if s.barrier (rown + i - 1) then
    { s with f_SE := Function.update s.f_SE idx (s.f_NW (rown + i - 1)) } else s

/-- Statement `if (barrier[rown + i + 1]) f_SW[idx] = f_NE[rown + i + 1];`. -/
def bounceSW {α : Type} (dim_x : Nat) (j i : Nat) (s : Fields α) : Fields α :=
  let row := j * dim_x
  let rown := (j + 1) * dim_x
  let idx := row + i
  if s.barrier (rown + i + 1) then
    { s with f_SW := Function.update s.f_SW idx (s.f_NE (rown + i + 1)) } else s

/-- Body of the loop nest of `bounceBackStream`: the eight guarded assignments, executed in
the order E, W, N, S, NE, NW, SE, SW. -/
def bounceBackBody {α : Type} (dim_x : Nat) (j i : Nat) (s : Fields α) : Fields α :=
  let s := bounceE dim_x j i s
  let s := bounceW dim_x j i s
  let s := bounceN dim_x j i s
  let s := bounceS dim_x j i s
  let s := bounceNE dim_x j i s
  let s := bounceNW dim_x j i s
  let s := bounceSE dim_x j i s
  bounceSW dim_x j i s

/-- Function `bounceBackStream()`: `j` from 1 up to `dim_y - 2`, `i` from 1 up to
`dim_x - 2`. -/
def bounceBackStream {α : Type} (dim_x dim_y : Nat) (s : Fields α) : Fields α :=
  forLoop (interior dim_y) (fun j s =>
    forLoop (interior dim_x) (fun i s => bounceBackBody dim_x j i s) s) s

/-- A sequence of in-place copies `a[o.1] = a[o.2]` on one array, in list order. -/
def applyCopies {α : Type} (ops : List (Nat × Nat)) (f : Nat → α) : Nat → α :=
  ops.foldl (fun g o => Function.update g o.1 (g o.2)) f

/-- Every iteration `(j, i)` of the sweep `L` finds, in the array `get` at the index `rd j i`
it reads, the value that was there when the sweep began from state `s`: the sweep never reads a
value it has already overwritten. -/
def readsFresh {α : Type} (L : List (Nat × Nat)) (body : Nat → Nat → Fields α → Fields α)
    (get : Fields α → Nat → α) (rd : Nat → Nat → Nat) (s : Fields α) : Prop :=
  ∀ pre j i post, L = pre ++ (j, i) :: post →
    get (runNest pre body s) (rd j i) = get s (rd j i)

/-- A 4 x 3 tile whose two interior cells (linear indices 5 and 6) are both barrier cells;
every array holds a value that identifies the array and the index. -/
def bounceInput : Fields Nat :=
  { f_0 := fun k => k, f_N := fun k => 100 + k, f_E := fun k => 200 + k,
    f_S := fun k => 300 + k, f_W := fun k => 400 + k, f_NE := fun k => 500 + k,
    f_NW := fun k => 600 + k, f_SE := fun k => 700 + k, f_SW := fun k => 800 + k,
    density := fun _ => 0, velocity_x := fun _ => 0, velocity_y := fun _ => 0,
    vorticity := fun _ => 0, speed := fun _ => 0,
    barrier := fun k => k == 5 || k == 6 }

/-! ## Halo exchange and gather -/

/-- The element displacements of a contiguous buffer `&(a[base]), count, MPI_DOUBLE`. -/
def contiguous (base count : Nat) : List Nat :=
  (List.range count).map fun k => base + k

/-- The elements a send operation reads from array `a`, in message order. -/
def pack {α : Type} (region : List Nat) (a : Nat → α) : List α :=
  region.map a

/-- A receive operation: the elements of the message are stored, in order, at the
displacements of the receive buffer. -/
def unpack {α : Type} (region : List Nat) (msg : List α) (a : Nat → α) : Nat → α :=
  (region.zip msg).foldl (fun b p => Function.update b p.1 p.2) a

/-- The send buffer `exchangeBoundaries` passes to `MPI_Sendrecv` when it talks to the
neighbour in direction `d` (the same for each of the twelve arrays), as displacements in the
array. -/
def sendRegion (g : Geometry) (d : Neighbor) : List Nat :=
  let nx := g.dim_x
  let ny := g.dim_y
  let sx := g.start_x
  let sy := g.start_y
  let cx := g.num_x
  match d with
  | .NeighborN => contiguous ((ny - 2) * nx + sx) cx
  | .NeighborE => (g.columns_2d .RightCol).indices
  | .NeighborS => contiguous (sy * nx + sx) cx
  | .NeighborW => (g.columns_2d .LeftCol).indices
  | .NeighborNE => contiguous ((ny - 2) * nx + nx - 2) 1
  | .NeighborNW => contiguous ((ny - 2) * nx + sx) 1
  | .NeighborSE => contiguous (sy * nx + nx - 2) 1
  | .NeighborSW => contiguous (sy * nx + sx) 1

/-- The receive buffer `exchangeBoundaries` passes to `MPI_Sendrecv` when it talks to the
neighbour in direction `d`, as displacements in the array. -/
def recvRegion (g : Geometry) (d : Neighbor) : List Nat :=
  let nx := g.dim_x
  let ny := g.dim_y
  let sx := g.start_x
  let cx := g.num_x
  match d with
  | .NeighborN => contiguous ((ny - 1) * nx + sx) cx
  | .NeighborE => (g.columns_2d .RightBoundaryCol).indices
  | .NeighborS => contiguous sx cx
  | .NeighborW => (g.columns_2d .LeftBoundaryCol).indices
  | .NeighborNE => contiguous ((ny - 1) * nx + nx - 1) 1
  | .NeighborNW => contiguous ((ny - 1) * nx) 1
  | .NeighborSE => contiguous (nx - 1) 1
  | .NeighborSW => contiguous 0 1

/-- The twelve arrays synchronised by `exchangeBoundaries`, as one message per array. -/
structure HaloMsg (α : Type) where
  f_0 : List α
  f_N : List α
  f_E : List α
  f_S : List α
  f_W : List α
  f_NE : List α
  f_NW : List α
  f_SE : List α
  f_SW : List α
  density : List α
  velocity_x : List α
  velocity_y : List α

/-- The twelve messages one block of `exchangeBoundaries` sends to the neighbour in
direction `d`. -/
def sendHalo {α : Type} (g : Geometry) (d : Neighbor) (s : Fields α) : HaloMsg α :=
  { f_0 := pack (sendRegion g d) s.f_0
    f_N := pack (sendRegion g d) s.f_N
    f_E := pack (sendRegion g d) s.f_E
    f_S := pack (sendRegion g d) s.f_S
    f_W := pack (sendRegion g d) s.f_W
    f_NE := pack (sendRegion g d) s.f_NE
    f_NW := pack (sendRegion g d) s.f_NW
    f_SE := pack (sendRegion g d) s.f_SE
    f_SW := pack (sendRegion g d) s.f_SW
    density := pack (sendRegion g d) s.density
    velocity_x := pack (sendRegion g d) s.velocity_x
    velocity_y := pack (sendRegion g d) s.velocity_y }

/-- The effect on the local arrays of the twelve receives of one block of
`exchangeBoundaries`, given the messages that arrive from the neighbour in direction `d`. -/
def recvHalo {α : Type} (g : Geometry) (d : Neighbor) (m : HaloMsg α) (s : Fields α) :
    Fields α :=
  { s with
    f_0 := unpack (recvRegion g d) m.f_0 s.f_0
    f_N := unpack (recvRegion g d) m.f_N s.f_N
    f_E := unpack (recvRegion g d) m.f_E s.f_E
    f_S := unpack (recvRegion g d) m.f_S s.f_S
    f_W := unpack (recvRegion g d) m.f_W s.f_W
    f_NE := unpack (recvRegion g d) m.f_NE s.f_NE
    f_NW := unpack (recvRegion g d) m.f_NW s.f_NW
    f_SE := unpack (recvRegion g d) m.f_SE s.f_SE
    f_SW := unpack (recvRegion g d) m.f_SW s.f_SW
    density := unpack (recvRegion g d) m.density s.density
    velocity_x := unpack (recvRegion g d) m.velocity_x s.velocity_x
    velocity_y := unpack (recvRegion g d) m.velocity_y s.velocity_y }

/-- Function `exchangeBoundaries()` as seen by one rank: the eight blocks in the order N, E,
S, W, NE, NW, SE, SW, each executed when the neighbour exists; `inbox d` holds the messages
that the neighbour in direction `d` sends to this rank. -/
def exchangeBoundaries {α : Type} (g : Geometry) (inbox : Neighbor → HaloMsg α)
    (s : Fields α) : Fields α :=
  [Neighbor.NeighborN, .NeighborE, .NeighborS, .NeighborW, .NeighborNE, .NeighborNW,
    .NeighborSE, .NeighborSW].foldl
    (fun s d => if 0 ≤ g.neighbors d then recvHalo g d (inbox d) s else s) s

/-- The global cell stored at linear index `idx` of a rank's arrays: local `(x, y)` is global
`(offset_x + x - start_x, offset_y + y - start_y)`. -/
def globalCell (g : Geometry) (idx : Nat) : Int × Int :=
  ((g.offset_x : Int) + ((idx % g.dim_x : Nat) : Int) - g.start_x,
   (g.offset_y : Int) + ((idx / g.dim_x : Nat) : Int) - g.start_y)

/-- The linear index `idx` of a rank's arrays is one of its owned cells. -/
def ownedIndex (g : Geometry) (idx : Nat) : Prop :=
  g.start_x ≤ idx % g.dim_x ∧ idx % g.dim_x < g.start_x + g.num_x ∧
  g.start_y ≤ idx / g.dim_x ∧ idx / g.dim_x < g.start_y + g.num_y

instance (g : Geometry) (idx : Nat) : Decidable (ownedIndex g idx) := by
  unfold ownedIndex; infer_instance

/-- The twelve arrays synchronised by `exchangeBoundaries`. -/
def syncedFields (α : Type) : List (Fields α → Nat → α) :=
  [Fields.f_0, Fields.f_N, Fields.f_E, Fields.f_S, Fields.f_W, Fields.f_NE, Fields.f_NW,
    Fields.f_SE, Fields.f_SW, Fields.density, Fields.velocity_x, Fields.velocity_y]

/-- Number of cells of chunk `c` when `total` cells are split over `n` chunks. -/
def tileSize (total n c : Nat) : Nat := total / n + (if c < total % n then 1 else 0)

/-- First cell of chunk `c`. -/
def tileOffset (total n c : Nat) : Nat := c * (total / n) + min c (total % n)

/-- Index of the first owned cell of chunk `c` in its stored extent. -/
def tileStart (c : Nat) : Nat := if c = 0 then 0 else 1

/-- Stored extent of chunk `c`: its cells and the ghost cells the constructor adds. -/
def tileDim (total n num_ranks c : Nat) : Nat :=
  tileSize total n c + (if num_ranks = 1 then 0 else if c = 0 ∨ c + 1 = n then 1 else 2)

/-- Enumeration `FluidProperty` of the class. -/
inductive FluidProperty where
  | None | Density | Speed | Vorticity
  deriving DecidableEq, Repr

/-- The `switch` of `gatherDataOnRank0` that selects the array `send_buf` points to; for
`None` the function returns before any communication. -/
def sendBuf {α : Type} (property : FluidProperty) : Option (Fields α → Nat → α) :=
  match property with
  | .Density => some Fields.density
  | .Speed => some Fields.speed
  | .Vorticity => some Fields.vorticity
  | .None => none

/-- The members of rank 0 that `gatherDataOnRank0` writes. -/
structure GatherBuffers (α : Type) where
  recv_buf : Nat → α
  brecv_buf : Nat → Bool
  stored_property : FluidProperty

/-- Function `gatherDataOnRank0(property)`, executed by all ranks, as seen on rank 0:
`geom i` and `state i` are the geometry and the arrays of rank `i`.  Rank `i` sends its
`send_buf` with datatype `own_scalar` and its `barrier` with `own_bool`; rank 0 receives them,
for `i = 0, 1, ..., num_ranks - 1` in this order, into `recv_buf` with `other_scalar[i]` and into
`brecv_buf` with `other_bool[i]`.  The buffers are taken as unbounded arrays here; the number
of elements the constructor allocates for them is `recvBufLength`. -/
def gatherDataOnRank0 {α : Type} (property : FluidProperty) (geom : Nat → Geometry)
    (state : Nat → Fields α) (bufs : GatherBuffers α) : GatherBuffers α :=
  match sendBuf property with
  | none => bufs
  | some send_buf =>
    let out := (List.range (geom 0).num_ranks).foldl
      (fun (acc : (Nat → α) × (Nat → Bool)) i =>
        (unpack ((geom 0).other_scalar i).indices
            (pack (geom i).own_scalar.indices (send_buf (state i))) acc.1,
          unpack ((geom 0).other_scalar i).indices
            (pack (geom i).own_scalar.indices (state i).barrier) acc.2))
      (bufs.recv_buf, bufs.brecv_buf)
    { recv_buf := out.1, brecv_buf := out.2, stored_property := property }

/-- A state of a rank each of whose arrays holds, at every stored cell, a code of the global
coordinates of the cell (`gx + 10 * gy`); the barrier mask marks the cells with `gx = 1`. -/
def coordFields (g : Geometry) : Fields Nat :=
  let v : Nat → Nat := fun idx =>
    (g.offset_x + idx % g.dim_x - g.start_x) + 10 * (g.offset_y + idx / g.dim_x - g.start_y)
  { f_0 := v, f_N := v, f_E := v, f_S := v, f_W := v, f_NE := v, f_NW := v, f_SE := v,
    f_SW := v, density := v, velocity_x := v, velocity_y := v, vorticity := v, speed := v,
    barrier := fun idx => g.offset_x + idx % g.dim_x - g.start_x == 1 }

/-! ## Neighbour offsets of the specification -/

/-- Offset `(dc, dr)` in tile column and tile row of the neighbour in each direction, as the
specification lists them. -/
def specNeighborOffset : Neighbor → Int × Int
  | .NeighborN => (0, 1)
  | .NeighborE => (1, 0)
  | .NeighborS => (0, -1)
  | .NeighborW => (-1, 0)
  | .NeighborNE => (1, 1)
  | .NeighborNW => (-1, 1)
  | .NeighborSE => (1, -1)
  | .NeighborSW => (-1, -1)

/-! ## Barriers -/

/-- Enumeration `Barrier::Type`. -/
inductive BarrierType where
  | HORIZONTAL
  | VERTICAL
  deriving DecidableEq, Repr

/-- Class `Barrier`: the kind of the segment and its four `int` coordinates. -/
structure Barrier where
  type : BarrierType
  x1 : Int
  x2 : Int
  y1 : Int
  y2 : Int

/-- Constructor `BarrierHorizontal(x_start, x_end, y)`. -/
def BarrierHorizontal (x_start x_end y : Int) : Barrier :=
  { type := .HORIZONTAL, x1 := x_start, x2 := x_end, y1 := y, y2 := y }

/-- Constructor `BarrierVertical(y_start, y_end, x)`. -/
def BarrierVertical (y_start y_end x : Int) : Barrier :=
  { type := .VERTICAL, x1 := x, x2 := x, y1 := y_start, y2 := y_end }

/-- The values of the counter of a loop `for (j = lo; j <= hi; j++)` that ends: `lo`,
`lo + 1`, ..., `hi`.  The loop as the machine runs it, which does not end when `hi` is
`INT_MAX`, is `forLe`. -/
def countUp (lo hi : Int) : List Int :=
  (List.range (hi + 1 - lo).toNat).map (fun (k : Nat) => lo + (k : Int))

/-- Function `initBarrier(barriers)`: `memset` of the `dim_x * dim_y` stored cells, then the
loop over the segments.  This is the state the function leaves when it returns; whether it
returns is decided by `initBarrierRun`. -/
def initBarrier {α : Type} (g : Geometry) (barriers : List Barrier) (s : Fields α) :
    Fields α :=
  let cleared : Nat → Bool := fun k => if k < g.dim_x * g.dim_y then false else s.barrier k
  let sx : Int := if g.offset_x = 0 then 0 else (g.offset_x : Int) - 1
  let sy : Int := if g.offset_y = 0 then 0 else (g.offset_y : Int) - 1
  { s with
    barrier := barriers.foldl (fun b seg =>
      match seg.type with
      | .HORIZONTAL =>
          let y := seg.y1 - sy
          if 0 ≤ y ∧ y < g.dim_y then
            (countUp seg.x1 seg.x2).foldl (fun b j =>
              let x := j - sx
              if 0 ≤ x ∧ x < g.dim_x then
                Function.update b (y.toNat * g.dim_x + x.toNat) true
              else b) b
          else b
      | .VERTICAL =>
          let x := seg.x1 - sx
          if 0 ≤ x ∧ x < g.dim_x then
            (countUp seg.y1 seg.y2).foldl (fun b j =>
              let y := j - sy
              if 0 ≤ y ∧ y < g.dim_y then
                Function.update b (y.toNat * g.dim_x + x.toNat) true
              else b) b
          else b) cleared }

/-- The cells of a segment as the specification describes them: a horizontal segment
`(x_start, x_end, y0)` contains `(gx, gy)` iff `gy = y0` and `x_start ≤ gx ≤ x_end`; a vertical
segment `(y_start, y_end, x0)` contains it iff `gx = x0` and `y_start ≤ gy ≤ y_end`. -/
def specContains (seg : Barrier) (gx gy : Int) : Prop :=
  match seg.type with
  | .HORIZONTAL => gy = seg.y1 ∧ seg.x1 ≤ gx ∧ gx ≤ seg.x2
  | .VERTICAL => gx = seg.x1 ∧ seg.y1 ≤ gy ∧ gy ≤ seg.y2

instance (seg : Barrier) (gx gy : Int) : Decidable (specContains seg gx gy) := by
  unfold specContains; cases seg.type <;> infer_instance

/-! ## Channels, equilibrium states and the simulation on all ranks -/

/-- The array of the directional channel that moves in direction `d`. -/
def chan {α : Type} (s : Fields α) : Neighbor → Nat → α
  | .NeighborN => s.f_N
  | .NeighborE => s.f_E
  | .NeighborS => s.f_S
  | .NeighborW => s.f_W
  | .NeighborNE => s.f_NE
  | .NeighborNW => s.f_NW
  | .NeighborSE => s.f_SE
  | .NeighborSW => s.f_SW

/-- The cell from which `stream` fills the channel `d` of the cell `(x, y)`; it is also the
cell whose barrier flag `bounceBackStream` tests for that channel. -/
def upstream : Neighbor → Nat → Nat → Nat × Nat
  | .NeighborN, x, y => (x, y - 1)
  | .NeighborE, x, y => (x - 1, y)
  | .NeighborS, x, y => (x, y + 1)
  | .NeighborW, x, y => (x + 1, y)
  | .NeighborNE, x, y => (x - 1, y - 1)
  | .NeighborNW, x, y => (x + 1, y - 1)
  | .NeighborSE, x, y => (x - 1, y + 1)
  | .NeighborSW, x, y => (x + 1, y + 1)

/-- The nine channels of cell `k` of state `s` are those of cell `k'` of state `t`. -/
def sameChannels {α : Type} (s : Fields α) (k : Nat) (t : Fields α) (k' : Nat) : Prop :=
  s.f_0 k = t.f_0 k' ∧ ∀ d, chan s d k = chan t d k'

/-- The equilibrium value of the directional channel `d` for density `rho` and velocity
`(ux, uy)`. -/
def equilibriumChan (rho ux uy : K) : Neighbor → K
  | .NeighborN => specEquilibrium (1 / 9) 0 1 rho ux uy
  | .NeighborE => specEquilibrium (1 / 9) 1 0 rho ux uy
  | .NeighborS => specEquilibrium (1 / 9) 0 (-1) rho ux uy
  | .NeighborW => specEquilibrium (1 / 9) (-1) 0 rho ux uy
  | .NeighborNE => specEquilibrium (1 / 36) 1 1 rho ux uy
  | .NeighborNW => specEquilibrium (1 / 36) (-1) 1 rho ux uy
  | .NeighborSE => specEquilibrium (1 / 36) 1 (-1) rho ux uy
  | .NeighborSW => specEquilibrium (1 / 36) (-1) (-1) rho ux uy

/-- The nine channels of cell `k` hold the equilibrium for `rho` and `(ux, uy)`. -/
def atEquilibrium (s : Fields K) (k : Nat) (rho ux uy : K) : Prop :=
  s.f_0 k = specEquilibrium (4 / 9) 0 0 rho ux uy ∧
  ∀ d, chan s d k = equilibriumChan rho ux uy d
/-- Body of the loops of `initFluid`: `setEquilibrium(i, j, speed, 0.0, 1.0);` and
`vorticity[row + i] = 0.0;`. -/
def initFluidBody (dim_x : Nat) (speed : K) (j i : Nat) (s : Fields K) : Fields K :=
  let row := j * dim_x
  let s := setEquilibrium dim_x i j speed 0.0 1.0 s
  { s with vorticity := Function.update s.vorticity (row + i) 0.0 }

/-- Function `initFluid(physical_speed)`: `j` from 0 up to `dim_y - 1`, `i` from 0 up to
`dim_x - 1`; `speed_scale` is the member set by the constructor. -/
def initFluid (dim_x dim_y : Nat) (speed_scale physical_speed : K) (s : Fields K) :
    Fields K :=
  let speed := speed_scale * physical_speed
  forLoop (List.range dim_y) (fun j s =>
    forLoop (List.range dim_x) (fun i s => initFluidBody dim_x speed j i s) s) s

/-- Function `exchangeBoundaries()` executed by all ranks, every message being delivered: in
its block for direction `d` a rank receives what its neighbour in direction `d` sends in its
block for `opposite d`.  The cells a rank sends are owned cells and the cells it receives are
not, so what a rank sends does not depend on what it has received before. -/
def exchangeAll {α : Type} (geom : Nat → Geometry) (state : Nat → Fields α) :
    Nat → Fields α :=
  fun r => exchangeBoundaries (geom r)
    (fun d => sendHalo (geom ((geom r).neighbors d).toNat) (opposite d)
      (state ((geom r).neighbors d).toNat)) (state r)

/-- One iteration of the time loop of `runLbmCfdSimulation`, on all ranks: `collide`, `stream`
(each ending with `exchangeBoundaries`) and `bounceBackStream`. -/
def timeStep (geom : Nat → Geometry) (viscosity : K) (state : Nat → Fields K) :
    Nat → Fields K :=
  let s1 := exchangeAll geom
    (fun r => collide (geom r).dim_x (geom r).dim_y viscosity (state r))
  let s2 := exchangeAll geom (fun r => stream (geom r).dim_x (geom r).dim_y (s1 r))
  fun r => bounceBackStream (geom r).dim_x (geom r).dim_y (s2 r)

/-- The simulation of `runLbmCfdSimulation` on all ranks: `initBarrier`, `initFluid`, then
`time_steps` iterations of the time loop. -/
def simulate (geom : Nat → Geometry) (barriers : List Barrier)
    (speed_scale physical_speed viscosity : K) (time_steps : Nat)
    (state : Nat → Fields K) : Nat → Fields K :=
  (timeStep geom viscosity)^[time_steps]
    (fun r => initFluid (geom r).dim_x (geom r).dim_y speed_scale physical_speed
      (initBarrier (geom r) barriers (state r)))

/-- The density field rank 0 holds after the simulation and `gatherDataOnRank0(Density)`. -/
def gatheredDensity (geom : Nat → Geometry) (barriers : List Barrier)
    (speed_scale physical_speed viscosity : K) (time_steps : Nat)
    (state : Nat → Fields K) (bufs : GatherBuffers K) : Nat → K :=
  (gatherDataOnRank0 .Density geom
    (simulate geom barriers speed_scale physical_speed viscosity time_steps state) bufs).recv_buf

/-- Every stored cell of a `dim_x x dim_y` tile is at the equilibrium of density 1 and
velocity `(u, 0)` and its `density` entry is 1. -/
def uniformTile (dim_x dim_y : Nat) (u : K) (s : Fields K) : Prop :=
  ∀ x y, x < dim_x → y < dim_y →
    atEquilibrium s (y * dim_x + x) 1 u 0 ∧ s.density (y * dim_x + x) = 1

/-- An index that no iteration of a loop nest over the interior cells addresses. -/
def offInterior (dim_x dim_y k : Nat) : Prop :=
  ∀ x y, isInterior dim_x dim_y x y → y * dim_x + x ≠ k

/-- The arrays in which two states coincide when the second is the first after statements
that only write directional channels. -/
def sameRest {α : Type} (t s : Fields α) : Prop :=
  t.f_0 = s.f_0 ∧ t.density = s.density ∧ t.velocity_x = s.velocity_x ∧
  t.velocity_y = s.velocity_y ∧ t.vorticity = s.vorticity ∧ t.speed = s.speed ∧
  t.barrier = s.barrier

/-! ## Mass of a tile -/

/-- The eight directions, in the order of the enumeration `Neighbor`. -/
def directions : List Neighbor :=
  [.NeighborN, .NeighborE, .NeighborS, .NeighborW, .NeighborNE, .NeighborNW, .NeighborSE,
    .NeighborSW]

/-- The sum of the nine channels of the cell at linear index `k`. -/
def cellMass (s : Fields K) (k : Nat) : K :=
  s.f_0 k + s.f_N k + s.f_E k + s.f_S k + s.f_W k + s.f_NE k + s.f_NW k + s.f_SE k + s.f_SW k

/-- The total of the nine channels over all `dim_x * dim_y` stored cells. -/
def totalMass (dim_x dim_y : Nat) (s : Fields K) : K :=
  ∑ y ∈ Finset.range dim_y, ∑ x ∈ Finset.range dim_x, cellMass s (y * dim_x + x)

/-- What the cell `(x, y)` gains in a shift of the eight directional channels: for each
direction the value held by the upstream neighbour minus the value held by the cell. -/
def cellFlux (dim_x : Nat) (s : Fields K) (x y : Nat) : K :=
  (directions.map fun d =>
    chan s d ((upstream d x y).2 * dim_x + (upstream d x y).1) - chan s d (y * dim_x + x)).sum

/-- The net gain of the interior cells of the tile in a shift of the directional channels. -/
def streamFlux (dim_x dim_y : Nat) (s : Fields K) : K :=
  ∑ y ∈ Finset.Ico 1 (dim_y - 1), ∑ x ∈ Finset.Ico 1 (dim_x - 1), cellFlux dim_x s x y

/-- A 3 x 3 tile that is empty except for one unit in channel `f_E` of the ring cell
`(0, 1)`, west of the only interior cell. -/
def inflowState : Fields ℚ :=
  { uniformFields 0 false with f_E := fun k => if k = 3 then 1 else 0 }

/-! ## Exchange on a proper grid -/

/-- The twelve synchronised arrays of state `s` hold at index `k` what those of state `t`
hold at index `k'`. -/
def syncedAt {α : Type} (s : Fields α) (k : Nat) (t : Fields α) (k' : Nat) : Prop :=
  sameChannels s k t k' ∧ s.density k = t.density k' ∧ s.velocity_x k = t.velocity_x k' ∧
  s.velocity_y k = t.velocity_y k'

/-- The stored cells `(x, y)` of the receive region for direction `d`. -/
def recvCell (g : Geometry) : Neighbor → Nat → Nat → Prop
  | .NeighborN, x, y => y = g.dim_y - 1 ∧ g.start_x ≤ x ∧ x < g.start_x + g.num_x
  | .NeighborE, x, y => x = g.dim_x - 1 ∧ g.start_y ≤ y ∧ y < g.start_y + g.num_y
  | .NeighborS, x, y => y = 0 ∧ g.start_x ≤ x ∧ x < g.start_x + g.num_x
  | .NeighborW, x, y => x = 0 ∧ g.start_y ≤ y ∧ y < g.start_y + g.num_y
  | .NeighborNE, x, y => x = g.dim_x - 1 ∧ y = g.dim_y - 1
  | .NeighborNW, x, y => x = 0 ∧ y = g.dim_y - 1
  | .NeighborSE, x, y => x = g.dim_x - 1 ∧ y = 0
  | .NeighborSW, x, y => x = 0 ∧ y = 0

/-- A grid of ranks with at least two rows (hence at least two columns) all of whose tiles are
non-empty. -/
def properGrid (W H P Px Py : Nat) : Prop :=
  2 ≤ Py ∧ Py ≤ Px ∧ Px * Py = P ∧ (∀ c, c < Px → 1 ≤ tileSize W Px c) ∧
  (∀ c, c < Py → 1 ≤ tileSize H Py c)

/-- The rank at tile row `a` and tile column `b` has a neighbour in direction `d`. -/
def hasNeighbor (Px Py a b : Nat) : Neighbor → Prop
  | .NeighborN => a + 1 < Py
  | .NeighborE => b + 1 < Px
  | .NeighborS => 0 < a
  | .NeighborW => 0 < b
  | .NeighborNE => a + 1 < Py ∧ b + 1 < Px
  | .NeighborNW => a + 1 < Py ∧ 0 < b
  | .NeighborSE => 0 < a ∧ b + 1 < Px
  | .NeighborSW => 0 < a ∧ 0 < b

/-! ## Agreement of a decomposition with the single-rank run -/

/-- Linear index, in the arrays of a single rank that stores the whole `W x H` grid, of the
global cell that the geometry `g` stores at local `(x, y)`. -/
def refIndex (W : Nat) (g : Geometry) (x y : Nat) : Nat :=
  (g.offset_y + y - g.start_y) * W + (g.offset_x + x - g.start_x)

/-- A global cell that is not an interior barrier cell: it is not a barrier or it lies on the
outer ring of the grid. -/
def goodCell (W H : Nat) (mask : Nat → Bool) (gx gy : Nat) : Prop :=
  mask (gy * W + gx) = false ∨ ¬ isInterior W H gx gy

/-- The channel `d` of a global cell has just been streamed from a good cell, or the cell lies
on the outer ring. -/
def shiftGood (W H : Nat) (mask : Nat → Bool) (d : Neighbor) (gx gy : Nat) : Prop :=
  ¬ isInterior W H gx gy ∨ goodCell W H mask (upstream d gx gy).1 (upstream d gx gy).2

/-- Agreement of the tiles `T` of a decomposition with the single-rank state `S`: at every
stored cell (`owned = false`) or every owned cell (`owned = true`) of every rank, `f_0` and
`density` agree with `S` at the same global cell when `c0` holds there, and the channel `d`
agrees when `cd d` holds there. -/
def agreeOn {α : Type} (W H P Px Py : Nat) (owned : Bool) (c0 : Nat → Nat → Prop)
    (cd : Neighbor → Nat → Nat → Prop) (T : Nat → Fields α) (S : Fields α) : Prop :=
  ∀ r x y, r < P → x < (layout W H r P Px Py).dim_x → y < (layout W H r P Px Py).dim_y →
    (owned = true →
      ownedIndex (layout W H r P Px Py) (y * (layout W H r P Px Py).dim_x + x)) →
    (c0 ((layout W H r P Px Py).offset_x + x - (layout W H r P Px Py).start_x)
        ((layout W H r P Px Py).offset_y + y - (layout W H r P Px Py).start_y) →
      (T r).f_0 (y * (layout W H r P Px Py).dim_x + x)
        = S.f_0 (refIndex W (layout W H r P Px Py) x y) ∧
      (T r).density (y * (layout W H r P Px Py).dim_x + x)
        = S.density (refIndex W (layout W H r P Px Py) x y)) ∧
    ∀ d, cd d ((layout W H r P Px Py).offset_x + x - (layout W H r P Px Py).start_x)
        ((layout W H r P Px Py).offset_y + y - (layout W H r P Px Py).start_y) →
      chan (T r) d (y * (layout W H r P Px Py).dim_x + x)
        = chan S d (refIndex W (layout W H r P Px Py) x y)

/-- The barrier masks of the tiles `T` hold, at every stored cell, the value of `mask` at the
same global cell. -/
def masksAgree {α : Type} (W H P Px Py : Nat) (mask : Nat → Bool) (T : Nat → Fields α) :
    Prop :=
  ∀ r x y, r < P → x < (layout W H r P Px Py).dim_x → y < (layout W H r P Px Py).dim_y →
    (T r).barrier (y * (layout W H r P Px Py).dim_x + x)
      = mask (refIndex W (layout W H r P Px Py) x y)

/-! ## Inflow, stability check and vorticity -/

/-- Function `updateFluid(physical_speed)`: the first loop runs `i` over the columns and sets the
cells `(i, 0)` and `(i, dim_y - 1)`, the second runs `i` from 1 up to `dim_y - 2` and sets the
cells `(0, i)` and `(dim_x - 1, i)`. -/
def updateFluid (dim_x dim_y : Nat) (speed_scale physical_speed : K) (s : Fields K) :
    Fields K :=
  let speed := speed_scale * physical_speed
  let s := forLoop (List.range dim_x) (fun i s =>
    let s := setEquilibrium dim_x i 0 speed 0.0 1.0 s
    setEquilibrium dim_x i (dim_y - 1) speed 0.0 1.0 s) s
  forLoop (interior dim_y) (fun i s =>
    let s := setEquilibrium dim_x 0 i speed 0.0 1.0 s
    setEquilibrium dim_x (dim_x - 1) i speed 0.0 1.0 s) s

/-- Function `checkStability()`: the arrays are threaded through the loop together with the
local variable `stable`; the second component is the value returned. -/
def checkStability (dim_x dim_y : Nat) (s : Fields K) : Fields K × Bool :=
  forLoop (List.range dim_x) (fun i (acc : Fields K × Bool) =>
    let idx := (dim_y / 2) * dim_x + i
    if acc.1.density idx ≤ 0 then (acc.1, false) else acc) (s, true)

/-- Body of the loops of `computeVorticity`. -/
def vorticityBody (dim_x : Nat) (j i : Nat) (s : Fields K) : Fields K :=
  let row := j * dim_x
  let rowp := (j - 1) * dim_x
  let rown := (j + 1) * dim_x
  { s with
    vorticity := Function.update s.vorticity (row + i)
      (s.velocity_y (row + i + 1) - s.velocity_y (row + i - 1) - s.velocity_x (rown + i)
        + s.velocity_x (rowp + i)) }

/-- Function `computeVorticity()`: the two nested loops over the interior cells. -/
def computeVorticity (dim_x dim_y : Nat) (s : Fields K) : Fields K :=
  forLoop (interior dim_y) (fun j s =>
    forLoop (interior dim_x) (fun i s => vorticityBody dim_x j i s) s) s

/-- The stored cell `(x, y)` lies on the outermost ring of a `dim_x x dim_y` tile. -/
def onRing (dim_x dim_y x y : Nat) : Prop :=
  x < dim_x ∧ y < dim_y ∧ (x = 0 ∨ x = dim_x - 1 ∨ y = 0 ∨ y = dim_y - 1)

instance (dim_x dim_y x y : Nat) : Decidable (onRing dim_x dim_y x y) := by
  unfold onRing; infer_instance

/-- The cells `updateFluid` passes to `setEquilibrium`, in the order of the calls. -/
def ringCells (dim_x dim_y : Nat) : List (Nat × Nat) :=
  ((List.range dim_x).flatMap fun i => [(i, 0), (i, dim_y - 1)])
    ++ (interior dim_y).flatMap fun i => [(0, i), (dim_x - 1, i)]

/-- Two states hold the same arrays except possibly `vorticity`. -/
def sameButVorticity {α : Type} (t s : Fields α) : Prop :=
  t.f_0 = s.f_0 ∧ t.f_N = s.f_N ∧ t.f_E = s.f_E ∧ t.f_S = s.f_S ∧ t.f_W = s.f_W ∧
  t.f_NE = s.f_NE ∧ t.f_NW = s.f_NW ∧ t.f_SE = s.f_SE ∧ t.f_SW = s.f_SW ∧
  t.density = s.density ∧ t.velocity_x = s.velocity_x ∧ t.velocity_y = s.velocity_y ∧
  t.speed = s.speed ∧ t.barrier = s.barrier

/-- The value the bounce-back rule of the specification gives the channel `d` at linear index
`k`, every right-hand side taken from the state `s` before the call: at an interior cell whose
upstream neighbour is a barrier, the opposite channel of that neighbour; otherwise the value
the channel holds. -/
def specBounceRule {α : Type} (dim_x dim_y : Nat) (s : Fields α) (d : Neighbor) (k : Nat) : α :=
  if isInterior dim_x dim_y (k % dim_x) (k / dim_x) ∧
      s.barrier ((upstream d (k % dim_x) (k / dim_x)).2 * dim_x
        + (upstream d (k % dim_x) (k / dim_x)).1) = true
  then chan s (opposite d) ((upstream d (k % dim_x) (k / dim_x)).2 * dim_x
    + (upstream d (k % dim_x) (k / dim_x)).1)
  else chan s d k

/-- Bounce-back as the specification words it: the eight rules applied to all interior cells
simultaneously. -/
def specBounce {α : Type} (dim_x dim_y : Nat) (s : Fields α) : Fields α :=
  { s with
    f_N := specBounceRule dim_x dim_y s .NeighborN
    f_E := specBounceRule dim_x dim_y s .NeighborE
    f_S := specBounceRule dim_x dim_y s .NeighborS
    f_W := specBounceRule dim_x dim_y s .NeighborW
    f_NE := specBounceRule dim_x dim_y s .NeighborNE
    f_NW := specBounceRule dim_x dim_y s .NeighborNW
    f_SE := specBounceRule dim_x dim_y s .NeighborSE
    f_SW := specBounceRule dim_x dim_y s .NeighborSW }

/-- A 4 x 3 tile whose interior cell `(1, 1)` is fluid and whose interior cell `(2, 1)` is a
barrier; the arrays hold the values of `bounceInput`. -/
def fluidInput : Fields Nat :=
  { bounceInput with barrier := fun k => k == 6 }

/-- A 4 x 3 tile whose interior cell `(1, 1)` (linear index 5) and ring cells `(2, 0)` and
`(3, 2)` (linear indices 2 and 11) are barrier cells, and whose interior cell `(2, 1)` is fluid;
the arrays hold the values of `bounceInput`. -/
def reflectInput : Fields Nat :=
  { bounceInput with barrier := fun k => k == 5 || k == 2 || k == 11 }

/-! ## Message passing calls -/

/-- The value of an enumerator of `enum Neighbor`, as it is passed for a message tag. -/
def tagValue : Neighbor → Nat
  | .NeighborN => 0
  | .NeighborE => 1
  | .NeighborS => 2
  | .NeighborW => 3
  | .NeighborNE => 4
  | .NeighborNW => 5
  | .NeighborSE => 6
  | .NeighborSW => 7

/-- The `sendtag` argument of the calls of `MPI_Sendrecv` in the block of `exchangeBoundaries`
that talks to the neighbour in direction `d`. -/
def sendTag : Neighbor → Neighbor
  | .NeighborN => .NeighborS
  | .NeighborE => .NeighborW
  | .NeighborS => .NeighborN
  | .NeighborW => .NeighborE
  | .NeighborNE => .NeighborSW
  | .NeighborNW => .NeighborSE
  | .NeighborSE => .NeighborNW
  | .NeighborSW => .NeighborNE

/-- The `recvtag` argument of the calls of `MPI_Sendrecv` in the block of `exchangeBoundaries`
that talks to the neighbour in direction `d`. -/
def recvTag : Neighbor → Neighbor
  | .NeighborN => .NeighborN
  | .NeighborE => .NeighborE
  | .NeighborS => .NeighborS
  | .NeighborW => .NeighborW
  | .NeighborNE => .NeighborNE
  | .NeighborNW => .NeighborNW
  | .NeighborSE => .NeighborSE
  | .NeighborSW => .NeighborSW

/-- One call of `MPI_Sendrecv` in `exchangeBoundaries`: the block it stands in, the position
of the array among the twelve exchanged (0 for `f_0`, ..., 11 for `velocity_y`), and the
arguments of the call, the two buffers as displacements in the array. -/
structure HaloCall where
  block : Neighbor
  array : Nat
  sendbuf : List Nat
  dest : Int
  sendtag : Nat
  recvbuf : List Nat
  source : Int
  recvtag : Nat

/-- The blocks of `exchangeBoundaries` in program order. -/
def exchangeOrder : List Neighbor :=
  [.NeighborN, .NeighborE, .NeighborS, .NeighborW, .NeighborNE, .NeighborNW, .NeighborSE,
    .NeighborSW]

/-- The call of `MPI_Sendrecv` for the array at position `a` in the block for direction `d`. -/
def haloCall (g : Geometry) (d : Neighbor) (a : Nat) : HaloCall :=
  { block := d, array := a, sendbuf := sendRegion g d, dest := g.neighbors d,
    sendtag := tagValue (sendTag d), recvbuf := recvRegion g d,
    source := g.neighbors d, recvtag := tagValue (recvTag d) }

/-- The calls of `MPI_Sendrecv` that `exchangeBoundaries` issues, in program order: twelve per
block whose neighbour exists. -/
def exchangeCalls (g : Geometry) : List HaloCall :=
  exchangeOrder.flatMap fun d =>
    if 0 ≤ g.neighbors d then (List.range 12).map (haloCall g d) else []

/-- The message passing functions `gatherDataOnRank0` calls. -/
inductive GatherCallKind where
  | Sendrecv | Recv | Send
  deriving DecidableEq, Repr

/-- One call in `gatherDataOnRank0`: the function, whether it moves the barrier mask
(`bsend_buf`, `brecv_buf`) or the selected array (`send_buf`, `recv_buf`), the peer rank and
the tag. -/
structure GatherCall where
  kind : GatherCallKind
  mask : Bool
  peer : Nat
  tag : Nat
  deriving DecidableEq, Repr

/-- The calls `gatherDataOnRank0(property)` issues on rank `rank`, in program order. -/
def gatherCalls (property : FluidProperty) (rank num_ranks : Nat) : List GatherCall :=
  match property with
  | .None => []
  | _ =>
    if rank = 0 then
      [⟨.Sendrecv, false, 0, 0⟩, ⟨.Sendrecv, true, 0, 0⟩]
        ++ (List.range' 1 (num_ranks - 1)).flatMap fun i =>
          [⟨.Recv, false, i, 0⟩, ⟨.Recv, true, i, 1⟩]
    else [⟨.Send, false, 0, 0⟩, ⟨.Send, true, 0, 1⟩]

/-- Function `gatherDataOnRank0(property)` as seen on rank `rank`: the arrays of the rank and
the members the function may write.  Rank 0 receives into its buffers; every rank stores
`property` unless the function returns at `case None`. -/
def gatherOnRank {α : Type} (rank : Nat) (property : FluidProperty) (geom : Nat → Geometry)
    (state : Nat → Fields α) (bufs : GatherBuffers α) : Fields α × GatherBuffers α :=
  if rank = 0 then (state rank, gatherDataOnRank0 property geom state bufs)
  else
    match property with
    | .None => (state rank, bufs)
    | p => (state rank, { bufs with stored_property := p })

/-- Position of the coordinate `k` relative to the owned range `[start, start + num)` of a
tile: `-1` before it, `0` inside, `1` after it. -/
def zone (start num k : Nat) : Int :=
  if k < start then -1 else if k < start + num then 0 else 1

/-! ## Driver -/

/-- The value of a `bool` stored in the `uint8_t` variable `stable`. -/
def stableFlag (b : Bool) : Nat := if b then 1 else 0

/-- The result on rank 0 of `MPI_Reduce(&stable, &all_stable, 1, MPI_UNSIGNED_CHAR, MPI_MAX, 0,
MPI_COMM_WORLD)`: the maximum of the contributions of the ranks (unsigned values, so folding
from 0 gives their maximum). -/
def reduceMax (vals : List Nat) : Nat := vals.foldl max 0

/-- The variable `all_stable` of `runLbmCfdSimulation` on rank 0 at an output time: every rank
`r < num_ranks` contributes the result of its `checkStability()`. -/
def allStable (num_ranks : Nat) (geom : Nat → Geometry) (state : Nat → Fields K) : Nat :=
  reduceMax ((List.range num_ranks).map fun r =>
    stableFlag (checkStability (geom r).dim_x (geom r).dim_y (state r)).2)

/-- The test `!all_stable && rank == 0` of `runLbmCfdSimulation` on rank 0: whether the warning
"simulation has become unstable" is printed. -/
def instabilityWarning (num_ranks : Nat) (geom : Nat → Geometry) (state : Nat → Fields K) :
    Bool :=
  allStable num_ranks geom state == 0

/-! ## Speed and sequences of kernels -/

/-- Body of the loops of `computeSpeed`; `sqrt` stands for the library function. -/
def speedBody (sqrt : K → K) (dim_x : Nat) (j i : Nat) (s : Fields K) : Fields K :=
  let row := j * dim_x
  { s with
    speed := Function.update s.speed (row + i)
      (sqrt (s.velocity_x (row + i) * s.velocity_x (row + i)
        + s.velocity_y (row + i) * s.velocity_y (row + i))) }

/-- Function `computeSpeed()`: the two nested loops over the interior cells. -/
def computeSpeed (sqrt : K → K) (dim_x dim_y : Nat) (s : Fields K) : Fields K :=
  forLoop (interior dim_y) (fun j s =>
    forLoop (interior dim_x) (fun i s => speedBody sqrt dim_x j i s) s) s

/-- A call of one of the kernels of the class. -/
inductive KernelCall (K : Type) where
  | collide (viscosity : K)
  | stream
  | bounceBackStream
  | computeSpeed
  | computeVorticity

/-- The effect of a kernel call on the arrays of a rank with geometry `g`; `collide` and
`stream` end with `exchangeBoundaries()`, for which `inbox` holds the incoming messages. -/
def runKernel (sqrt : K → K) (g : Geometry) (inbox : Neighbor → HaloMsg K) :
    KernelCall K → Fields K → Fields K
  | .collide viscosity, s => exchangeBoundaries g inbox (collide g.dim_x g.dim_y viscosity s)
  | .stream, s => exchangeBoundaries g inbox (stream g.dim_x g.dim_y s)
  | .bounceBackStream, s => bounceBackStream g.dim_x g.dim_y s
  | .computeSpeed, s => computeSpeed sqrt g.dim_x g.dim_y s
  | .computeVorticity, s => computeVorticity g.dim_x g.dim_y s

/-- A sequence of kernel calls, in order. -/
def runKernels (sqrt : K → K) (g : Geometry) (inbox : Neighbor → HaloMsg K)
    (calls : List (KernelCall K)) (s : Fields K) : Fields K :=
  calls.foldl (fun s c => runKernel sqrt g inbox c s) s

/-! ## Machine integers and array accesses

The loops of the kernels with `int` counters and `uint32_t` extents: every arithmetic
operation is reduced to 32 bits as the usual arithmetic conversions prescribe, and each
function is represented by the list of its array accesses, an access being an array of the tile
together with the index used. -/

/-- Conversion of a value to `uint32_t`, and the result of unsigned arithmetic: the value
modulo `2^32`. -/
def toU32 (z : Int) : Nat := (z % 4294967296).toNat

/-- Conversion of a value to `int`, and the result of arithmetic on `int`: the representative
modulo `2^32` in `[-2^31, 2^31)` (two's complement; signed overflow, which the language leaves
undefined, wraps around). -/
def toI32 (z : Int) : Int :=
  if z % 4294967296 < 2147483648 then z % 4294967296 else z % 4294967296 - 4294967296

/-- The sum `a + b` of two `int`. -/
def i32add (a b : Int) : Int := toI32 (a + b)

/-- The difference `a - b` of two `int`. -/
def i32sub (a b : Int) : Int := toI32 (a - b)

/-- The product `a * b` of two `uint32_t`. -/
def u32mul (a b : Nat) : Nat := (a * b) % 4294967296

/-- The sum `a + b` of two `uint32_t`. -/
def u32add (a b : Nat) : Nat := (a + b) % 4294967296

/-- The difference `a - b` of two `uint32_t`. -/
def u32sub (a b : Nat) : Nat := toU32 ((a : Int) - (b : Int))

/-- The statement `row = j * dim_x;` with `int row, j` and `uint32_t dim_x`: `j` is converted
to unsigned, the product is unsigned and is converted back on assignment. -/
def rowIndex (dim_x : Nat) (j : Int) : Int := toI32 (u32mul (toU32 j) dim_x)

/-- The statement `int idx = y * dim_x + x;` of `setEquilibrium(int x, int y, ...)`. -/
def cellIndex (dim_x : Nat) (x y : Int) : Int :=
  toI32 (u32add (u32mul (toU32 y) dim_x) (toU32 x))

/-- The accesses of `for (k = k0; k < bound; k++)` with `int k` and a `uint32_t` bound (the
comparison converts `k` to unsigned); `body k` lists the accesses of one iteration and `fuel`
bounds the number of iterations. -/
def forUp {β : Type} (bound : Nat) (body : Int → List β) : Nat → Int → List β
  | 0, _ => []
  | fuel + 1, k =>
    if toU32 k < bound then body k ++ forUp bound body fuel (i32add k 1) else []

/-- The accesses of `for (k = k0; k > 0; k--)` with `int k`. -/
def forDown {β : Type} (body : Int → List β) : Nat → Int → List β
  | 0, _ => []
  | fuel + 1, k => if 0 < k then body k ++ forDown body fuel (i32sub k 1) else []

/-- The arrays of a tile: the fourteen `double` arrays, in the order in which the constructor
carves them from the block `dbl_arrays` (lines 241-254), and the `bool` array `barrier`. -/
inductive TileArray where
  | f_0 | f_N | f_E | f_S | f_W | f_NE | f_NW | f_SE | f_SW
  | density | velocity_x | velocity_y | vorticity | speed | barrier
  deriving DecidableEq, Repr

/-- The factor `k` of the statement `a = dbl_arrays + (k * size);` that sets the pointer of a
`double` array (lines 241-254); `barrier` has a block of its own. -/
def TileArray.position : TileArray → Option Nat
  | .f_0 => some 0
  | .f_N => some 1
  | .f_E => some 2
  | .f_S => some 3
  | .f_W => some 4
  | .f_NE => some 5
  | .f_NW => some 6
  | .f_SE => some 7
  | .f_SW => some 8
  | .density => some 9
  | .velocity_x => some 10
  | .velocity_y => some 11
  | .vorticity => some 12
  | .speed => some 13
  | .barrier => none

/-- The local `size` of the constructor: `uint32_t size = dim_x * dim_y;` (line 235). -/
def tileCells (dim_x dim_y : Nat) : Nat := u32mul dim_x dim_y

/-- Number of elements of the block `dbl_arrays = new double[14 * size]`, the product taken in
`uint32_t` (line 238). -/
def blockLength (size : Nat) : Nat := u32mul 14 size

/-- Position in the block of element 0 of the `double` array with factor `k`: the offset
`k * size` of lines 241-254, a `uint32_t` product. -/
def arrayBase (size k : Nat) : Nat := u32mul k size

/-- Number of elements of `barrier = new bool[size]` (line 257). -/
def barrierLength (size : Nat) : Nat := size

/-- The access `a[z]` lies in the storage the constructor has allocated for a tile of `size`
cells: `z` is an index of the array (`0 ≤ z < size`) and the element belongs to the allocated
block, `dbl_arrays` for a `double` array and the block of `barrier` for `barrier`. -/
def inStorage (size : Nat) (p : TileArray × Int) : Prop :=
  0 ≤ p.2 ∧ p.2 < (size : Int) ∧
    match p.1.position with
    | some k => (arrayBase size k : Int) + p.2 < (blockLength size : Int)
    | none => p.2 < (barrierLength size : Int)

instance (size : Nat) (p : TileArray × Int) : Decidable (inStorage size p) := by
  unfold inStorage
  cases p.1.position <;> infer_instance

/-- The stores of `setEquilibrium(x, y, ...)`, in program order (lines 705-716), all at
`idx = y * dim_x + x`. -/
def setEquilibriumAccess (dim_x : Nat) (x y : Int) : List (TileArray × Int) :=
  let idx := cellIndex dim_x x y
  [(.f_0, idx), (.f_E, idx), (.f_W, idx), (.f_N, idx), (.f_S, idx), (.f_NE, idx),
    (.f_SE, idx), (.f_NW, idx), (.f_SW, idx), (.density, idx), (.velocity_x, idx),
    (.velocity_y, idx)]

/-- Array accesses of `initFluid`, in program order. -/
def initFluidAccess (dim_x dim_y fuel : Nat) : List (TileArray × Int) :=
  forUp dim_y (fun j =>
    let row := rowIndex dim_x j
    forUp dim_x (fun i =>
      setEquilibriumAccess dim_x i j ++ [(.vorticity, i32add row i)]) fuel 0) fuel 0

/-- Array accesses of `updateFluid`, in program order. -/
def updateFluidAccess (dim_x dim_y fuel : Nat) : List (TileArray × Int) :=
  forUp dim_x (fun i =>
      setEquilibriumAccess dim_x i 0
        ++ setEquilibriumAccess dim_x i (toI32 (u32sub dim_y 1))) fuel 0
    ++ forUp (u32sub dim_y 1) (fun i =>
      setEquilibriumAccess dim_x 0 i
        ++ setEquilibriumAccess dim_x (toI32 (u32sub dim_x 1)) i) fuel 1

/-- Array accesses of `collide`: every iteration reads and writes the nine channels, the
density and the two velocity components at `idx = row + i`; each element is listed once, in
the order of its first access (lines 365-367). -/
def collideAccess (dim_x dim_y fuel : Nat) : List (TileArray × Int) :=
  forUp (u32sub dim_y 1) (fun j =>
    let row := rowIndex dim_x j
    forUp (u32sub dim_x 1) (fun i =>
      let idx := i32add row i
      [(.density, idx), (.f_0, idx), (.f_N, idx), (.f_S, idx), (.f_E, idx), (.f_W, idx),
        (.f_NW, idx), (.f_NE, idx), (.f_SW, idx), (.f_SE, idx), (.velocity_x, idx),
        (.velocity_y, idx)]) fuel 1) fuel 1

/-- Array accesses of `stream`, loop nest by loop nest; in every assignment the element
written is listed before the element read. -/
def streamAccess (dim_x dim_y fuel : Nat) : List (TileArray × Int) :=
  forDown (fun j =>
      let row := rowIndex dim_x j
      let rowp := rowIndex dim_x (i32sub j 1)
      forUp (u32sub dim_x 1) (fun i =>
        [(.f_N, i32add row i), (.f_N, i32add rowp i),
          (.f_NW, i32add row i), (.f_NW, i32add (i32add rowp i) 1)]) fuel 1)
      fuel (toI32 (u32sub dim_y 2))
    ++ forDown (fun j =>
      let row := rowIndex dim_x j
      let rowp := rowIndex dim_x (i32sub j 1)
      forDown (fun i =>
        [(.f_E, i32add row i), (.f_E, i32sub (i32add row i) 1),
          (.f_NE, i32add row i), (.f_NE, i32sub (i32add rowp i) 1)]) fuel
        (toI32 (u32sub dim_x 2)))
      fuel (toI32 (u32sub dim_y 2))
    ++ forUp (u32sub dim_y 1) (fun j =>
      let row := rowIndex dim_x j
      let rown := rowIndex dim_x (i32add j 1)
      forDown (fun i =>
        [(.f_S, i32add row i), (.f_S, i32add rown i),
          (.f_SE, i32add row i), (.f_SE, i32sub (i32add rown i) 1)]) fuel
        (toI32 (u32sub dim_x 2))) fuel 1
    ++ forUp (u32sub dim_y 1) (fun j =>
      let row := rowIndex dim_x j
      let rown := rowIndex dim_x (i32add j 1)
      forUp (u32sub dim_x 1) (fun i =>
        [(.f_W, i32add row i), (.f_W, i32add (i32add row i) 1),
          (.f_SW, i32add row i), (.f_SW, i32add (i32add rown i) 1)]) fuel 1) fuel 1

/-- Array accesses of `bounceBackStream`: for each of the eight guarded assignments the
element of `barrier` tested, the element written and the element read; the last two are listed
whether or not the test succeeds. -/
def bounceAccess (dim_x dim_y fuel : Nat) : List (TileArray × Int) :=
  forUp (u32sub dim_y 1) (fun j =>
    let row := rowIndex dim_x j
    let rowp := rowIndex dim_x (i32sub j 1)
    let rown := rowIndex dim_x (i32add j 1)
    forUp (u32sub dim_x 1) (fun i =>
      let idx := i32add row i
      [(.barrier, i32sub (i32add row i) 1), (.f_E, idx), (.f_W, i32sub (i32add row i) 1),
        (.barrier, i32add (i32add row i) 1), (.f_W, idx), (.f_E, i32add (i32add row i) 1),
        (.barrier, i32add rowp i), (.f_N, idx), (.f_S, i32add rowp i),
        (.barrier, i32add rown i), (.f_S, idx), (.f_N, i32add rown i),
        (.barrier, i32sub (i32add rowp i) 1), (.f_NE, idx),
        (.f_SW, i32sub (i32add rowp i) 1),
        (.barrier, i32add (i32add rowp i) 1), (.f_NW, idx),
        (.f_SE, i32add (i32add rowp i) 1),
        (.barrier, i32sub (i32add rown i) 1), (.f_SE, idx),
        (.f_NW, i32sub (i32add rown i) 1),
        (.barrier, i32add (i32add rown i) 1), (.f_SW, idx),
        (.f_NE, i32add (i32add rown i) 1)]) fuel 1) fuel 1

/-- Array accesses of `computeSpeed`. -/
def computeSpeedAccess (dim_x dim_y fuel : Nat) : List (TileArray × Int) :=
  forUp (u32sub dim_y 1) (fun j =>
    let row := rowIndex dim_x j
    forUp (u32sub dim_x 1) (fun i =>
      [(.speed, i32add row i), (.velocity_x, i32add row i),
        (.velocity_y, i32add row i)]) fuel 1) fuel 1

/-- Array accesses of `computeVorticity`. -/
def computeVorticityAccess (dim_x dim_y fuel : Nat) : List (TileArray × Int) :=
  forUp (u32sub dim_y 1) (fun j =>
    let row := rowIndex dim_x j
    let rowp := rowIndex dim_x (i32sub j 1)
    let rown := rowIndex dim_x (i32add j 1)
    forUp (u32sub dim_x 1) (fun i =>
      [(.vorticity, i32add row i), (.velocity_y, i32add (i32add row i) 1),
        (.velocity_y, i32sub (i32add row i) 1), (.velocity_x, i32add rown i),
        (.velocity_x, i32add rowp i)]) fuel 1) fuel 1

/-- Array accesses of `checkStability`: `idx = (dim_y / 2) * dim_x + i`, an unsigned
expression converted on assignment. -/
def checkStabilityAccess (dim_x dim_y fuel : Nat) : List (TileArray × Int) :=
  forUp dim_x (fun i =>
    [(.density, toI32 (u32add (u32mul (dim_y / 2) dim_x) (toU32 i)))]) fuel 0

/-- The nine indices of the stencil of the cell at row `j`, column `i`, as `bounceBackStream`
computes them. -/
def stencilIndices (dim_x : Nat) (j i : Int) : List Int :=
  [i32add (rowIndex dim_x j) i, i32sub (i32add (rowIndex dim_x j) i) 1,
    i32add (i32add (rowIndex dim_x j) i) 1, i32add (rowIndex dim_x (i32sub j 1)) i,
    i32add (rowIndex dim_x (i32add j 1)) i,
    i32sub (i32add (rowIndex dim_x (i32sub j 1)) i) 1,
    i32add (i32add (rowIndex dim_x (i32sub j 1)) i) 1,
    i32sub (i32add (rowIndex dim_x (i32add j 1)) i) 1,
    i32add (i32add (rowIndex dim_x (i32add j 1)) i) 1]

/-- Array accesses of the five sweeps over the interior cells. -/
def sweepAccesses (dim_x dim_y fuel : Nat) : List (TileArray × Int) :=
  collideAccess dim_x dim_y fuel ++ streamAccess dim_x dim_y fuel
    ++ bounceAccess dim_x dim_y fuel ++ computeSpeedAccess dim_x dim_y fuel
    ++ computeVorticityAccess dim_x dim_y fuel

/-- Array accesses of the eight functions of the class that loop over the tile. -/
def kernelAccesses (dim_x dim_y fuel : Nat) : List (TileArray × Int) :=
  initFluidAccess dim_x dim_y fuel ++ updateFluidAccess dim_x dim_y fuel
    ++ sweepAccesses dim_x dim_y fuel ++ checkStabilityAccess dim_x dim_y fuel

/-! ## Receive buffers of the gather -/

/-- Number of elements of `recv_buf` and of `brecv_buf`: the constructor allocates them as
`new double[total_x * total_y]` and `new bool[total_x * total_y]`, the product taken in
`uint32_t` (lines 232-233). -/
def recvBufLength (total_x total_y : Nat) : Nat := u32mul total_x total_y

/-- The displacements in `recv_buf` (and in `brecv_buf`) to which the receives of
`gatherDataOnRank0` on rank 0 store: those of `other_scalar[i]` for every rank `i`. -/
def gatherWrites (geom : Nat → Geometry) : List Nat :=
  (List.range (geom 0).num_ranks).flatMap fun i => ((geom 0).other_scalar i).indices

/-! ## The loops of `initBarrier` on the machine -/

/-- The four coordinates of a segment are values of the type `int`. -/
def intCoords (seg : Barrier) : Prop :=
  (-2147483648 ≤ seg.x1 ∧ seg.x1 < 2147483648) ∧ (-2147483648 ≤ seg.x2 ∧ seg.x2 < 2147483648) ∧
  (-2147483648 ≤ seg.y1 ∧ seg.y1 < 2147483648) ∧ (-2147483648 ≤ seg.y2 ∧ seg.y2 < 2147483648)

instance (seg : Barrier) : Decidable (intCoords seg) := by
  unfold intCoords; infer_instance

/-- The loop `for (j = lo; j <= hi; j++)` with `int j` of `initBarrier` (lines 300 and 311),
run on a state: the increment `j++` is the `int` sum, which wraps around at `INT_MAX`; `fuel`
bounds the number of times the test `j <= hi` is evaluated, and the result is `none` when the
loop has not ended by then. -/
def forLe {σ : Type} (hi : Int) (body : Int → σ → σ) : Nat → Int → σ → Option σ
  | 0, _, _ => none
  | fuel + 1, j, s => if j ≤ hi then forLe hi body fuel (i32add j 1) (body j s) else some s

/-- The test that guards the loop over a segment in `initBarrier` (lines 299 and 310): the row
of a horizontal segment, or the column of a vertical one, is stored on the tile. -/
def meetsTile (g : Geometry) (seg : Barrier) : Prop :=
  let sx : Int := if g.offset_x = 0 then 0 else (g.offset_x : Int) - 1
  let sy : Int := if g.offset_y = 0 then 0 else (g.offset_y : Int) - 1
  match seg.type with
  | .HORIZONTAL => 0 ≤ seg.y1 - sy ∧ seg.y1 - sy < g.dim_y
  | .VERTICAL => 0 ≤ seg.x1 - sx ∧ seg.x1 - sx < g.dim_x

instance (g : Geometry) (seg : Barrier) : Decidable (meetsTile g seg) := by
  unfold meetsTile; cases seg.type <;> infer_instance

/-- The bound of the loop over a segment: `getX2()` for a horizontal segment, `getY2()` for a
vertical one. -/
def loopBound (seg : Barrier) : Int :=
  match seg.type with
  | .HORIZONTAL => seg.x2
  | .VERTICAL => seg.y2

/-- The body of the loop over the segments in `initBarrier`, with the inner loop run by
`forLe`: `none` when the inner loop does not end within `fuel` tests. -/
def barrierSegment (g : Geometry) (fuel : Nat) (b : Nat → Bool) (seg : Barrier) :
    Option (Nat → Bool) :=
  let sx : Int := if g.offset_x = 0 then 0 else (g.offset_x : Int) - 1
  let sy : Int := if g.offset_y = 0 then 0 else (g.offset_y : Int) - 1
  match seg.type with
  | .HORIZONTAL =>
      let y := seg.y1 - sy
      if 0 ≤ y ∧ y < g.dim_y then
        forLe seg.x2 (fun j b =>
          let x := j - sx
          if 0 ≤ x ∧ x < g.dim_x then
            Function.update b (y.toNat * g.dim_x + x.toNat) true
          else b) fuel seg.x1 b
      else some b
  | .VERTICAL =>
      let x := seg.x1 - sx
      if 0 ≤ x ∧ x < g.dim_x then
        forLe seg.y2 (fun j b =>
          let y := j - sy
          if 0 ≤ y ∧ y < g.dim_y then
            Function.update b (y.toNat * g.dim_x + x.toNat) true
          else b) fuel seg.y1 b
      else some b

/-- The loop over the segments: it ends when the loop of every segment does. -/
def barrierSegments (g : Geometry) (fuel : Nat) :
    List Barrier → (Nat → Bool) → Option (Nat → Bool)
  | [], b => some b
  | seg :: rest, b =>
    match barrierSegment g fuel b seg with
    | none => none
    | some b' => barrierSegments g fuel rest b'

/-- Function `initBarrier(barriers)` with its loops over `int j` run as the machine runs them:
`memset` of the `dim_x * dim_y` stored cells, then the loop over the segments.  The result is
`none` when a loop does not end within `fuel` tests of its condition, and the state
`initBarrier` describes when all loops end. -/
def initBarrierRun {α : Type} (g : Geometry) (barriers : List Barrier) (fuel : Nat)
    (s : Fields α) : Option (Fields α) :=
  let cleared : Nat → Bool := fun k => if k < g.dim_x * g.dim_y then false else s.barrier k
  match barrierSegments g fuel barriers cleared with
  | none => none
  | some b => some { s with barrier := b }

/-- The body of the loop over the segments in `initBarrier`, as `initBarrier` has it: the
marks one segment adds to the mask `b`. -/
def barrierMarks (g : Geometry) (b : Nat → Bool) (seg : Barrier) : Nat → Bool :=
  let sx : Int := if g.offset_x = 0 then 0 else (g.offset_x : Int) - 1
  let sy : Int := if g.offset_y = 0 then 0 else (g.offset_y : Int) - 1
  match seg.type with
  | .HORIZONTAL =>
      let y := seg.y1 - sy
      if 0 ≤ y ∧ y < g.dim_y then
        (countUp seg.x1 seg.x2).foldl (fun b j =>
          let x := j - sx
          if 0 ≤ x ∧ x < g.dim_x then
            Function.update b (y.toNat * g.dim_x + x.toNat) true
          else b) b
      else b
  | .VERTICAL =>
      let x := seg.x1 - sx
      if 0 ≤ x ∧ x < g.dim_x then
        (countUp seg.y1 seg.y2).foldl (fun b j =>
          let y := j - sy
          if 0 ≤ y ∧ y < g.dim_y then
            Function.update b (y.toNat * g.dim_x + x.toNat) true
          else b) b
      else b

/-! ## Steps of the constructor -/

/-- The arrays the constructor allocates with `new` (lines 201-257). -/
inductive CtorArray where
  | other_scalar | other_bool | rank_local_size | rank_local_start
  | recv_buf | brecv_buf | dbl_arrays | barrier
  deriving DecidableEq, Repr

/-- A step of the constructor once the geometry is computed (lines 174-257): a call
`MPI_Type_create_subarray(2, array, subsize, offsets, ...)` with the values of the three `int`
arrays (index 0 is the row dimension), or an allocation with `new`. -/
inductive CtorStep where
  | createSubarray (array0 array1 subsize0 subsize1 offsets0 offsets1 : Int)
  | allocate (a : CtorArray)
  deriving DecidableEq, Repr

/-- The six calls that create the datatypes of the rank itself, in program order: the four
column types (lines 183-192), `own_scalar` (line 197) and `own_bool` (line 199).  The values
are stored in `int` variables; `start_x + num_x - 1` is an unsigned expression. -/
def ownTypeSteps (g : Geometry) : List CtorStep :=
  let block_width := toI32 g.dim_x
  let block_height := toI32 g.dim_y
  let num_x := toI32 g.num_x
  let num_y := toI32 g.num_y
  let start_x := toI32 g.start_x
  let start_y := toI32 g.start_y
  [.createSubarray block_height block_width num_y 1 start_y 0,
    .createSubarray block_height block_width num_y 1 start_y start_x,
    .createSubarray block_height block_width num_y 1 start_y
      (toI32 ((g.start_x : Int) + (g.num_x : Int) - 1)),
    .createSubarray block_height block_width num_y 1 start_y (i32sub block_width 1),
    .createSubarray block_height block_width num_y num_x start_y start_x,
    .createSubarray block_height block_width num_y num_x start_y start_x]

/-- The four allocations of lines 201-207. -/
def tableSteps : List CtorStep :=
  [.allocate .other_scalar, .allocate .other_bool, .allocate .rank_local_size,
    .allocate .rank_local_start]

/-- The calls of the loop over all ranks (lines 208-224): for every rank `i` the types
`other_scalar[i]` and `other_bool[i]`, subarrays of the `height x width` grid. -/
def otherTypeSteps (g : Geometry) : List CtorStep :=
  (List.range g.num_ranks).flatMap fun i =>
    let t := g.other_scalar i
    [.createSubarray (toI32 t.array0) (toI32 t.array1) (toI32 t.subsize0) (toI32 t.subsize1)
        (toI32 t.offsets0) (toI32 t.offsets1),
      .createSubarray (toI32 t.array0) (toI32 t.array1) (toI32 t.subsize0) (toI32 t.subsize1)
        (toI32 t.offsets0) (toI32 t.offsets1)]

/-- The allocations of the receive buffers and of the arrays of the tile (lines 232-257). -/
def fieldSteps : List CtorStep :=
  [.allocate .recv_buf, .allocate .brecv_buf, .allocate .dbl_arrays, .allocate .barrier]

/-- The steps of the constructor after the geometry is computed, in program order.  The calls
of `MPI_Type_commit`, which follow each type creation, are left out. -/
def constructorSteps (g : Geometry) : List CtorStep :=
  ownTypeSteps g ++ tableSteps ++ otherTypeSteps g ++ fieldSteps

/-- Modelled from the spec: a type-creation failure is fatal and the rank aborts; the MPI
library is not part of the sources.  A call of `MPI_Type_create_subarray` fails when its
arguments are erroneous by the MPI standard, which requires in every dimension
`1 ≤ subsize ≤ size` and `0 ≤ start ≤ size - subsize`.  An allocation does not fail here. -/
def failsStep : CtorStep → Bool
  | .createSubarray array0 array1 subsize0 subsize1 offsets0 offsets1 =>
    !(decide (1 ≤ subsize0 ∧ subsize0 ≤ array0 ∧ 0 ≤ offsets0 ∧ offsets0 ≤ array0 - subsize0)
      && decide (1 ≤ subsize1 ∧ subsize1 ≤ array1 ∧ 0 ≤ offsets1
        ∧ offsets1 ≤ array1 - subsize1))
  | .allocate _ => false

/-- The steps a run completes: those before the first step that fails. -/
def completedSteps (steps : List CtorStep) : List CtorStep :=
  steps.takeWhile fun c => !failsStep c

/-- The run ends with a fatal error: some step fails. -/
def endsFatally (steps : List CtorStep) : Bool := steps.any failsStep

/-! ## Theorems -/

/-! ### The factor loop -/

theorem closestLoop_spec (v : Nat) :
    ∀ t, 0 < t → ∃ d, closestLoop v t = some d ∧ 0 < d ∧ d ≤ t ∧ d ∣ v ∧
      ∀ e, e ≤ t → e ∣ v → e ≤ d := by
  intro t
  induction t with
  | zero => intro h; omega
  | succ t ih =>
    intro _
    by_cases hmod : v % (t + 1) = 0
    · refine ⟨t + 1, by simp [closestLoop, hmod], by omega, le_refl _,
        Nat.dvd_of_mod_eq_zero hmod, fun e he _ => he⟩
    · have ht : 0 < t := by
        rcases Nat.eq_zero_or_pos t with h0 | h0
        · subst h0; exact absurd (Nat.mod_one v) hmod
        · exact h0
      obtain ⟨d, hd, hpos, hle, hdvd, hmax⟩ := ih ht
      refine ⟨d, by simp [closestLoop, hmod, hd], hpos, by omega, hdvd, ?_⟩
      intro e he hev
      have hne : e ≠ t + 1 := by
        rintro rfl
        exact hmod (Nat.mod_eq_zero_of_dvd hev)
      exact hmax e (by omega) hev

theorem getClosestFactors2_spec (P : Nat) (hP : 1 ≤ P) :
    ∃ Px Py, getClosestFactors2 P = some (Px, Py) ∧ 0 < Py ∧ Px * Py = P ∧ Py ≤ Px ∧
      Py * Py ≤ P ∧ ∀ e, e ∣ P → e * e ≤ P → e ≤ Py := by
  have hs : 0 < Nat.sqrt P := Nat.sqrt_pos.mpr hP
  obtain ⟨d, hd, hpos, hle, hdvd, hmax⟩ := closestLoop_spec P (Nat.sqrt P) hs
  have hsq : d * d ≤ P := Nat.le_sqrt.mp hle
  have hmul : P / d * d = P := Nat.div_mul_cancel hdvd
  refine ⟨P / d, d, by simp [getClosestFactors2, hd], hpos, hmul, ?_, hsq, ?_⟩
  · by_contra hlt
    push_neg at hlt
    have : P / d * d < d * d := Nat.mul_lt_mul_of_pos_right hlt hpos
    omega
  · intro e he hee
    exact hmax e (Nat.le_sqrt.mpr hee) he

/-- C7 (near-square factorization): for every `P ≥ 1`, `getClosestFactors2 P` returns a pair
`(Px, Py)` with `Px * Py = P`, `Py ≤ Px`, `Py` the largest divisor of `P` whose square does not
exceed `P`, and `|Px - Py| ≤ |a - b|` for all positive `a`, `b` with `a * b = P`. -/
theorem getClosestFactors2_near_square (P : Nat) (hP : 1 ≤ P) :
    ∃ Px Py, getClosestFactors2 P = some (Px, Py) ∧ Px * Py = P ∧ Py ≤ Px ∧
      (Py ∣ P ∧ Py * Py ≤ P ∧ ∀ e, e ∣ P → e * e ≤ P → e ≤ Py) ∧
      ∀ a b : Nat, 0 < a → 0 < b → a * b = P → |(Px : Int) - Py| ≤ |(a : Int) - b| := by
  obtain ⟨Px, Py, hget, hpos, hmul, hle, hsq, hmax⟩ := getClosestFactors2_spec P hP
  refine ⟨Px, Py, hget, hmul, hle, ⟨⟨Px, by rw [← hmul, Nat.mul_comm]⟩, hsq, hmax⟩, ?_⟩
  have key : ∀ a b : Nat, 0 < a → 0 < b → a * b = P → b ≤ a →
      (Px : Int) - Py ≤ (a : Int) - b := by
    intro a b _ hb hab hba
    have hbP : b ∣ P := ⟨a, by rw [← hab, Nat.mul_comm]⟩
    have hbb : b * b ≤ P := by
      rw [← hab]; exact Nat.mul_le_mul_right b hba
    have hbPy : b ≤ Py := hmax b hbP hbb
    have hPxa : Px ≤ a := by
      by_contra hlt
      push_neg at hlt
      have h1 : a * b < Px * b := Nat.mul_lt_mul_of_pos_right hlt hb
      have h2 : Px * b ≤ Px * Py := Nat.mul_le_mul_left Px hbPy
      omega
    omega
  intro a b ha hb hab
  have h0 : |(Px : Int) - Py| = (Px : Int) - Py := abs_of_nonneg (by omega)
  rw [h0]
  rcases Nat.le_total b a with hba | hba
  · exact le_trans (key a b ha hb hab hba) (le_abs_self _)
  · have := key b a hb ha (by rw [Nat.mul_comm]; exact hab) hba
    exact le_trans this (by rw [abs_sub_comm]; exact le_abs_self _)

/-- Witness for C7 at `P = 12`. -/
theorem getClosestFactors2_near_square_witness :
    1 ≤ 12 ∧ ∃ Px Py, getClosestFactors2 12 = some (Px, Py) ∧ Px * Py = 12 ∧ Py ≤ Px ∧
      (Py ∣ 12 ∧ Py * Py ≤ 12 ∧ ∀ e, e ∣ 12 → e * e ≤ 12 → e ≤ Py) ∧
      ∀ a b : Nat, 0 < a → 0 < b → a * b = 12 → |(Px : Int) - Py| ≤ |(a : Int) - b| :=
  ⟨by decide, getClosestFactors2_near_square 12 (by decide)⟩

/-! ### One-dimensional chunking -/

theorem chunk_off_succ (chunk extra c : Nat) :
    (c + 1) * chunk + min (c + 1) extra
      = (c * chunk + min c extra) + (chunk + (if c < extra then 1 else 0)) := by
  rw [Nat.succ_mul]
  split_ifs <;> omega

theorem chunk_off_mono (chunk extra : Nat) {c c' : Nat} (h : c ≤ c') :
    c * chunk + min c extra ≤ c' * chunk + min c' extra := by
  have h1 : c * chunk ≤ c' * chunk := Nat.mul_le_mul_right chunk h
  omega

theorem chunk_off_total (W n : Nat) (hn : 0 < n) : n * (W / n) + min n (W % n) = W := by
  have h := Nat.mod_lt W hn
  rw [min_eq_right (le_of_lt h)]
  exact Nat.div_add_mod W n

theorem chunk_exists (chunk extra x : Nat) :
    ∀ n, x < n * chunk + min n extra →
      ∃ c, c < n ∧ c * chunk + min c extra ≤ x ∧ x < (c + 1) * chunk + min (c + 1) extra := by
  intro n
  induction n with
  | zero => intro h; simp at h
  | succ n ih =>
    intro h
    by_cases hx : x < n * chunk + min n extra
    · obtain ⟨c, hc, h1, h2⟩ := ih hx
      exact ⟨c, by omega, h1, h2⟩
    · exact ⟨n, by omega, by omega, h⟩

theorem chunk_unique (chunk extra x c c' : Nat)
    (h1 : c * chunk + min c extra ≤ x) (h2 : x < (c + 1) * chunk + min (c + 1) extra)
    (h1' : c' * chunk + min c' extra ≤ x) (h2' : x < (c' + 1) * chunk + min (c' + 1) extra) :
    c = c' := by
  rcases Nat.lt_trichotomy c c' with h | h | h
  · have := chunk_off_mono chunk extra (show c + 1 ≤ c' from h)
    omega
  · exact h
  · have := chunk_off_mono chunk extra (show c' + 1 ≤ c from h)
    omega

theorem rank_decomp (Px a b : Nat) (hb : b < Px) :
    (a * Px + b) % Px = b ∧ (a * Px + b) / Px = a := by
  constructor
  · rw [Nat.add_comm, Nat.add_mul_mod_self_right]
    exact Nat.mod_eq_of_lt hb
  · rw [Nat.add_comm, Nat.add_mul_div_right _ _ (by omega : 0 < Px), Nat.div_eq_of_lt hb]
    omega

theorem rank_row_lt (Px Py r : Nat) (h : r < Px * Py) : r / Px < Py := by
  have hPx : 0 < Px := by
    rcases Nat.eq_zero_or_pos Px with h0 | h0
    · subst h0; simp at h
    · exact h0
  exact (Nat.div_lt_iff_lt_mul hPx).mpr (by rw [Nat.mul_comm]; exact h)

theorem rank_lt_of_decomp (Px Py a b : Nat) (hb : b < Px) (ha : a < Py) :
    a * Px + b < Px * Py := by
  have h1 : (a + 1) * Px ≤ Py * Px := Nat.mul_le_mul_right Px ha
  rw [Nat.succ_mul] at h1
  rw [Nat.mul_comm Px Py]
  omega

theorem owns_layout_iff (W H r P Px Py x y : Nat) :
    owns (layout W H r P Px Py) x y ↔
      ((r % Px) * (W / Px) + min (r % Px) (W % Px) ≤ x ∧
        x < (r % Px + 1) * (W / Px) + min (r % Px + 1) (W % Px)) ∧
      ((r / Px) * (H / Py) + min (r / Px) (H % Py) ≤ y ∧
        y < (r / Px + 1) * (H / Py) + min (r / Px + 1) (H % Py)) := by
  rw [chunk_off_succ, chunk_off_succ]
  simp only [owns, layout]
  tauto

/-- C1 (decomposition coverage): for `P ≥ 1` and `P ≤ min W H`, with `(Px, Py)` from
`getClosestFactors2 P`, the constructor succeeds on every rank, every global cell of the
`W x H` grid lies in the owned rectangle of exactly one rank `r < P`, and no owned rectangle
contains a cell outside the grid. -/
theorem decomposition_coverage (W H P : Nat) (hP : 1 ≤ P) (_hmin : P ≤ min W H) :
    (∀ r, r < P → ∃ g, create W H r P = some g) ∧
    (∀ x y, x < W → y < H →
      ∃! r, r < P ∧ ∃ g, create W H r P = some g ∧ owns g x y) ∧
    (∀ r g x y, r < P → create W H r P = some g → owns g x y → x < W ∧ y < H) := by
  obtain ⟨Px, Py, hget, hPy, hmul, -, -, -⟩ := getClosestFactors2_spec P hP
  have hPx : 0 < Px := by
    rcases Nat.eq_zero_or_pos Px with h0 | h0
    · subst h0; omega
    · exact h0
  have hcreate : ∀ r, create W H r P = some (layout W H r P Px Py) := by
    intro r; simp [create, hget]
  have hWt := chunk_off_total W Px hPx
  have hHt := chunk_off_total H Py hPy
  refine ⟨fun r _ => ⟨_, hcreate r⟩, ?_, ?_⟩
  · intro x y hx hy
    obtain ⟨c, hc, hc1, hc2⟩ := chunk_exists (W / Px) (W % Px) x Px (by omega)
    obtain ⟨a, ha, ha1, ha2⟩ := chunk_exists (H / Py) (H % Py) y Py (by omega)
    obtain ⟨hmod, hdiv⟩ := rank_decomp Px a c hc
    refine ⟨a * Px + c, ⟨by rw [← hmul]; exact rank_lt_of_decomp Px Py a c hc ha,
      _, hcreate _, ?_⟩, ?_⟩
    · rw [owns_layout_iff, hmod, hdiv]
      exact ⟨⟨hc1, hc2⟩, ha1, ha2⟩
    · rintro r' ⟨_, g, hg, hown⟩
      rw [hcreate] at hg
      obtain rfl := Option.some.inj hg
      rw [owns_layout_iff] at hown
      obtain ⟨⟨h1, h2⟩, h3, h4⟩ := hown
      have e1 := chunk_unique _ _ x _ _ h1 h2 hc1 hc2
      have e2 := chunk_unique _ _ y _ _ h3 h4 ha1 ha2
      rw [← Nat.div_add_mod r' Px, e1, e2, Nat.mul_comm]
  · intro r g x y hr hg hown
    rw [hcreate] at hg
    obtain rfl := Option.some.inj hg
    rw [owns_layout_iff] at hown
    obtain ⟨⟨-, h2⟩, -, h4⟩ := hown
    have hcol : r % Px + 1 ≤ Px := Nat.mod_lt r hPx
    have hrow : r / Px + 1 ≤ Py := rank_row_lt Px Py r (by rw [hmul]; exact hr)
    have m1 := chunk_off_mono (W / Px) (W % Px) hcol
    have m2 := chunk_off_mono (H / Py) (H % Py) hrow
    omega

/-- Witness for C1: `W = 5`, `H = 4`, `P = 4`. -/
theorem decomposition_coverage_witness :
    (1 ≤ 4 ∧ 4 ≤ min 5 4) ∧
    ((∀ r, r < 4 → ∃ g, create 5 4 r 4 = some g) ∧
    (∀ x y, x < 5 → y < 4 →
      ∃! r, r < 4 ∧ ∃ g, create 5 4 r 4 = some g ∧ owns g x y) ∧
    (∀ r g x y, r < 4 → create 5 4 r 4 = some g → owns g x y → x < 5 ∧ y < 4)) :=
  ⟨by decide, decomposition_coverage 5 4 4 (by decide) (by decide)⟩

/-! ### Neighbour table -/

theorem neighbors_layout (W H P Px Py a b : Nat) (hb : b < Px) (d : Neighbor) :
    (layout W H (a * Px + b) P Px Py).neighbors d =
      match d with
      | .NeighborN => if a + 1 = Py then -1 else (((a + 1) * Px + b : Nat) : Int)
      | .NeighborE => if b + 1 = Px then -1 else ((a * Px + (b + 1) : Nat) : Int)
      | .NeighborS => if a = 0 then -1 else (((a - 1) * Px + b : Nat) : Int)
      | .NeighborW => if b = 0 then -1 else ((a * Px + (b - 1) : Nat) : Int)
      | .NeighborNE =>
          if a + 1 = Py ∨ b + 1 = Px then -1 else (((a + 1) * Px + (b + 1) : Nat) : Int)
      | .NeighborNW =>
          if a + 1 = Py ∨ b = 0 then -1 else (((a + 1) * Px + (b - 1) : Nat) : Int)
      | .NeighborSE =>
          if a = 0 ∨ b + 1 = Px then -1 else (((a - 1) * Px + (b + 1) : Nat) : Int)
      | .NeighborSW =>
          if a = 0 ∨ b = 0 then -1 else (((a - 1) * Px + (b - 1) : Nat) : Int) := by
  obtain ⟨hmod, hdiv⟩ := rank_decomp Px a b hb
  have e1 : ((a : Int) = (Py : Int) - 1) ↔ a + 1 = Py := by omega
  have e2 : ((b : Int) = (Px : Int) - 1) ↔ b + 1 = Px := by omega
  have ha : a ≠ 0 → ((a - 1 : Nat) : Int) = (a : Int) - 1 := fun h => by omega
  have hb' : b ≠ 0 → ((b - 1 : Nat) : Int) = (b : Int) - 1 := fun h => by omega
  cases d <;> simp only [layout, hmod, hdiv, e1, e2] <;> split_ifs with h <;> try rfl
  all_goals
    push_neg at h
    push_cast
    try rw [ha (by tauto)]
    try rw [hb' (by tauto)]
    ring

theorem neighbors_layout_symm (W H P Px Py : Nat) (hPx : 0 < Px) (hmul : Px * Py = P)
    (r : Nat) (hr : r < P) (d : Neighbor) (n : Int)
    (h : (layout W H r P Px Py).neighbors d = n) (h0 : 0 ≤ n) :
    n < P ∧ (layout W H n.toNat P Px Py).neighbors (opposite d) = r := by
  obtain ⟨a, b, hb, ha, rfl⟩ : ∃ a b, b < Px ∧ a < Py ∧ r = a * Px + b :=
    ⟨r / Px, r % Px, Nat.mod_lt r hPx, rank_row_lt Px Py r (by rw [hmul]; exact hr),
      by rw [Nat.mul_comm]; exact (Nat.div_add_mod r Px).symm⟩
  rw [neighbors_layout W H P Px Py a b hb] at h
  cases d <;> simp only at h <;> split_ifs at h with hc <;>
    first
      | (exfalso; omega)
      | skip
  all_goals
    subst h
    push_neg at hc
    rw [Int.toNat_natCast]
    refine ⟨by rw [← hmul]; exact_mod_cast rank_lt_of_decomp Px Py _ _ (by omega) (by omega), ?_⟩
    rw [neighbors_layout W H P Px Py _ _ (by omega)]
    simp only [opposite]
    rw [if_neg (by omega)]
    try simp only [Nat.add_sub_cancel]
    try rw [Nat.sub_add_cancel (by omega : 1 ≤ a)]
    try rw [Nat.sub_add_cancel (by omega : 1 ≤ b)]

/-- C6 (neighbour symmetry): for `P ≥ 1`, a rank `r < P` and a direction `d`, if the
constructor gives `r` the neighbour `n ≥ 0` in direction `d`, then `n < P` and the constructor
run for rank `n` gives neighbour `r` in direction `opposite d`; and for ranks `r, n < P`, `r`
lists `n` as its `d`-neighbour iff `n` lists `r` as its `opposite d`-neighbour. -/
theorem neighbor_symmetry (W H P : Nat) (hP : 1 ≤ P) (r : Nat) (hr : r < P) (d : Neighbor) :
    ∃ g, create W H r P = some g ∧
      (∀ n : Int, g.neighbors d = n → 0 ≤ n →
        n < P ∧ ∃ gn, create W H n.toNat P = some gn ∧ gn.neighbors (opposite d) = r) ∧
      (∀ n : Nat, n < P → ∃ gn, create W H n P = some gn ∧
        (g.neighbors d = n ↔ gn.neighbors (opposite d) = r)) := by
  obtain ⟨Px, Py, hget, hPy, hmul, -, -, -⟩ := getClosestFactors2_spec P hP
  have hPx : 0 < Px := by
    rcases Nat.eq_zero_or_pos Px with h0 | h0
    · subst h0; omega
    · exact h0
  have hcreate : ∀ k, create W H k P = some (layout W H k P Px Py) := by
    intro k; simp [create, hget]
  have hopp : ∀ e : Neighbor, opposite (opposite e) = e := by
    intro e; cases e <;> rfl
  refine ⟨_, hcreate r, ?_, ?_⟩
  · intro n hn h0
    obtain ⟨h1, h2⟩ := neighbors_layout_symm W H P Px Py hPx hmul r hr d n hn h0
    exact ⟨h1, _, hcreate _, h2⟩
  · intro n hn
    refine ⟨_, hcreate n, ?_, ?_⟩
    · intro h
      have := (neighbors_layout_symm W H P Px Py hPx hmul r hr d n h (by omega)).2
      rwa [Int.toNat_natCast] at this
    · intro h
      have := (neighbors_layout_symm W H P Px Py hPx hmul n hn (opposite d) r h (by omega)).2
      rwa [Int.toNat_natCast, hopp] at this

/-- Witness for C6: `P = 6`, rank `1`, direction NE. -/
theorem neighbor_symmetry_witness :
    (1 ≤ 6 ∧ 1 < 6) ∧
    ∃ g, create 8 8 1 6 = some g ∧
      (∀ n : Int, g.neighbors .NeighborNE = n → 0 ≤ n →
        n < (6 : Nat) ∧ ∃ gn, create 8 8 n.toNat 6 = some gn ∧
          gn.neighbors (opposite .NeighborNE) = (1 : Nat)) ∧
      (∀ n : Nat, n < 6 → ∃ gn, create 8 8 n 6 = some gn ∧
        (g.neighbors .NeighborNE = n ↔ gn.neighbors (opposite .NeighborNE) = (1 : Nat))) :=
  ⟨by decide, neighbor_symmetry 8 8 6 (by decide) 1 (by decide) .NeighborNE⟩

/-! ### Loops -/

theorem forLoop_nil {σ : Type} (body : Nat → σ → σ) (s : σ) : forLoop [] body s = s := rfl

theorem forLoop_cons {σ : Type} (k : Nat) (ks : List Nat) (body : Nat → σ → σ) (s : σ) :
    forLoop (k :: ks) body s = forLoop ks body (body k s) := rfl

theorem forLoop_append {σ : Type} (ks ks' : List Nat) (body : Nat → σ → σ) (s : σ) :
    forLoop (ks ++ ks') body s = forLoop ks' body (forLoop ks body s) := by
  simp [forLoop, List.foldl_append]

/-- The iteration order of two nested loops, outer counter first. -/
theorem forLoop_nest {σ : Type} (js is : List Nat) (body : Nat → Nat → σ → σ) (s : σ) :
    forLoop js (fun j s => forLoop is (fun i s => body j i s) s) s
      = runNest (loopNest js is) body s := by
  unfold runNest loopNest
  induction js generalizing s with
  | nil => rfl
  | cons j js ih =>
    rw [forLoop_cons, ih, List.flatMap_cons, List.foldl_append]
    congr 1
    simp [forLoop, List.foldl_map]

theorem mem_nest {js is : List Nat} {p : Nat × Nat} :
    p ∈ loopNest js is ↔ p.1 ∈ js ∧ p.2 ∈ is := by
  obtain ⟨a, b⟩ := p
  simp only [loopNest, List.mem_flatMap, List.mem_map, Prod.mk.injEq]
  constructor
  · rintro ⟨j, hj, i, hi, rfl, rfl⟩; exact ⟨hj, hi⟩
  · rintro ⟨hj, hi⟩; exact ⟨a, hj, b, hi, rfl, rfl⟩

theorem nodup_nest {js is : List Nat} (hj : js.Nodup) (hi : is.Nodup) :
    (loopNest js is).Nodup := by
  unfold loopNest
  rw [List.nodup_flatMap]
  refine ⟨fun j _ => hi.map (fun a b h => (Prod.mk.inj h).2), ?_⟩
  refine hj.imp ?_
  intro a b hab
  simp only [Function.onFun, List.disjoint_left, List.mem_map]
  rintro p ⟨i, _, rfl⟩ ⟨i', _, h⟩
  exact hab (Prod.mk.inj h).1.symm

theorem mem_interior {n k : Nat} : k ∈ interior n ↔ 1 ≤ k ∧ k < n - 1 := by
  simp only [interior, List.mem_range'_1]; omega

theorem mem_interiorDown {n k : Nat} : k ∈ interiorDown n ↔ 1 ≤ k ∧ k < n - 1 := by
  simp only [interiorDown, List.mem_reverse, List.mem_range'_1]; omega

theorem nodup_interior (n : Nat) : (interior n).Nodup := List.nodup_range' 1 (n - 2)

theorem nodup_interiorDown (n : Nat) : (interiorDown n).Nodup :=
  List.nodup_reverse.mpr (List.nodup_range' 1 (n - 2))

/-- Distinct cells of a row-major array have distinct linear indices. -/
theorem idx_inj {d x y x' y' : Nat} (hx : x < d) (hx' : x' < d)
    (h : y * d + x = y' * d + x') : y = y' ∧ x = x' := by
  have h1 := (rank_decomp d y x hx)
  have h2 := (rank_decomp d y' x' hx')
  rw [h] at h1
  exact ⟨h1.2.symm.trans h2.2, h1.1.symm.trans h2.1⟩

/-! ### Cell-local sweeps -/

theorem agreeAt_refl {α : Type} (s : Fields α) (k : Nat) : agreeAt s s k := by
  simp [agreeAt]

theorem agreeAt_trans {α : Type} {s t u : Fields α} {k : Nat}
    (h1 : agreeAt s t k) (h2 : agreeAt t u k) : agreeAt s u k := by
  obtain ⟨a1, a2, a3, a4, a5, a6, a7, a8, a9, a10, a11, a12, a13, a14, a15⟩ := h1
  obtain ⟨b1, b2, b3, b4, b5, b6, b7, b8, b9, b10, b11, b12, b13, b14, b15⟩ := h2
  exact ⟨a1.trans b1, a2.trans b2, a3.trans b3, a4.trans b4, a5.trans b5, a6.trans b6,
    a7.trans b7, a8.trans b8, a9.trans b9, a10.trans b10, a11.trans b11, a12.trans b12,
    a13.trans b13, a14.trans b14, a15.trans b15⟩

theorem foldl_agree_of_ne {α ι : Type} (step : ι → Fields α → Fields α) (idx : Nat)
    (L : List ι) (h : ∀ q ∈ L, ∀ s, agreeAt (step q s) s idx) (s : Fields α) :
    agreeAt (L.foldl (fun s q => step q s) s) s idx := by
  induction L generalizing s with
  | nil => exact agreeAt_refl s idx
  | cons q L ih =>
    rw [List.foldl_cons]
    exact agreeAt_trans (ih (fun q' hq' => h q' (List.mem_cons_of_mem _ hq')) _)
      (h q (List.mem_cons_self _ _) s)

/-- A sweep whose step at `p` reads and writes one cell only leaves, at that cell, the result
of the single step at `p`. -/
theorem foldl_cell_local {α ι : Type} (step : ι → Fields α → Fields α) (idx : Nat) (p : ι)
    (L : List ι) (hnd : L.Nodup) (hp : p ∈ L)
    (hother : ∀ q ∈ L, q ≠ p → ∀ s, agreeAt (step q s) s idx)
    (hcong : ∀ s t, agreeAt s t idx → agreeAt (step p s) (step p t) idx) (s : Fields α) :
    agreeAt (L.foldl (fun s q => step q s) s) (step p s) idx := by
  induction L generalizing s with
  | nil => simp at hp
  | cons q L ih =>
    rw [List.foldl_cons]
    have hnd' := List.nodup_cons.mp hnd
    by_cases hq : q = p
    · subst hq
      refine foldl_agree_of_ne step idx L ?_ _
      intro q' hq' t
      exact hother q' (List.mem_cons_of_mem _ hq') (fun e => hnd'.1 (e ▸ hq')) t
    · have hpL : p ∈ L := by
        rcases List.mem_cons.mp hp with h | h
        · exact absurd h.symm hq
        · exact h
      refine agreeAt_trans (ih hnd'.2 hpL
        (fun q' hq' => hother q' (List.mem_cons_of_mem _ hq')) _) ?_
      exact hcong _ _ (hother q (List.mem_cons_self _ _) hq s)

theorem collideCell_agree_of_ne (omega : K) (k idx : Nat) (h : k ≠ idx) (s : Fields K) :
    agreeAt (collideCell omega k s) s idx := by
  simp [agreeAt, collideCell, Function.update_noteq h.symm]

theorem collideCell_congr (omega : K) (idx : Nat) (s t : Fields K) (h : agreeAt s t idx) :
    agreeAt (collideCell omega idx s) (collideCell omega idx t) idx := by
  obtain ⟨a1, a2, a3, a4, a5, a6, a7, a8, a9, a10, a11, a12, a13, a14, a15⟩ := h
  simp only [agreeAt, collideCell, Function.update_same, a1, a2, a3, a4, a5, a6, a7, a8, a9,
    a13, a14, a15, and_self]

/-- At an interior cell, `collide` leaves what the loop body run once on that cell leaves. -/
theorem collide_agree (dim_x dim_y x y : Nat) (h : isInterior dim_x dim_y x y)
    (viscosity : K) (s : Fields K) :
    agreeAt (collide dim_x dim_y viscosity s)
      (collideCell (1.0 / (3.0 * viscosity + 0.5)) (y * dim_x + x) s) (y * dim_x + x) := by
  obtain ⟨hx1, hx2, hy1, hy2⟩ := h
  have hflat := forLoop_nest (interior dim_y) (interior dim_x)
    (fun j i s => collideCell (1.0 / (3.0 * viscosity + 0.5)) (j * dim_x + i) s) s
  have hcol : collide dim_x dim_y viscosity s = _ := hflat
  rw [hcol]
  unfold runNest
  refine foldl_cell_local
    (fun (p : Nat × Nat) s => collideCell (1.0 / (3.0 * viscosity + 0.5)) (p.1 * dim_x + p.2) s)
    (y * dim_x + x) (y, x) _ (nodup_nest (nodup_interior _) (nodup_interior _))
    (mem_nest.mpr ⟨mem_interior.mpr ⟨hy1, hy2⟩, mem_interior.mpr ⟨hx1, hx2⟩⟩) ?_ ?_ s
  · intro q hq hne t
    obtain ⟨-, hqi⟩ := mem_nest.mp hq
    have hqi' := mem_interior.mp hqi
    refine collideCell_agree_of_ne _ _ _ ?_ t
    intro e
    obtain ⟨e1, e2⟩ := idx_inj (by omega) (by omega) e
    exact hne (Prod.ext e1 e2)
  · intro t u htu
    exact collideCell_congr _ _ t u htu

/-! ### Equilibrium and collision -/

theorem setEquilibrium_values (dim_x x y : Nat) (ux uy rho : K) (s : Fields K) :
    (setEquilibrium dim_x x y ux uy rho s).f_0 (y * dim_x + x)
        = specEquilibrium (4 / 9) 0 0 rho ux uy ∧
    (setEquilibrium dim_x x y ux uy rho s).f_E (y * dim_x + x)
        = specEquilibrium (1 / 9) 1 0 rho ux uy ∧
    (setEquilibrium dim_x x y ux uy rho s).f_W (y * dim_x + x)
        = specEquilibrium (1 / 9) (-1) 0 rho ux uy ∧
    (setEquilibrium dim_x x y ux uy rho s).f_N (y * dim_x + x)
        = specEquilibrium (1 / 9) 0 1 rho ux uy ∧
    (setEquilibrium dim_x x y ux uy rho s).f_S (y * dim_x + x)
        = specEquilibrium (1 / 9) 0 (-1) rho ux uy ∧
    (setEquilibrium dim_x x y ux uy rho s).f_NE (y * dim_x + x)
        = specEquilibrium (1 / 36) 1 1 rho ux uy ∧
    (setEquilibrium dim_x x y ux uy rho s).f_NW (y * dim_x + x)
        = specEquilibrium (1 / 36) (-1) 1 rho ux uy ∧
    (setEquilibrium dim_x x y ux uy rho s).f_SE (y * dim_x + x)
        = specEquilibrium (1 / 36) 1 (-1) rho ux uy ∧
    (setEquilibrium dim_x x y ux uy rho s).f_SW (y * dim_x + x)
        = specEquilibrium (1 / 36) (-1) (-1) rho ux uy := by
  refine ⟨?_, ?_, ?_, ?_, ?_, ?_, ?_, ?_, ?_⟩ <;>
  · simp only [setEquilibrium, Function.update_same, specEquilibrium]
    try ring

/-- C8 (`setEquilibrium`): the nine channels of cell `(x, y)` are overwritten with the D2Q9
equilibrium `w_k * rho * (1 + 3 (e_k.u) + 4.5 (e_k.u)^2 - 1.5 |u|^2)` for the lattice
velocities and weights of the specification, `rho`, `ux`, `uy` are stored in `density`,
`velocity_x`, `velocity_y` of that cell, and no array changes at any other linear index
(`vorticity`, `speed` and `barrier` do not change at all). -/
theorem setEquilibrium_spec (dim_x x y : Nat) (ux uy rho : K) (s : Fields K) :
    (setEquilibrium dim_x x y ux uy rho s).f_0 (y * dim_x + x)
        = specEquilibrium (4 / 9) 0 0 rho ux uy ∧
    (setEquilibrium dim_x x y ux uy rho s).f_E (y * dim_x + x)
        = specEquilibrium (1 / 9) 1 0 rho ux uy ∧
    (setEquilibrium dim_x x y ux uy rho s).f_W (y * dim_x + x)
        = specEquilibrium (1 / 9) (-1) 0 rho ux uy ∧
    (setEquilibrium dim_x x y ux uy rho s).f_N (y * dim_x + x)
        = specEquilibrium (1 / 9) 0 1 rho ux uy ∧
    (setEquilibrium dim_x x y ux uy rho s).f_S (y * dim_x + x)
        = specEquilibrium (1 / 9) 0 (-1) rho ux uy ∧
    (setEquilibrium dim_x x y ux uy rho s).f_NE (y * dim_x + x)
        = specEquilibrium (1 / 36) 1 1 rho ux uy ∧
    (setEquilibrium dim_x x y ux uy rho s).f_NW (y * dim_x + x)
        = specEquilibrium (1 / 36) (-1) 1 rho ux uy ∧
    (setEquilibrium dim_x x y ux uy rho s).f_SE (y * dim_x + x)
        = specEquilibrium (1 / 36) 1 (-1) rho ux uy ∧
    (setEquilibrium dim_x x y ux uy rho s).f_SW (y * dim_x + x)
        = specEquilibrium (1 / 36) (-1) (-1) rho ux uy ∧
    (setEquilibrium dim_x x y ux uy rho s).density (y * dim_x + x) = rho ∧
    (setEquilibrium dim_x x y ux uy rho s).velocity_x (y * dim_x + x) = ux ∧
    (setEquilibrium dim_x x y ux uy rho s).velocity_y (y * dim_x + x) = uy ∧
    (∀ k, k ≠ y * dim_x + x → agreeAt (setEquilibrium dim_x x y ux uy rho s) s k) ∧
    (setEquilibrium dim_x x y ux uy rho s).vorticity = s.vorticity ∧
    (setEquilibrium dim_x x y ux uy rho s).speed = s.speed ∧
    (setEquilibrium dim_x x y ux uy rho s).barrier = s.barrier := by
  obtain ⟨v0, vE, vW, vN, vS, vNE, vNW, vSE, vSW⟩ :=
    setEquilibrium_values dim_x x y ux uy rho s
  refine ⟨v0, vE, vW, vN, vS, vNE, vNW, vSE, vSW, ?_, ?_, ?_, ?_, rfl, rfl, rfl⟩
  · simp only [setEquilibrium, Function.update_same]
  · simp only [setEquilibrium, Function.update_same]
  · simp only [setEquilibrium, Function.update_same]
  · intro k hk
    simp [agreeAt, setEquilibrium, Function.update_noteq hk]

/-- The values the loop body of `collide` leaves at its own cell, in terms of the density
`ρ` and velocity `(u, v)` it computes. -/
theorem collideCell_values (omega : K) (idx : Nat) (s : Fields K) (ρ u v : K)
    (hρ : s.f_0 idx + s.f_N idx + s.f_S idx + s.f_E idx + s.f_W idx + s.f_NW idx
      + s.f_NE idx + s.f_SW idx + s.f_SE idx = ρ)
    (hu : (s.f_E idx + s.f_NE idx + s.f_SE idx - s.f_W idx - s.f_NW idx - s.f_SW idx) / ρ = u)
    (hv : (s.f_N idx + s.f_NE idx + s.f_NW idx - s.f_S idx - s.f_SE idx - s.f_SW idx) / ρ = v) :
    (collideCell omega idx s).density idx = ρ ∧
    (collideCell omega idx s).velocity_x idx = u ∧
    (collideCell omega idx s).velocity_y idx = v ∧
    (collideCell omega idx s).f_0 idx = s.f_0 idx +
      omega * (4 / 9 * ρ * (1 - 1.5 * (u * u + v * v)) - s.f_0 idx) ∧
    (collideCell omega idx s).f_E idx = s.f_E idx +
      omega * (1 / 9 * ρ * (1 + 3 * u + 4.5 * (u * u) - 1.5 * (u * u + v * v)) - s.f_E idx) ∧
    (collideCell omega idx s).f_W idx = s.f_W idx +
      omega * (1 / 9 * ρ * (1 - 3 * u + 4.5 * (u * u) - 1.5 * (u * u + v * v)) - s.f_W idx) ∧
    (collideCell omega idx s).f_N idx = s.f_N idx +
      omega * (1 / 9 * ρ * (1 + 3 * v + 4.5 * (v * v) - 1.5 * (u * u + v * v)) - s.f_N idx) ∧
    (collideCell omega idx s).f_S idx = s.f_S idx +
      omega * (1 / 9 * ρ * (1 - 3 * v + 4.5 * (v * v) - 1.5 * (u * u + v * v)) - s.f_S idx) ∧
    (collideCell omega idx s).f_NE idx = s.f_NE idx +
      omega * (1 / 36 * ρ * (1 + 3 * u + 3 * v + 4.5 * (u * u + v * v + 2 * u * v)
        - 1.5 * (u * u + v * v)) - s.f_NE idx) ∧
    (collideCell omega idx s).f_SE idx = s.f_SE idx +
      omega * (1 / 36 * ρ * (1 + 3 * u - 3 * v + 4.5 * (u * u + v * v - 2 * u * v)
        - 1.5 * (u * u + v * v)) - s.f_SE idx) ∧
    (collideCell omega idx s).f_NW idx = s.f_NW idx +
      omega * (1 / 36 * ρ * (1 - 3 * u + 3 * v + 4.5 * (u * u + v * v - 2 * u * v)
        - 1.5 * (u * u + v * v)) - s.f_NW idx) ∧
    (collideCell omega idx s).f_SW idx = s.f_SW idx +
      omega * (1 / 36 * ρ * (1 - 3 * u - 3 * v + 4.5 * (u * u + v * v + 2 * u * v)
        - 1.5 * (u * u + v * v)) - s.f_SW idx) := by
  subst hρ
  subst hu
  subst hv
  simp only [collideCell, Function.update_same]
  norm_num

/-- C9 (`collide`, per-cell update): at every interior cell, with `rho` the sum of the nine
pre-collision channels, `ux`, `uy` the two momenta divided by `rho` and
`omega = 1 / (3 nu + 0.5)`, `collide` stores `rho`, `ux`, `uy` in `density`, `velocity_x`,
`velocity_y` and replaces each channel `f_k` by `f_k + omega * (f_k^eq - f_k)`, where `f_k^eq`
is the value `setEquilibrium` writes for `(ux, uy, rho)`. -/
theorem collide_cell_update (dim_x dim_y x y : Nat) (h : isInterior dim_x dim_y x y)
    (viscosity : K) (s : Fields K) :
    let idx := y * dim_x + x
    let rho := s.f_0 idx + s.f_N idx + s.f_E idx + s.f_S idx + s.f_W idx + s.f_NE idx
      + s.f_NW idx + s.f_SE idx + s.f_SW idx
    let ux := (s.f_E idx + s.f_NE idx + s.f_SE idx - s.f_W idx - s.f_NW idx - s.f_SW idx) / rho
    let uy := (s.f_N idx + s.f_NE idx + s.f_NW idx - s.f_S idx - s.f_SE idx - s.f_SW idx) / rho
    let omega := 1 / (3 * viscosity + 0.5)
    let e := setEquilibrium dim_x x y ux uy rho s
    let s' := collide dim_x dim_y viscosity s
    s'.density idx = rho ∧ s'.velocity_x idx = ux ∧ s'.velocity_y idx = uy ∧
    s'.f_0 idx = s.f_0 idx + omega * (e.f_0 idx - s.f_0 idx) ∧
    s'.f_N idx = s.f_N idx + omega * (e.f_N idx - s.f_N idx) ∧
    s'.f_E idx = s.f_E idx + omega * (e.f_E idx - s.f_E idx) ∧
    s'.f_S idx = s.f_S idx + omega * (e.f_S idx - s.f_S idx) ∧
    s'.f_W idx = s.f_W idx + omega * (e.f_W idx - s.f_W idx) ∧
    s'.f_NE idx = s.f_NE idx + omega * (e.f_NE idx - s.f_NE idx) ∧
    s'.f_NW idx = s.f_NW idx + omega * (e.f_NW idx - s.f_NW idx) ∧
    s'.f_SE idx = s.f_SE idx + omega * (e.f_SE idx - s.f_SE idx) ∧
    s'.f_SW idx = s.f_SW idx + omega * (e.f_SW idx - s.f_SW idx) := by
  intro idx rho ux uy omega e s'
  have hom : (1.0 / (3.0 * viscosity + 0.5) : K) = omega := by norm_num [omega]
  have hag := collide_agree dim_x dim_y x y h viscosity s
  rw [hom] at hag
  obtain ⟨a1, a2, a3, a4, a5, a6, a7, a8, a9, a10, a11, a12, -, -, -⟩ := hag
  obtain ⟨c1, c2, c3, c4, c5, c6, c7, c8, c9, c10, c11, c12⟩ :=
    collideCell_values omega idx s rho ux uy (by ring) rfl rfl
  refine ⟨a10.trans c1, a11.trans c2, a12.trans c3, a1.trans (c4.trans ?_),
    a2.trans (c7.trans ?_), a3.trans (c5.trans ?_), a4.trans (c8.trans ?_),
    a5.trans (c6.trans ?_), a6.trans (c9.trans ?_), a7.trans (c11.trans ?_),
    a8.trans (c10.trans ?_), a9.trans (c12.trans ?_)⟩ <;>
  · simp only [e, setEquilibrium, Function.update_same, idx]
    norm_num
    try ring

/-- Witness for C9: the centre cell of a 3 x 3 tile whose arrays all hold `1`. -/
theorem collide_cell_update_witness :
    isInterior 3 3 1 1 ∧
    (let s : Fields ℚ := uniformFields 1 false
    let idx := 1 * 3 + 1
    let rho := s.f_0 idx + s.f_N idx + s.f_E idx + s.f_S idx + s.f_W idx + s.f_NE idx
      + s.f_NW idx + s.f_SE idx + s.f_SW idx
    let ux := (s.f_E idx + s.f_NE idx + s.f_SE idx - s.f_W idx - s.f_NW idx - s.f_SW idx) / rho
    let uy := (s.f_N idx + s.f_NE idx + s.f_NW idx - s.f_S idx - s.f_SE idx - s.f_SW idx) / rho
    let omega := 1 / (3 * (1 : ℚ) + 0.5)
    let e := setEquilibrium 3 1 1 ux uy rho s
    let s' := collide 3 3 (1 : ℚ) s
    s'.density idx = rho ∧ s'.velocity_x idx = ux ∧ s'.velocity_y idx = uy ∧
    s'.f_0 idx = s.f_0 idx + omega * (e.f_0 idx - s.f_0 idx) ∧
    s'.f_N idx = s.f_N idx + omega * (e.f_N idx - s.f_N idx) ∧
    s'.f_E idx = s.f_E idx + omega * (e.f_E idx - s.f_E idx) ∧
    s'.f_S idx = s.f_S idx + omega * (e.f_S idx - s.f_S idx) ∧
    s'.f_W idx = s.f_W idx + omega * (e.f_W idx - s.f_W idx) ∧
    s'.f_NE idx = s.f_NE idx + omega * (e.f_NE idx - s.f_NE idx) ∧
    s'.f_NW idx = s.f_NW idx + omega * (e.f_NW idx - s.f_NW idx) ∧
    s'.f_SE idx = s.f_SE idx + omega * (e.f_SE idx - s.f_SE idx) ∧
    s'.f_SW idx = s.f_SW idx + omega * (e.f_SW idx - s.f_SW idx)) :=
  ⟨by decide, collide_cell_update 3 3 1 1 (by decide) (1 : ℚ) (uniformFields 1 false)⟩

/-- C4 (equilibrium fixed point): in exact arithmetic, for an interior cell `(x, y)`, every
`ux`, `uy`, every `rho ≠ 0` and every viscosity `nu > 0`, if `setEquilibrium x y ux uy rho` has
just been applied, then `collide` leaves the nine channels of the cell unchanged and the
density and velocity it recomputes are `rho`, `ux`, `uy`. -/
theorem equilibrium_fixed_point (dim_x dim_y x y : Nat) (h : isInterior dim_x dim_y x y)
    (ux uy rho viscosity : K) (hrho : rho ≠ 0) (_hnu : 0 < viscosity) (s : Fields K) :
    let idx := y * dim_x + x
    let s1 := setEquilibrium dim_x x y ux uy rho s
    let s2 := collide dim_x dim_y viscosity s1
    s2.f_0 idx = s1.f_0 idx ∧ s2.f_N idx = s1.f_N idx ∧ s2.f_E idx = s1.f_E idx ∧
    s2.f_S idx = s1.f_S idx ∧ s2.f_W idx = s1.f_W idx ∧ s2.f_NE idx = s1.f_NE idx ∧
    s2.f_NW idx = s1.f_NW idx ∧ s2.f_SE idx = s1.f_SE idx ∧ s2.f_SW idx = s1.f_SW idx ∧
    s2.density idx = rho ∧ s2.velocity_x idx = ux ∧ s2.velocity_y idx = uy := by
  intro idx s1 s2
  obtain ⟨a1, a2, a3, a4, a5, a6, a7, a8, a9, a10, a11, a12, -, -, -⟩ :=
    collide_agree dim_x dim_y x y h viscosity s1
  obtain ⟨v0, vE, vW, vN, vS, vNE, vNW, vSE, vSW⟩ :
      s1.f_0 idx = specEquilibrium (4 / 9) 0 0 rho ux uy ∧
      s1.f_E idx = specEquilibrium (1 / 9) 1 0 rho ux uy ∧
      s1.f_W idx = specEquilibrium (1 / 9) (-1) 0 rho ux uy ∧
      s1.f_N idx = specEquilibrium (1 / 9) 0 1 rho ux uy ∧
      s1.f_S idx = specEquilibrium (1 / 9) 0 (-1) rho ux uy ∧
      s1.f_NE idx = specEquilibrium (1 / 36) 1 1 rho ux uy ∧
      s1.f_NW idx = specEquilibrium (1 / 36) (-1) 1 rho ux uy ∧
      s1.f_SE idx = specEquilibrium (1 / 36) 1 (-1) rho ux uy ∧
      s1.f_SW idx = specEquilibrium (1 / 36) (-1) (-1) rho ux uy :=
    setEquilibrium_values dim_x x y ux uy rho s
  have hsum : s1.f_0 idx + s1.f_N idx + s1.f_S idx + s1.f_E idx + s1.f_W idx + s1.f_NW idx
      + s1.f_NE idx + s1.f_SW idx + s1.f_SE idx = rho := by
    rw [v0, vE, vW, vN, vS, vNE, vNW, vSE, vSW]
    simp only [specEquilibrium]
    norm_num
    ring
  have hu : (s1.f_E idx + s1.f_NE idx + s1.f_SE idx - s1.f_W idx - s1.f_NW idx
      - s1.f_SW idx) / rho = ux := by
    rw [vE, vW, vNE, vNW, vSE, vSW]
    simp only [specEquilibrium]
    field_simp
    ring
  have hv : (s1.f_N idx + s1.f_NE idx + s1.f_NW idx - s1.f_S idx - s1.f_SE idx
      - s1.f_SW idx) / rho = uy := by
    rw [vN, vS, vNE, vNW, vSE, vSW]
    simp only [specEquilibrium]
    field_simp
    ring
  obtain ⟨c1, c2, c3, c4, c5, c6, c7, c8, c9, c10, c11, c12⟩ :=
    collideCell_values (1.0 / (3.0 * viscosity + 0.5)) idx s1 rho ux uy hsum hu hv
  rw [v0] at c4
  rw [vE] at c5
  rw [vW] at c6
  rw [vN] at c7
  rw [vS] at c8
  rw [vNE] at c9
  rw [vSE] at c10
  rw [vNW] at c11
  rw [vSW] at c12
  rw [v0, vE, vW, vN, vS, vNE, vNW, vSE, vSW]
  refine ⟨a1.trans (c4.trans ?_), a2.trans (c7.trans ?_), a3.trans (c5.trans ?_),
    a4.trans (c8.trans ?_), a5.trans (c6.trans ?_), a6.trans (c9.trans ?_),
    a7.trans (c11.trans ?_), a8.trans (c10.trans ?_), a9.trans (c12.trans ?_),
    a10.trans c1, a11.trans c2, a12.trans c3⟩ <;>
  · simp only [specEquilibrium]
    ring

/-- Witness for C4: the centre cell of a 3 x 3 tile, `u = (1/10, 0)`, `rho = 1`,
`nu = 1/50`. -/
theorem equilibrium_fixed_point_witness :
    (isInterior 3 3 1 1 ∧ (1 : ℚ) ≠ 0 ∧ (0 : ℚ) < 1 / 50) ∧
    (let idx := 1 * 3 + 1
    let s1 := setEquilibrium 3 1 1 (1 / 10 : ℚ) 0 1 (uniformFields 0 false)
    let s2 := collide 3 3 (1 / 50 : ℚ) s1
    s2.f_0 idx = s1.f_0 idx ∧ s2.f_N idx = s1.f_N idx ∧ s2.f_E idx = s1.f_E idx ∧
    s2.f_S idx = s1.f_S idx ∧ s2.f_W idx = s1.f_W idx ∧ s2.f_NE idx = s1.f_NE idx ∧
    s2.f_NW idx = s1.f_NW idx ∧ s2.f_SE idx = s1.f_SE idx ∧ s2.f_SW idx = s1.f_SW idx ∧
    s2.density idx = 1 ∧ s2.velocity_x idx = 1 / 10 ∧ s2.velocity_y idx = 0) :=
  ⟨⟨by decide, by norm_num, by norm_num⟩,
    equilibrium_fixed_point 3 3 1 1 (by decide) (1 / 10 : ℚ) 0 1 (1 / 50) (by norm_num)
      (by norm_num) (uniformFields 0 false)⟩

/-! ### In-place copies -/

theorem applyCopies_of_not_written {α : Type} (ops : List (Nat × Nat)) (f : Nat → α) (k : Nat)
    (h : ∀ o ∈ ops, o.1 ≠ k) : applyCopies ops f k = f k := by
  induction ops generalizing f with
  | nil => rfl
  | cons o ops ih =>
    have h1 : applyCopies (o :: ops) f = applyCopies ops (Function.update f o.1 (f o.2)) := rfl
    rw [h1, ih _ (fun o' ho' => h o' (List.mem_cons_of_mem _ ho'))]
    exact Function.update_noteq (h o (List.mem_cons_self _ _)).symm _ _

theorem applyCopies_fresh {α : Type} (ops : List (Nat × Nat)) (f : Nat → α)
    (hp : ops.Pairwise (fun a b => b.2 ≠ a.1 ∧ b.1 ≠ a.1)) :
    ∀ o ∈ ops, applyCopies ops f o.1 = f o.2 := by
  induction ops generalizing f with
  | nil => intro o ho; simp at ho
  | cons a ops ih =>
    intro o ho
    have h1 : applyCopies (a :: ops) f = applyCopies ops (Function.update f a.1 (f a.2)) := rfl
    obtain ⟨ha, hrest⟩ := List.pairwise_cons.mp hp
    rw [h1]
    rcases List.mem_cons.mp ho with rfl | hmem
    · rw [applyCopies_of_not_written _ _ _ (fun o' ho' => (ha o' ho').2)]
      exact Function.update_same _ _ _
    · rw [ih _ hrest o hmem]
      exact Function.update_noteq (ha o hmem).1 _ _

theorem applyCopies_prefix {α : Type} (pre post : List (Nat × Nat)) (o : Nat × Nat)
    (f : Nat → α)
    (hp : (pre ++ o :: post).Pairwise (fun a b => b.2 ≠ a.1 ∧ b.1 ≠ a.1)) :
    applyCopies pre f o.2 = f o.2 := by
  refine applyCopies_of_not_written pre f o.2 ?_
  intro a ha
  have h := (List.pairwise_append.mp hp).2.2 a ha o (List.mem_cons_self _ _)
  exact fun e => h.1 e.symm

theorem runNest_cons {σ : Type} (p : Nat × Nat) (L : List (Nat × Nat))
    (body : Nat → Nat → σ → σ) (s : σ) :
    runNest (p :: L) body s = runNest L body (body p.1 p.2 s) := rfl

theorem applyCopies_map_cons {α ι : Type} (q : ι) (L : List ι) (g : ι → Nat × Nat)
    (f : Nat → α) :
    applyCopies ((q :: L).map g) f
      = applyCopies (L.map g) (Function.update f (g q).1 (f (g q).2)) := rfl

theorem pairwise_loopNest {R : Nat × Nat → Nat × Nat → Prop} {js is : List Nat}
    {Rj Ri : Nat → Nat → Prop} (hj : js.Pairwise Rj) (hi : is.Pairwise Ri)
    (h : ∀ j ∈ js, ∀ j' ∈ js, ∀ i ∈ is, ∀ i' ∈ is,
      (Rj j j' ∨ (j = j' ∧ Ri i i')) → R (j, i) (j', i')) :
    (loopNest js is).Pairwise R := by
  unfold loopNest
  rw [List.pairwise_flatMap]
  constructor
  · intro j hjm
    rw [List.pairwise_map]
    exact hi.imp_of_mem (fun hi1 hi2 r => h j hjm j hjm _ hi1 _ hi2 (Or.inr ⟨rfl, r⟩))
  · refine hj.imp_of_mem ?_
    intro j j' hj1 hj2 r p hp q hq
    obtain ⟨i, hi1, rfl⟩ := List.mem_map.mp hp
    obtain ⟨i', hi2, rfl⟩ := List.mem_map.mp hq
    exact h j hj1 j' hj2 i hi1 i' hi2 (Or.inl r)

theorem pairwise_interior (n : Nat) : (interior n).Pairwise (fun a b => a < b) :=
  List.pairwise_lt_range' 1 (n - 2)

theorem pairwise_interiorDown (n : Nat) : (interiorDown n).Pairwise (fun a b => b < a) :=
  List.pairwise_reverse.mpr (List.pairwise_lt_range' 1 (n - 2))

/-- Facts that make row-major index arithmetic linear in the products `j * d`. -/
theorem mul_facts (d j j' : Nat) :
    (1 ≤ j → (j - 1) * d + d = j * d) ∧ (j + 1) * d = j * d + d ∧
      (j < j' → j * d + d ≤ j' * d) := by
  refine ⟨?_, Nat.succ_mul j d, ?_⟩
  · intro h
    obtain ⟨k, rfl⟩ : ∃ k, j = k + 1 := ⟨j - 1, by omega⟩
    simp [Nat.succ_mul]
  · intro h
    have := Nat.mul_le_mul_right d (show j + 1 ≤ j' from h)
    rw [Nat.succ_mul] at this
    exact this

/-- A sweep over interior cells that writes cell `(i, j)` and reads cell `(ri i, rj j)` never
reads a cell written by an earlier iteration, and writes no cell twice, as soon as no earlier
iteration sits on the cell read. -/
theorem pairwise_ops (d dy : Nat) {js is : List Nat} {Rj Ri : Nat → Nat → Prop}
    (hj : js.Pairwise Rj) (hi : is.Pairwise Ri)
    (hjs : ∀ j ∈ js, 1 ≤ j ∧ j < dy - 1) (his : ∀ i ∈ is, 1 ≤ i ∧ i < d - 1)
    (rj ri : Nat → Nat) (rd : Nat × Nat → Nat)
    (hrd : ∀ j i, 1 ≤ j → 1 ≤ i → i < d - 1 → rd (j, i) = rj j * d + ri i ∧ ri i < d)
    (hsafe : ∀ j j' i i', 1 ≤ j → 1 ≤ j' → 1 ≤ i → 1 ≤ i' →
      (Rj j j' ∨ (j = j' ∧ Ri i i')) → ¬ (rj j' = j ∧ ri i' = i) ∧ ¬ (j' = j ∧ i' = i)) :
    ((loopNest js is).map fun p => (p.1 * d + p.2, rd p)).Pairwise
      (fun a b => b.2 ≠ a.1 ∧ b.1 ≠ a.1) := by
  rw [List.pairwise_map]
  refine pairwise_loopNest hj hi ?_
  intro j hjm j' hjm' i him i' him' hord
  obtain ⟨hj1, -⟩ := hjs j hjm
  obtain ⟨hj1', -⟩ := hjs j' hjm'
  obtain ⟨hi1, hi2⟩ := his i him
  obtain ⟨hi1', hi2'⟩ := his i' him'
  obtain ⟨hs1, hs2⟩ := hsafe j j' i i' hj1 hj1' hi1 hi1' hord
  obtain ⟨e, hlt⟩ := hrd j' i' hj1' hi1' hi2'
  constructor
  · intro h
    simp only [] at h
    rw [e] at h
    obtain ⟨e1, e2⟩ := idx_inj hlt (by omega) h
    exact hs1 ⟨e1, e2⟩
  · intro h
    simp only [] at h
    obtain ⟨e1, e2⟩ := idx_inj (by omega) (by omega) h
    exact hs2 ⟨e1, e2⟩

theorem mem_ops_fresh {α : Type} (d : Nat) (L : List (Nat × Nat)) (rd : Nat × Nat → Nat)
    (hp : (L.map fun p => (p.1 * d + p.2, rd p)).Pairwise (fun a b => b.2 ≠ a.1 ∧ b.1 ≠ a.1))
    (f : Nat → α) (p : Nat × Nat) (hmem : p ∈ L) :
    applyCopies (L.map fun p => (p.1 * d + p.2, rd p)) f (p.1 * d + p.2) = f (rd p) :=
  applyCopies_fresh _ f hp (p.1 * d + p.2, rd p) (List.mem_map.mpr ⟨p, hmem, rfl⟩)

theorem prefix_ops_fresh {α : Type} (d : Nat) (L : List (Nat × Nat)) (rd : Nat × Nat → Nat)
    (hp : (L.map fun p => (p.1 * d + p.2, rd p)).Pairwise (fun a b => b.2 ≠ a.1 ∧ b.1 ≠ a.1))
    (f : Nat → α) (pre post : List (Nat × Nat)) (p : Nat × Nat) (hL : L = pre ++ p :: post) :
    applyCopies (pre.map fun p => (p.1 * d + p.2, rd p)) f (rd p) = f (rd p) := by
  subst hL
  rw [List.map_append, List.map_cons] at hp
  exact applyCopies_prefix _ _ (p.1 * d + p.2, rd p) f hp

/-! ### The four sweeps of `stream` -/

theorem runNest_streamNW {α : Type} (d : Nat) (L : List (Nat × Nat)) (s : Fields α) :
    runNest L (streamNWBody d) s = { s with
      f_N := applyCopies (L.map fun p => (p.1 * d + p.2, (p.1 - 1) * d + p.2)) s.f_N
      f_NW := applyCopies (L.map fun p => (p.1 * d + p.2, (p.1 - 1) * d + p.2 + 1)) s.f_NW } := by
  induction L generalizing s with
  | nil => rfl
  | cons p L ih => rw [runNest_cons, ih, applyCopies_map_cons, applyCopies_map_cons]; rfl

theorem runNest_streamNE {α : Type} (d : Nat) (L : List (Nat × Nat)) (s : Fields α) :
    runNest L (streamNEBody d) s = { s with
      f_E := applyCopies (L.map fun p => (p.1 * d + p.2, p.1 * d + p.2 - 1)) s.f_E
      f_NE := applyCopies (L.map fun p => (p.1 * d + p.2, (p.1 - 1) * d + p.2 - 1)) s.f_NE } := by
  induction L generalizing s with
  | nil => rfl
  | cons p L ih => rw [runNest_cons, ih, applyCopies_map_cons, applyCopies_map_cons]; rfl

theorem runNest_streamSE {α : Type} (d : Nat) (L : List (Nat × Nat)) (s : Fields α) :
    runNest L (streamSEBody d) s = { s with
      f_S := applyCopies (L.map fun p => (p.1 * d + p.2, (p.1 + 1) * d + p.2)) s.f_S
      f_SE := applyCopies (L.map fun p => (p.1 * d + p.2, (p.1 + 1) * d + p.2 - 1)) s.f_SE } := by
  induction L generalizing s with
  | nil => rfl
  | cons p L ih => rw [runNest_cons, ih, applyCopies_map_cons, applyCopies_map_cons]; rfl

theorem runNest_streamSW {α : Type} (d : Nat) (L : List (Nat × Nat)) (s : Fields α) :
    runNest L (streamSWBody d) s = { s with
      f_W := applyCopies (L.map fun p => (p.1 * d + p.2, p.1 * d + p.2 + 1)) s.f_W
      f_SW := applyCopies (L.map fun p => (p.1 * d + p.2, (p.1 + 1) * d + p.2 + 1)) s.f_SW } := by
  induction L generalizing s with
  | nil => rfl
  | cons p L ih => rw [runNest_cons, ih, applyCopies_map_cons, applyCopies_map_cons]; rfl

theorem ops_N (d dy : Nat) :
    ((loopNest (interiorDown dy) (interior d)).map
      fun p => (p.1 * d + p.2, (p.1 - 1) * d + p.2)).Pairwise
      (fun a b => b.2 ≠ a.1 ∧ b.1 ≠ a.1) :=
  pairwise_ops d dy (pairwise_interiorDown dy) (pairwise_interior d)
    (fun _ h => mem_interiorDown.mp h) (fun _ h => mem_interior.mp h)
    (fun j => j - 1) (fun i => i) _
    (fun j i _ _ _ => ⟨rfl, by beta_reduce; omega⟩)
    (fun j j' i i' _ _ _ _ h => by beta_reduce; constructor <;> omega)

theorem ops_NW (d dy : Nat) :
    ((loopNest (interiorDown dy) (interior d)).map
      fun p => (p.1 * d + p.2, (p.1 - 1) * d + p.2 + 1)).Pairwise
      (fun a b => b.2 ≠ a.1 ∧ b.1 ≠ a.1) :=
  pairwise_ops d dy (pairwise_interiorDown dy) (pairwise_interior d)
    (fun _ h => mem_interiorDown.mp h) (fun _ h => mem_interior.mp h)
    (fun j => j - 1) (fun i => i + 1) _
    (fun j i _ _ _ => ⟨by simp only [Nat.add_assoc], by beta_reduce; omega⟩)
    (fun j j' i i' _ _ _ _ h => by beta_reduce; constructor <;> omega)

theorem ops_E (d dy : Nat) :
    ((loopNest (interiorDown dy) (interiorDown d)).map
      fun p => (p.1 * d + p.2, p.1 * d + p.2 - 1)).Pairwise
      (fun a b => b.2 ≠ a.1 ∧ b.1 ≠ a.1) :=
  pairwise_ops d dy (pairwise_interiorDown dy) (pairwise_interiorDown d)
    (fun _ h => mem_interiorDown.mp h) (fun _ h => mem_interiorDown.mp h)
    (fun j => j) (fun i => i - 1) _
    (fun j i _ _ _ => ⟨by dsimp only; omega, by beta_reduce; omega⟩)
    (fun j j' i i' _ _ _ _ h => by beta_reduce; constructor <;> omega)

theorem ops_NE (d dy : Nat) :
    ((loopNest (interiorDown dy) (interiorDown d)).map
      fun p => (p.1 * d + p.2, (p.1 - 1) * d + p.2 - 1)).Pairwise
      (fun a b => b.2 ≠ a.1 ∧ b.1 ≠ a.1) :=
  pairwise_ops d dy (pairwise_interiorDown dy) (pairwise_interiorDown d)
    (fun _ h => mem_interiorDown.mp h) (fun _ h => mem_interiorDown.mp h)
    (fun j => j - 1) (fun i => i - 1) _
    (fun j i _ _ _ => ⟨by dsimp only; omega, by beta_reduce; omega⟩)
    (fun j j' i i' _ _ _ _ h => by beta_reduce; constructor <;> omega)

theorem ops_S (d dy : Nat) :
    ((loopNest (interior dy) (interiorDown d)).map
      fun p => (p.1 * d + p.2, (p.1 + 1) * d + p.2)).Pairwise
      (fun a b => b.2 ≠ a.1 ∧ b.1 ≠ a.1) :=
  pairwise_ops d dy (pairwise_interior dy) (pairwise_interiorDown d)
    (fun _ h => mem_interior.mp h) (fun _ h => mem_interiorDown.mp h)
    (fun j => j + 1) (fun i => i) _
    (fun j i _ _ _ => ⟨rfl, by beta_reduce; omega⟩)
    (fun j j' i i' _ _ _ _ h => by beta_reduce; constructor <;> omega)

theorem ops_SE (d dy : Nat) :
    ((loopNest (interior dy) (interiorDown d)).map
      fun p => (p.1 * d + p.2, (p.1 + 1) * d + p.2 - 1)).Pairwise
      (fun a b => b.2 ≠ a.1 ∧ b.1 ≠ a.1) :=
  pairwise_ops d dy (pairwise_interior dy) (pairwise_interiorDown d)
    (fun _ h => mem_interior.mp h) (fun _ h => mem_interiorDown.mp h)
    (fun j => j + 1) (fun i => i - 1) _
    (fun j i _ _ _ => ⟨by dsimp only; omega, by beta_reduce; omega⟩)
    (fun j j' i i' _ _ _ _ h => by beta_reduce; constructor <;> omega)

theorem ops_W (d dy : Nat) :
    ((loopNest (interior dy) (interior d)).map
      fun p => (p.1 * d + p.2, p.1 * d + p.2 + 1)).Pairwise
      (fun a b => b.2 ≠ a.1 ∧ b.1 ≠ a.1) :=
  pairwise_ops d dy (pairwise_interior dy) (pairwise_interior d)
    (fun _ h => mem_interior.mp h) (fun _ h => mem_interior.mp h)
    (fun j => j) (fun i => i + 1) _
    (fun j i _ _ _ => ⟨by simp only [Nat.add_assoc], by beta_reduce; omega⟩)
    (fun j j' i i' _ _ _ _ h => by beta_reduce; constructor <;> omega)

theorem ops_SW (d dy : Nat) :
    ((loopNest (interior dy) (interior d)).map
      fun p => (p.1 * d + p.2, (p.1 + 1) * d + p.2 + 1)).Pairwise
      (fun a b => b.2 ≠ a.1 ∧ b.1 ≠ a.1) :=
  pairwise_ops d dy (pairwise_interior dy) (pairwise_interior d)
    (fun _ h => mem_interior.mp h) (fun _ h => mem_interior.mp h)
    (fun j => j + 1) (fun i => i + 1) _
    (fun j i _ _ _ => ⟨by simp only [Nat.add_assoc], by beta_reduce; omega⟩)
    (fun j j' i i' _ _ _ _ h => by beta_reduce; constructor <;> omega)

theorem streamNW_eq {α : Type} (d dy : Nat) (s : Fields α) :
    streamNW d dy s = { s with
      f_N := applyCopies ((loopNest (interiorDown dy) (interior d)).map
        fun p => (p.1 * d + p.2, (p.1 - 1) * d + p.2)) s.f_N
      f_NW := applyCopies ((loopNest (interiorDown dy) (interior d)).map
        fun p => (p.1 * d + p.2, (p.1 - 1) * d + p.2 + 1)) s.f_NW } := by
  unfold streamNW
  rw [forLoop_nest, runNest_streamNW]

theorem streamNE_eq {α : Type} (d dy : Nat) (s : Fields α) :
    streamNE d dy s = { s with
      f_E := applyCopies ((loopNest (interiorDown dy) (interiorDown d)).map
        fun p => (p.1 * d + p.2, p.1 * d + p.2 - 1)) s.f_E
      f_NE := applyCopies ((loopNest (interiorDown dy) (interiorDown d)).map
        fun p => (p.1 * d + p.2, (p.1 - 1) * d + p.2 - 1)) s.f_NE } := by
  unfold streamNE
  rw [forLoop_nest, runNest_streamNE]

theorem streamSE_eq {α : Type} (d dy : Nat) (s : Fields α) :
    streamSE d dy s = { s with
      f_S := applyCopies ((loopNest (interior dy) (interiorDown d)).map
        fun p => (p.1 * d + p.2, (p.1 + 1) * d + p.2)) s.f_S
      f_SE := applyCopies ((loopNest (interior dy) (interiorDown d)).map
        fun p => (p.1 * d + p.2, (p.1 + 1) * d + p.2 - 1)) s.f_SE } := by
  unfold streamSE
  rw [forLoop_nest, runNest_streamSE]

theorem streamSW_eq {α : Type} (d dy : Nat) (s : Fields α) :
    streamSW d dy s = { s with
      f_W := applyCopies ((loopNest (interior dy) (interior d)).map
        fun p => (p.1 * d + p.2, p.1 * d + p.2 + 1)) s.f_W
      f_SW := applyCopies ((loopNest (interior dy) (interior d)).map
        fun p => (p.1 * d + p.2, (p.1 + 1) * d + p.2 + 1)) s.f_SW } := by
  unfold streamSW
  rw [forLoop_nest, runNest_streamSW]

/-- C3 (in-place streaming is a simultaneous shift): for a tile with `dim_x, dim_y ≥ 1` and
every state, after the four sweeps of `stream` every interior cell holds, in each of the eight
directional channels, the value its upstream neighbour held before the call, and `f_0` is
unchanged at every cell.  Moreover each sweep, from whatever state it starts, is the run of its
body over its iteration order, and every iteration reads values that are still the ones the
sweep started with. -/
theorem stream_simultaneous_shift {α : Type} (dim_x dim_y : Nat) (_hx : 1 ≤ dim_x)
    (_hy : 1 ≤ dim_y) (s : Fields α) :
    (∀ x y, isInterior dim_x dim_y x y →
      (stream dim_x dim_y s).f_N (y * dim_x + x) = s.f_N ((y - 1) * dim_x + x) ∧
      (stream dim_x dim_y s).f_NW (y * dim_x + x) = s.f_NW ((y - 1) * dim_x + (x + 1)) ∧
      (stream dim_x dim_y s).f_E (y * dim_x + x) = s.f_E (y * dim_x + (x - 1)) ∧
      (stream dim_x dim_y s).f_NE (y * dim_x + x) = s.f_NE ((y - 1) * dim_x + (x - 1)) ∧
      (stream dim_x dim_y s).f_S (y * dim_x + x) = s.f_S ((y + 1) * dim_x + x) ∧
      (stream dim_x dim_y s).f_SE (y * dim_x + x) = s.f_SE ((y + 1) * dim_x + (x - 1)) ∧
      (stream dim_x dim_y s).f_W (y * dim_x + x) = s.f_W (y * dim_x + (x + 1)) ∧
      (stream dim_x dim_y s).f_SW (y * dim_x + x) = s.f_SW ((y + 1) * dim_x + (x + 1))) ∧
    (stream dim_x dim_y s).f_0 = s.f_0 ∧
    (∀ t : Fields α,
      streamNW dim_x dim_y t
        = runNest (loopNest (interiorDown dim_y) (interior dim_x)) (streamNWBody dim_x) t ∧
      readsFresh (loopNest (interiorDown dim_y) (interior dim_x)) (streamNWBody dim_x)
        Fields.f_N (fun j i => (j - 1) * dim_x + i) t ∧
      readsFresh (loopNest (interiorDown dim_y) (interior dim_x)) (streamNWBody dim_x)
        Fields.f_NW (fun j i => (j - 1) * dim_x + i + 1) t ∧
      streamNE dim_x dim_y t
        = runNest (loopNest (interiorDown dim_y) (interiorDown dim_x)) (streamNEBody dim_x) t ∧
      readsFresh (loopNest (interiorDown dim_y) (interiorDown dim_x)) (streamNEBody dim_x)
        Fields.f_E (fun j i => j * dim_x + i - 1) t ∧
      readsFresh (loopNest (interiorDown dim_y) (interiorDown dim_x)) (streamNEBody dim_x)
        Fields.f_NE (fun j i => (j - 1) * dim_x + i - 1) t ∧
      streamSE dim_x dim_y t
        = runNest (loopNest (interior dim_y) (interiorDown dim_x)) (streamSEBody dim_x) t ∧
      readsFresh (loopNest (interior dim_y) (interiorDown dim_x)) (streamSEBody dim_x)
        Fields.f_S (fun j i => (j + 1) * dim_x + i) t ∧
      readsFresh (loopNest (interior dim_y) (interiorDown dim_x)) (streamSEBody dim_x)
        Fields.f_SE (fun j i => (j + 1) * dim_x + i - 1) t ∧
      streamSW dim_x dim_y t
        = runNest (loopNest (interior dim_y) (interior dim_x)) (streamSWBody dim_x) t ∧
      readsFresh (loopNest (interior dim_y) (interior dim_x)) (streamSWBody dim_x)
        Fields.f_W (fun j i => j * dim_x + i + 1) t ∧
      readsFresh (loopNest (interior dim_y) (interior dim_x)) (streamSWBody dim_x)
        Fields.f_SW (fun j i => (j + 1) * dim_x + i + 1) t) := by
  refine ⟨?_, ?_, ?_⟩
  · intro x y hint
    obtain ⟨hx1, hx2, hy1, hy2⟩ := hint
    have m1 : (y, x) ∈ loopNest (interiorDown dim_y) (interior dim_x) :=
      mem_nest.mpr ⟨mem_interiorDown.mpr ⟨hy1, hy2⟩, mem_interior.mpr ⟨hx1, hx2⟩⟩
    have m2 : (y, x) ∈ loopNest (interiorDown dim_y) (interiorDown dim_x) :=
      mem_nest.mpr ⟨mem_interiorDown.mpr ⟨hy1, hy2⟩, mem_interiorDown.mpr ⟨hx1, hx2⟩⟩
    have m3 : (y, x) ∈ loopNest (interior dim_y) (interiorDown dim_x) :=
      mem_nest.mpr ⟨mem_interior.mpr ⟨hy1, hy2⟩, mem_interiorDown.mpr ⟨hx1, hx2⟩⟩
    have m4 : (y, x) ∈ loopNest (interior dim_y) (interior dim_x) :=
      mem_nest.mpr ⟨mem_interior.mpr ⟨hy1, hy2⟩, mem_interior.mpr ⟨hx1, hx2⟩⟩
    have e1 : (y - 1) * dim_x + x + 1 = (y - 1) * dim_x + (x + 1) := by omega
    have e2 : y * dim_x + x - 1 = y * dim_x + (x - 1) := by omega
    have e3 : (y - 1) * dim_x + x - 1 = (y - 1) * dim_x + (x - 1) := by omega
    have e4 : (y + 1) * dim_x + x - 1 = (y + 1) * dim_x + (x - 1) := by omega
    have e5 : y * dim_x + x + 1 = y * dim_x + (x + 1) := by omega
    have e6 : (y + 1) * dim_x + x + 1 = (y + 1) * dim_x + (x + 1) := by omega
    simp only [stream, streamNW_eq, streamNE_eq, streamSE_eq, streamSW_eq]
    refine ⟨?_, ?_, ?_, ?_, ?_, ?_, ?_, ?_⟩
    · exact mem_ops_fresh dim_x _ _ (ops_N dim_x dim_y) s.f_N (y, x) m1
    · exact (mem_ops_fresh dim_x _ _ (ops_NW dim_x dim_y) s.f_NW (y, x) m1).trans
        (congrArg s.f_NW e1)
    · exact (mem_ops_fresh dim_x _ _ (ops_E dim_x dim_y) s.f_E (y, x) m2).trans
        (congrArg s.f_E e2)
    · exact (mem_ops_fresh dim_x _ _ (ops_NE dim_x dim_y) s.f_NE (y, x) m2).trans
        (congrArg s.f_NE e3)
    · exact mem_ops_fresh dim_x _ _ (ops_S dim_x dim_y) s.f_S (y, x) m3
    · exact (mem_ops_fresh dim_x _ _ (ops_SE dim_x dim_y) s.f_SE (y, x) m3).trans
        (congrArg s.f_SE e4)
    · exact (mem_ops_fresh dim_x _ _ (ops_W dim_x dim_y) s.f_W (y, x) m4).trans
        (congrArg s.f_W e5)
    · exact (mem_ops_fresh dim_x _ _ (ops_SW dim_x dim_y) s.f_SW (y, x) m4).trans
        (congrArg s.f_SW e6)
  · simp only [stream, streamNW_eq, streamNE_eq, streamSE_eq, streamSW_eq]
  · intro t
    refine ⟨forLoop_nest _ _ _ t, ?_, ?_, forLoop_nest _ _ _ t, ?_, ?_,
      forLoop_nest _ _ _ t, ?_, ?_, forLoop_nest _ _ _ t, ?_, ?_⟩
    · intro pre j i post hL
      rw [runNest_streamNW]
      exact prefix_ops_fresh dim_x _ _ (ops_N dim_x dim_y) t.f_N pre post (j, i) hL
    · intro pre j i post hL
      rw [runNest_streamNW]
      exact prefix_ops_fresh dim_x _ _ (ops_NW dim_x dim_y) t.f_NW pre post (j, i) hL
    · intro pre j i post hL
      rw [runNest_streamNE]
      exact prefix_ops_fresh dim_x _ _ (ops_E dim_x dim_y) t.f_E pre post (j, i) hL
    · intro pre j i post hL
      rw [runNest_streamNE]
      exact prefix_ops_fresh dim_x _ _ (ops_NE dim_x dim_y) t.f_NE pre post (j, i) hL
    · intro pre j i post hL
      rw [runNest_streamSE]
      exact prefix_ops_fresh dim_x _ _ (ops_S dim_x dim_y) t.f_S pre post (j, i) hL
    · intro pre j i post hL
      rw [runNest_streamSE]
      exact prefix_ops_fresh dim_x _ _ (ops_SE dim_x dim_y) t.f_SE pre post (j, i) hL
    · intro pre j i post hL
      rw [runNest_streamSW]
      exact prefix_ops_fresh dim_x _ _ (ops_W dim_x dim_y) t.f_W pre post (j, i) hL
    · intro pre j i post hL
      rw [runNest_streamSW]
      exact prefix_ops_fresh dim_x _ _ (ops_SW dim_x dim_y) t.f_SW pre post (j, i) hL

/-- Witness for C3: a 4 x 4 tile. -/
theorem stream_simultaneous_shift_witness :
    (1 ≤ 4 ∧ 1 ≤ 4) ∧
    ((∀ x y, isInterior 4 4 x y →
      (stream 4 4 (uniformFields 0 false)).f_N (y * 4 + x) = (uniformFields 0 false).f_N ((y - 1) * 4 + x) ∧
      (stream 4 4 (uniformFields 0 false)).f_NW (y * 4 + x) = (uniformFields 0 false).f_NW ((y - 1) * 4 + (x + 1)) ∧
      (stream 4 4 (uniformFields 0 false)).f_E (y * 4 + x) = (uniformFields 0 false).f_E (y * 4 + (x - 1)) ∧
      (stream 4 4 (uniformFields 0 false)).f_NE (y * 4 + x) = (uniformFields 0 false).f_NE ((y - 1) * 4 + (x - 1)) ∧
      (stream 4 4 (uniformFields 0 false)).f_S (y * 4 + x) = (uniformFields 0 false).f_S ((y + 1) * 4 + x) ∧
      (stream 4 4 (uniformFields 0 false)).f_SE (y * 4 + x) = (uniformFields 0 false).f_SE ((y + 1) * 4 + (x - 1)) ∧
      (stream 4 4 (uniformFields 0 false)).f_W (y * 4 + x) = (uniformFields 0 false).f_W (y * 4 + (x + 1)) ∧
      (stream 4 4 (uniformFields 0 false)).f_SW (y * 4 + x) = (uniformFields 0 false).f_SW ((y + 1) * 4 + (x + 1))) ∧
    (stream 4 4 (uniformFields 0 false)).f_0 = (uniformFields 0 false).f_0 ∧
    (∀ t : Fields Nat,
      streamNW 4 4 t
        = runNest (loopNest (interiorDown 4) (interior 4)) (streamNWBody 4) t ∧
      readsFresh (loopNest (interiorDown 4) (interior 4)) (streamNWBody 4)
        Fields.f_N (fun j i => (j - 1) * 4 + i) t ∧
      readsFresh (loopNest (interiorDown 4) (interior 4)) (streamNWBody 4)
        Fields.f_NW (fun j i => (j - 1) * 4 + i + 1) t ∧
      streamNE 4 4 t
        = runNest (loopNest (interiorDown 4) (interiorDown 4)) (streamNEBody 4) t ∧
      readsFresh (loopNest (interiorDown 4) (interiorDown 4)) (streamNEBody 4)
        Fields.f_E (fun j i => j * 4 + i - 1) t ∧
      readsFresh (loopNest (interiorDown 4) (interiorDown 4)) (streamNEBody 4)
        Fields.f_NE (fun j i => (j - 1) * 4 + i - 1) t ∧
      streamSE 4 4 t
        = runNest (loopNest (interior 4) (interiorDown 4)) (streamSEBody 4) t ∧
      readsFresh (loopNest (interior 4) (interiorDown 4)) (streamSEBody 4)
        Fields.f_S (fun j i => (j + 1) * 4 + i) t ∧
      readsFresh (loopNest (interior 4) (interiorDown 4)) (streamSEBody 4)
        Fields.f_SE (fun j i => (j + 1) * 4 + i - 1) t ∧
      streamSW 4 4 t
        = runNest (loopNest (interior 4) (interior 4)) (streamSWBody 4) t ∧
      readsFresh (loopNest (interior 4) (interior 4)) (streamSWBody 4)
        Fields.f_W (fun j i => j * 4 + i + 1) t ∧
      readsFresh (loopNest (interior 4) (interior 4)) (streamSWBody 4)
        Fields.f_SW (fun j i => (j + 1) * 4 + i + 1) t)) :=
  ⟨by decide, stream_simultaneous_shift 4 4 (by decide) (by decide) (uniformFields 0 false)⟩

/-! ### Bounce-back -/

/-- A channel that a sweep only writes under a barrier guard keeps its value at index `k`
through every iteration that does not write `k` or whose guard is off. -/
theorem guarded_unchanged {α ι : Type} (step : ι → Fields α → Fields α)
    (get src : Fields α → Nat → α) (wr nb : ι → Nat) (L : List ι)
    (hb : ∀ q s, (step q s).barrier = s.barrier)
    (hstep : ∀ q ∈ L, ∀ s, get (step q s) =
      if s.barrier (nb q) then Function.update (get s) (wr q) (src s (nb q)) else get s)
    (k : Nat) (s : Fields α) (h : ∀ q ∈ L, wr q = k → s.barrier (nb q) = false) :
    get (L.foldl (fun s q => step q s) s) k = get s k := by
  induction L generalizing s with
  | nil => rfl
  | cons q L ih =>
    rw [List.foldl_cons,
      ih (fun q' hq' => hstep q' (List.mem_cons_of_mem _ hq')) (step q s)
        (fun q' hq' e => by rw [hb]; exact h q' (List.mem_cons_of_mem _ hq') e),
      hstep q (List.mem_cons_self _ _) s]
    by_cases hbar : s.barrier (nb q) = true
    · rw [if_pos hbar]
      have hne : k ≠ wr q := by
        intro e
        have := h q (List.mem_cons_self _ _) e.symm
        rw [hbar] at this
        exact Bool.noConfusion this
      exact Function.update_noteq hne _ _
    · rw [if_neg hbar]

theorem foldl_barrier {α ι : Type} (step : ι → Fields α → Fields α) (L : List ι)
    (hb : ∀ q s, (step q s).barrier = s.barrier) (s : Fields α) :
    (L.foldl (fun s q => step q s) s).barrier = s.barrier := by
  induction L generalizing s with
  | nil => rfl
  | cons q L ih => rw [List.foldl_cons, ih, hb]

/-- The value a guarded sweep leaves in channel `getC` at the cell written by iteration `p`:
the reflected value of channel `getS` as it was before the sweep, provided no earlier iteration
has written the cell read. -/
theorem guarded_result {α ι : Type} (step : ι → Fields α → Fields α)
    (getC getS getT : Fields α → Nat → α) (wr nbC nbS : ι → Nat) (pre post : List ι) (p : ι)
    (hb : ∀ q s, (step q s).barrier = s.barrier)
    (hC : ∀ q ∈ pre ++ p :: post, ∀ s, getC (step q s) =
      if s.barrier (nbC q) then Function.update (getC s) (wr q) (getS s (nbC q)) else getC s)
    (hS : ∀ q ∈ pre ++ p :: post, ∀ s, getS (step q s) =
      if s.barrier (nbS q) then Function.update (getS s) (wr q) (getT s (nbS q)) else getS s)
    (hwr : ∀ q ∈ pre ++ post, wr q ≠ wr p) (s : Fields α)
    (hsrc : ∀ q ∈ pre, wr q = nbC p → s.barrier (nbS q) = false) :
    getC ((pre ++ p :: post).foldl (fun s q => step q s) s) (wr p) =
      if s.barrier (nbC p) then getS s (nbC p) else getC s (wr p) := by
  have hpre : ∀ q ∈ pre, q ∈ pre ++ p :: post := fun q hq => List.mem_append_left _ hq
  have hpost : ∀ q ∈ post, q ∈ pre ++ p :: post :=
    fun q hq => List.mem_append_right _ (List.mem_cons_of_mem _ hq)
  have hp : p ∈ pre ++ p :: post := List.mem_append_right _ (List.mem_cons_self _ _)
  rw [List.foldl_append, List.foldl_cons]
  rw [guarded_unchanged step getC getS wr nbC post hb (fun q hq => hC q (hpost q hq)) (wr p) _
    (fun q hq e => absurd e (hwr q (List.mem_append_right _ hq)))]
  rw [hC p hp, foldl_barrier step pre hb]
  have h1 := guarded_unchanged step getC getS wr nbC pre hb (fun q hq => hC q (hpre q hq))
    (wr p) s (fun q hq e => absurd e (hwr q (List.mem_append_left _ hq)))
  have h2 := guarded_unchanged step getS getT wr nbS pre hb (fun q hq => hS q (hpre q hq))
    (nbC p) s hsrc
  by_cases hbar : s.barrier (nbC p) = true
  · rw [if_pos hbar, if_pos hbar, Function.update_same, h2]
  · rw [if_neg hbar, if_neg hbar, h1]

theorem bounceE_eq {α : Type} (d j i : Nat) (s : Fields α) :
    bounceE d j i s = { s with
      f_E := if s.barrier (j * d + i - 1) then
        Function.update s.f_E (j * d + i) (s.f_W (j * d + i - 1)) else s.f_E } := by
  unfold bounceE
  split <;> simp [*]

theorem bounceW_eq {α : Type} (d j i : Nat) (s : Fields α) :
    bounceW d j i s = { s with
      f_W := if s.barrier (j * d + i + 1) then
        Function.update s.f_W (j * d + i) (s.f_E (j * d + i + 1)) else s.f_W } := by
  unfold bounceW
  split <;> simp [*]

theorem bounceN_eq {α : Type} (d j i : Nat) (s : Fields α) :
    bounceN d j i s = { s with
      f_N := if s.barrier ((j - 1) * d + i) then
        Function.update s.f_N (j * d + i) (s.f_S ((j - 1) * d + i)) else s.f_N } := by
  unfold bounceN
  split <;> simp [*]

theorem bounceS_eq {α : Type} (d j i : Nat) (s : Fields α) :
    bounceS d j i s = { s with
      f_S := if s.barrier ((j + 1) * d + i) then
        Function.update s.f_S (j * d + i) (s.f_N ((j + 1) * d + i)) else s.f_S } := by
  unfold bounceS
  split <;> simp [*]

theorem bounceNE_eq {α : Type} (d j i : Nat) (s : Fields α) :
    bounceNE d j i s = { s with
      f_NE := if s.barrier ((j - 1) * d + i - 1) then
        Function.update s.f_NE (j * d + i) (s.f_SW ((j - 1) * d + i - 1)) else s.f_NE } := by
  unfold bounceNE
  split <;> simp [*]

theorem bounceNW_eq {α : Type} (d j i : Nat) (s : Fields α) :
    bounceNW d j i s = { s with
      f_NW := if s.barrier ((j - 1) * d + i + 1) then
        Function.update s.f_NW (j * d + i) (s.f_SE ((j - 1) * d + i + 1)) else s.f_NW } := by
  unfold bounceNW
  split <;> simp [*]

theorem bounceSE_eq {α : Type} (d j i : Nat) (s : Fields α) :
    bounceSE d j i s = { s with
      f_SE := if s.barrier ((j + 1) * d + i - 1) then
        Function.update s.f_SE (j * d + i) (s.f_NW ((j + 1) * d + i - 1)) else s.f_SE } := by
  unfold bounceSE
  split <;> simp [*]

theorem bounceSW_eq {α : Type} (d j i : Nat) (s : Fields α) :
    bounceSW d j i s = { s with
      f_SW := if s.barrier ((j + 1) * d + i + 1) then
        Function.update s.f_SW (j * d + i) (s.f_NE ((j + 1) * d + i + 1)) else s.f_SW } := by
  unfold bounceSW
  split <;> simp [*]

theorem ite_update_apply_ne {α : Type} (c : Prop) [Decidable c] (f : Nat → α) (a k : Nat)
    (v : α) (h : k ≠ a) : (if c then Function.update f a v else f) k = f k := by
  split
  · exact Function.update_noteq h _ _
  · rfl

/-- The loop body of `bounceBackStream` as one simultaneous guarded update. -/
theorem bounceBackBody_eq {α : Type} (d j i : Nat) (hd : 2 ≤ d) (s : Fields α) :
    bounceBackBody d j i s = { s with
      f_E := if s.barrier (j * d + i - 1) then
        Function.update s.f_E (j * d + i) (s.f_W (j * d + i - 1)) else s.f_E
      f_W := if s.barrier (j * d + i + 1) then
        Function.update s.f_W (j * d + i) (s.f_E (j * d + i + 1)) else s.f_W
      f_N := if s.barrier ((j - 1) * d + i) then
        Function.update s.f_N (j * d + i) (s.f_S ((j - 1) * d + i)) else s.f_N
      f_S := if s.barrier ((j + 1) * d + i) then
        Function.update s.f_S (j * d + i) (s.f_N ((j + 1) * d + i)) else s.f_S
      f_NE := if s.barrier ((j - 1) * d + i - 1) then
        Function.update s.f_NE (j * d + i) (s.f_SW ((j - 1) * d + i - 1)) else s.f_NE
      f_NW := if s.barrier ((j - 1) * d + i + 1) then
        Function.update s.f_NW (j * d + i) (s.f_SE ((j - 1) * d + i + 1)) else s.f_NW
      f_SE := if s.barrier ((j + 1) * d + i - 1) then
        Function.update s.f_SE (j * d + i) (s.f_NW ((j + 1) * d + i - 1)) else s.f_SE
      f_SW := if s.barrier ((j + 1) * d + i + 1) then
        Function.update s.f_SW (j * d + i) (s.f_NE ((j + 1) * d + i + 1)) else s.f_SW } := by
  have f := (mul_facts d j 0).2.1
  simp only [bounceBackBody, bounceE_eq, bounceW_eq, bounceN_eq, bounceS_eq, bounceNE_eq,
    bounceNW_eq, bounceSE_eq, bounceSW_eq]
  rw [ite_update_apply_ne _ s.f_E _ (j * d + i + 1) _ (by omega),
    ite_update_apply_ne _ s.f_N _ ((j + 1) * d + i) _ (by omega),
    ite_update_apply_ne _ s.f_NW _ ((j + 1) * d + i - 1) _ (by omega),
    ite_update_apply_ne _ s.f_NE _ ((j + 1) * d + i + 1) _ (by omega)]

theorem bounceBackBody_barrier {α : Type} (d j i : Nat) (s : Fields α) :
    (bounceBackBody d j i s).barrier = s.barrier := by
  simp only [bounceBackBody, bounceE_eq, bounceW_eq, bounceN_eq, bounceS_eq, bounceNE_eq,
    bounceNW_eq, bounceSE_eq, bounceSW_eq]

theorem pairwise_lex_interior (d dy : Nat) :
    (loopNest (interior dy) (interior d)).Pairwise
      (fun a b => a.1 < b.1 ∨ (a.1 = b.1 ∧ a.2 < b.2)) :=
  pairwise_loopNest (pairwise_interior dy) (pairwise_interior d)
    (fun _ _ _ _ _ _ _ _ h => h)

/-- The iteration of an interior cell splits the sweep of `bounceBackStream` into the
iterations before it, all at lexicographically smaller `(row, column)`, and those after. -/
theorem bounce_split (d dy x y : Nat) (h : isInterior d dy x y) :
    ∃ pre post, loopNest (interior dy) (interior d) = pre ++ (y, x) :: post ∧
      (∀ q ∈ pre ++ (y, x) :: post, 1 ≤ q.1 ∧ q.1 < dy - 1 ∧ 1 ≤ q.2 ∧ q.2 < d - 1) ∧
      (∀ q ∈ pre ++ post, q.1 * d + q.2 ≠ y * d + x) ∧
      (∀ q ∈ pre, q.1 < y ∨ (q.1 = y ∧ q.2 < x)) := by
  obtain ⟨hx1, hx2, hy1, hy2⟩ := h
  have hm : (y, x) ∈ loopNest (interior dy) (interior d) :=
    mem_nest.mpr ⟨mem_interior.mpr ⟨hy1, hy2⟩, mem_interior.mpr ⟨hx1, hx2⟩⟩
  obtain ⟨pre, post, hL⟩ := List.append_of_mem hm
  have hnd := nodup_nest (nodup_interior dy) (nodup_interior d)
  have hlex := pairwise_lex_interior d dy
  rw [hL] at hnd hlex
  have hbound : ∀ q ∈ pre ++ (y, x) :: post,
      1 ≤ q.1 ∧ q.1 < dy - 1 ∧ 1 ≤ q.2 ∧ q.2 < d - 1 := by
    intro q hq
    rw [← hL] at hq
    obtain ⟨h1, h2⟩ := mem_nest.mp hq
    obtain ⟨a1, a2⟩ := mem_interior.mp h1
    obtain ⟨b1, b2⟩ := mem_interior.mp h2
    exact ⟨a1, a2, b1, b2⟩
  refine ⟨pre, post, hL, hbound, ?_, ?_⟩
  · intro q hq e
    have hq' : q ∈ pre ++ (y, x) :: post := by
      rcases List.mem_append.mp hq with h | h
      · exact List.mem_append_left _ h
      · exact List.mem_append_right _ (List.mem_cons_of_mem _ h)
    obtain ⟨-, -, -, b2⟩ := hbound q hq'
    obtain ⟨e1, e2⟩ := idx_inj (by omega) (by omega) e
    have hqe : q = (y, x) := Prod.ext e1 e2
    subst hqe
    have := List.nodup_append.mp hnd
    rcases List.mem_append.mp hq with h | h
    · exact this.2.2 h (List.mem_cons_self _ _)
    · exact (List.nodup_cons.mp this.2.1).1 h
  · intro q hq
    exact (List.pairwise_append.mp hlex).2.2 q hq (y, x) (List.mem_cons_self _ _)

theorem bounceBackStream_eq_foldl {α : Type} (d dy : Nat) (s : Fields α) :
    bounceBackStream d dy s = (loopNest (interior dy) (interior d)).foldl
      (fun s (q : Nat × Nat) => bounceBackBody d q.1 q.2 s) s := by
  unfold bounceBackStream
  rw [forLoop_nest]
  rfl

theorem bounce_f_E {α : Type} (d dy x y : Nat) (h : isInterior d dy x y) (s : Fields α)
    (hfluid : s.barrier (y * d + x) = false ∨ x = 1) :
    (bounceBackStream d dy s).f_E (y * d + x) =
      if s.barrier (y * d + (x - 1)) then s.f_W (y * d + (x - 1)) else s.f_E (y * d + x) := by
  obtain ⟨pre, post, hL, hbound, hwr, hlex⟩ := bounce_split d dy x y h
  obtain ⟨hx1, hx2, hy1, hy2⟩ := h
  have hd : 2 ≤ d := by omega
  have e0 : y * d + x - 1 = y * d + (x - 1) := by omega
  rw [bounceBackStream_eq_foldl, hL, ← e0]
  refine guarded_result (fun (q : Nat × Nat) s => bounceBackBody d q.1 q.2 s)
    Fields.f_E Fields.f_W Fields.f_E (fun q => q.1 * d + q.2) (fun q => q.1 * d + q.2 - 1)
    (fun q => q.1 * d + q.2 + 1) pre post (y, x)
    (fun q s => bounceBackBody_barrier d q.1 q.2 s)
    (fun q _ s => by dsimp only; rw [bounceBackBody_eq d q.1 q.2 hd s])
    (fun q _ s => by dsimp only; rw [bounceBackBody_eq d q.1 q.2 hd s])
    hwr s ?_
  intro q hq e
  obtain ⟨b1, b2, b3, b4⟩ := hbound q (List.mem_append_left _ hq)
  have hl := hlex q hq
  dsimp only at e ⊢
  obtain ⟨e1, e2⟩ := idx_inj (by omega) (by omega) (e.trans e0)
  rcases hfluid with hf | hf
  · rw [← hf]
    congr 1
    omega
  · omega

theorem bounce_f_W {α : Type} (d dy x y : Nat) (h : isInterior d dy x y) (s : Fields α) :
    (bounceBackStream d dy s).f_W (y * d + x) =
      if s.barrier (y * d + (x + 1)) then s.f_E (y * d + (x + 1)) else s.f_W (y * d + x) := by
  obtain ⟨pre, post, hL, hbound, hwr, hlex⟩ := bounce_split d dy x y h
  obtain ⟨hx1, hx2, hy1, hy2⟩ := h
  have hd : 2 ≤ d := by omega
  have e0 : y * d + x + 1 = y * d + (x + 1) := by omega
  rw [bounceBackStream_eq_foldl, hL, ← e0]
  refine guarded_result (fun (q : Nat × Nat) s => bounceBackBody d q.1 q.2 s)
    Fields.f_W Fields.f_E Fields.f_W (fun q => q.1 * d + q.2) (fun q => q.1 * d + q.2 + 1)
    (fun q => q.1 * d + q.2 - 1) pre post (y, x)
    (fun q s => bounceBackBody_barrier d q.1 q.2 s)
    (fun q _ s => by dsimp only; rw [bounceBackBody_eq d q.1 q.2 hd s])
    (fun q _ s => by dsimp only; rw [bounceBackBody_eq d q.1 q.2 hd s])
    hwr s ?_
  intro q hq e
  obtain ⟨b1, b2, b3, b4⟩ := hbound q (List.mem_append_left _ hq)
  have hl := hlex q hq
  dsimp only at e ⊢
  obtain ⟨e1, e2⟩ := idx_inj (by omega) (by omega) (e.trans e0)
  omega

theorem bounce_f_N {α : Type} (d dy x y : Nat) (h : isInterior d dy x y) (s : Fields α)
    (hfluid : s.barrier (y * d + x) = false ∨ y = 1) :
    (bounceBackStream d dy s).f_N (y * d + x) =
      if s.barrier ((y - 1) * d + x) then s.f_S ((y - 1) * d + x) else s.f_N (y * d + x) := by
  obtain ⟨pre, post, hL, hbound, hwr, hlex⟩ := bounce_split d dy x y h
  obtain ⟨hx1, hx2, hy1, hy2⟩ := h
  have hd : 2 ≤ d := by omega
  rw [bounceBackStream_eq_foldl, hL]
  refine guarded_result (fun (q : Nat × Nat) s => bounceBackBody d q.1 q.2 s)
    Fields.f_N Fields.f_S Fields.f_N (fun q => q.1 * d + q.2) (fun q => (q.1 - 1) * d + q.2)
    (fun q => (q.1 + 1) * d + q.2) pre post (y, x)
    (fun q s => bounceBackBody_barrier d q.1 q.2 s)
    (fun q _ s => by dsimp only; rw [bounceBackBody_eq d q.1 q.2 hd s])
    (fun q _ s => by dsimp only; rw [bounceBackBody_eq d q.1 q.2 hd s])
    hwr s ?_
  intro q hq e
  obtain ⟨b1, b2, b3, b4⟩ := hbound q (List.mem_append_left _ hq)
  have hl := hlex q hq
  dsimp only at e ⊢
  obtain ⟨e1, e2⟩ := idx_inj (by omega) (by omega) e
  rcases hfluid with hf | hf
  · rw [← hf, show q.1 + 1 = y by omega, e2]
  · omega

theorem bounce_f_S {α : Type} (d dy x y : Nat) (h : isInterior d dy x y) (s : Fields α) :
    (bounceBackStream d dy s).f_S (y * d + x) =
      if s.barrier ((y + 1) * d + x) then s.f_N ((y + 1) * d + x) else s.f_S (y * d + x) := by
  obtain ⟨pre, post, hL, hbound, hwr, hlex⟩ := bounce_split d dy x y h
  obtain ⟨hx1, hx2, hy1, hy2⟩ := h
  have hd : 2 ≤ d := by omega
  rw [bounceBackStream_eq_foldl, hL]
  refine guarded_result (fun (q : Nat × Nat) s => bounceBackBody d q.1 q.2 s)
    Fields.f_S Fields.f_N Fields.f_S (fun q => q.1 * d + q.2) (fun q => (q.1 + 1) * d + q.2)
    (fun q => (q.1 - 1) * d + q.2) pre post (y, x)
    (fun q s => bounceBackBody_barrier d q.1 q.2 s)
    (fun q _ s => by dsimp only; rw [bounceBackBody_eq d q.1 q.2 hd s])
    (fun q _ s => by dsimp only; rw [bounceBackBody_eq d q.1 q.2 hd s])
    hwr s ?_
  intro q hq e
  obtain ⟨b1, b2, b3, b4⟩ := hbound q (List.mem_append_left _ hq)
  have hl := hlex q hq
  dsimp only at e ⊢
  obtain ⟨e1, e2⟩ := idx_inj (by omega) (by omega) e
  omega

theorem bounce_f_NE {α : Type} (d dy x y : Nat) (h : isInterior d dy x y) (s : Fields α)
    (hfluid : s.barrier (y * d + x) = false ∨ x = 1 ∨ y = 1) :
    (bounceBackStream d dy s).f_NE (y * d + x) =
      if s.barrier ((y - 1) * d + (x - 1)) then s.f_SW ((y - 1) * d + (x - 1))
      else s.f_NE (y * d + x) := by
  obtain ⟨pre, post, hL, hbound, hwr, hlex⟩ := bounce_split d dy x y h
  obtain ⟨hx1, hx2, hy1, hy2⟩ := h
  have hd : 2 ≤ d := by omega
  have e0 : (y - 1) * d + x - 1 = (y - 1) * d + (x - 1) := by omega
  rw [bounceBackStream_eq_foldl, hL, ← e0]
  refine guarded_result (fun (q : Nat × Nat) s => bounceBackBody d q.1 q.2 s)
    Fields.f_NE Fields.f_SW Fields.f_NE (fun q => q.1 * d + q.2)
    (fun q => (q.1 - 1) * d + q.2 - 1) (fun q => (q.1 + 1) * d + q.2 + 1) pre post (y, x)
    (fun q s => bounceBackBody_barrier d q.1 q.2 s)
    (fun q _ s => by dsimp only; rw [bounceBackBody_eq d q.1 q.2 hd s])
    (fun q _ s => by dsimp only; rw [bounceBackBody_eq d q.1 q.2 hd s])
    hwr s ?_
  intro q hq e
  obtain ⟨b1, b2, b3, b4⟩ := hbound q (List.mem_append_left _ hq)
  have hl := hlex q hq
  dsimp only at e ⊢
  obtain ⟨e1, e2⟩ := idx_inj (by omega) (by omega) (e.trans e0)
  rcases hfluid with hf | hf | hf
  · rw [← hf, show q.1 + 1 = y by omega]
    congr 1
    omega
  · omega
  · omega

theorem bounce_f_NW {α : Type} (d dy x y : Nat) (h : isInterior d dy x y) (s : Fields α)
    (hfluid : s.barrier (y * d + x) = false ∨ x + 2 = d ∨ y = 1) :
    (bounceBackStream d dy s).f_NW (y * d + x) =
      if s.barrier ((y - 1) * d + (x + 1)) then s.f_SE ((y - 1) * d + (x + 1))
      else s.f_NW (y * d + x) := by
  obtain ⟨pre, post, hL, hbound, hwr, hlex⟩ := bounce_split d dy x y h
  obtain ⟨hx1, hx2, hy1, hy2⟩ := h
  have hd : 2 ≤ d := by omega
  have e0 : (y - 1) * d + x + 1 = (y - 1) * d + (x + 1) := by omega
  rw [bounceBackStream_eq_foldl, hL, ← e0]
  refine guarded_result (fun (q : Nat × Nat) s => bounceBackBody d q.1 q.2 s)
    Fields.f_NW Fields.f_SE Fields.f_NW (fun q => q.1 * d + q.2)
    (fun q => (q.1 - 1) * d + q.2 + 1) (fun q => (q.1 + 1) * d + q.2 - 1) pre post (y, x)
    (fun q s => bounceBackBody_barrier d q.1 q.2 s)
    (fun q _ s => by dsimp only; rw [bounceBackBody_eq d q.1 q.2 hd s])
    (fun q _ s => by dsimp only; rw [bounceBackBody_eq d q.1 q.2 hd s])
    hwr s ?_
  intro q hq e
  obtain ⟨b1, b2, b3, b4⟩ := hbound q (List.mem_append_left _ hq)
  have hl := hlex q hq
  dsimp only at e ⊢
  obtain ⟨e1, e2⟩ := idx_inj (by omega) (by omega) (e.trans e0)
  rcases hfluid with hf | hf | hf
  · rw [← hf, show q.1 + 1 = y by omega]
    congr 1
    omega
  · omega
  · omega

theorem bounce_f_SE {α : Type} (d dy x y : Nat) (h : isInterior d dy x y) (s : Fields α) :
    (bounceBackStream d dy s).f_SE (y * d + x) =
      if s.barrier ((y + 1) * d + (x - 1)) then s.f_NW ((y + 1) * d + (x - 1))
      else s.f_SE (y * d + x) := by
  obtain ⟨pre, post, hL, hbound, hwr, hlex⟩ := bounce_split d dy x y h
  obtain ⟨hx1, hx2, hy1, hy2⟩ := h
  have hd : 2 ≤ d := by omega
  have e0 : (y + 1) * d + x - 1 = (y + 1) * d + (x - 1) := by omega
  rw [bounceBackStream_eq_foldl, hL, ← e0]
  refine guarded_result (fun (q : Nat × Nat) s => bounceBackBody d q.1 q.2 s)
    Fields.f_SE Fields.f_NW Fields.f_SE (fun q => q.1 * d + q.2)
    (fun q => (q.1 + 1) * d + q.2 - 1) (fun q => (q.1 - 1) * d + q.2 + 1) pre post (y, x)
    (fun q s => bounceBackBody_barrier d q.1 q.2 s)
    (fun q _ s => by dsimp only; rw [bounceBackBody_eq d q.1 q.2 hd s])
    (fun q _ s => by dsimp only; rw [bounceBackBody_eq d q.1 q.2 hd s])
    hwr s ?_
  intro q hq e
  obtain ⟨b1, b2, b3, b4⟩ := hbound q (List.mem_append_left _ hq)
  have hl := hlex q hq
  dsimp only at e ⊢
  obtain ⟨e1, e2⟩ := idx_inj (by omega) (by omega) (e.trans e0)
  omega

theorem bounce_f_SW {α : Type} (d dy x y : Nat) (h : isInterior d dy x y) (s : Fields α) :
    (bounceBackStream d dy s).f_SW (y * d + x) =
      if s.barrier ((y + 1) * d + (x + 1)) then s.f_NE ((y + 1) * d + (x + 1))
      else s.f_SW (y * d + x) := by
  obtain ⟨pre, post, hL, hbound, hwr, hlex⟩ := bounce_split d dy x y h
  obtain ⟨hx1, hx2, hy1, hy2⟩ := h
  have hd : 2 ≤ d := by omega
  have e0 : (y + 1) * d + x + 1 = (y + 1) * d + (x + 1) := by omega
  rw [bounceBackStream_eq_foldl, hL, ← e0]
  refine guarded_result (fun (q : Nat × Nat) s => bounceBackBody d q.1 q.2 s)
    Fields.f_SW Fields.f_NE Fields.f_SW (fun q => q.1 * d + q.2)
    (fun q => (q.1 + 1) * d + q.2 + 1) (fun q => (q.1 - 1) * d + q.2 - 1) pre post (y, x)
    (fun q s => bounceBackBody_barrier d q.1 q.2 s)
    (fun q _ s => by dsimp only; rw [bounceBackBody_eq d q.1 q.2 hd s])
    (fun q _ s => by dsimp only; rw [bounceBackBody_eq d q.1 q.2 hd s])
    hwr s ?_
  intro q hq e
  obtain ⟨b1, b2, b3, b4⟩ := hbound q (List.mem_append_left _ hq)
  have hl := hlex q hq
  dsimp only at e ⊢
  obtain ⟨e1, e2⟩ := idx_inj (by omega) (by omega) (e.trans e0)
  omega

/-- The value a guarded sweep leaves in channel `getC` at the cell written by iteration `p`
when an earlier iteration `q0` has written the cell that `p` reads and reads the cell of `p`
itself: if both cells are barriers, `q0` has put the old value of `getC` at the cell of `p` in
the place `p` reads, and the channel keeps its value. -/
theorem guarded_stale {α ι : Type} (step : ι → Fields α → Fields α)
    (getC getS : Fields α → Nat → α) (wr nbC nbS : ι → Nat) (pre1 pre2 post : List ι) (q0 p : ι)
    (hb : ∀ q s, (step q s).barrier = s.barrier)
    (hC : ∀ q ∈ (pre1 ++ q0 :: pre2) ++ p :: post, ∀ s, getC (step q s) =
      if s.barrier (nbC q) then Function.update (getC s) (wr q) (getS s (nbC q)) else getC s)
    (hS : ∀ q ∈ (pre1 ++ q0 :: pre2) ++ p :: post, ∀ s, getS (step q s) =
      if s.barrier (nbS q) then Function.update (getS s) (wr q) (getC s (nbS q)) else getS s)
    (hwr : ∀ q ∈ (pre1 ++ q0 :: pre2) ++ post, wr q ≠ wr p)
    (hu : ∀ q ∈ pre1 ++ pre2, wr q ≠ wr q0)
    (hq0 : wr q0 = nbC p) (hback : nbS q0 = wr p) (s : Fields α) :
    getC (((pre1 ++ q0 :: pre2) ++ p :: post).foldl (fun s q => step q s) s) (wr p) =
      if s.barrier (nbC p) then (if s.barrier (wr p) then getC s (wr p) else getS s (nbC p))
      else getC s (wr p) := by
  have hpre : ∀ q ∈ pre1 ++ q0 :: pre2, q ∈ (pre1 ++ q0 :: pre2) ++ p :: post :=
    fun q hq => List.mem_append_left _ hq
  have hpost : ∀ q ∈ post, q ∈ (pre1 ++ q0 :: pre2) ++ p :: post :=
    fun q hq => List.mem_append_right _ (List.mem_cons_of_mem _ hq)
  have hp : p ∈ (pre1 ++ q0 :: pre2) ++ p :: post :=
    List.mem_append_right _ (List.mem_cons_self _ _)
  rw [List.foldl_append, List.foldl_cons]
  rw [guarded_unchanged step getC getS wr nbC post hb (fun q hq => hC q (hpost q hq)) (wr p) _
    (fun q hq e => absurd e (hwr q (List.mem_append_right _ hq)))]
  rw [hC p hp, foldl_barrier step (pre1 ++ q0 :: pre2) hb]
  have h1 := guarded_unchanged step getC getS wr nbC (pre1 ++ q0 :: pre2) hb
    (fun q hq => hC q (hpre q hq)) (wr p) s
    (fun q hq e => absurd e (hwr q (List.mem_append_left _ hq)))
  have h2 := guarded_result step getS getC getS wr nbS nbC pre1 pre2 q0 hb
    (fun q hq => hS q (hpre q hq)) (fun q hq => hC q (hpre q hq)) hu s
    (fun q hq e => absurd (e.trans hback)
      (hwr q (List.mem_append_left _ (List.mem_append_left _ hq))))
  rw [hq0, hback] at h2
  by_cases hbar : s.barrier (nbC p) = true
  · rw [if_pos hbar, if_pos hbar, Function.update_same, h2]
  · rw [if_neg hbar, if_neg hbar, h1]

/-- The iterations of two interior cells, the first lexicographically before the second, split
the sweep of `bounceBackStream` in three parts. -/
theorem bounce_split_two (d dy x y x0 y0 : Nat) (h : isInterior d dy x y)
    (h0 : isInterior d dy x0 y0) (hlt : y0 < y ∨ (y0 = y ∧ x0 < x)) :
    ∃ pre1 pre2 post,
      loopNest (interior dy) (interior d) = (pre1 ++ (y0, x0) :: pre2) ++ (y, x) :: post ∧
      (∀ q ∈ (pre1 ++ (y0, x0) :: pre2) ++ (y, x) :: post,
        1 ≤ q.1 ∧ q.1 < dy - 1 ∧ 1 ≤ q.2 ∧ q.2 < d - 1) ∧
      (∀ q ∈ (pre1 ++ (y0, x0) :: pre2) ++ post, q.1 * d + q.2 ≠ y * d + x) ∧
      (∀ q ∈ pre1 ++ pre2, q.1 * d + q.2 ≠ y0 * d + x0) := by
  obtain ⟨pre, post, hL, hbound, hwr, hlex⟩ := bounce_split d dy x y h
  have hm0 : (y0, x0) ∈ loopNest (interior dy) (interior d) :=
    mem_nest.mpr ⟨mem_interior.mpr ⟨h0.2.2.1, h0.2.2.2⟩, mem_interior.mpr ⟨h0.1, h0.2.1⟩⟩
  have hlexAll := pairwise_lex_interior d dy
  have hnd := nodup_nest (nodup_interior dy) (nodup_interior d)
  rw [hL] at hm0 hlexAll hnd
  have hpre0 : (y0, x0) ∈ pre := by
    rcases List.mem_append.mp hm0 with hm | hm
    · exact hm
    · rcases List.mem_cons.mp hm with hm | hm
      · have e1 := congrArg Prod.fst hm
        have e2 := congrArg Prod.snd hm
        dsimp only at e1 e2
        omega
      · have := List.rel_of_pairwise_cons (List.pairwise_append.mp hlexAll).2.1 hm
        dsimp only at this
        omega
  obtain ⟨pre1, pre2, hpre⟩ := List.append_of_mem hpre0
  subst hpre
  refine ⟨pre1, pre2, post, hL, hbound, hwr, ?_⟩
  intro q hq e
  have hq' : q ∈ (pre1 ++ (y0, x0) :: pre2) ++ (y, x) :: post := by
    refine List.mem_append_left _ ?_
    rcases List.mem_append.mp hq with hm | hm
    · exact List.mem_append_left _ hm
    · exact List.mem_append_right _ (List.mem_cons_of_mem _ hm)
  obtain ⟨-, -, -, b2⟩ := hbound q hq'
  obtain ⟨e1, e2⟩ := idx_inj (by omega) (by have := h0.2.1; omega) e
  have hqe : q = (y0, x0) := Prod.ext e1 e2
  subst hqe
  have hndp := (List.nodup_append.mp hnd).1
  have := List.nodup_append.mp hndp
  rcases List.mem_append.mp hq with hm | hm
  · exact this.2.2 hm (List.mem_cons_self _ _)
  · exact (List.nodup_cons.mp this.2.1).1 hm

theorem bounce_E_full {α : Type} (d dy x y : Nat) (h : isInterior d dy x y) (s : Fields α) :
    (bounceBackStream d dy s).f_E (y * d + x) =
      if s.barrier (y * d + (x - 1)) = true ∧ ¬ (s.barrier (y * d + x) = true ∧ 2 ≤ x)
      then s.f_W (y * d + (x - 1)) else s.f_E (y * d + x) := by
  by_cases hx : 2 ≤ x
  · have h0 : isInterior d dy (x - 1) y := by unfold isInterior at h ⊢; omega
    obtain ⟨pre1, pre2, post, hL, -, hwr, hu⟩ :=
      bounce_split_two d dy x y (x - 1) y h h0 (Or.inr ⟨rfl, by omega⟩)
    have hd : 2 ≤ d := by unfold isInterior at h; omega
    have e0 : y * d + x - 1 = y * d + (x - 1) := by omega
    have e1 : y * d + (x - 1) + 1 = y * d + x := by omega
    rw [bounceBackStream_eq_foldl, hL]
    have key := guarded_stale (fun (q : Nat × Nat) s => bounceBackBody d q.1 q.2 s)
      Fields.f_E Fields.f_W (fun q => q.1 * d + q.2) (fun q => q.1 * d + q.2 - 1)
      (fun q => q.1 * d + q.2 + 1) pre1 pre2 post (y, x - 1) (y, x)
      (fun q s => bounceBackBody_barrier d q.1 q.2 s)
      (fun q _ s => by dsimp only; rw [bounceBackBody_eq d q.1 q.2 hd s])
      (fun q _ s => by dsimp only; rw [bounceBackBody_eq d q.1 q.2 hd s])
      hwr hu e0.symm e1 s
    dsimp only at key
    rw [key, e0]
    by_cases b1 : s.barrier (y * d + (x - 1)) = true <;>
      by_cases b2 : s.barrier (y * d + x) = true <;> simp [b1, b2, hx]
  · rw [bounce_f_E d dy x y h s (Or.inr (by unfold isInterior at h; omega))]
    by_cases b1 : s.barrier (y * d + (x - 1)) = true <;> simp [b1, hx]

theorem bounce_N_full {α : Type} (d dy x y : Nat) (h : isInterior d dy x y) (s : Fields α) :
    (bounceBackStream d dy s).f_N (y * d + x) =
      if s.barrier ((y - 1) * d + x) = true ∧ ¬ (s.barrier (y * d + x) = true ∧ 2 ≤ y)
      then s.f_S ((y - 1) * d + x) else s.f_N (y * d + x) := by
  by_cases hy : 2 ≤ y
  · have h0 : isInterior d dy x (y - 1) := by unfold isInterior at h ⊢; omega
    obtain ⟨pre1, pre2, post, hL, -, hwr, hu⟩ :=
      bounce_split_two d dy x y x (y - 1) h h0 (Or.inl (by omega))
    have hd : 2 ≤ d := by unfold isInterior at h; omega
    have e1 : (y - 1 + 1) * d + x = y * d + x := by rw [Nat.sub_add_cancel (by omega)]
    rw [bounceBackStream_eq_foldl, hL]
    have key := guarded_stale (fun (q : Nat × Nat) s => bounceBackBody d q.1 q.2 s)
      Fields.f_N Fields.f_S (fun q => q.1 * d + q.2) (fun q => (q.1 - 1) * d + q.2)
      (fun q => (q.1 + 1) * d + q.2) pre1 pre2 post (y - 1, x) (y, x)
      (fun q s => bounceBackBody_barrier d q.1 q.2 s)
      (fun q _ s => by dsimp only; rw [bounceBackBody_eq d q.1 q.2 hd s])
      (fun q _ s => by dsimp only; rw [bounceBackBody_eq d q.1 q.2 hd s])
      hwr hu rfl e1 s
    dsimp only at key
    rw [key]
    by_cases b1 : s.barrier ((y - 1) * d + x) = true <;>
      by_cases b2 : s.barrier (y * d + x) = true <;> simp [b1, b2, hy]
  · rw [bounce_f_N d dy x y h s (Or.inr (by unfold isInterior at h; omega))]
    by_cases b1 : s.barrier ((y - 1) * d + x) = true <;> simp [b1, hy]

theorem bounce_NE_full {α : Type} (d dy x y : Nat) (h : isInterior d dy x y) (s : Fields α) :
    (bounceBackStream d dy s).f_NE (y * d + x) =
      if s.barrier ((y - 1) * d + (x - 1)) = true ∧
        ¬ (s.barrier (y * d + x) = true ∧ 2 ≤ x ∧ 2 ≤ y)
      then s.f_SW ((y - 1) * d + (x - 1)) else s.f_NE (y * d + x) := by
  by_cases hxy : 2 ≤ x ∧ 2 ≤ y
  · have h0 : isInterior d dy (x - 1) (y - 1) := by unfold isInterior at h ⊢; omega
    obtain ⟨pre1, pre2, post, hL, -, hwr, hu⟩ :=
      bounce_split_two d dy x y (x - 1) (y - 1) h h0 (Or.inl (by omega))
    have hd : 2 ≤ d := by unfold isInterior at h; omega
    have e0 : (y - 1) * d + x - 1 = (y - 1) * d + (x - 1) := by omega
    have e1 : (y - 1 + 1) * d + (x - 1) + 1 = y * d + x := by
      rw [Nat.sub_add_cancel (by omega)]; omega
    rw [bounceBackStream_eq_foldl, hL]
    have key := guarded_stale (fun (q : Nat × Nat) s => bounceBackBody d q.1 q.2 s)
      Fields.f_NE Fields.f_SW (fun q => q.1 * d + q.2) (fun q => (q.1 - 1) * d + q.2 - 1)
      (fun q => (q.1 + 1) * d + q.2 + 1) pre1 pre2 post (y - 1, x - 1) (y, x)
      (fun q s => bounceBackBody_barrier d q.1 q.2 s)
      (fun q _ s => by dsimp only; rw [bounceBackBody_eq d q.1 q.2 hd s])
      (fun q _ s => by dsimp only; rw [bounceBackBody_eq d q.1 q.2 hd s])
      hwr hu e0.symm e1 s
    dsimp only at key
    rw [key, e0]
    by_cases b1 : s.barrier ((y - 1) * d + (x - 1)) = true <;>
      by_cases b2 : s.barrier (y * d + x) = true <;> simp [b1, b2, hxy]
  · rw [bounce_f_NE d dy x y h s (Or.inr (by unfold isInterior at h; omega))]
    by_cases b1 : s.barrier ((y - 1) * d + (x - 1)) = true <;> simp [b1, hxy]

theorem bounce_NW_full {α : Type} (d dy x y : Nat) (h : isInterior d dy x y) (s : Fields α) :
    (bounceBackStream d dy s).f_NW (y * d + x) =
      if s.barrier ((y - 1) * d + (x + 1)) = true ∧
        ¬ (s.barrier (y * d + x) = true ∧ x + 2 < d ∧ 2 ≤ y)
      then s.f_SE ((y - 1) * d + (x + 1)) else s.f_NW (y * d + x) := by
  by_cases hxy : x + 2 < d ∧ 2 ≤ y
  · have h0 : isInterior d dy (x + 1) (y - 1) := by unfold isInterior at h ⊢; omega
    obtain ⟨pre1, pre2, post, hL, -, hwr, hu⟩ :=
      bounce_split_two d dy x y (x + 1) (y - 1) h h0 (Or.inl (by omega))
    have hd : 2 ≤ d := by unfold isInterior at h; omega
    have e0 : (y - 1) * d + x + 1 = (y - 1) * d + (x + 1) := by omega
    have e1 : (y - 1 + 1) * d + (x + 1) - 1 = y * d + x := by
      rw [Nat.sub_add_cancel (by omega)]; omega
    rw [bounceBackStream_eq_foldl, hL]
    have key := guarded_stale (fun (q : Nat × Nat) s => bounceBackBody d q.1 q.2 s)
      Fields.f_NW Fields.f_SE (fun q => q.1 * d + q.2) (fun q => (q.1 - 1) * d + q.2 + 1)
      (fun q => (q.1 + 1) * d + q.2 - 1) pre1 pre2 post (y - 1, x + 1) (y, x)
      (fun q s => bounceBackBody_barrier d q.1 q.2 s)
      (fun q _ s => by dsimp only; rw [bounceBackBody_eq d q.1 q.2 hd s])
      (fun q _ s => by dsimp only; rw [bounceBackBody_eq d q.1 q.2 hd s])
      hwr hu e0.symm e1 s
    dsimp only at key
    rw [key, e0]
    by_cases b1 : s.barrier ((y - 1) * d + (x + 1)) = true <;>
      by_cases b2 : s.barrier (y * d + x) = true <;> simp [b1, b2, hxy]
  · rw [bounce_f_NW d dy x y h s (Or.inr (by unfold isInterior at h; omega))]
    by_cases b1 : s.barrier ((y - 1) * d + (x + 1)) = true <;> simp [b1, hxy]

/-- C10 (bounce-back rule), as the code implements it: after `bounceBackStream`, at every
interior cell `(x, y)` and with right-hand sides taken from the state before the call, the W, S,
SE and SW rules hold (`f_W[x,y] = f_E[x+1,y]` if `barrier[x+1,y]`, else unchanged, and so on),
and the E, N, NE and NW rules hold (`f_E[x,y] = f_W[x-1,y]` if `barrier[x-1,y]`, else unchanged,
and so on) except when the cell `(x, y)` and the neighbour the rule reads are both barrier cells
and that neighbour is an interior cell; in that one case the channel keeps its value. -/
theorem bounceBack_rule {α : Type} (dim_x dim_y : Nat) (s : Fields α) (x y : Nat)
    (h : isInterior dim_x dim_y x y) :
    let s' := bounceBackStream dim_x dim_y s
    let idx := y * dim_x + x
    (s'.f_W idx =
      if s.barrier (y * dim_x + (x + 1)) then s.f_E (y * dim_x + (x + 1)) else s.f_W idx) ∧
    (s'.f_S idx =
      if s.barrier ((y + 1) * dim_x + x) then s.f_N ((y + 1) * dim_x + x) else s.f_S idx) ∧
    (s'.f_SE idx =
      if s.barrier ((y + 1) * dim_x + (x - 1)) then s.f_NW ((y + 1) * dim_x + (x - 1))
      else s.f_SE idx) ∧
    (s'.f_SW idx =
      if s.barrier ((y + 1) * dim_x + (x + 1)) then s.f_NE ((y + 1) * dim_x + (x + 1))
      else s.f_SW idx) ∧
    (s'.f_E idx =
      if s.barrier (y * dim_x + (x - 1)) = true ∧ ¬ (s.barrier idx = true ∧ 2 ≤ x)
      then s.f_W (y * dim_x + (x - 1)) else s.f_E idx) ∧
    (s'.f_N idx =
      if s.barrier ((y - 1) * dim_x + x) = true ∧ ¬ (s.barrier idx = true ∧ 2 ≤ y)
      then s.f_S ((y - 1) * dim_x + x) else s.f_N idx) ∧
    (s'.f_NE idx =
      if s.barrier ((y - 1) * dim_x + (x - 1)) = true ∧
        ¬ (s.barrier idx = true ∧ 2 ≤ x ∧ 2 ≤ y)
      then s.f_SW ((y - 1) * dim_x + (x - 1)) else s.f_NE idx) ∧
    (s'.f_NW idx =
      if s.barrier ((y - 1) * dim_x + (x + 1)) = true ∧
        ¬ (s.barrier idx = true ∧ x + 2 < dim_x ∧ 2 ≤ y)
      then s.f_SE ((y - 1) * dim_x + (x + 1)) else s.f_NW idx) := by
  intro s' idx
  exact ⟨bounce_f_W dim_x dim_y x y h s, bounce_f_S dim_x dim_y x y h s,
    bounce_f_SE dim_x dim_y x y h s, bounce_f_SW dim_x dim_y x y h s,
    bounce_E_full dim_x dim_y x y h s, bounce_N_full dim_x dim_y x y h s,
    bounce_NE_full dim_x dim_y x y h s, bounce_NW_full dim_x dim_y x y h s⟩

/-- Witness for C10: the fluid cell `(2, 1)` of the 4 x 3 tile `reflectInput`.  Its west
neighbour `(1, 1)` is an interior barrier cell, its south neighbour `(2, 0)` and its north-east
neighbour `(3, 2)` are barrier cells of the ring, so the E, N and SW rules reflect:
`f_E[2,1]` becomes `f_W[1,1] = 405`, `f_N[2,1]` becomes `f_S[2,0] = 302` and `f_SW[2,1]` becomes
`f_NE[3,2] = 511`. -/
theorem bounceBack_rule_witness :
    isInterior 4 3 2 1 ∧
    (let s := reflectInput
    let s' := bounceBackStream 4 3 s
    let idx := 1 * 4 + 2
    (s'.f_W idx =
      if s.barrier (1 * 4 + (2 + 1)) then s.f_E (1 * 4 + (2 + 1)) else s.f_W idx) ∧
    (s'.f_S idx =
      if s.barrier ((1 + 1) * 4 + 2) then s.f_N ((1 + 1) * 4 + 2) else s.f_S idx) ∧
    (s'.f_SE idx =
      if s.barrier ((1 + 1) * 4 + (2 - 1)) then s.f_NW ((1 + 1) * 4 + (2 - 1))
      else s.f_SE idx) ∧
    (s'.f_SW idx =
      if s.barrier ((1 + 1) * 4 + (2 + 1)) then s.f_NE ((1 + 1) * 4 + (2 + 1))
      else s.f_SW idx) ∧
    (s'.f_E idx =
      if s.barrier (1 * 4 + (2 - 1)) = true ∧ ¬ (s.barrier idx = true ∧ 2 ≤ 2)
      then s.f_W (1 * 4 + (2 - 1)) else s.f_E idx) ∧
    (s'.f_N idx =
      if s.barrier ((1 - 1) * 4 + 2) = true ∧ ¬ (s.barrier idx = true ∧ 2 ≤ 1)
      then s.f_S ((1 - 1) * 4 + 2) else s.f_N idx) ∧
    (s'.f_NE idx =
      if s.barrier ((1 - 1) * 4 + (2 - 1)) = true ∧
        ¬ (s.barrier idx = true ∧ 2 ≤ 2 ∧ 2 ≤ 1)
      then s.f_SW ((1 - 1) * 4 + (2 - 1)) else s.f_NE idx) ∧
    (s'.f_NW idx =
      if s.barrier ((1 - 1) * 4 + (2 + 1)) = true ∧
        ¬ (s.barrier idx = true ∧ 2 + 2 < 4 ∧ 2 ≤ 1)
      then s.f_SE ((1 - 1) * 4 + (2 + 1)) else s.f_NW idx)) ∧
    ((bounceBackStream 4 3 reflectInput).f_E 6 = 405 ∧
      (bounceBackStream 4 3 reflectInput).f_N 6 = 302 ∧
      (bounceBackStream 4 3 reflectInput).f_SW 6 = 511 ∧
      (bounceBackStream 4 3 reflectInput).f_W 6 = 406) :=
  ⟨by decide, bounceBack_rule 4 3 reflectInput 2 1 (by decide), by decide⟩

/-- Counterexample to C10 as stated: in the 4 x 3 tile `bounceInput` the interior cells
`(1, 1)` and `(2, 1)` are both barrier cells.  At `(2, 1)` the west neighbour is a barrier, yet
after `bounceBackStream` `f_E[2,1]` is not the `f_W[1,1]` of the state before the call: the
iteration at `(1, 1)` has already overwritten `f_W[1,1]` with `f_E[2,1]`, so `f_E[2,1]` keeps its
old value. -/
theorem bounceBack_prestate_counterexample :
    isInterior 4 3 2 1 ∧ bounceInput.barrier (1 * 4 + (2 - 1)) = true ∧
    (bounceBackStream 4 3 bounceInput).f_E (1 * 4 + 2) ≠ bounceInput.f_W (1 * 4 + (2 - 1)) ∧
    (bounceBackStream 4 3 bounceInput).f_E (1 * 4 + 2) = bounceInput.f_E (1 * 4 + 2) := by
  decide

/-! ### Halo index geometry -/

theorem layout_x (W H P Px Py a b : Nat) (hb : b < Px) :
    (layout W H (a * Px + b) P Px Py).num_x = tileSize W Px b ∧
    (layout W H (a * Px + b) P Px Py).offset_x = tileOffset W Px b ∧
    (layout W H (a * Px + b) P Px Py).start_x = tileStart b ∧
    (layout W H (a * Px + b) P Px Py).dim_x = tileDim W Px P b := by
  obtain ⟨hmod, hdiv⟩ := rank_decomp Px a b hb
  have e2 : ((b : Int) = (Px : Int) - 1) ↔ b + 1 = Px := by omega
  refine ⟨?_, ?_, ?_, ?_⟩
  · simp only [layout, hmod, tileSize]
  · simp only [layout, hmod, tileOffset]
  · simp only [layout, hmod, tileStart]
  · simp only [layout, hmod, e2, tileSize, tileDim]

theorem layout_y (W H P Px Py a b : Nat) (hb : b < Px) :
    (layout W H (a * Px + b) P Px Py).num_y = tileSize H Py a ∧
    (layout W H (a * Px + b) P Px Py).offset_y = tileOffset H Py a ∧
    (layout W H (a * Px + b) P Px Py).start_y = tileStart a ∧
    (layout W H (a * Px + b) P Px Py).dim_y = tileDim H Py P a := by
  obtain ⟨hmod, hdiv⟩ := rank_decomp Px a b hb
  have e1 : ((a : Int) = (Py : Int) - 1) ↔ a + 1 = Py := by omega
  refine ⟨?_, ?_, ?_, ?_⟩
  · simp only [layout, hdiv, tileSize]
  · simp only [layout, hdiv, tileOffset]
  · simp only [layout, hdiv, tileStart]
  · simp only [layout, hdiv, e1, tileSize, tileDim]

theorem tileOffset_succ (total n c : Nat) :
    tileOffset total n (c + 1) = tileOffset total n c + tileSize total n c :=
  chunk_off_succ (total / n) (total % n) c

theorem tileStart_succ (c : Nat) : tileStart (c + 1) = 1 := rfl

theorem tile_bounds (total n P c : Nat) (hP : P ≠ 1) (hn : 2 ≤ n) :
    tileStart c ≤ 1 ∧ tileSize total n c + tileStart c ≤ tileDim total n P c ∧
      tileDim total n P c ≤ tileSize total n c + tileStart c + 1 := by
  unfold tileDim tileStart
  rw [if_neg hP]
  split_ifs <;> omega

theorem tile_has_next (total n P c : Nat) (hP : P ≠ 1) (hc : c + 1 < n) :
    tileDim total n P c = tileSize total n c + tileStart c + 1 := by
  unfold tileDim tileStart
  rw [if_neg hP]
  split_ifs <;> omega

theorem globalCell_at (g : Geometry) (x y : Nat) (hx : x < g.dim_x) :
    globalCell g (y * g.dim_x + x)
      = ((g.offset_x : Int) + x - g.start_x, (g.offset_y : Int) + y - g.start_y) := by
  obtain ⟨h1, h2⟩ := rank_decomp g.dim_x y x hx
  simp only [globalCell, h1, h2]

theorem ownedIndex_at (g : Geometry) (x y : Nat) (hx : x < g.dim_x) :
    ownedIndex g (y * g.dim_x + x) ↔
      g.start_x ≤ x ∧ x < g.start_x + g.num_x ∧ g.start_y ≤ y ∧ y < g.start_y + g.num_y := by
  obtain ⟨h1, h2⟩ := rank_decomp g.dim_x y x hx
  simp only [ownedIndex, h1, h2]

theorem column_indices (a0 a1 n y0 x0 : Nat) :
    (Subarray.mk a0 a1 n 1 y0 x0).indices = (List.range n).map fun i => (y0 + i) * a1 + x0 := by
  have h1 : List.range 1 = [0] := rfl
  simp only [Subarray.indices, h1, List.map_cons, List.map_nil, Nat.add_zero]
  exact (List.map_eq_flatMap _ _).symm

theorem layout_columns (W H P Px Py r : Nat) :
    ((layout W H r P Px Py).columns_2d .LeftBoundaryCol).indices =
      ((List.range (layout W H r P Px Py).num_y).map fun i =>
        ((layout W H r P Px Py).start_y + i) * (layout W H r P Px Py).dim_x + 0) ∧
    ((layout W H r P Px Py).columns_2d .LeftCol).indices =
      ((List.range (layout W H r P Px Py).num_y).map fun i =>
        ((layout W H r P Px Py).start_y + i) * (layout W H r P Px Py).dim_x
          + (layout W H r P Px Py).start_x) ∧
    ((layout W H r P Px Py).columns_2d .RightCol).indices =
      ((List.range (layout W H r P Px Py).num_y).map fun i =>
        ((layout W H r P Px Py).start_y + i) * (layout W H r P Px Py).dim_x
          + ((layout W H r P Px Py).start_x + (layout W H r P Px Py).num_x - 1)) ∧
    ((layout W H r P Px Py).columns_2d .RightBoundaryCol).indices =
      ((List.range (layout W H r P Px Py).num_y).map fun i =>
        ((layout W H r P Px Py).start_y + i) * (layout W H r P Px Py).dim_x
          + ((layout W H r P Px Py).dim_x - 1)) :=
  ⟨column_indices _ _ _ _ _, column_indices _ _ _ _ _, column_indices _ _ _ _ _,
    column_indices _ _ _ _ _⟩

theorem globalCell_eq (g : Geometry) (idx x y : Nat) (h : idx = y * g.dim_x + x)
    (hx : x < g.dim_x) :
    globalCell g idx
      = ((g.offset_x : Int) + x - g.start_x, (g.offset_y : Int) + y - g.start_y) := by
  subst h
  exact globalCell_at g x y hx

theorem ownedIndex_eq (g : Geometry) (idx x y : Nat) (h : idx = y * g.dim_x + x)
    (hx : x < g.dim_x) :
    ownedIndex g idx ↔
      g.start_x ≤ x ∧ x < g.start_x + g.num_x ∧ g.start_y ≤ y ∧ y < g.start_y + g.num_y := by
  subst h
  exact ownedIndex_at g x y hx

theorem contiguous_eq (base count : Nat) :
    contiguous base count = (List.range count).map fun k => base + k := rfl

/-- Halo index geometry towards the north neighbour. -/
theorem halo_N (W H P Px Py a b : Nat) (hP : P ≠ 1) (hPx : 2 ≤ Px)
    (ha : a + 1 < Py) (hb : b < Px)
    (hsx : ∀ c, c < Px → 1 ≤ tileSize W Px c)
    (hsy : ∀ c, c < Py → 1 ≤ tileSize H Py c) :
    (recvRegion (layout W H (a * Px + b) P Px Py) .NeighborN).map
        (globalCell (layout W H (a * Px + b) P Px Py))
      = (sendRegion (layout W H ((a + 1) * Px + b) P Px Py) .NeighborS).map
        (globalCell (layout W H ((a + 1) * Px + b) P Px Py)) ∧
    (∀ k ∈ sendRegion (layout W H ((a + 1) * Px + b) P Px Py) .NeighborS,
      ownedIndex (layout W H ((a + 1) * Px + b) P Px Py) k) ∧
    (recvRegion (layout W H (a * Px + b) P Px Py) .NeighborN).Nodup := by
  obtain ⟨x1, x2, x3, x4⟩ := layout_x W H P Px Py a b (by omega)
  obtain ⟨y1, y2, y3, y4⟩ := layout_y W H P Px Py a b (by omega)
  obtain ⟨u1, u2, u3, u4⟩ := layout_x W H P Px Py (a + 1) b (by omega)
  obtain ⟨v1, v2, v3, v4⟩ := layout_y W H P Px Py (a + 1) b (by omega)
  obtain ⟨c1, c2, c3, c4⟩ := layout_columns W H P Px Py (a * Px + b)
  obtain ⟨k1, k2, k3, k4⟩ := layout_columns W H P Px Py ((a + 1) * Px + b)
  generalize layout W H (a * Px + b) P Px Py = gr at *
  generalize layout W H ((a + 1) * Px + b) P Px Py = gn at *
  have hb1 := tile_bounds W Px P b hP (by omega)
  have hb3 := tile_bounds H Py P a hP (by omega)
  have hnx3 := tile_has_next H Py P a hP (by omega)
  have hb4 := tile_bounds H Py P (a + 1) hP (by omega)
  have hst4 := tileStart_succ a
  have hox := tileOffset_succ W Px b
  have hoy := tileOffset_succ H Py a
  have hs1 := hsx b (by omega)
  have hs2 := hsy a (by omega)
  have hs4 := hsy (a + 1) (by omega)
  simp only [recvRegion, sendRegion, contiguous_eq, List.map_map]
  refine ⟨?_, ?_, ?_⟩
  · rw [x1, u1]
    refine List.map_congr_left ?_
    intro k hk
    have hk' := List.mem_range.mp hk
    simp only [Function.comp]
    rw [globalCell_eq gr _ (gr.start_x + k) (gr.dim_y - 1) (by omega) (by omega),
      globalCell_eq gn _ (gn.start_x + k) (gn.start_y) (by omega) (by omega)]
    refine Prod.ext ?_ ?_ <;> simp only <;> omega
  · intro idx hidx
    obtain ⟨k, hk, rfl⟩ := List.mem_map.mp hidx
    have hk' := List.mem_range.mp hk
    rw [ownedIndex_eq gn _ (gn.start_x + k) (gn.start_y) (by omega) (by omega)]
    omega
  · refine (List.nodup_range _).map ?_
    intro i j h
    exact Nat.add_left_cancel h

/-- Halo index geometry towards the east neighbour. -/
theorem halo_E (W H P Px Py a b : Nat) (hP : P ≠ 1) (hPx : 2 ≤ Px)
    (ha : a < Py) (hb : b + 1 < Px)
    (hsx : ∀ c, c < Px → 1 ≤ tileSize W Px c)
    (hsy : ∀ c, c < Py → 1 ≤ tileSize H Py c) :
    (recvRegion (layout W H (a * Px + b) P Px Py) .NeighborE).map
        (globalCell (layout W H (a * Px + b) P Px Py))
      = (sendRegion (layout W H (a * Px + (b + 1)) P Px Py) .NeighborW).map
        (globalCell (layout W H (a * Px + (b + 1)) P Px Py)) ∧
    (∀ k ∈ sendRegion (layout W H (a * Px + (b + 1)) P Px Py) .NeighborW,
      ownedIndex (layout W H (a * Px + (b + 1)) P Px Py) k) ∧
    (recvRegion (layout W H (a * Px + b) P Px Py) .NeighborE).Nodup := by
  obtain ⟨x1, x2, x3, x4⟩ := layout_x W H P Px Py a b (by omega)
  obtain ⟨y1, y2, y3, y4⟩ := layout_y W H P Px Py a b (by omega)
  obtain ⟨u1, u2, u3, u4⟩ := layout_x W H P Px Py a (b + 1) (by omega)
  obtain ⟨v1, v2, v3, v4⟩ := layout_y W H P Px Py a (b + 1) (by omega)
  obtain ⟨c1, c2, c3, c4⟩ := layout_columns W H P Px Py (a * Px + b)
  obtain ⟨k1, k2, k3, k4⟩ := layout_columns W H P Px Py (a * Px + (b + 1))
  generalize layout W H (a * Px + b) P Px Py = gr at *
  generalize layout W H (a * Px + (b + 1)) P Px Py = gn at *
  have hb1 := tile_bounds W Px P b hP (by omega)
  have hnx1 := tile_has_next W Px P b hP (by omega)
  have hb2 := tile_bounds W Px P (b + 1) hP (by omega)
  have hst2 := tileStart_succ b
  have hox := tileOffset_succ W Px b
  have hoy := tileOffset_succ H Py a
  have hs1 := hsx b (by omega)
  have hs2 := hsy a (by omega)
  have hs3 := hsx (b + 1) (by omega)
  simp only [recvRegion, sendRegion, contiguous_eq, List.map_map, c4, k2]
  refine ⟨?_, ?_, ?_⟩
  · rw [y1, v1]
    refine List.map_congr_left ?_
    intro k hk
    have hk' := List.mem_range.mp hk
    simp only [Function.comp]
    rw [globalCell_eq gr _ (gr.dim_x - 1) (gr.start_y + k) (by omega) (by omega),
      globalCell_eq gn _ (gn.start_x) (gn.start_y + k) (by omega) (by omega)]
    refine Prod.ext ?_ ?_ <;> simp only <;> omega
  · intro idx hidx
    obtain ⟨k, hk, rfl⟩ := List.mem_map.mp hidx
    have hk' := List.mem_range.mp hk
    rw [ownedIndex_eq gn _ (gn.start_x) (gn.start_y + k) (by omega) (by omega)]
    omega
  · refine (List.nodup_range _).map ?_
    intro i j h
    dsimp only at h
    have := (idx_inj (by omega) (by omega) h).1
    omega

/-- Halo index geometry towards the south neighbour. -/
theorem halo_S (W H P Px Py a b : Nat) (hP : P ≠ 1) (hPx : 2 ≤ Px)
    (ha : a + 1 < Py) (hb : b < Px)
    (hsx : ∀ c, c < Px → 1 ≤ tileSize W Px c)
    (hsy : ∀ c, c < Py → 1 ≤ tileSize H Py c) :
    (recvRegion (layout W H ((a + 1) * Px + b) P Px Py) .NeighborS).map
        (globalCell (layout W H ((a + 1) * Px + b) P Px Py))
      = (sendRegion (layout W H (a * Px + b) P Px Py) .NeighborN).map
        (globalCell (layout W H (a * Px + b) P Px Py)) ∧
    (∀ k ∈ sendRegion (layout W H (a * Px + b) P Px Py) .NeighborN,
      ownedIndex (layout W H (a * Px + b) P Px Py) k) ∧
    (recvRegion (layout W H ((a + 1) * Px + b) P Px Py) .NeighborS).Nodup := by
  obtain ⟨x1, x2, x3, x4⟩ := layout_x W H P Px Py (a + 1) b (by omega)
  obtain ⟨y1, y2, y3, y4⟩ := layout_y W H P Px Py (a + 1) b (by omega)
  obtain ⟨u1, u2, u3, u4⟩ := layout_x W H P Px Py a b (by omega)
  obtain ⟨v1, v2, v3, v4⟩ := layout_y W H P Px Py a b (by omega)
  obtain ⟨c1, c2, c3, c4⟩ := layout_columns W H P Px Py ((a + 1) * Px + b)
  obtain ⟨k1, k2, k3, k4⟩ := layout_columns W H P Px Py (a * Px + b)
  generalize layout W H ((a + 1) * Px + b) P Px Py = gr at *
  generalize layout W H (a * Px + b) P Px Py = gn at *
  have hb1 := tile_bounds W Px P b hP (by omega)
  have hb3 := tile_bounds H Py P (a + 1) hP (by omega)
  have hst3 := tileStart_succ a
  have hb4 := tile_bounds H Py P a hP (by omega)
  have hnx4 := tile_has_next H Py P a hP (by omega)
  have hox := tileOffset_succ W Px b
  have hoy := tileOffset_succ H Py a
  have hs1 := hsx b (by omega)
  have hs2 := hsy (a + 1) (by omega)
  have hs4 := hsy a (by omega)
  simp only [recvRegion, sendRegion, contiguous_eq, List.map_map]
  refine ⟨?_, ?_, ?_⟩
  · rw [x1, u1]
    refine List.map_congr_left ?_
    intro k hk
    have hk' := List.mem_range.mp hk
    simp only [Function.comp]
    rw [globalCell_eq gr _ (gr.start_x + k) (0) (by omega) (by omega),
      globalCell_eq gn _ (gn.start_x + k) (gn.dim_y - 2) (by omega) (by omega)]
    refine Prod.ext ?_ ?_ <;> simp only <;> omega
  · intro idx hidx
    obtain ⟨k, hk, rfl⟩ := List.mem_map.mp hidx
    have hk' := List.mem_range.mp hk
    rw [ownedIndex_eq gn _ (gn.start_x + k) (gn.dim_y - 2) (by omega) (by omega)]
    omega
  · refine (List.nodup_range _).map ?_
    intro i j h
    exact Nat.add_left_cancel h

/-- Halo index geometry towards the west neighbour. -/
theorem halo_W (W H P Px Py a b : Nat) (hP : P ≠ 1) (hPx : 2 ≤ Px)
    (ha : a < Py) (hb : b + 1 < Px)
    (hsx : ∀ c, c < Px → 1 ≤ tileSize W Px c)
    (hsy : ∀ c, c < Py → 1 ≤ tileSize H Py c) :
    (recvRegion (layout W H (a * Px + (b + 1)) P Px Py) .NeighborW).map
        (globalCell (layout W H (a * Px + (b + 1)) P Px Py))
      = (sendRegion (layout W H (a * Px + b) P Px Py) .NeighborE).map
        (globalCell (layout W H (a * Px + b) P Px Py)) ∧
    (∀ k ∈ sendRegion (layout W H (a * Px + b) P Px Py) .NeighborE,
      ownedIndex (layout W H (a * Px + b) P Px Py) k) ∧
    (recvRegion (layout W H (a * Px + (b + 1)) P Px Py) .NeighborW).Nodup := by
  obtain ⟨x1, x2, x3, x4⟩ := layout_x W H P Px Py a (b + 1) (by omega)
  obtain ⟨y1, y2, y3, y4⟩ := layout_y W H P Px Py a (b + 1) (by omega)
  obtain ⟨u1, u2, u3, u4⟩ := layout_x W H P Px Py a b (by omega)
  obtain ⟨v1, v2, v3, v4⟩ := layout_y W H P Px Py a b (by omega)
  obtain ⟨c1, c2, c3, c4⟩ := layout_columns W H P Px Py (a * Px + (b + 1))
  obtain ⟨k1, k2, k3, k4⟩ := layout_columns W H P Px Py (a * Px + b)
  generalize layout W H (a * Px + (b + 1)) P Px Py = gr at *
  generalize layout W H (a * Px + b) P Px Py = gn at *
  have hb1 := tile_bounds W Px P (b + 1) hP (by omega)
  have hst1 := tileStart_succ b
  have hb2 := tile_bounds W Px P b hP (by omega)
  have hnx2 := tile_has_next W Px P b hP (by omega)
  have hox := tileOffset_succ W Px b
  have hoy := tileOffset_succ H Py a
  have hs1 := hsx (b + 1) (by omega)
  have hs2 := hsy a (by omega)
  have hs3 := hsx b (by omega)
  simp only [recvRegion, sendRegion, contiguous_eq, List.map_map, c1, k3]
  refine ⟨?_, ?_, ?_⟩
  · rw [y1, v1]
    refine List.map_congr_left ?_
    intro k hk
    have hk' := List.mem_range.mp hk
    simp only [Function.comp]
    rw [globalCell_eq gr _ (0) (gr.start_y + k) (by omega) (by omega),
      globalCell_eq gn _ (gn.start_x + gn.num_x - 1) (gn.start_y + k) (by omega) (by omega)]
    refine Prod.ext ?_ ?_ <;> simp only <;> omega
  · intro idx hidx
    obtain ⟨k, hk, rfl⟩ := List.mem_map.mp hidx
    have hk' := List.mem_range.mp hk
    rw [ownedIndex_eq gn _ (gn.start_x + gn.num_x - 1) (gn.start_y + k) (by omega) (by omega)]
    omega
  · refine (List.nodup_range _).map ?_
    intro i j h
    dsimp only at h
    have := (idx_inj (by omega) (by omega) h).1
    omega

/-- Halo index geometry towards the north-east neighbour. -/
theorem halo_NE (W H P Px Py a b : Nat) (hP : P ≠ 1) (hPx : 2 ≤ Px)
    (ha : a + 1 < Py) (hb : b + 1 < Px)
    (hsx : ∀ c, c < Px → 1 ≤ tileSize W Px c)
    (hsy : ∀ c, c < Py → 1 ≤ tileSize H Py c) :
    (recvRegion (layout W H (a * Px + b) P Px Py) .NeighborNE).map
        (globalCell (layout W H (a * Px + b) P Px Py))
      = (sendRegion (layout W H ((a + 1) * Px + (b + 1)) P Px Py) .NeighborSW).map
        (globalCell (layout W H ((a + 1) * Px + (b + 1)) P Px Py)) ∧
    (∀ k ∈ sendRegion (layout W H ((a + 1) * Px + (b + 1)) P Px Py) .NeighborSW,
      ownedIndex (layout W H ((a + 1) * Px + (b + 1)) P Px Py) k) ∧
    (recvRegion (layout W H (a * Px + b) P Px Py) .NeighborNE).Nodup := by
  obtain ⟨x1, x2, x3, x4⟩ := layout_x W H P Px Py a b (by omega)
  obtain ⟨y1, y2, y3, y4⟩ := layout_y W H P Px Py a b (by omega)
  obtain ⟨u1, u2, u3, u4⟩ := layout_x W H P Px Py (a + 1) (b + 1) (by omega)
  obtain ⟨v1, v2, v3, v4⟩ := layout_y W H P Px Py (a + 1) (b + 1) (by omega)
  obtain ⟨c1, c2, c3, c4⟩ := layout_columns W H P Px Py (a * Px + b)
  obtain ⟨k1, k2, k3, k4⟩ := layout_columns W H P Px Py ((a + 1) * Px + (b + 1))
  generalize layout W H (a * Px + b) P Px Py = gr at *
  generalize layout W H ((a + 1) * Px + (b + 1)) P Px Py = gn at *
  have hb1 := tile_bounds W Px P b hP (by omega)
  have hnx1 := tile_has_next W Px P b hP (by omega)
  have hb2 := tile_bounds W Px P (b + 1) hP (by omega)
  have hst2 := tileStart_succ b
  have hb3 := tile_bounds H Py P a hP (by omega)
  have hnx3 := tile_has_next H Py P a hP (by omega)
  have hb4 := tile_bounds H Py P (a + 1) hP (by omega)
  have hst4 := tileStart_succ a
  have hox := tileOffset_succ W Px b
  have hoy := tileOffset_succ H Py a
  have hs1 := hsx b (by omega)
  have hs2 := hsy a (by omega)
  have hs3 := hsx (b + 1) (by omega)
  have hs4 := hsy (a + 1) (by omega)
  simp only [recvRegion, sendRegion, contiguous_eq, List.map_map]
  refine ⟨?_, ?_, ?_⟩
  · refine List.map_congr_left ?_
    intro k hk
    have hk' := List.mem_range.mp hk
    simp only [Function.comp]
    rw [globalCell_eq gr _ (gr.dim_x - 1) (gr.dim_y - 1) (by omega) (by omega),
      globalCell_eq gn _ (gn.start_x) (gn.start_y) (by omega) (by omega)]
    refine Prod.ext ?_ ?_ <;> simp only <;> omega
  · intro idx hidx
    obtain ⟨k, hk, rfl⟩ := List.mem_map.mp hidx
    have hk' := List.mem_range.mp hk
    rw [ownedIndex_eq gn _ (gn.start_x) (gn.start_y) (by omega) (by omega)]
    omega
  · refine (List.nodup_range _).map ?_
    intro i j h
    exact Nat.add_left_cancel h

/-- Halo index geometry towards the north-west neighbour. -/
theorem halo_NW (W H P Px Py a b : Nat) (hP : P ≠ 1) (hPx : 2 ≤ Px)
    (ha : a + 1 < Py) (hb : b + 1 < Px)
    (hsx : ∀ c, c < Px → 1 ≤ tileSize W Px c)
    (hsy : ∀ c, c < Py → 1 ≤ tileSize H Py c) :
    (recvRegion (layout W H (a * Px + (b + 1)) P Px Py) .NeighborNW).map
        (globalCell (layout W H (a * Px + (b + 1)) P Px Py))
      = (sendRegion (layout W H ((a + 1) * Px + b) P Px Py) .NeighborSE).map
        (globalCell (layout W H ((a + 1) * Px + b) P Px Py)) ∧
    (∀ k ∈ sendRegion (layout W H ((a + 1) * Px + b) P Px Py) .NeighborSE,
      ownedIndex (layout W H ((a + 1) * Px + b) P Px Py) k) ∧
    (recvRegion (layout W H (a * Px + (b + 1)) P Px Py) .NeighborNW).Nodup := by
  obtain ⟨x1, x2, x3, x4⟩ := layout_x W H P Px Py a (b + 1) (by omega)
  obtain ⟨y1, y2, y3, y4⟩ := layout_y W H P Px Py a (b + 1) (by omega)
  obtain ⟨u1, u2, u3, u4⟩ := layout_x W H P Px Py (a + 1) b (by omega)
  obtain ⟨v1, v2, v3, v4⟩ := layout_y W H P Px Py (a + 1) b (by omega)
  obtain ⟨c1, c2, c3, c4⟩ := layout_columns W H P Px Py (a * Px + (b + 1))
  obtain ⟨k1, k2, k3, k4⟩ := layout_columns W H P Px Py ((a + 1) * Px + b)
  generalize layout W H (a * Px + (b + 1)) P Px Py = gr at *
  generalize layout W H ((a + 1) * Px + b) P Px Py = gn at *
  have hb1 := tile_bounds W Px P (b + 1) hP (by omega)
  have hst1 := tileStart_succ b
  have hb2 := tile_bounds W Px P b hP (by omega)
  have hnx2 := tile_has_next W Px P b hP (by omega)
  have hb3 := tile_bounds H Py P a hP (by omega)
  have hnx3 := tile_has_next H Py P a hP (by omega)
  have hb4 := tile_bounds H Py P (a + 1) hP (by omega)
  have hst4 := tileStart_succ a
  have hox := tileOffset_succ W Px b
  have hoy := tileOffset_succ H Py a
  have hs1 := hsx (b + 1) (by omega)
  have hs2 := hsy a (by omega)
  have hs3 := hsx b (by omega)
  have hs4 := hsy (a + 1) (by omega)
  simp only [recvRegion, sendRegion, contiguous_eq, List.map_map]
  refine ⟨?_, ?_, ?_⟩
  · refine List.map_congr_left ?_
    intro k hk
    have hk' := List.mem_range.mp hk
    simp only [Function.comp]
    rw [globalCell_eq gr _ (0) (gr.dim_y - 1) (by omega) (by omega),
      globalCell_eq gn _ (gn.dim_x - 2) (gn.start_y) (by omega) (by omega)]
    refine Prod.ext ?_ ?_ <;> simp only <;> omega
  · intro idx hidx
    obtain ⟨k, hk, rfl⟩ := List.mem_map.mp hidx
    have hk' := List.mem_range.mp hk
    rw [ownedIndex_eq gn _ (gn.dim_x - 2) (gn.start_y) (by omega) (by omega)]
    omega
  · refine (List.nodup_range _).map ?_
    intro i j h
    exact Nat.add_left_cancel h

/-- Halo index geometry towards the south-east neighbour. -/
theorem halo_SE (W H P Px Py a b : Nat) (hP : P ≠ 1) (hPx : 2 ≤ Px)
    (ha : a + 1 < Py) (hb : b + 1 < Px)
    (hsx : ∀ c, c < Px → 1 ≤ tileSize W Px c)
    (hsy : ∀ c, c < Py → 1 ≤ tileSize H Py c) :
    (recvRegion (layout W H ((a + 1) * Px + b) P Px Py) .NeighborSE).map
        (globalCell (layout W H ((a + 1) * Px + b) P Px Py))
      = (sendRegion (layout W H (a * Px + (b + 1)) P Px Py) .NeighborNW).map
        (globalCell (layout W H (a * Px + (b + 1)) P Px Py)) ∧
    (∀ k ∈ sendRegion (layout W H (a * Px + (b + 1)) P Px Py) .NeighborNW,
      ownedIndex (layout W H (a * Px + (b + 1)) P Px Py) k) ∧
    (recvRegion (layout W H ((a + 1) * Px + b) P Px Py) .NeighborSE).Nodup := by
  obtain ⟨x1, x2, x3, x4⟩ := layout_x W H P Px Py (a + 1) b (by omega)
  obtain ⟨y1, y2, y3, y4⟩ := layout_y W H P Px Py (a + 1) b (by omega)
  obtain ⟨u1, u2, u3, u4⟩ := layout_x W H P Px Py a (b + 1) (by omega)
  obtain ⟨v1, v2, v3, v4⟩ := layout_y W H P Px Py a (b + 1) (by omega)
  obtain ⟨c1, c2, c3, c4⟩ := layout_columns W H P Px Py ((a + 1) * Px + b)
  obtain ⟨k1, k2, k3, k4⟩ := layout_columns W H P Px Py (a * Px + (b + 1))
  generalize layout W H ((a + 1) * Px + b) P Px Py = gr at *
  generalize layout W H (a * Px + (b + 1)) P Px Py = gn at *
  have hb1 := tile_bounds W Px P b hP (by omega)
  have hnx1 := tile_has_next W Px P b hP (by omega)
  have hb2 := tile_bounds W Px P (b + 1) hP (by omega)
  have hst2 := tileStart_succ b
  have hb3 := tile_bounds H Py P (a + 1) hP (by omega)
  have hst3 := tileStart_succ a
  have hb4 := tile_bounds H Py P a hP (by omega)
  have hnx4 := tile_has_next H Py P a hP (by omega)
  have hox := tileOffset_succ W Px b
  have hoy := tileOffset_succ H Py a
  have hs1 := hsx b (by omega)
  have hs2 := hsy (a + 1) (by omega)
  have hs3 := hsx (b + 1) (by omega)
  have hs4 := hsy a (by omega)
  simp only [recvRegion, sendRegion, contiguous_eq, List.map_map]
  refine ⟨?_, ?_, ?_⟩
  · refine List.map_congr_left ?_
    intro k hk
    have hk' := List.mem_range.mp hk
    simp only [Function.comp]
    rw [globalCell_eq gr _ (gr.dim_x - 1) (0) (by omega) (by omega),
      globalCell_eq gn _ (gn.start_x) (gn.dim_y - 2) (by omega) (by omega)]
    refine Prod.ext ?_ ?_ <;> simp only <;> omega
  · intro idx hidx
    obtain ⟨k, hk, rfl⟩ := List.mem_map.mp hidx
    have hk' := List.mem_range.mp hk
    rw [ownedIndex_eq gn _ (gn.start_x) (gn.dim_y - 2) (by omega) (by omega)]
    omega
  · refine (List.nodup_range _).map ?_
    intro i j h
    exact Nat.add_left_cancel h

/-- Halo index geometry towards the south-west neighbour. -/
theorem halo_SW (W H P Px Py a b : Nat) (hP : P ≠ 1) (hPx : 2 ≤ Px)
    (ha : a + 1 < Py) (hb : b + 1 < Px)
    (hsx : ∀ c, c < Px → 1 ≤ tileSize W Px c)
    (hsy : ∀ c, c < Py → 1 ≤ tileSize H Py c) :
    (recvRegion (layout W H ((a + 1) * Px + (b + 1)) P Px Py) .NeighborSW).map
        (globalCell (layout W H ((a + 1) * Px + (b + 1)) P Px Py))
      = (sendRegion (layout W H (a * Px + b) P Px Py) .NeighborNE).map
        (globalCell (layout W H (a * Px + b) P Px Py)) ∧
    (∀ k ∈ sendRegion (layout W H (a * Px + b) P Px Py) .NeighborNE,
      ownedIndex (layout W H (a * Px + b) P Px Py) k) ∧
    (recvRegion (layout W H ((a + 1) * Px + (b + 1)) P Px Py) .NeighborSW).Nodup := by
  obtain ⟨x1, x2, x3, x4⟩ := layout_x W H P Px Py (a + 1) (b + 1) (by omega)
  obtain ⟨y1, y2, y3, y4⟩ := layout_y W H P Px Py (a + 1) (b + 1) (by omega)
  obtain ⟨u1, u2, u3, u4⟩ := layout_x W H P Px Py a b (by omega)
  obtain ⟨v1, v2, v3, v4⟩ := layout_y W H P Px Py a b (by omega)
  obtain ⟨c1, c2, c3, c4⟩ := layout_columns W H P Px Py ((a + 1) * Px + (b + 1))
  obtain ⟨k1, k2, k3, k4⟩ := layout_columns W H P Px Py (a * Px + b)
  generalize layout W H ((a + 1) * Px + (b + 1)) P Px Py = gr at *
  generalize layout W H (a * Px + b) P Px Py = gn at *
  have hb1 := tile_bounds W Px P (b + 1) hP (by omega)
  have hst1 := tileStart_succ b
  have hb2 := tile_bounds W Px P b hP (by omega)
  have hnx2 := tile_has_next W Px P b hP (by omega)
  have hb3 := tile_bounds H Py P (a + 1) hP (by omega)
  have hst3 := tileStart_succ a
  have hb4 := tile_bounds H Py P a hP (by omega)
  have hnx4 := tile_has_next H Py P a hP (by omega)
  have hox := tileOffset_succ W Px b
  have hoy := tileOffset_succ H Py a
  have hs1 := hsx (b + 1) (by omega)
  have hs2 := hsy (a + 1) (by omega)
  have hs3 := hsx b (by omega)
  have hs4 := hsy a (by omega)
  simp only [recvRegion, sendRegion, contiguous_eq, List.map_map]
  refine ⟨?_, ?_, ?_⟩
  · refine List.map_congr_left ?_
    intro k hk
    have hk' := List.mem_range.mp hk
    simp only [Function.comp]
    rw [globalCell_eq gr _ (0) (0) (by omega) (by omega),
      globalCell_eq gn _ (gn.dim_x - 2) (gn.dim_y - 2) (by omega) (by omega)]
    refine Prod.ext ?_ ?_ <;> simp only <;> omega
  · intro idx hidx
    obtain ⟨k, hk, rfl⟩ := List.mem_map.mp hidx
    have hk' := List.mem_range.mp hk
    rw [ownedIndex_eq gn _ (gn.dim_x - 2) (gn.dim_y - 2) (by omega) (by omega)]
    omega
  · refine (List.nodup_range _).map ?_
    intro i j h
    exact Nat.add_left_cancel h

theorem unpack_nil_left {α : Type} (msg : List α) (a : Nat → α) : unpack [] msg a = a := by
  simp [unpack]

theorem unpack_cons {α : Type} (i : Nat) (rs : List Nat) (v : α) (vs : List α) (a : Nat → α) :
    unpack (i :: rs) (v :: vs) a = unpack rs vs (Function.update a i v) := rfl

theorem unpack_of_not_mem {α : Type} (region : List Nat) (msg : List α) (a : Nat → α)
    (k : Nat) (hk : k ∉ region) : unpack region msg a k = a k := by
  induction region generalizing msg a with
  | nil => rw [unpack_nil_left]
  | cons i rs ih =>
    cases msg with
    | nil => simp [unpack]
    | cons v vs =>
      rw [unpack_cons, ih _ _ (fun h => hk (List.mem_cons_of_mem _ h))]
      exact Function.update_noteq (fun e => hk (by rw [e]; exact List.mem_cons_self _ _)) _ _

/-- After a receive, reading the receive buffer back gives the message. -/
theorem pack_unpack {α : Type} (region : List Nat) (msg : List α) (a : Nat → α)
    (hnd : region.Nodup) (hlen : msg.length = region.length) :
    pack region (unpack region msg a) = msg := by
  induction region generalizing msg a with
  | nil =>
    cases msg with
    | nil => rfl
    | cons v vs => simp at hlen
  | cons i rs ih =>
    cases msg with
    | nil => simp at hlen
    | cons v vs =>
      obtain ⟨hi, hrs⟩ := List.nodup_cons.mp hnd
      rw [unpack_cons]
      have h1 : pack (i :: rs) (unpack rs vs (Function.update a i v))
          = unpack rs vs (Function.update a i v) i
            :: pack rs (unpack rs vs (Function.update a i v)) := rfl
      rw [h1, ih vs _ hrs (by simpa using hlen), unpack_of_not_mem _ _ _ _ hi,
        Function.update_same]

theorem recvHalo_delivers {α : Type} (gr gn : Geometry) (d : Neighbor)
    (hnd : (recvRegion gr d).Nodup)
    (hlen : (recvRegion gr d).length = (sendRegion gn (opposite d)).length)
    (sr sn : Fields α) :
    ∀ get ∈ syncedFields α,
      pack (recvRegion gr d) (get (recvHalo gr d (sendHalo gn (opposite d) sn) sr))
        = pack (sendRegion gn (opposite d)) (get sn) := by
  intro get hget
  have key : ∀ (f old : Nat → α),
      pack (recvRegion gr d) (unpack (recvRegion gr d) (pack (sendRegion gn (opposite d)) f) old)
        = pack (sendRegion gn (opposite d)) f := by
    intro f old
    exact pack_unpack _ _ _ hnd (by simp [pack, hlen])
  simp only [syncedFields, List.mem_cons, List.mem_singleton, List.not_mem_nil, or_false]
    at hget
  rcases hget with h | h | h | h | h | h | h | h | h | h | h | h <;> subst h <;>
    exact key _ _

theorem tiles_nonempty (W H P Px Py : Nat) (hPx : 0 < Px) (hPy : 0 < Py) (hmul : Px * Py = P)
    (hne : ∀ q, q < P → 1 ≤ (layout W H q P Px Py).num_x ∧ 1 ≤ (layout W H q P Px Py).num_y) :
    (∀ c, c < Px → 1 ≤ tileSize W Px c) ∧ (∀ c, c < Py → 1 ≤ tileSize H Py c) := by
  constructor
  · intro c hc
    have h := (hne (0 * Px + c) (by rw [← hmul]; exact rank_lt_of_decomp Px Py 0 c hc hPy)).1
    rwa [(layout_x W H P Px Py 0 c hc).1] at h
  · intro c hc
    have h := (hne (c * Px + 0) (by rw [← hmul]; exact rank_lt_of_decomp Px Py c 0 hPx hc)).2
    rwa [(layout_y W H P Px Py c 0 hPx).1] at h

/-- Halo index geometry on the rank grid: receive region of `(a, b)` in direction `d` against
the send region of its neighbour in the opposite direction. -/
theorem halo_layout (W H P Px Py : Nat) (hPy : 0 < Py) (hle : Py ≤ Px) (hmul : Px * Py = P)
    (hsx : ∀ c, c < Px → 1 ≤ tileSize W Px c) (hsy : ∀ c, c < Py → 1 ≤ tileSize H Py c)
    (a b : Nat) (ha : a < Py) (hb : b < Px) (d : Neighbor)
    (h0 : 0 ≤ (layout W H (a * Px + b) P Px Py).neighbors d) :
    (recvRegion (layout W H (a * Px + b) P Px Py) d).map
        (globalCell (layout W H (a * Px + b) P Px Py))
      = (sendRegion (layout W H ((layout W H (a * Px + b) P Px Py).neighbors d).toNat P Px Py)
          (opposite d)).map
        (globalCell (layout W H ((layout W H (a * Px + b) P Px Py).neighbors d).toNat P Px Py)) ∧
    (∀ k ∈ sendRegion
        (layout W H ((layout W H (a * Px + b) P Px Py).neighbors d).toNat P Px Py) (opposite d),
      ownedIndex (layout W H ((layout W H (a * Px + b) P Px Py).neighbors d).toNat P Px Py) k) ∧
    (recvRegion (layout W H (a * Px + b) P Px Py) d).Nodup := by
  have hnb := neighbors_layout W H P Px Py a b hb d
  rw [hnb] at h0 ⊢
  have hbig : ∀ (_ : 2 ≤ Px ∨ 2 ≤ Py), P ≠ 1 ∧ 2 ≤ Px := by
    intro h
    have hPx2 : 2 ≤ Px := by omega
    refine ⟨?_, hPx2⟩
    intro hP1
    have : 2 * 1 ≤ Px * Py := Nat.mul_le_mul hPx2 hPy
    omega
  cases d <;> simp only at h0 ⊢ <;> split_ifs at h0 ⊢ with hc
  all_goals first
    | (exfalso; omega)
    | skip
  all_goals simp only [Int.toNat_natCast, opposite]
  · obtain ⟨hP, hPx⟩ := hbig (by omega)
    exact halo_N W H P Px Py a b hP hPx (by omega) hb hsx hsy
  · obtain ⟨hP, hPx⟩ := hbig (by omega)
    exact halo_E W H P Px Py a b hP hPx ha (by omega) hsx hsy
  · obtain ⟨a', rfl⟩ : ∃ a', a = a' + 1 := ⟨a - 1, by omega⟩
    obtain ⟨hP, hPx⟩ := hbig (by omega)
    simp only [Nat.add_sub_cancel]
    exact halo_S W H P Px Py a' b hP hPx ha hb hsx hsy
  · obtain ⟨b', rfl⟩ : ∃ b', b = b' + 1 := ⟨b - 1, by omega⟩
    obtain ⟨hP, hPx⟩ := hbig (by omega)
    simp only [Nat.add_sub_cancel]
    exact halo_W W H P Px Py a b' hP hPx ha hb hsx hsy
  · obtain ⟨hP, hPx⟩ := hbig (by omega)
    exact halo_NE W H P Px Py a b hP hPx (by omega) (by omega) hsx hsy
  · obtain ⟨b', rfl⟩ : ∃ b', b = b' + 1 := ⟨b - 1, by omega⟩
    obtain ⟨hP, hPx⟩ := hbig (by omega)
    simp only [Nat.add_sub_cancel]
    exact halo_NW W H P Px Py a b' hP hPx (by omega) hb hsx hsy
  · obtain ⟨a', rfl⟩ : ∃ a', a = a' + 1 := ⟨a - 1, by omega⟩
    obtain ⟨hP, hPx⟩ := hbig (by omega)
    simp only [Nat.add_sub_cancel]
    exact halo_SE W H P Px Py a' b hP hPx ha (by omega) hsx hsy
  · obtain ⟨a', rfl⟩ : ∃ a', a = a' + 1 := ⟨a - 1, by omega⟩
    obtain ⟨b', rfl⟩ : ∃ b', b = b' + 1 := ⟨b - 1, by omega⟩
    obtain ⟨hP, hPx⟩ := hbig (by omega)
    simp only [Nat.add_sub_cancel]
    exact halo_SW W H P Px Py a' b' hP hPx ha hb hsx hsy

/-- C2 (halo correctness, index geometry): with non-empty tiles, for every rank `r` and
direction `d` in which `r` has a neighbour `n`, the receive region `r` uses for `d` and the send
region `n` uses for `opposite d` have the same number of cells and their `k`-th cells have the
same global coordinates; every cell sent is an owned cell of `n`; and when the messages `n`
sends are delivered to these receives, each of the twelve synchronised arrays of `r` holds, at
the `k`-th cell of the receive region, the value `n` holds at the `k`-th cell it sent. -/
theorem halo_index_geometry (W H P : Nat)
    (hne : ∀ q g, q < P → create W H q P = some g → 1 ≤ g.num_x ∧ 1 ≤ g.num_y)
    (r : Nat) (hr : r < P) (d : Neighbor) (gr : Geometry) (hgr : create W H r P = some gr)
    (h0 : 0 ≤ gr.neighbors d) :
    ∃ gn, create W H (gr.neighbors d).toNat P = some gn ∧
      (recvRegion gr d).length = (sendRegion gn (opposite d)).length ∧
      (recvRegion gr d).map (globalCell gr) = (sendRegion gn (opposite d)).map (globalCell gn) ∧
      (∀ k ∈ sendRegion gn (opposite d), ownedIndex gn k) ∧
      (∀ (α : Type) (sr sn : Fields α), ∀ get ∈ syncedFields α,
        pack (recvRegion gr d) (get (recvHalo gr d (sendHalo gn (opposite d) sn) sr))
          = pack (sendRegion gn (opposite d)) (get sn)) := by
  obtain ⟨Px, Py, hget, hPy, hmul, hle, -, -⟩ := getClosestFactors2_spec P (by omega)
  have hPx : 0 < Px := by omega
  have hcreate : ∀ k, create W H k P = some (layout W H k P Px Py) := by
    intro k; simp [create, hget]
  rw [hcreate] at hgr
  obtain rfl := Option.some.inj hgr
  obtain ⟨hsx, hsy⟩ := tiles_nonempty W H P Px Py hPx hPy hmul
    (fun q hq => hne q _ hq (hcreate q))
  obtain ⟨a, b, hb, ha, rfl⟩ : ∃ a b, b < Px ∧ a < Py ∧ r = a * Px + b :=
    ⟨r / Px, r % Px, Nat.mod_lt r hPx, rank_row_lt Px Py r (by rw [hmul]; exact hr),
      by rw [Nat.mul_comm]; exact (Nat.div_add_mod r Px).symm⟩
  obtain ⟨h1, h2, h3⟩ := halo_layout W H P Px Py hPy hle hmul hsx hsy a b ha hb d h0
  have hlen := congrArg List.length h1
  rw [List.length_map, List.length_map] at hlen
  exact ⟨_, hcreate _, hlen, h1, h2,
    fun α sr sn => recvHalo_delivers _ _ d h3 hlen sr sn⟩

theorem create_two (W H r : Nat) : create W H r 2 = some (layout W H r 2 2 1) := by
  have h : Nat.sqrt 2 = 1 := (Nat.eq_sqrt.mpr ⟨by decide, by decide⟩).symm
  simp [create, getClosestFactors2, h, closestLoop]

/-- Witness for C2: `W = 16`, `H = 8`, `P = 2`, rank 0 and its east neighbour. -/
theorem halo_index_geometry_witness :
    ((∀ q g, q < 2 → create 16 8 q 2 = some g → 1 ≤ g.num_x ∧ 1 ≤ g.num_y) ∧ 0 < 2 ∧
      create 16 8 0 2 = some (layout 16 8 0 2 2 1) ∧
      0 ≤ (layout 16 8 0 2 2 1).neighbors .NeighborE) ∧
    ∃ gn, create 16 8 ((layout 16 8 0 2 2 1).neighbors .NeighborE).toNat 2 = some gn ∧
      (recvRegion (layout 16 8 0 2 2 1) .NeighborE).length
        = (sendRegion gn (opposite .NeighborE)).length ∧
      (recvRegion (layout 16 8 0 2 2 1) .NeighborE).map (globalCell (layout 16 8 0 2 2 1))
        = (sendRegion gn (opposite .NeighborE)).map (globalCell gn) ∧
      (∀ k ∈ sendRegion gn (opposite .NeighborE), ownedIndex gn k) ∧
      (∀ (α : Type) (sr sn : Fields α), ∀ get ∈ syncedFields α,
        pack (recvRegion (layout 16 8 0 2 2 1) .NeighborE)
            (get (recvHalo (layout 16 8 0 2 2 1) .NeighborE
              (sendHalo gn (opposite .NeighborE) sn) sr))
          = pack (sendRegion gn (opposite .NeighborE)) (get sn)) :=
  have hne : ∀ q g, q < 2 → create 16 8 q 2 = some g → 1 ≤ g.num_x ∧ 1 ≤ g.num_y := by
    intro q g hq hg
    rw [create_two] at hg
    obtain rfl := Option.some.inj hg
    have hq' : q = 0 ∨ q = 1 := by omega
    rcases hq' with rfl | rfl <;> decide
  ⟨⟨hne, by decide, create_two 16 8 0, by decide⟩,
    halo_index_geometry 16 8 2 hne 0 (by decide) .NeighborE (layout 16 8 0 2 2 1)
      (create_two 16 8 0) (by decide)⟩

/-! ### Gather -/

theorem foldl_pair {A B ι : Type} (L : List ι) (F1 : ι → A → A) (F2 : ι → B → B) (a : A)
    (b : B) :
    L.foldl (fun (acc : A × B) i => (F1 i acc.1, F2 i acc.2)) (a, b)
      = (L.foldl (fun a i => F1 i a) a, L.foldl (fun b i => F2 i b) b) := by
  induction L generalizing a b with
  | nil => rfl
  | cons i L ih => rw [List.foldl_cons, ih]; rfl

/-- A receive whose message carries, for every displacement, the value of `T` there, leaves
`T` on the receive buffer and nothing else changed. -/
theorem unpack_target {α : Type} (T : Nat → α) (region : List Nat) (msg : List α)
    (a : Nat → α) (hlen : region.length = msg.length)
    (hT : ∀ p ∈ region.zip msg, p.2 = T p.1) (k : Nat) :
    unpack region msg a k = if k ∈ region then T k else a k := by
  induction region generalizing msg a with
  | nil => simp [unpack]
  | cons i rs ih =>
    cases msg with
    | nil => simp at hlen
    | cons v vs =>
      rw [unpack_cons, ih vs _ (by simpa using hlen)
        (fun p hp => hT p (by rw [List.zip_cons_cons]; exact List.mem_cons_of_mem _ hp))]
      have hv : v = T i := hT (i, v) (by rw [List.zip_cons_cons]; exact List.mem_cons_self _ _)
      by_cases h1 : k ∈ rs
      · rw [if_pos h1, if_pos (List.mem_cons_of_mem _ h1)]
      · rw [if_neg h1]
        by_cases h2 : k = i
        · subst h2
          rw [if_pos (List.mem_cons_self _ _), Function.update_same, hv]
        · have h3 : k ∉ i :: rs := by
            intro h
            rcases List.mem_cons.mp h with h | h
            · exact h2 h
            · exact h1 h
          rw [if_neg h3, Function.update_noteq h2]

theorem gather_fold {α : Type} (T : Nat → α) (R : Nat → List Nat) (M : Nat → List α)
    (L : List Nat) (hlen : ∀ i ∈ L, (R i).length = (M i).length)
    (hT : ∀ i ∈ L, ∀ p ∈ (R i).zip (M i), p.2 = T p.1) (buf : Nat → α) (k : Nat)
    (hk : (∃ i ∈ L, k ∈ R i) ∨ buf k = T k) :
    L.foldl (fun buf i => unpack (R i) (M i) buf) buf k = T k := by
  induction L generalizing buf with
  | nil =>
    rcases hk with ⟨i, hi, -⟩ | h
    · simp at hi
    · exact h
  | cons i L ih =>
    rw [List.foldl_cons]
    refine ih (fun j hj => hlen j (List.mem_cons_of_mem _ hj))
      (fun j hj => hT j (List.mem_cons_of_mem _ hj)) _ ?_
    rw [unpack_target T (R i) (M i) buf (hlen i (List.mem_cons_self _ _))
      (hT i (List.mem_cons_self _ _)) k]
    by_cases hki : k ∈ R i
    · exact Or.inr (if_pos hki)
    · rw [if_neg hki]
      rcases hk with ⟨j, hj, hkj⟩ | h
      · rcases List.mem_cons.mp hj with rfl | hj'
        · exact absurd hkj hki
        · exact Or.inl ⟨j, hj', hkj⟩
      · exact Or.inr h

theorem zip_flatMap_map {β γ : Type} (L M : List Nat) (u : Nat → Nat → β) (v : Nat → Nat → γ) :
    (L.flatMap fun i => M.map (u i)).zip (L.flatMap fun i => M.map (v i))
      = L.flatMap fun i => M.map fun j => (u i j, v i j) := by
  induction L with
  | nil => rfl
  | cons i L ih =>
    simp only [List.flatMap_cons]
    rw [List.zip_append (by simp), ih, List.zip_map']

theorem length_flatMap_map {β : Type} (L M : List Nat) (u : Nat → Nat → β) :
    (L.flatMap fun i => M.map (u i)).length = L.length * M.length := by
  induction L with
  | nil => simp
  | cons i L ih =>
    simp only [List.flatMap_cons, List.length_append, List.length_map, ih, List.length_cons]
    rw [Nat.succ_mul, Nat.add_comm]

/-- The pairs (displacement in the receive buffer, value sent) of a message that is packed
with one subarray datatype and unpacked with another of the same sub-sizes. -/
theorem zip_subarray {α : Type} (A B : Subarray) (h0 : A.subsize0 = B.subsize0)
    (h1 : A.subsize1 = B.subsize1) (a : Nat → α) :
    A.indices.length = (pack B.indices a).length ∧
    A.indices.zip (pack B.indices a) =
      (List.range A.subsize0).flatMap fun i => (List.range A.subsize1).map fun j =>
        ((A.offsets0 + i) * A.array1 + (A.offsets1 + j),
          a ((B.offsets0 + i) * B.array1 + (B.offsets1 + j))) := by
  have hB : pack B.indices a = (List.range A.subsize0).flatMap fun i =>
      (List.range A.subsize1).map fun j => a ((B.offsets0 + i) * B.array1 + (B.offsets1 + j)) := by
    simp only [pack, Subarray.indices, h0, h1, List.map_flatMap, List.map_map]
    rfl
  constructor
  · rw [hB]
    simp only [Subarray.indices]
    rw [length_flatMap_map, length_flatMap_map]
  · rw [hB]
    simp only [Subarray.indices]
    exact zip_flatMap_map _ _ _ _

theorem layout_scalars (W H P Px Py r i : Nat) :
    (layout W H r P Px Py).own_scalar =
      ⟨(layout W H r P Px Py).dim_y, (layout W H r P Px Py).dim_x,
        (layout W H r P Px Py).num_y, (layout W H r P Px Py).num_x,
        (layout W H r P Px Py).start_y, (layout W H r P Px Py).start_x⟩ ∧
    (layout W H r P Px Py).other_scalar i =
      ⟨H, W, tileSize H Py (i / Px), tileSize W Px (i % Px),
        tileOffset H Py (i / Px), tileOffset W Px (i % Px)⟩ ∧
    (layout W H r P Px Py).num_ranks = P := ⟨rfl, rfl, rfl⟩

theorem tile_end_le (total n c : Nat) (hn : 0 < n) (hc : c < n) :
    tileOffset total n c + tileSize total n c ≤ total := by
  rw [← tileOffset_succ]
  have h := chunk_off_mono (total / n) (total % n) (show c + 1 ≤ n from hc)
  rw [chunk_off_total total n hn] at h
  exact h

/-- The fold of `gatherDataOnRank0` over the ranks, for one array: every cell of the global
grid ends up holding the value of `f` at its coordinates. -/
theorem gather_array {α : Type} (W H P Px Py : Nat) (hPx : 0 < Px) (hPy : 0 < Py)
    (hmul : Px * Py = P) (f : Nat → Nat → α) (arr : Nat → Nat → α)
    (harr : ∀ i, i < P → ∀ dx dy, dx < (layout W H i P Px Py).num_x →
      dy < (layout W H i P Px Py).num_y →
      arr i (((layout W H i P Px Py).start_y + dy) * (layout W H i P Px Py).dim_x
          + ((layout W H i P Px Py).start_x + dx))
        = f ((layout W H i P Px Py).offset_x + dx) ((layout W H i P Px Py).offset_y + dy))
    (buf : Nat → α) (gx gy : Nat) (hgx : gx < W) (hgy : gy < H) :
    (List.range P).foldl (fun buf i =>
        unpack ((layout W H 0 P Px Py).other_scalar i).indices
          (pack (layout W H i P Px Py).own_scalar.indices (arr i)) buf) buf (gy * W + gx)
      = f gx gy := by
  have hzip : ∀ i, i < P →
      ((layout W H 0 P Px Py).other_scalar i).indices.length
        = (pack (layout W H i P Px Py).own_scalar.indices (arr i)).length ∧
      ∀ p ∈ ((layout W H 0 P Px Py).other_scalar i).indices.zip
          (pack (layout W H i P Px Py).own_scalar.indices (arr i)),
        p.2 = f (p.1 % W) (p.1 / W) := by
    intro i hi
    have hx := layout_x W H P Px Py (i / Px) (i % Px) (Nat.mod_lt i hPx)
    have hy := layout_y W H P Px Py (i / Px) (i % Px) (Nat.mod_lt i hPx)
    have hi' : i / Px * Px + i % Px = i := by rw [Nat.mul_comm]; exact Nat.div_add_mod i Px
    rw [hi'] at hx hy
    have hrow : i / Px < Py := rank_row_lt Px Py i (by rw [hmul]; exact hi)
    obtain ⟨hlen, hz⟩ := zip_subarray ((layout W H 0 P Px Py).other_scalar i)
      (layout W H i P Px Py).own_scalar
      (by rw [(layout_scalars W H P Px Py i i).1, (layout_scalars W H P Px Py 0 i).2.1]
          exact hy.1.symm)
      (by rw [(layout_scalars W H P Px Py i i).1, (layout_scalars W H P Px Py 0 i).2.1]
          exact hx.1.symm) (arr i)
    refine ⟨hlen, ?_⟩
    intro p hp
    rw [hz] at hp
    simp only [(layout_scalars W H P Px Py i i).1, (layout_scalars W H P Px Py 0 i).2.1,
      List.mem_flatMap, List.mem_map, List.mem_range] at hp
    obtain ⟨dy, hdy, dx, hdx, rfl⟩ := hp
    have e1 := tile_end_le W Px (i % Px) hPx (Nat.mod_lt i hPx)
    obtain ⟨m1, m2⟩ := rank_decomp W (tileOffset H Py (i / Px) + dy)
      (tileOffset W Px (i % Px) + dx) (by omega)
    simp only [m1, m2]
    rw [harr i hi dx dy (by rw [hx.1]; exact hdx) (by rw [hy.1]; exact hdy), hx.2.1, hy.2.1]
  obtain ⟨m1, m2⟩ := rank_decomp W gy gx hgx
  have key := gather_fold (fun k => f (k % W) (k / W))
    (fun i => ((layout W H 0 P Px Py).other_scalar i).indices)
    (fun i => pack (layout W H i P Px Py).own_scalar.indices (arr i)) (List.range P)
    (fun i hi => (hzip i (List.mem_range.mp hi)).1)
    (fun i hi => (hzip i (List.mem_range.mp hi)).2) buf (gy * W + gx) ?_
  · simp only [m1, m2] at key
    exact key
  · left
    have hWt := chunk_off_total W Px hPx
    have hHt := chunk_off_total H Py hPy
    obtain ⟨c, hc, hc1, hc2⟩ := chunk_exists (W / Px) (W % Px) gx Px (by omega)
    obtain ⟨a, ha, ha1, ha2⟩ := chunk_exists (H / Py) (H % Py) gy Py (by omega)
    obtain ⟨hmod, hdiv⟩ := rank_decomp Px a c hc
    refine ⟨a * Px + c, List.mem_range.mpr
      (by rw [← hmul]; exact rank_lt_of_decomp Px Py a c hc ha), ?_⟩
    rw [chunk_off_succ] at hc2 ha2
    simp only [(layout_scalars W H P Px Py 0 (a * Px + c)).2.1, Subarray.indices, hmod, hdiv,
      List.mem_flatMap, List.mem_map, List.mem_range, tileSize, tileOffset]
    refine ⟨gy - (a * (H / Py) + min a (H % Py)), by omega,
      gx - (c * (W / Px) + min c (W % Px)), by omega, ?_⟩
    rw [Nat.add_sub_cancel' ha1, Nat.add_sub_cancel' hc1]

/-- The values `gatherDataOnRank0` leaves in the two receive buffers, the buffers taken as
unbounded arrays. -/
theorem gather_values {α : Type} (W H P : Nat) (hP : 1 ≤ P)
    (property : FluidProperty) (send_buf : Fields α → Nat → α)
    (hprop : sendBuf property = some send_buf)
    (f : Nat → Nat → α) (b : Nat → Nat → Bool)
    (geom : Nat → Geometry) (hgeom : ∀ i, i < P → create W H i P = some (geom i))
    (state : Nat → Fields α)
    (hstate : ∀ i, i < P → ∀ dx dy, dx < (geom i).num_x → dy < (geom i).num_y →
      send_buf (state i)
          (((geom i).start_y + dy) * (geom i).dim_x + ((geom i).start_x + dx))
        = f ((geom i).offset_x + dx) ((geom i).offset_y + dy) ∧
      (state i).barrier
          (((geom i).start_y + dy) * (geom i).dim_x + ((geom i).start_x + dx))
        = b ((geom i).offset_x + dx) ((geom i).offset_y + dy))
    (bufs : GatherBuffers α) :
    ∀ gx gy, gx < W → gy < H →
      (gatherDataOnRank0 property geom state bufs).recv_buf (gy * W + gx) = f gx gy ∧
      (gatherDataOnRank0 property geom state bufs).brecv_buf (gy * W + gx) = b gx gy := by
  obtain ⟨Px, Py, hget, hPy, hmul, -, -, -⟩ := getClosestFactors2_spec P hP
  have hPx : 0 < Px := by
    rcases Nat.eq_zero_or_pos Px with h0 | h0
    · subst h0; omega
    · exact h0
  have hg : ∀ i, i < P → geom i = layout W H i P Px Py := by
    intro i hi
    have h := hgeom i hi
    simp only [create, hget] at h
    exact (Option.some.inj h).symm
  have hfold : ∀ {β : Type} (arr : Nat → Nat → β) (buf : Nat → β),
      (List.range P).foldl (fun buf i =>
          unpack ((geom 0).other_scalar i).indices (pack (geom i).own_scalar.indices (arr i)) buf)
        buf
      = (List.range P).foldl (fun buf i =>
          unpack ((layout W H 0 P Px Py).other_scalar i).indices
            (pack (layout W H i P Px Py).own_scalar.indices (arr i)) buf) buf := by
    intro β arr buf
    refine List.foldl_ext _ _ _ ?_
    intro acc i hi
    rw [hg i (List.mem_range.mp hi), hg 0 (by omega)]
  intro gx gy hgx hgy
  have hnum : (geom 0).num_ranks = P := by rw [hg 0 (by omega)]; rfl
  simp only [gatherDataOnRank0, hprop, hnum]
  rw [foldl_pair (List.range P)
    (fun i buf => unpack ((geom 0).other_scalar i).indices
      (pack (geom i).own_scalar.indices (send_buf (state i))) buf)
    (fun i buf => unpack ((geom 0).other_scalar i).indices
      (pack (geom i).own_scalar.indices (state i).barrier) buf)]
  simp only []
  rw [hfold (fun i => send_buf (state i)), hfold (fun i => (state i).barrier)]
  constructor
  · refine gather_array W H P Px Py hPx hPy hmul f (fun i => send_buf (state i)) ?_ _ gx gy
      hgx hgy
    intro i hi dx dy hdx hdy
    rw [← hg i hi] at hdx hdy ⊢
    exact (hstate i hi dx dy hdx hdy).1
  · refine gather_array W H P Px Py hPx hPy hmul b (fun i => (state i).barrier) ?_ _ gx gy
      hgx hgy
    intro i hi dx dy hdx hdy
    rw [← hg i hi] at hdx hdy ⊢
    exact (hstate i hi dx dy hdx hdy).2

/-! ### Constructor facts shared by the layout claims -/

/-- For `P ≥ 1` the planner returns a grid `Px x Py` with `Py ≤ Px`, the constructor completes
on every input, and every rank `r < P` is `row * Px + col` with `col < Px`, `row < Py`. -/
theorem create_layout (P : Nat) (hP : 1 ≤ P) :
    ∃ Px Py, getClosestFactors2 P = some (Px, Py) ∧ 0 < Px ∧ 0 < Py ∧ Px * Py = P ∧
      Py ≤ Px ∧ (∀ W H k, create W H k P = some (layout W H k P Px Py)) ∧
      (∀ r, r < P → r % Px < Px ∧ r / Px < Py ∧ r = r / Px * Px + r % Px) := by
  obtain ⟨Px, Py, hget, hPy, hmul, hle, -, -⟩ := getClosestFactors2_spec P hP
  have hPx : 0 < Px := by omega
  refine ⟨Px, Py, hget, hPx, hPy, hmul, hle, ?_, ?_⟩
  · intro W H k; simp [create, hget]
  · intro r hr
    exact ⟨Nat.mod_lt r hPx, rank_row_lt Px Py r (by rw [hmul]; exact hr),
      by rw [Nat.mul_comm]; exact (Nat.div_add_mod r Px).symm⟩

/-- Tile column and tile row of the rank `a * Px + b`. -/
theorem layout_col_row (W H P Px Py a b : Nat) (hb : b < Px) :
    (layout W H (a * Px + b) P Px Py).col = b ∧ (layout W H (a * Px + b) P Px Py).row = a := by
  obtain ⟨hmod, hdiv⟩ := rank_decomp Px a b hb
  exact ⟨hmod, hdiv⟩

/-- The planner gives at least two tile columns as soon as there are two ranks. -/
theorem two_columns (P Px Py : Nat) (hmul : Px * Py = P) (hle : Py ≤ Px) (hP : 2 ≤ P) :
    2 ≤ Px := by
  by_contra h
  have h1 : Px ≤ 1 := by omega
  have h2 : Py ≤ 1 := by omega
  have := Nat.mul_le_mul h1 h2
  omega

/-- The stored extent of a chunk when the grid has at least two chunks in that direction or
there is a single rank: the chunk and one ghost cell per existing neighbour. -/
theorem tileDim_ghosts (total n P c : Nat) (hc : c < n)
    (h : P ≠ 1 ∧ 2 ≤ n ∨ P = 1 ∧ n = 1) :
    tileDim total n P c
      = tileSize total n c + (if 0 < c then 1 else 0) + (if c + 1 < n then 1 else 0) := by
  unfold tileDim
  split_ifs <;> omega

/-- The stored extent of a chunk when it is the only chunk in its direction but there are
several ranks: one cell more than the chunk, although there is no neighbour. -/
theorem tileDim_single (total P : Nat) (hP : P ≠ 1) :
    tileDim total 1 P 0 = tileSize total 1 0 + 1 := by
  unfold tileDim
  simp [hP]

/-- The first cell of a chunk is the number of cells of the chunks before it. -/
theorem tileOffset_eq_sum (total n c : Nat) :
    tileOffset total n c = ∑ k ∈ Finset.range c, tileSize total n k := by
  induction c with
  | zero => simp [tileOffset]
  | succ c ih => rw [tileOffset_succ, Finset.sum_range_succ, ih]

/-- Two chunks of one direction differ by at most one cell. -/
theorem tileSize_balanced (total n c c' : Nat) : tileSize total n c ≤ tileSize total n c' + 1 := by
  unfold tileSize
  split_ifs <;> omega

/-! ### Barrier rasterisation -/

theorem mem_countUp (lo hi j : Int) : j ∈ countUp lo hi ↔ lo ≤ j ∧ j ≤ hi := by
  unfold countUp
  simp only [List.mem_map, List.mem_range]
  constructor
  · rintro ⟨k, hk, rfl⟩
    have := Int.lt_toNat.mp hk
    omega
  · intro h
    have h0 := Int.toNat_of_nonneg (show 0 ≤ j - lo by omega)
    exact ⟨(j - lo).toNat, Int.lt_toNat.mpr (by omega), by omega⟩

/-- A loop whose body sets one entry of a mask to `true` under a guard: an entry is `true`
afterwards iff it was before or some guarded iteration addressed it. -/
theorem foldl_mark {ι : Type} (L : List ι) (c : ι → Prop) [DecidablePred c] (idx : ι → Nat)
    (b : Nat → Bool) (k : Nat) :
    L.foldl (fun b j => if c j then Function.update b (idx j) true else b) b k = true ↔
      b k = true ∨ ∃ j ∈ L, c j ∧ idx j = k := by
  induction L generalizing b with
  | nil => simp
  | cons j L ih =>
    rw [List.foldl_cons, ih]
    by_cases hc : c j
    · rw [if_pos hc]
      by_cases hk : idx j = k
      · subst hk
        simp [hc]
      · have hk' : k ≠ idx j := fun h => hk h.symm
        simp [Function.update_noteq hk', hk, hc]
    · rw [if_neg hc]
      simp [hc]

/-- A loop each of whose iterations only adds `true` entries to a mask. -/
theorem foldl_marks {ι : Type} (L : List ι) (F : (Nat → Bool) → ι → (Nat → Bool))
    (Q : ι → Nat → Prop) (hF : ∀ b seg k, F b seg k = true ↔ b k = true ∨ Q seg k)
    (b : Nat → Bool) (k : Nat) :
    L.foldl F b k = true ↔ b k = true ∨ ∃ seg ∈ L, Q seg k := by
  induction L generalizing b with
  | nil => simp
  | cons j L ih =>
    rw [List.foldl_cons, ih, hF]
    simp only [List.mem_cons, exists_eq_or_imp]
    tauto

/-- One guarded row or column of marks, in terms of the cell addressed. -/
theorem mark_line (b : Nat → Bool) (k d : Nat) (lo hi s fixed : Int)
    (idx : Nat → Nat → Nat) :
    (countUp lo hi).foldl (fun b j =>
        if 0 ≤ j - s ∧ j - s < (d : Int) then
          Function.update b (idx fixed.toNat (j - s).toNat) true
        else b) b k = true ↔
      b k = true ∨ ∃ v : Nat, v < d ∧ k = idx fixed.toNat v ∧ lo ≤ (v : Int) + s ∧
        (v : Int) + s ≤ hi := by
  rw [foldl_mark (countUp lo hi) (fun j => 0 ≤ j - s ∧ j - s < (d : Int))
    (fun j => idx fixed.toNat (j - s).toNat)]
  refine or_congr Iff.rfl ?_
  constructor
  · rintro ⟨j, hj, hc, rfl⟩
    rw [mem_countUp] at hj
    have := Int.toNat_of_nonneg hc.1
    exact ⟨(j - s).toNat, by omega, rfl, by omega, by omega⟩
  · rintro ⟨v, hv, rfl, h2, h3⟩
    refine ⟨(v : Int) + s, (mem_countUp _ _ _).mpr ⟨h2, h3⟩, by omega, ?_⟩
    have e2 : ((v : Int) + s - s).toNat = v := by
      rw [Int.add_sub_cancel]; exact Int.toNat_natCast v
    simp only [e2]

/-- The mask `initBarrier` computes, at a stored cell, in terms of the shifts `sx` and `sy`
the function derives from the tile offsets. -/
theorem initBarrier_cell {α : Type} (g : Geometry) (barriers : List Barrier) (s : Fields α)
    (x y : Nat) (hx : x < g.dim_x) (hy : y < g.dim_y) :
    (initBarrier g barriers s).barrier (y * g.dim_x + x) = true ↔
      ∃ seg ∈ barriers, specContains seg
        ((x : Int) + (if g.offset_x = 0 then 0 else (g.offset_x : Int) - 1))
        ((y : Int) + (if g.offset_y = 0 then 0 else (g.offset_y : Int) - 1)) := by
  generalize hsx : (if g.offset_x = 0 then (0 : Int) else (g.offset_x : Int) - 1) = sx
  generalize hsy : (if g.offset_y = 0 then (0 : Int) else (g.offset_y : Int) - 1) = sy
  have hlt : y * g.dim_x + x < g.dim_x * g.dim_y := by
    have := (mul_facts g.dim_x y g.dim_y).2.2 hy
    rw [Nat.mul_comm g.dim_x g.dim_y]
    omega
  simp only [initBarrier, hsx, hsy]
  rw [foldl_marks barriers _ (fun seg k => ∃ x' y' : Nat, x' < g.dim_x ∧ y' < g.dim_y ∧
    k = y' * g.dim_x + x' ∧ specContains seg ((x' : Int) + sx) ((y' : Int) + sy))]
  · simp only [hlt, if_true, Bool.false_eq_true, false_or]
    constructor
    · rintro ⟨seg, hseg, x', y', hx', hy', hk, hc⟩
      obtain ⟨rfl, rfl⟩ := idx_inj hx hx' hk
      exact ⟨seg, hseg, hc⟩
    · rintro ⟨seg, hseg, hc⟩
      exact ⟨seg, hseg, x, y, hx, hy, rfl, hc⟩
  · intro b seg k
    rcases seg with ⟨ty, x1, x2, y1, y2⟩
    cases ty
    · simp only [specContains]
      by_cases hg : 0 ≤ y1 - sy ∧ y1 - sy < g.dim_y
      · rw [if_pos hg]
        have hn := Int.toNat_of_nonneg hg.1
        rw [mark_line b k g.dim_x x1 x2 sx (y1 - sy) (fun f v => f * g.dim_x + v)]
        refine or_congr Iff.rfl ?_
        constructor
        · rintro ⟨v, hv, rfl, h2, h3⟩
          exact ⟨v, (y1 - sy).toNat, hv, by omega, rfl, by omega, h2, h3⟩
        · rintro ⟨x', y', hx', hy', rfl, h1, h2, h3⟩
          have e1 : (y1 - sy).toNat = y' := by omega
          exact ⟨x', hx', by rw [e1], h2, h3⟩
      · rw [if_neg hg]
        constructor
        · exact Or.inl
        · rintro (h | ⟨x', y', hx', hy', -, h1, -, -⟩)
          · exact h
          · exact absurd ⟨by omega, by omega⟩ hg
    · simp only [specContains]
      by_cases hg : 0 ≤ x1 - sx ∧ x1 - sx < g.dim_x
      · rw [if_pos hg]
        have hn := Int.toNat_of_nonneg hg.1
        rw [mark_line b k g.dim_y y1 y2 sy (x1 - sx) (fun f v => v * g.dim_x + f)]
        refine or_congr Iff.rfl ?_
        constructor
        · rintro ⟨v, hv, rfl, h2, h3⟩
          exact ⟨(x1 - sx).toNat, v, by omega, hv, rfl, by omega, h2, h3⟩
        · rintro ⟨x', y', hx', hy', rfl, h1, h2, h3⟩
          have e1 : (x1 - sx).toNat = x' := by omega
          exact ⟨y', hy', by rw [e1], h2, h3⟩
      · rw [if_neg hg]
        constructor
        · exact Or.inl
        · rintro (h | ⟨x', y', hx', hy', -, h1, -, -⟩)
          · exact h
          · exact absurd ⟨by omega, by omega⟩ hg

/-- On a non-empty grid only the first chunk starts at cell 0. -/
theorem tileOffset_eq_zero (total n c : Nat) (ht : 1 ≤ total) (hn : 0 < n) :
    tileOffset total n c = 0 ↔ c = 0 := by
  unfold tileOffset
  constructor
  · intro h
    by_contra hc
    have h1 : 1 ≤ c := by omega
    rcases Nat.eq_zero_or_pos (total / n) with h0 | h0
    · have hlt : total < n := by
        by_contra hge
        have := Nat.div_pos (Nat.le_of_not_lt hge) hn
        omega
      rw [h0, Nat.mod_eq_of_lt hlt] at h
      have : 1 ≤ min c total := Nat.le_min.mpr ⟨h1, ht⟩
      omega
    · have := Nat.mul_le_mul h1 h0
      omega
  · rintro rfl
    simp

/-- The shift `initBarrier` subtracts from a global coordinate is `offset - start`. -/
theorem barrier_shift (total n c : Nat) (ht : 1 ≤ total) (hn : 0 < n) :
    (if tileOffset total n c = 0 then (0 : Int) else (tileOffset total n c : Int) - 1)
      = (tileOffset total n c : Int) - (tileStart c : Int) := by
  have h := tileOffset_eq_zero total n c ht hn
  unfold tileStart
  by_cases hc : c = 0
  · rw [if_pos (h.mpr hc), if_pos hc, h.mpr hc]; rfl
  · rw [if_neg (fun e => hc (h.mp e)), if_neg hc]; rfl

/-! ### Density after `collide` -/

/-- C12 (interior-cell sum invariant), as the code behaves: in exact arithmetic, for every
viscosity with `3 * viscosity + 0.5 ≠ 0` and every interior cell whose nine pre-collision
channels sum to a non-zero value, the divisions of `collide` are defined (`omega` is the
reciprocal of `3 * viscosity + 0.5` and the checked cell update has a result) and right after
the loops of `collide` the density of the cell is the sum of its nine post-collision channels,
which is also the sum of its nine pre-collision channels. -/
theorem collide_density_sum (dim_x dim_y x y : Nat) (h : isInterior dim_x dim_y x y)
    (viscosity : K) (hnu : 3 * viscosity + 0.5 ≠ 0) (s : Fields K)
    (hρ : s.f_0 (y * dim_x + x) + s.f_N (y * dim_x + x) + s.f_S (y * dim_x + x)
      + s.f_E (y * dim_x + x) + s.f_W (y * dim_x + x) + s.f_NW (y * dim_x + x)
      + s.f_NE (y * dim_x + x) + s.f_SW (y * dim_x + x) + s.f_SE (y * dim_x + x) ≠ 0) :
    let idx := y * dim_x + x
    let s' := collide dim_x dim_y viscosity s
    (1.0 / (3.0 * viscosity + 0.5) : K) * (3 * viscosity + 0.5) = 1 ∧
    collideCellChecked (1.0 / (3.0 * viscosity + 0.5)) idx s
      = some (collideCell (1.0 / (3.0 * viscosity + 0.5)) idx s) ∧
    agreeAt s' (collideCell (1.0 / (3.0 * viscosity + 0.5)) idx s) idx ∧
    s'.density idx = s'.f_0 idx + s'.f_N idx + s'.f_E idx + s'.f_S idx + s'.f_W idx
      + s'.f_NE idx + s'.f_NW idx + s'.f_SE idx + s'.f_SW idx ∧
    s'.density idx = s.f_0 idx + s.f_N idx + s.f_E idx + s.f_S idx + s.f_W idx
      + s.f_NE idx + s.f_NW idx + s.f_SE idx + s.f_SW idx := by
  intro idx s'
  have hag := collide_agree dim_x dim_y x y h viscosity s
  obtain ⟨a1, a2, a3, a4, a5, a6, a7, a8, a9, a10, -, -, -, -, -⟩ := hag
  obtain ⟨ρ, hρ'⟩ : ∃ ρ, s.f_0 idx + s.f_N idx + s.f_S idx + s.f_E idx + s.f_W idx
      + s.f_NW idx + s.f_NE idx + s.f_SW idx + s.f_SE idx = ρ := ⟨_, rfl⟩
  obtain ⟨u, hu⟩ : ∃ u, (s.f_E idx + s.f_NE idx + s.f_SE idx - s.f_W idx - s.f_NW idx
      - s.f_SW idx) / ρ = u := ⟨_, rfl⟩
  obtain ⟨v, hv⟩ : ∃ v, (s.f_N idx + s.f_NE idx + s.f_NW idx - s.f_S idx - s.f_SE idx
      - s.f_SW idx) / ρ = v := ⟨_, rfl⟩
  obtain ⟨c1, -, -, c4, c5, c6, c7, c8, c9, c10, c11, c12⟩ :=
    collideCell_values (1.0 / (3.0 * viscosity + 0.5)) idx s ρ u v hρ' hu hv
  have hom : (1.0 / (3.0 * viscosity + 0.5) : K) * (3 * viscosity + 0.5) = 1 := by
    have e : (1.0 / (3.0 * viscosity + 0.5) : K) = (3 * viscosity + 0.5)⁻¹ := by norm_num
    rw [e, inv_mul_cancel₀ hnu]
  have hchk : collideCellChecked (1.0 / (3.0 * viscosity + 0.5)) idx s
      = some (collideCell (1.0 / (3.0 * viscosity + 0.5)) idx s) := by
    unfold collideCellChecked
    exact if_neg hρ
  refine ⟨hom, hchk, collide_agree dim_x dim_y x y h viscosity s, ?_⟩
  generalize (1.0 / (3.0 * viscosity + 0.5) : K) = omega at *
  have hd : s'.density idx = s.f_0 idx + s.f_N idx + s.f_E idx + s.f_S idx + s.f_W idx
      + s.f_NE idx + s.f_NW idx + s.f_SE idx + s.f_SW idx := by
    rw [a10.trans c1, ← hρ']; ring
  refine ⟨?_, hd⟩
  rw [a10.trans c1, a1.trans c4, a2.trans c7, a3.trans c5, a4.trans c8, a5.trans c6,
    a6.trans c9, a7.trans c11, a8.trans c10, a9.trans c12]
  norm_num
  linear_combination (omega - 1) * hρ'

/-- Witness for C12: the centre cell of a 3 x 3 tile whose arrays all hold `1`. -/
theorem collide_density_sum_witness :
    (isInterior 3 3 1 1 ∧ 3 * (1 : ℚ) + 0.5 ≠ 0 ∧
      (uniformFields (1 : ℚ) false).f_0 (1 * 3 + 1) + (uniformFields (1 : ℚ) false).f_N (1 * 3 + 1)
        + (uniformFields (1 : ℚ) false).f_S (1 * 3 + 1)
        + (uniformFields (1 : ℚ) false).f_E (1 * 3 + 1)
        + (uniformFields (1 : ℚ) false).f_W (1 * 3 + 1)
        + (uniformFields (1 : ℚ) false).f_NW (1 * 3 + 1)
        + (uniformFields (1 : ℚ) false).f_NE (1 * 3 + 1)
        + (uniformFields (1 : ℚ) false).f_SW (1 * 3 + 1)
        + (uniformFields (1 : ℚ) false).f_SE (1 * 3 + 1) ≠ 0) ∧
    (let s : Fields ℚ := uniformFields 1 false
    let idx := 1 * 3 + 1
    let s' := collide 3 3 (1 : ℚ) s
    s'.density idx = s'.f_0 idx + s'.f_N idx + s'.f_E idx + s'.f_S idx + s'.f_W idx
      + s'.f_NE idx + s'.f_NW idx + s'.f_SE idx + s'.f_SW idx ∧
    s'.density idx = s.f_0 idx + s.f_N idx + s.f_E idx + s.f_S idx + s.f_W idx
      + s.f_NE idx + s.f_NW idx + s.f_SE idx + s.f_SW idx) :=
  ⟨⟨by decide, by norm_num, by norm_num [uniformFields]⟩,
    (collide_density_sum 3 3 1 1 (by decide) (1 : ℚ) (by norm_num) (uniformFields 1 false)
      (by norm_num [uniformFields])).2.2.2⟩

/-- Counterexample to C12 as stated: the centre cell of a 3 x 3 tile whose arrays all hold `0`,
with viscosity `1`.  The nine channels sum to zero, so both velocity quotients of `collide`
divide by zero: the checked cell update has no result, and the cell does not have a density
equal to the sum of nine post-collision channels. -/
theorem collide_zero_density_counterexample :
    isInterior 3 3 1 1 ∧ 3 * (1 : ℚ) + 0.5 ≠ 0 ∧
    (uniformFields (0 : ℚ) false).f_0 4 + (uniformFields (0 : ℚ) false).f_N 4
      + (uniformFields (0 : ℚ) false).f_S 4 + (uniformFields (0 : ℚ) false).f_E 4
      + (uniformFields (0 : ℚ) false).f_W 4 + (uniformFields (0 : ℚ) false).f_NW 4
      + (uniformFields (0 : ℚ) false).f_NE 4 + (uniformFields (0 : ℚ) false).f_SW 4
      + (uniformFields (0 : ℚ) false).f_SE 4 = 0 ∧
    collideCellChecked (1.0 / (3.0 * 1 + 0.5)) 4 (uniformFields (0 : ℚ) false) = none ∧
    ¬ densityIsChannelSum
      (collideCellChecked (1.0 / (3.0 * 1 + 0.5)) 4 (uniformFields (0 : ℚ) false)) 4 := by
  have hz : collideCellChecked (1.0 / (3.0 * 1 + 0.5)) 4 (uniformFields (0 : ℚ) false) = none := by
    unfold collideCellChecked
    exact if_pos (by norm_num [uniformFields])
  refine ⟨by decide, by norm_num, by norm_num [uniformFields], hz, ?_⟩
  rintro ⟨t, ht, -⟩
  rw [hz] at ht
  exact Option.noConfusion ht

/-! ### Ghost layout, neighbour table and tile sizes -/

/-- C13 (ghost layout in x and start flags): for `P ≥ 1`, every `W`, `H` and rank `r < P`,
`start_x` is `1` iff `col > 0` iff the rank has a west neighbour, `start_y` is `1` iff
`row > 0` iff it has a south neighbour, `dim_x` is `num_x` plus one for `col > 0` plus one for
`col < Px - 1`, and the column east of the last owned column exists
(`dim_x - start_x - num_x = 1`) iff the rank has an east neighbour.  The planner returns
`Px ≥ 2` whenever `P ≥ 2`. -/
theorem ghost_layout_x (W H P : Nat) (hP : 1 ≤ P) (r : Nat) (hr : r < P) :
    ∃ Px Py g, getClosestFactors2 P = some (Px, Py) ∧ create W H r P = some g ∧
      g.col = r % Px ∧ g.row = r / Px ∧ (2 ≤ P → 2 ≤ Px) ∧
      (g.start_x = 0 ∨ g.start_x = 1) ∧ (g.start_y = 0 ∨ g.start_y = 1) ∧
      (g.start_x = 1 ↔ 0 < g.col) ∧ (0 < g.col ↔ 0 ≤ g.neighbors .NeighborW) ∧
      (g.start_y = 1 ↔ 0 < g.row) ∧ (0 < g.row ↔ 0 ≤ g.neighbors .NeighborS) ∧
      g.dim_x = g.num_x + (if 0 < g.col then 1 else 0) + (if g.col + 1 < Px then 1 else 0) ∧
      (g.col + 1 < Px ↔ 0 ≤ g.neighbors .NeighborE) ∧
      (g.dim_x - g.start_x - g.num_x = 1 ↔ 0 ≤ g.neighbors .NeighborE) := by
  obtain ⟨Px, Py, hget, hPx, hPy, hmul, hle, hcreate, hdec⟩ := create_layout P hP
  obtain ⟨hb, ha, hrr⟩ := hdec r hr
  have h2 : 2 ≤ P → 2 ≤ Px := two_columns P Px Py hmul hle
  refine ⟨Px, Py, _, hget, hcreate W H r, rfl, rfl, h2, ?_⟩
  generalize r / Px = a at *
  generalize r % Px = b at *
  subst hrr
  obtain ⟨hc, hrow⟩ := layout_col_row W H P Px Py a b hb
  obtain ⟨x1, -, x3, x4⟩ := layout_x W H P Px Py a b hb
  obtain ⟨-, -, y3, -⟩ := layout_y W H P Px Py a b hb
  have hPP : P = 1 → Px = 1 := fun h => by
    have := Nat.le_mul_of_pos_right Px hPy
    omega
  have hdim := tileDim_ghosts W Px P b hb (by omega)
  have nW := neighbors_layout W H P Px Py a b hb .NeighborW
  have nS := neighbors_layout W H P Px Py a b hb .NeighborS
  have nE := neighbors_layout W H P Px Py a b hb .NeighborE
  simp only at nW nS nE
  rw [hc, hrow, x1, x3, x4, y3, nW, nS, nE, hdim]
  clear hdim x1 x3 x4 y3 nW nS nE hc hrow
  unfold tileStart
  refine ⟨?_, ?_, ?_, ?_, ?_, ?_, ?_, ?_, ?_⟩
  all_goals first | (split_ifs <;> omega) | (split_ifs <;> simp <;> omega)

/-- Witness for C13: `W = 16`, `H = 8`, `P = 2`, rank 0. -/
theorem ghost_layout_x_witness :
    (1 ≤ 2 ∧ 0 < 2) ∧
    ∃ Px Py g, getClosestFactors2 2 = some (Px, Py) ∧ create 16 8 0 2 = some g ∧
      g.col = 0 % Px ∧ g.row = 0 / Px ∧ (2 ≤ 2 → 2 ≤ Px) ∧
      (g.start_x = 0 ∨ g.start_x = 1) ∧ (g.start_y = 0 ∨ g.start_y = 1) ∧
      (g.start_x = 1 ↔ 0 < g.col) ∧ (0 < g.col ↔ 0 ≤ g.neighbors .NeighborW) ∧
      (g.start_y = 1 ↔ 0 < g.row) ∧ (0 < g.row ↔ 0 ≤ g.neighbors .NeighborS) ∧
      g.dim_x = g.num_x + (if 0 < g.col then 1 else 0) + (if g.col + 1 < Px then 1 else 0) ∧
      (g.col + 1 < Px ↔ 0 ≤ g.neighbors .NeighborE) ∧
      (g.dim_x - g.start_x - g.num_x = 1 ↔ 0 ≤ g.neighbors .NeighborE) :=
  ⟨by decide, ghost_layout_x 16 8 2 (by decide) 0 (by decide)⟩

/-- The rows the constructor stores: the owned rows, one row per existing neighbour below and
above, and one more row when the grid of ranks has a single row although there are several
ranks. -/
theorem layout_dim_y (W H P : Nat) (hP : 1 ≤ P) (r : Nat) (hr : r < P) :
    ∃ Px Py g, getClosestFactors2 P = some (Px, Py) ∧ create W H r P = some g ∧
      g.row = r / Px ∧
      g.dim_y = g.num_y + (if 0 < g.row then 1 else 0) + (if g.row + 1 < Py then 1 else 0)
        + (if Py = 1 ∧ 2 ≤ P then 1 else 0) := by
  obtain ⟨Px, Py, hget, hPx, hPy, hmul, hle, hcreate, hdec⟩ := create_layout P hP
  obtain ⟨hb, ha, hrr⟩ := hdec r hr
  refine ⟨Px, Py, _, hget, hcreate W H r, rfl, ?_⟩
  generalize r / Px = a at *
  generalize r % Px = b at *
  subst hrr
  obtain ⟨hc, hrow⟩ := layout_col_row W H P Px Py a b hb
  obtain ⟨y1, -, y3, y4⟩ := layout_y W H P Px Py a b hb
  have hPP : Py ≤ P := by
    have := Nat.le_mul_of_pos_left Py hPx
    omega
  rw [hrow, y1, y4]
  unfold tileDim
  clear hc hrow y1 y3 y4
  split_ifs <;> omega

/-- C14 (ghost extension in y), the constructor evaluated for `W = 16`, `H = 8`, `P = 2`,
rank 0: the grid of ranks is `2 x 1`, the rank is in row 0 and has neither a north nor a south
neighbour, it owns 8 rows, and `dim_y` is 9, not `num_y` plus one for `row > 0` plus one for
`row < Py - 1`. -/
theorem ghost_layout_y_two_ranks :
    ∃ g, create 16 8 0 2 = some g ∧ g.n_y = 1 ∧ g.row = 0 ∧ g.num_y = 8 ∧ g.start_y = 0 ∧
      g.neighbors .NeighborN = -1 ∧ g.neighbors .NeighborS = -1 ∧ g.dim_y = 9 ∧
      g.dim_y ≠ g.num_y + (if 0 < g.row then 1 else 0) + (if g.row + 1 < g.n_y then 1 else 0) :=
  ⟨_, create_two 16 8 0, by decide, by decide, by decide, by decide, by decide, by decide,
    by decide, by decide⟩

/-- C16 (neighbour table): for `P ≥ 1` and a rank `r < P` with
`(col, row) = (r mod Px, r div Px)`, the neighbour the constructor stores for a direction with
offset `(dc, dr)` is the rank `(row + dr) * Px + (col + dc)` when `0 ≤ col + dc < Px` and
`0 ≤ row + dr < Py`, and the sentinel `-1` otherwise: no neighbour is obtained by wrapping
around the grid of ranks. -/
theorem neighbor_table (W H P : Nat) (hP : 1 ≤ P) (r : Nat) (hr : r < P) (d : Neighbor) :
    ∃ Px Py g, getClosestFactors2 P = some (Px, Py) ∧ create W H r P = some g ∧
      g.col = r % Px ∧ g.row = r / Px ∧
      g.neighbors d =
        (if 0 ≤ (g.col : Int) + (specNeighborOffset d).1 ∧
            (g.col : Int) + (specNeighborOffset d).1 < Px ∧
            0 ≤ (g.row : Int) + (specNeighborOffset d).2 ∧
            (g.row : Int) + (specNeighborOffset d).2 < Py
          then ((g.row : Int) + (specNeighborOffset d).2) * Px
            + ((g.col : Int) + (specNeighborOffset d).1)
          else -1) := by
  obtain ⟨Px, Py, hget, hPx, hPy, hmul, hle, hcreate, hdec⟩ := create_layout P hP
  obtain ⟨hb, ha, hrr⟩ := hdec r hr
  refine ⟨Px, Py, _, hget, hcreate W H r, rfl, rfl, ?_⟩
  generalize r / Px = a at *
  generalize r % Px = b at *
  subst hrr
  obtain ⟨hc, hrow⟩ := layout_col_row W H P Px Py a b hb
  rw [neighbors_layout W H P Px Py a b hb d, hc, hrow]
  have ea : a ≠ 0 → ((a - 1 : Nat) : Int) = (a : Int) - 1 := fun h => by omega
  have eb : b ≠ 0 → ((b - 1 : Nat) : Int) = (b : Int) - 1 := fun h => by omega
  cases d <;> simp only [specNeighborOffset] <;> split_ifs <;>
    first
      | rfl
      | omega
      | (push_cast; try rw [ea (by tauto)]
         try rw [eb (by tauto)]
         ring1)

/-- Witness for C16: `P = 6`, rank 2 (last column of the first row), direction NE. -/
theorem neighbor_table_witness :
    (1 ≤ 6 ∧ 2 < 6) ∧
    ∃ Px Py g, getClosestFactors2 6 = some (Px, Py) ∧ create 8 8 2 6 = some g ∧
      g.col = 2 % Px ∧ g.row = 2 / Px ∧
      g.neighbors .NeighborNE =
        (if 0 ≤ (g.col : Int) + (specNeighborOffset .NeighborNE).1 ∧
            (g.col : Int) + (specNeighborOffset .NeighborNE).1 < Px ∧
            0 ≤ (g.row : Int) + (specNeighborOffset .NeighborNE).2 ∧
            (g.row : Int) + (specNeighborOffset .NeighborNE).2 < Py
          then ((g.row : Int) + (specNeighborOffset .NeighborNE).2) * Px
            + ((g.col : Int) + (specNeighborOffset .NeighborNE).1)
          else -1) :=
  ⟨by decide, neighbor_table 8 8 6 (by decide) 2 (by decide) .NeighborNE⟩

/-- C17 (balanced tiles): for `P ≥ 1`, every `W`, `H` and ranks `r, s < P`, the widths
`num_x` of the two tiles differ by at most one and so do the heights `num_y`;
`num_x = W / Px + (1 if col < W mod Px)`, `offset_x = col * (W / Px) + min col (W mod Px)` is
the sum of `num_x` over the tiles to the west in the same row, and likewise for `num_y`,
`offset_y` and the tiles below in the same column. -/
theorem balanced_tiles (W H P : Nat) (hP : 1 ≤ P) (r s : Nat) (hr : r < P) (hs : s < P) :
    ∃ (Px Py : Nat) (geom : Nat → Geometry), getClosestFactors2 P = some (Px, Py) ∧
      (∀ k, create W H k P = some (geom k)) ∧
      (geom r).col = r % Px ∧ (geom r).row = r / Px ∧
      (geom r).num_x ≤ (geom s).num_x + 1 ∧ (geom s).num_x ≤ (geom r).num_x + 1 ∧
      (geom r).num_y ≤ (geom s).num_y + 1 ∧ (geom s).num_y ≤ (geom r).num_y + 1 ∧
      (geom r).num_x = W / Px + (if (geom r).col < W % Px then 1 else 0) ∧
      (geom r).num_y = H / Py + (if (geom r).row < H % Py then 1 else 0) ∧
      (geom r).offset_x = (geom r).col * (W / Px) + min (geom r).col (W % Px) ∧
      (geom r).offset_y = (geom r).row * (H / Py) + min (geom r).row (H % Py) ∧
      (geom r).offset_x
        = ∑ c ∈ Finset.range (geom r).col, (geom ((geom r).row * Px + c)).num_x ∧
      (geom r).offset_y
        = ∑ a ∈ Finset.range (geom r).row, (geom (a * Px + (geom r).col)).num_y := by
  obtain ⟨Px, Py, hget, hPx, hPy, hmul, hle, hcreate, hdec⟩ := create_layout P hP
  obtain ⟨hb, ha, hrr⟩ := hdec r hr
  obtain ⟨hb', ha', hss⟩ := hdec s hs
  refine ⟨Px, Py, fun k => layout W H k P Px Py, hget, hcreate W H, rfl, rfl, ?_⟩
  generalize r / Px = a at *
  generalize r % Px = b at *
  generalize s / Px = a' at *
  generalize s % Px = b' at *
  subst hrr hss
  obtain ⟨hc, hrow⟩ := layout_col_row W H P Px Py a b hb
  obtain ⟨x1, x2, -, -⟩ := layout_x W H P Px Py a b hb
  obtain ⟨y1, y2, -, -⟩ := layout_y W H P Px Py a b hb
  obtain ⟨x1', -, -, -⟩ := layout_x W H P Px Py a' b' hb'
  obtain ⟨y1', -, -, -⟩ := layout_y W H P Px Py a' b' hb'
  simp only [hc, hrow, x1, x2, y1, y2, x1', y1']
  refine ⟨tileSize_balanced _ _ _ _, tileSize_balanced _ _ _ _, tileSize_balanced _ _ _ _,
    tileSize_balanced _ _ _ _, rfl, rfl, rfl, rfl, ?_, ?_⟩
  · rw [tileOffset_eq_sum]
    refine Finset.sum_congr rfl fun c hc => ?_
    exact ((layout_x W H P Px Py a c (by have := Finset.mem_range.mp hc; omega)).1).symm
  · rw [tileOffset_eq_sum]
    refine Finset.sum_congr rfl fun c _ => ?_
    exact ((layout_y W H P Px Py c b hb).1).symm

/-- Witness for C17: `W = 10`, `H = 7`, `P = 6`, ranks 5 and 0. -/
theorem balanced_tiles_witness :
    (1 ≤ 6 ∧ 5 < 6 ∧ 0 < 6) ∧
    ∃ (Px Py : Nat) (geom : Nat → Geometry), getClosestFactors2 6 = some (Px, Py) ∧
      (∀ k, create 10 7 k 6 = some (geom k)) ∧
      (geom 5).col = 5 % Px ∧ (geom 5).row = 5 / Px ∧
      (geom 5).num_x ≤ (geom 0).num_x + 1 ∧ (geom 0).num_x ≤ (geom 5).num_x + 1 ∧
      (geom 5).num_y ≤ (geom 0).num_y + 1 ∧ (geom 0).num_y ≤ (geom 5).num_y + 1 ∧
      (geom 5).num_x = 10 / Px + (if (geom 5).col < 10 % Px then 1 else 0) ∧
      (geom 5).num_y = 7 / Py + (if (geom 5).row < 7 % Py then 1 else 0) ∧
      (geom 5).offset_x = (geom 5).col * (10 / Px) + min (geom 5).col (10 % Px) ∧
      (geom 5).offset_y = (geom 5).row * (7 / Py) + min (geom 5).row (7 % Py) ∧
      (geom 5).offset_x
        = ∑ c ∈ Finset.range (geom 5).col, (geom ((geom 5).row * Px + c)).num_x ∧
      (geom 5).offset_y
        = ∑ a ∈ Finset.range (geom 5).row, (geom (a * Px + (geom 5).col)).num_y :=
  ⟨by decide, balanced_tiles 10 7 6 (by decide) 5 0 (by decide) (by decide)⟩

/-! ### Kernels cell by cell -/

theorem sameChannels_refl {α : Type} (s : Fields α) (k : Nat) : sameChannels s k s k :=
  ⟨rfl, fun _ => rfl⟩

theorem sameChannels_symm {α : Type} {s t : Fields α} {k k' : Nat}
    (h : sameChannels s k t k') : sameChannels t k' s k :=
  ⟨h.1.symm, fun d => (h.2 d).symm⟩

theorem sameChannels_trans {α : Type} {s t u : Fields α} {k k' k'' : Nat}
    (h : sameChannels s k t k') (h' : sameChannels t k' u k'') : sameChannels s k u k'' :=
  ⟨h.1.trans h'.1, fun d => (h.2 d).trans (h'.2 d)⟩

theorem sameChannels_of_agreeAt {α : Type} {s t : Fields α} {k : Nat} (h : agreeAt s t k) :
    sameChannels s k t k := by
  obtain ⟨a1, a2, a3, a4, a5, a6, a7, a8, a9, -⟩ := h
  refine ⟨a1, fun d => ?_⟩
  cases d <;> assumption

theorem offInterior_of_cell {dim_x dim_y x y : Nat} (hx : x < dim_x)
    (h : ¬ isInterior dim_x dim_y x y) : offInterior dim_x dim_y (y * dim_x + x) := by
  intro x' y' hi e
  have hx' : x' < dim_x := by unfold isInterior at hi; omega
  obtain ⟨rfl, rfl⟩ := idx_inj hx' hx e
  exact h hi

theorem offInterior_of_ge {dim_x dim_y k : Nat} (h : dim_x * dim_y ≤ k) :
    offInterior dim_x dim_y k := by
  intro x y hi e
  unfold isInterior at hi
  have := (mul_facts dim_x y dim_y).2.2 (by omega : y < dim_y)
  rw [Nat.mul_comm dim_x dim_y] at h
  omega

/-- `collide` leaves every array untouched at an index that is not an interior cell. -/
theorem collide_frame (dim_x dim_y : Nat) (viscosity : K) (s : Fields K) (k : Nat)
    (hk : offInterior dim_x dim_y k) : agreeAt (collide dim_x dim_y viscosity s) s k := by
  unfold collide
  rw [forLoop_nest]
  refine foldl_agree_of_ne (fun (p : Nat × Nat) s =>
    collideCell (1.0 / (3.0 * viscosity + 0.5)) (p.1 * dim_x + p.2) s) k _ ?_ s
  intro q hq t
  obtain ⟨h1, h2⟩ := mem_nest.mp hq
  rw [mem_interior] at h1 h2
  exact collideCell_agree_of_ne _ _ _ (hk q.2 q.1 ⟨h2.1, h2.2, h1.1, h1.2⟩) t

/-- At an interior cell the nine channels and the density `collide` computes depend only on
the nine channels of the cell, whatever the tile. -/
theorem collide_transfer (dim_x dim_y x y dim_x' dim_y' x' y' : Nat)
    (h : isInterior dim_x dim_y x y) (h' : isInterior dim_x' dim_y' x' y')
    (viscosity : K) (s t : Fields K)
    (hst : sameChannels s (y * dim_x + x) t (y' * dim_x' + x')) :
    sameChannels (collide dim_x dim_y viscosity s) (y * dim_x + x)
      (collide dim_x' dim_y' viscosity t) (y' * dim_x' + x') ∧
    (collide dim_x dim_y viscosity s).density (y * dim_x + x)
      = (collide dim_x' dim_y' viscosity t).density (y' * dim_x' + x') := by
  obtain ⟨a1, a2, a3, a4, a5, a6, a7, a8, a9, a10, -, -, -, -, -⟩ :=
    collide_agree dim_x dim_y x y h viscosity s
  obtain ⟨b1, b2, b3, b4, b5, b6, b7, b8, b9, b10, -, -, -, -, -⟩ :=
    collide_agree dim_x' dim_y' x' y' h' viscosity t
  obtain ⟨c1, -, -, c4, c5, c6, c7, c8, c9, c10, c11, c12⟩ :=
    collideCell_values (1.0 / (3.0 * viscosity + 0.5)) (y * dim_x + x) s _ _ _ rfl rfl rfl
  obtain ⟨e1, -, -, e4, e5, e6, e7, e8, e9, e10, e11, e12⟩ :=
    collideCell_values (1.0 / (3.0 * viscosity + 0.5)) (y' * dim_x' + x') t _ _ _ rfl rfl rfl
  obtain ⟨h0, hd⟩ := hst
  have hN := hd .NeighborN
  have hE := hd .NeighborE
  have hS := hd .NeighborS
  have hW := hd .NeighborW
  have hNE := hd .NeighborNE
  have hNW := hd .NeighborNW
  have hSE := hd .NeighborSE
  have hSW := hd .NeighborSW
  simp only [chan] at hN hE hS hW hNE hNW hSE hSW
  refine ⟨⟨?_, fun d => ?_⟩, ?_⟩
  · rw [a1, b1, c4, e4, h0, hN, hE, hS, hW, hNE, hNW, hSE, hSW]
  · cases d <;> simp only [chan]
    · rw [a2, b2, c7, e7, h0, hN, hE, hS, hW, hNE, hNW, hSE, hSW]
    · rw [a3, b3, c5, e5, h0, hN, hE, hS, hW, hNE, hNW, hSE, hSW]
    · rw [a4, b4, c8, e8, h0, hN, hE, hS, hW, hNE, hNW, hSE, hSW]
    · rw [a5, b5, c6, e6, h0, hN, hE, hS, hW, hNE, hNW, hSE, hSW]
    · rw [a6, b6, c9, e9, h0, hN, hE, hS, hW, hNE, hNW, hSE, hSW]
    · rw [a7, b7, c11, e11, h0, hN, hE, hS, hW, hNE, hNW, hSE, hSW]
    · rw [a8, b8, c10, e10, h0, hN, hE, hS, hW, hNE, hNW, hSE, hSW]
    · rw [a9, b9, c12, e12, h0, hN, hE, hS, hW, hNE, hNW, hSE, hSW]
  · rw [a10, b10, c1, e1, h0, hN, hE, hS, hW, hNE, hNW, hSE, hSW]

theorem collide_barrier (dim_x dim_y : Nat) (viscosity : K) (s : Fields K) :
    (collide dim_x dim_y viscosity s).barrier = s.barrier := by
  unfold collide
  rw [forLoop_nest]
  exact foldl_barrier (fun (p : Nat × Nat) s =>
    collideCell (1.0 / (3.0 * viscosity + 0.5)) (p.1 * dim_x + p.2) s) _ (fun _ _ => rfl) s

/-- In-place copies leave an entry that no copy writes. -/
theorem applyCopies_frame {α : Type} (d : Nat) (L : List (Nat × Nat)) (rd : Nat × Nat → Nat)
    (f : Nat → α) (k : Nat) (h : ∀ p ∈ L, p.1 * d + p.2 ≠ k) :
    applyCopies (L.map fun p => (p.1 * d + p.2, rd p)) f k = f k := by
  refine applyCopies_of_not_written _ f k ?_
  intro o ho
  obtain ⟨p, hp, rfl⟩ := List.mem_map.mp ho
  exact h p hp

/-- The arrays `stream` does not write. -/
theorem stream_fixed {α : Type} (dim_x dim_y : Nat) (s : Fields α) :
    (stream dim_x dim_y s).f_0 = s.f_0 ∧ (stream dim_x dim_y s).density = s.density ∧
    (stream dim_x dim_y s).velocity_x = s.velocity_x ∧
    (stream dim_x dim_y s).velocity_y = s.velocity_y ∧
    (stream dim_x dim_y s).vorticity = s.vorticity ∧ (stream dim_x dim_y s).speed = s.speed ∧
    (stream dim_x dim_y s).barrier = s.barrier := by
  simp only [stream, streamNW_eq, streamNE_eq, streamSE_eq, streamSW_eq, and_self]

/-- After `stream` the channel `d` of an interior cell holds what its upstream neighbour
held before. -/
theorem stream_chan {α : Type} (dim_x dim_y x y : Nat) (h : isInterior dim_x dim_y x y)
    (s : Fields α) (d : Neighbor) :
    chan (stream dim_x dim_y s) d (y * dim_x + x)
      = chan s d ((upstream d x y).2 * dim_x + (upstream d x y).1) := by
  obtain ⟨hx1, hx2, hy1, hy2⟩ := h
  have m1 : (y, x) ∈ loopNest (interiorDown dim_y) (interior dim_x) :=
    mem_nest.mpr ⟨mem_interiorDown.mpr ⟨hy1, hy2⟩, mem_interior.mpr ⟨hx1, hx2⟩⟩
  have m2 : (y, x) ∈ loopNest (interiorDown dim_y) (interiorDown dim_x) :=
    mem_nest.mpr ⟨mem_interiorDown.mpr ⟨hy1, hy2⟩, mem_interiorDown.mpr ⟨hx1, hx2⟩⟩
  have m3 : (y, x) ∈ loopNest (interior dim_y) (interiorDown dim_x) :=
    mem_nest.mpr ⟨mem_interior.mpr ⟨hy1, hy2⟩, mem_interiorDown.mpr ⟨hx1, hx2⟩⟩
  have m4 : (y, x) ∈ loopNest (interior dim_y) (interior dim_x) :=
    mem_nest.mpr ⟨mem_interior.mpr ⟨hy1, hy2⟩, mem_interior.mpr ⟨hx1, hx2⟩⟩
  have e1 : (y - 1) * dim_x + x + 1 = (y - 1) * dim_x + (x + 1) := by omega
  have e2 : y * dim_x + x - 1 = y * dim_x + (x - 1) := by omega
  have e3 : (y - 1) * dim_x + x - 1 = (y - 1) * dim_x + (x - 1) := by omega
  have e4 : (y + 1) * dim_x + x - 1 = (y + 1) * dim_x + (x - 1) := by omega
  have e5 : y * dim_x + x + 1 = y * dim_x + (x + 1) := by omega
  have e6 : (y + 1) * dim_x + x + 1 = (y + 1) * dim_x + (x + 1) := by omega
  cases d <;> simp only [chan, upstream, stream, streamNW_eq, streamNE_eq, streamSE_eq,
    streamSW_eq]
  · exact mem_ops_fresh dim_x _ _ (ops_N dim_x dim_y) s.f_N (y, x) m1
  · exact (mem_ops_fresh dim_x _ _ (ops_E dim_x dim_y) s.f_E (y, x) m2).trans
      (congrArg s.f_E e2)
  · exact mem_ops_fresh dim_x _ _ (ops_S dim_x dim_y) s.f_S (y, x) m3
  · exact (mem_ops_fresh dim_x _ _ (ops_W dim_x dim_y) s.f_W (y, x) m4).trans
      (congrArg s.f_W e5)
  · exact (mem_ops_fresh dim_x _ _ (ops_NE dim_x dim_y) s.f_NE (y, x) m2).trans
      (congrArg s.f_NE e3)
  · exact (mem_ops_fresh dim_x _ _ (ops_NW dim_x dim_y) s.f_NW (y, x) m1).trans
      (congrArg s.f_NW e1)
  · exact (mem_ops_fresh dim_x _ _ (ops_SE dim_x dim_y) s.f_SE (y, x) m3).trans
      (congrArg s.f_SE e4)
  · exact (mem_ops_fresh dim_x _ _ (ops_SW dim_x dim_y) s.f_SW (y, x) m4).trans
      (congrArg s.f_SW e6)

/-- `stream` leaves every channel untouched at an index that is not an interior cell. -/
theorem stream_frame {α : Type} (dim_x dim_y : Nat) (s : Fields α) (k : Nat)
    (hk : offInterior dim_x dim_y k) (d : Neighbor) :
    chan (stream dim_x dim_y s) d k = chan s d k := by
  have h1 : ∀ p ∈ loopNest (interiorDown dim_y) (interior dim_x), p.1 * dim_x + p.2 ≠ k := by
    intro p hp
    obtain ⟨a, b⟩ := mem_nest.mp hp
    rw [mem_interiorDown] at a
    rw [mem_interior] at b
    exact hk p.2 p.1 ⟨b.1, b.2, a.1, a.2⟩
  have h2 : ∀ p ∈ loopNest (interiorDown dim_y) (interiorDown dim_x),
      p.1 * dim_x + p.2 ≠ k := by
    intro p hp
    obtain ⟨a, b⟩ := mem_nest.mp hp
    rw [mem_interiorDown] at a b
    exact hk p.2 p.1 ⟨b.1, b.2, a.1, a.2⟩
  have h3 : ∀ p ∈ loopNest (interior dim_y) (interiorDown dim_x), p.1 * dim_x + p.2 ≠ k := by
    intro p hp
    obtain ⟨a, b⟩ := mem_nest.mp hp
    rw [mem_interior] at a
    rw [mem_interiorDown] at b
    exact hk p.2 p.1 ⟨b.1, b.2, a.1, a.2⟩
  have h4 : ∀ p ∈ loopNest (interior dim_y) (interior dim_x), p.1 * dim_x + p.2 ≠ k := by
    intro p hp
    obtain ⟨a, b⟩ := mem_nest.mp hp
    rw [mem_interior] at a b
    exact hk p.2 p.1 ⟨b.1, b.2, a.1, a.2⟩
  cases d <;> simp only [chan, stream, streamNW_eq, streamNE_eq, streamSE_eq, streamSW_eq]
  · exact applyCopies_frame dim_x _ _ s.f_N k h1
  · exact applyCopies_frame dim_x _ _ s.f_E k h2
  · exact applyCopies_frame dim_x _ _ s.f_S k h3
  · exact applyCopies_frame dim_x _ _ s.f_W k h4
  · exact applyCopies_frame dim_x _ _ s.f_NE k h2
  · exact applyCopies_frame dim_x _ _ s.f_NW k h1
  · exact applyCopies_frame dim_x _ _ s.f_SE k h3
  · exact applyCopies_frame dim_x _ _ s.f_SW k h4

theorem sameRest_refl {α : Type} (s : Fields α) : sameRest s s :=
  ⟨rfl, rfl, rfl, rfl, rfl, rfl, rfl⟩

theorem sameRest_trans {α : Type} {s t u : Fields α} (h1 : sameRest s t)
    (h2 : sameRest t u) : sameRest s u := by
  obtain ⟨a1, a2, a3, a4, a5, a6, a7⟩ := h1
  obtain ⟨b1, b2, b3, b4, b5, b6, b7⟩ := h2
  exact ⟨a1.trans b1, a2.trans b2, a3.trans b3, a4.trans b4, a5.trans b5, a6.trans b6,
    a7.trans b7⟩

theorem bounceBackBody_sameRest {α : Type} (d j i : Nat) (s : Fields α) :
    sameRest (bounceBackBody d j i s) s := by
  have hE : ∀ s : Fields α, sameRest (bounceE d j i s) s := fun s => by
    simp only [bounceE]; split_ifs <;> exact sameRest_refl _
  have hW : ∀ s : Fields α, sameRest (bounceW d j i s) s := fun s => by
    simp only [bounceW]; split_ifs <;> exact sameRest_refl _
  have hN : ∀ s : Fields α, sameRest (bounceN d j i s) s := fun s => by
    simp only [bounceN]; split_ifs <;> exact sameRest_refl _
  have hS : ∀ s : Fields α, sameRest (bounceS d j i s) s := fun s => by
    simp only [bounceS]; split_ifs <;> exact sameRest_refl _
  have hNE : ∀ s : Fields α, sameRest (bounceNE d j i s) s := fun s => by
    simp only [bounceNE]; split_ifs <;> exact sameRest_refl _
  have hNW : ∀ s : Fields α, sameRest (bounceNW d j i s) s := fun s => by
    simp only [bounceNW]; split_ifs <;> exact sameRest_refl _
  have hSE : ∀ s : Fields α, sameRest (bounceSE d j i s) s := fun s => by
    simp only [bounceSE]; split_ifs <;> exact sameRest_refl _
  have hSW : ∀ s : Fields α, sameRest (bounceSW d j i s) s := fun s => by
    simp only [bounceSW]; split_ifs <;> exact sameRest_refl _
  unfold bounceBackBody
  exact sameRest_trans (hSW _) (sameRest_trans (hSE _) (sameRest_trans (hNW _)
    (sameRest_trans (hNE _) (sameRest_trans (hS _) (sameRest_trans (hN _)
    (sameRest_trans (hW _) (hE _)))))))

theorem foldl_sameRest {α ι : Type} (step : ι → Fields α → Fields α) (L : List ι)
    (h : ∀ q s, sameRest (step q s) s) (s : Fields α) :
    sameRest (L.foldl (fun s q => step q s) s) s := by
  induction L generalizing s with
  | nil => exact sameRest_refl s
  | cons q L ih => exact sameRest_trans (ih (step q s)) (h q s)

/-- The arrays `bounceBackStream` does not write. -/
theorem bounce_fixed {α : Type} (dim_x dim_y : Nat) (s : Fields α) :
    sameRest (bounceBackStream dim_x dim_y s) s := by
  rw [bounceBackStream_eq_foldl]
  exact foldl_sameRest (fun (q : Nat × Nat) s => bounceBackBody dim_x q.1 q.2 s) _
    (fun q s => bounceBackBody_sameRest dim_x q.1 q.2 s) s

theorem bounceBackBody_agree {α : Type} (d j i : Nat) (s : Fields α) (k : Nat)
    (hk : j * d + i ≠ k) : agreeAt (bounceBackBody d j i s) s k := by
  have hk' : k ≠ j * d + i := fun e => hk e.symm
  have hE : ∀ s : Fields α, agreeAt (bounceE d j i s) s k := fun s => by
    simp only [bounceE]; split_ifs <;> simp [agreeAt, Function.update_noteq hk']
  have hW : ∀ s : Fields α, agreeAt (bounceW d j i s) s k := fun s => by
    simp only [bounceW]; split_ifs <;> simp [agreeAt, Function.update_noteq hk']
  have hN : ∀ s : Fields α, agreeAt (bounceN d j i s) s k := fun s => by
    simp only [bounceN]; split_ifs <;> simp [agreeAt, Function.update_noteq hk']
  have hS : ∀ s : Fields α, agreeAt (bounceS d j i s) s k := fun s => by
    simp only [bounceS]; split_ifs <;> simp [agreeAt, Function.update_noteq hk']
  have hNE : ∀ s : Fields α, agreeAt (bounceNE d j i s) s k := fun s => by
    simp only [bounceNE]; split_ifs <;> simp [agreeAt, Function.update_noteq hk']
  have hNW : ∀ s : Fields α, agreeAt (bounceNW d j i s) s k := fun s => by
    simp only [bounceNW]; split_ifs <;> simp [agreeAt, Function.update_noteq hk']
  have hSE : ∀ s : Fields α, agreeAt (bounceSE d j i s) s k := fun s => by
    simp only [bounceSE]; split_ifs <;> simp [agreeAt, Function.update_noteq hk']
  have hSW : ∀ s : Fields α, agreeAt (bounceSW d j i s) s k := fun s => by
    simp only [bounceSW]; split_ifs <;> simp [agreeAt, Function.update_noteq hk']
  unfold bounceBackBody
  exact agreeAt_trans (hSW _) (agreeAt_trans (hSE _) (agreeAt_trans (hNW _)
    (agreeAt_trans (hNE _) (agreeAt_trans (hS _) (agreeAt_trans (hN _)
    (agreeAt_trans (hW _) (hE _)))))))

/-- `bounceBackStream` leaves every array untouched at an index that is not an interior
cell. -/
theorem bounce_frame {α : Type} (dim_x dim_y : Nat) (s : Fields α) (k : Nat)
    (hk : offInterior dim_x dim_y k) : agreeAt (bounceBackStream dim_x dim_y s) s k := by
  rw [bounceBackStream_eq_foldl]
  refine foldl_agree_of_ne (fun (q : Nat × Nat) s => bounceBackBody dim_x q.1 q.2 s) k _ ?_ s
  intro q hq t
  obtain ⟨h1, h2⟩ := mem_nest.mp hq
  rw [mem_interior] at h1 h2
  exact bounceBackBody_agree dim_x q.1 q.2 t k (hk q.2 q.1 ⟨h2.1, h2.2, h1.1, h1.2⟩)

/-- After `bounceBackStream` the channel `d` of an interior cell that is not a barrier holds
the opposite channel of the upstream neighbour, as it was before the call, when that neighbour
is a barrier, and is unchanged otherwise. -/
theorem bounce_chan {α : Type} (dim_x dim_y x y : Nat) (h : isInterior dim_x dim_y x y)
    (s : Fields α) (hfluid : s.barrier (y * dim_x + x) = false) (d : Neighbor) :
    chan (bounceBackStream dim_x dim_y s) d (y * dim_x + x)
      = if s.barrier ((upstream d x y).2 * dim_x + (upstream d x y).1)
        then chan s (opposite d) ((upstream d x y).2 * dim_x + (upstream d x y).1)
        else chan s d (y * dim_x + x) := by
  cases d <;> simp only [chan, upstream, opposite]
  · exact bounce_f_N dim_x dim_y x y h s (Or.inl hfluid)
  · exact bounce_f_E dim_x dim_y x y h s (Or.inl hfluid)
  · exact bounce_f_S dim_x dim_y x y h s
  · exact bounce_f_W dim_x dim_y x y h s
  · exact bounce_f_NE dim_x dim_y x y h s (Or.inl hfluid)
  · exact bounce_f_NW dim_x dim_y x y h s (Or.inl hfluid)
  · exact bounce_f_SE dim_x dim_y x y h s
  · exact bounce_f_SW dim_x dim_y x y h s

theorem atEquilibrium_same {s t : Fields K} {k k' : Nat} {rho ux uy : K}
    (h : atEquilibrium s k rho ux uy) (h' : atEquilibrium t k' rho ux uy) :
    sameChannels s k t k' :=
  ⟨h.1.trans h'.1.symm, fun d => (h.2 d).trans (h'.2 d).symm⟩

theorem atEquilibrium_of_same {s t : Fields K} {k k' : Nat} {rho ux uy : K}
    (h : sameChannels s k t k') (h' : atEquilibrium t k' rho ux uy) :
    atEquilibrium s k rho ux uy :=
  ⟨h.1.trans h'.1, fun d => (h.2 d).trans (h'.2 d)⟩

/-- A cell at equilibrium with `rho ≠ 0` is a fixed point of the collision: `collide` keeps
its nine channels and recomputes the density `rho`. -/
theorem collide_equilibrium (dim_x dim_y x y : Nat) (h : isInterior dim_x dim_y x y)
    (viscosity rho ux uy : K) (hrho : rho ≠ 0) (s : Fields K)
    (heq : atEquilibrium s (y * dim_x + x) rho ux uy) :
    sameChannels (collide dim_x dim_y viscosity s) (y * dim_x + x) s (y * dim_x + x) ∧
    (collide dim_x dim_y viscosity s).density (y * dim_x + x) = rho := by
  obtain ⟨a1, a2, a3, a4, a5, a6, a7, a8, a9, a10, -, -, -, -, -⟩ :=
    collide_agree dim_x dim_y x y h viscosity s
  generalize y * dim_x + x = idx at *
  obtain ⟨v0, hd⟩ := heq
  have vN := hd .NeighborN
  have vE := hd .NeighborE
  have vS := hd .NeighborS
  have vW := hd .NeighborW
  have vNE := hd .NeighborNE
  have vNW := hd .NeighborNW
  have vSE := hd .NeighborSE
  have vSW := hd .NeighborSW
  simp only [chan, equilibriumChan] at vN vE vS vW vNE vNW vSE vSW
  have hsum : s.f_0 idx + s.f_N idx + s.f_S idx + s.f_E idx + s.f_W idx + s.f_NW idx
      + s.f_NE idx + s.f_SW idx + s.f_SE idx = rho := by
    rw [v0, vE, vW, vN, vS, vNE, vNW, vSE, vSW]
    simp only [specEquilibrium]
    norm_num
    ring
  have hu : (s.f_E idx + s.f_NE idx + s.f_SE idx - s.f_W idx - s.f_NW idx
      - s.f_SW idx) / rho = ux := by
    rw [vE, vW, vNE, vNW, vSE, vSW]
    simp only [specEquilibrium]
    field_simp
    ring
  have hv : (s.f_N idx + s.f_NE idx + s.f_NW idx - s.f_S idx - s.f_SE idx
      - s.f_SW idx) / rho = uy := by
    rw [vN, vS, vNE, vNW, vSE, vSW]
    simp only [specEquilibrium]
    field_simp
    ring
  obtain ⟨c1, -, -, c4, c5, c6, c7, c8, c9, c10, c11, c12⟩ :=
    collideCell_values (1.0 / (3.0 * viscosity + 0.5)) idx s rho ux uy hsum hu hv
  generalize (1.0 / (3.0 * viscosity + 0.5) : K) = omega at *
  refine ⟨⟨?_, fun d => ?_⟩, a10.trans c1⟩
  · rw [a1, c4, v0]; simp only [specEquilibrium]; ring
  · cases d <;> simp only [chan]
    · rw [a2, c7, vN]; simp only [specEquilibrium]; ring
    · rw [a3, c5, vE]; simp only [specEquilibrium]; ring
    · rw [a4, c8, vS]; simp only [specEquilibrium]; ring
    · rw [a5, c6, vW]; simp only [specEquilibrium]; ring
    · rw [a6, c9, vNE]; simp only [specEquilibrium]; ring
    · rw [a7, c11, vNW]; simp only [specEquilibrium]; ring
    · rw [a8, c10, vSE]; simp only [specEquilibrium]; ring
    · rw [a9, c12, vSW]; simp only [specEquilibrium]; ring

theorem setEquilibrium_agree_of_ne (dim_x x y : Nat) (ux uy rho : K) (s : Fields K) (k : Nat)
    (hk : y * dim_x + x ≠ k) : agreeAt (setEquilibrium dim_x x y ux uy rho s) s k := by
  have hk' : k ≠ y * dim_x + x := fun e => hk e.symm
  simp [agreeAt, setEquilibrium, Function.update_noteq hk']

theorem initFluidBody_agree_of_ne (dim_x : Nat) (speed : K) (j i : Nat) (s : Fields K)
    (k : Nat) (hk : j * dim_x + i ≠ k) : agreeAt (initFluidBody dim_x speed j i s) s k := by
  have hk' : k ≠ j * dim_x + i := fun e => hk e.symm
  obtain ⟨a1, a2, a3, a4, a5, a6, a7, a8, a9, a10, a11, a12, a13, a14, a15⟩ :=
    setEquilibrium_agree_of_ne dim_x i j speed 0.0 1.0 s k hk
  exact ⟨a1, a2, a3, a4, a5, a6, a7, a8, a9, a10, a11, a12,
    (Function.update_noteq hk' _ _).trans a13, a14, a15⟩

theorem initFluidBody_congr (dim_x : Nat) (speed : K) (j i : Nat) (s t : Fields K)
    (h : agreeAt s t (j * dim_x + i)) :
    agreeAt (initFluidBody dim_x speed j i s) (initFluidBody dim_x speed j i t)
      (j * dim_x + i) := by
  obtain ⟨a1, a2, a3, a4, a5, a6, a7, a8, a9, a10, a11, a12, a13, a14, a15⟩ := h
  simp [agreeAt, initFluidBody, setEquilibrium, a14, a15]

/-- The cell the body of `initFluid` writes. -/
theorem initFluidBody_values (dim_x : Nat) (speed : K) (j i : Nat) (s : Fields K) :
    atEquilibrium (initFluidBody dim_x speed j i s) (j * dim_x + i) 1 speed 0 ∧
    (initFluidBody dim_x speed j i s).density (j * dim_x + i) = 1 ∧
    (initFluidBody dim_x speed j i s).velocity_x (j * dim_x + i) = speed ∧
    (initFluidBody dim_x speed j i s).velocity_y (j * dim_x + i) = 0 ∧
    (initFluidBody dim_x speed j i s).vorticity (j * dim_x + i) = 0 ∧
    (initFluidBody dim_x speed j i s).speed = s.speed ∧
    (initFluidBody dim_x speed j i s).barrier = s.barrier := by
  obtain ⟨v0, vE, vW, vN, vS, vNE, vNW, vSE, vSW⟩ :=
    setEquilibrium_values dim_x i j speed 0.0 1.0 s
  have hr : ∀ w ex ey : K,
      specEquilibrium w ex ey 1.0 speed 0.0 = specEquilibrium w ex ey 1 speed 0 := by
    intro w ex ey
    norm_num
  rw [hr] at v0 vE vW vN vS vNE vNW vSE vSW
  refine ⟨⟨v0, fun d => ?_⟩, ?_, ?_, ?_, ?_, rfl, rfl⟩
  · cases d <;> simp only [chan, equilibriumChan]
    · exact vN
    · exact vE
    · exact vS
    · exact vW
    · exact vNE
    · exact vNW
    · exact vSE
    · exact vSW
  · norm_num [initFluidBody, setEquilibrium]
  · norm_num [initFluidBody, setEquilibrium]
  · norm_num [initFluidBody, setEquilibrium]
  · norm_num [initFluidBody]

/-- After `initFluid` every stored cell is at the equilibrium of density 1 and velocity
`(speed_scale * physical_speed, 0)`, with these values in `density`, `velocity_x`,
`velocity_y` and with zero vorticity; `speed` and `barrier` keep their value there. -/
theorem initFluid_cell (dim_x dim_y : Nat) (speed_scale physical_speed : K) (s : Fields K)
    (x y : Nat) (hx : x < dim_x) (hy : y < dim_y) :
    atEquilibrium (initFluid dim_x dim_y speed_scale physical_speed s) (y * dim_x + x) 1
      (speed_scale * physical_speed) 0 ∧
    (initFluid dim_x dim_y speed_scale physical_speed s).density (y * dim_x + x) = 1 ∧
    (initFluid dim_x dim_y speed_scale physical_speed s).velocity_x (y * dim_x + x)
      = speed_scale * physical_speed ∧
    (initFluid dim_x dim_y speed_scale physical_speed s).velocity_y (y * dim_x + x) = 0 ∧
    (initFluid dim_x dim_y speed_scale physical_speed s).vorticity (y * dim_x + x) = 0 ∧
    (initFluid dim_x dim_y speed_scale physical_speed s).speed (y * dim_x + x)
      = s.speed (y * dim_x + x) ∧
    (initFluid dim_x dim_y speed_scale physical_speed s).barrier (y * dim_x + x)
      = s.barrier (y * dim_x + x) := by
  unfold initFluid
  rw [forLoop_nest]
  have hag := foldl_cell_local (fun (p : Nat × Nat) (s : Fields K) =>
      initFluidBody dim_x (speed_scale * physical_speed) p.1 p.2 s) (y * dim_x + x) (y, x)
    (loopNest (List.range dim_y) (List.range dim_x))
    (nodup_nest (List.nodup_range _) (List.nodup_range _))
    (mem_nest.mpr ⟨List.mem_range.mpr hy, List.mem_range.mpr hx⟩) ?_ ?_ s
  · obtain ⟨a1, a2, a3, a4, a5, a6, a7, a8, a9, a10, a11, a12, a13, a14, a15⟩ := hag
    obtain ⟨⟨v0, vd⟩, v1, v2, v3, v4, v5, v6⟩ :=
      initFluidBody_values dim_x (speed_scale * physical_speed) y x s
    refine ⟨⟨a1.trans v0, fun d => ?_⟩, a10.trans v1, a11.trans v2, a12.trans v3,
      a13.trans v4, a14.trans (congrFun v5 _), a15.trans (congrFun v6 _)⟩
    have := vd d
    cases d <;> simp only [chan] at this ⊢
    · exact a2.trans this
    · exact a3.trans this
    · exact a4.trans this
    · exact a5.trans this
    · exact a6.trans this
    · exact a7.trans this
    · exact a8.trans this
    · exact a9.trans this
  · intro q hq hne t
    have hq2 : q.2 < dim_x := List.mem_range.mp (mem_nest.mp hq).2
    refine initFluidBody_agree_of_ne dim_x _ q.1 q.2 t _ ?_
    intro e
    obtain ⟨e1, e2⟩ := idx_inj hq2 hx e
    exact hne (Prod.ext e1 e2)
  · intro t u htu
    exact initFluidBody_congr dim_x _ y x t u htu

theorem initFluid_frame (dim_x dim_y : Nat) (speed_scale physical_speed : K) (s : Fields K)
    (k : Nat) (hk : dim_x * dim_y ≤ k) :
    agreeAt (initFluid dim_x dim_y speed_scale physical_speed s) s k := by
  unfold initFluid
  rw [forLoop_nest]
  refine foldl_agree_of_ne (fun (p : Nat × Nat) (s : Fields K) =>
      initFluidBody dim_x (speed_scale * physical_speed) p.1 p.2 s) k _ ?_ s
  intro q hq t
  obtain ⟨h1, h2⟩ := mem_nest.mp hq
  rw [List.mem_range] at h1 h2
  refine initFluidBody_agree_of_ne dim_x _ q.1 q.2 t k ?_
  have := (mul_facts dim_x q.1 dim_y).2.2 h1
  rw [Nat.mul_comm dim_x dim_y] at hk
  omega

/-- The upstream neighbours of an interior cell are stored cells. -/
theorem upstream_stored {dim_x dim_y x y : Nat} (h : isInterior dim_x dim_y x y)
    (d : Neighbor) : (upstream d x y).1 < dim_x ∧ (upstream d x y).2 < dim_y := by
  unfold isInterior at h
  cases d <;> simp only [upstream] <;> omega

theorem interior_stored {dim_x dim_y x y : Nat} (h : isInterior dim_x dim_y x y) :
    x < dim_x ∧ y < dim_y := by
  unfold isInterior at h
  omega

theorem initFluid_uniform (dim_x dim_y : Nat) (speed_scale physical_speed : K)
    (s : Fields K) :
    uniformTile dim_x dim_y (speed_scale * physical_speed)
      (initFluid dim_x dim_y speed_scale physical_speed s) := by
  intro x y hx hy
  obtain ⟨h1, h2, -⟩ := initFluid_cell dim_x dim_y speed_scale physical_speed s x y hx hy
  exact ⟨h1, h2⟩

/-- `collide` keeps a uniform tile uniform. -/
theorem collide_uniform (dim_x dim_y : Nat) (viscosity u : K) (s : Fields K)
    (h : uniformTile dim_x dim_y u s) :
    uniformTile dim_x dim_y u (collide dim_x dim_y viscosity s) := by
  intro x y hx hy
  obtain ⟨h1, h2⟩ := h x y hx hy
  by_cases hi : isInterior dim_x dim_y x y
  · obtain ⟨c1, c2⟩ := collide_equilibrium dim_x dim_y x y hi viscosity 1 u 0 one_ne_zero s h1
    exact ⟨atEquilibrium_of_same c1 h1, c2⟩
  · have hag := collide_frame dim_x dim_y viscosity s _ (offInterior_of_cell hx hi)
    exact ⟨atEquilibrium_of_same (sameChannels_of_agreeAt hag) h1, hag.2.2.2.2.2.2.2.2.2.1.trans h2⟩

/-- `stream` keeps a uniform tile uniform. -/
theorem stream_uniform (dim_x dim_y : Nat) (u : K) (s : Fields K)
    (h : uniformTile dim_x dim_y u s) : uniformTile dim_x dim_y u (stream dim_x dim_y s) := by
  intro x y hx hy
  obtain ⟨⟨h0, hd⟩, h2⟩ := h x y hx hy
  obtain ⟨f0, fd, -⟩ := stream_fixed dim_x dim_y s
  refine ⟨⟨by rw [f0]; exact h0, fun d => ?_⟩, by rw [fd]; exact h2⟩
  by_cases hi : isInterior dim_x dim_y x y
  · rw [stream_chan dim_x dim_y x y hi s d]
    obtain ⟨u1, u2⟩ := upstream_stored hi d
    exact (h _ _ u1 u2).1.2 d
  · rw [stream_frame dim_x dim_y s _ (offInterior_of_cell hx hi) d]
    exact hd d

/-- Without a barrier among the stored cells `bounceBackStream` changes no channel of a
stored cell. -/
theorem bounce_no_barrier {α : Type} (dim_x dim_y : Nat) (s : Fields α)
    (hb : ∀ x y, x < dim_x → y < dim_y → s.barrier (y * dim_x + x) = false)
    (x y : Nat) (hx : x < dim_x) :
    sameChannels (bounceBackStream dim_x dim_y s) (y * dim_x + x) s (y * dim_x + x) := by
  by_cases hi : isInterior dim_x dim_y x y
  · refine ⟨by rw [(bounce_fixed dim_x dim_y s).1], fun d => ?_⟩
    obtain ⟨u1, u2⟩ := upstream_stored hi d
    rw [bounce_chan dim_x dim_y x y hi s (hb x y hx (interior_stored hi).2) d,
      hb _ _ u1 u2]
    rfl
  · exact sameChannels_of_agreeAt (bounce_frame dim_x dim_y s _ (offInterior_of_cell hx hi))

/-- A rank without neighbours receives nothing in `exchangeBoundaries`. -/
theorem exchange_alone {α : Type} (g : Geometry) (h : ∀ d, g.neighbors d = -1)
    (inbox : Neighbor → HaloMsg α) (s : Fields α) : exchangeBoundaries g inbox s = s := by
  simp [exchangeBoundaries, h]

/-- The constructor on a single rank: no ghost cells, no neighbours. -/
theorem create_single (W H : Nat) :
    create W H 0 1 = some (layout W H 0 1 1 1) ∧
    (layout W H 0 1 1 1).dim_x = W ∧ (layout W H 0 1 1 1).dim_y = H ∧
    (layout W H 0 1 1 1).num_x = W ∧ (layout W H 0 1 1 1).num_y = H ∧
    (layout W H 0 1 1 1).start_x = 0 ∧ (layout W H 0 1 1 1).start_y = 0 ∧
    (layout W H 0 1 1 1).offset_x = 0 ∧ (layout W H 0 1 1 1).offset_y = 0 ∧
    (∀ d, (layout W H 0 1 1 1).neighbors d = -1) := by
  have h : Nat.sqrt 1 = 1 := (Nat.eq_sqrt.mpr ⟨by decide, by decide⟩).symm
  refine ⟨by simp [create, getClosestFactors2, h, closestLoop], ?_, ?_, ?_, ?_, rfl, rfl, ?_,
    ?_, ?_⟩
  · simp [layout, Nat.mod_one]
  · simp [layout, Nat.mod_one]
  · simp [layout, Nat.mod_one]
  · simp [layout, Nat.mod_one]
  · simp [layout]
  · simp [layout]
  · intro d
    cases d <;> simp [layout]

/-- `initBarrier` with an empty list of segments clears the mask of the stored cells. -/
theorem initBarrier_nil {α : Type} (g : Geometry) (s : Fields α) (k : Nat)
    (hk : k < g.dim_x * g.dim_y) : (initBarrier g [] s).barrier k = false := by
  simp [initBarrier, hk]

/-! ### Uniform flow -/

/-- C20 (uniform flow is a fixed point of a step): on a single rank, for `W, H ≥ 1`, no
barrier segment, every inflow speed and every viscosity `nu > 0`, in exact arithmetic: after
`initFluid`, one step `collide; stream; bounceBackStream` (with the calls of
`exchangeBoundaries` that end `collide` and `stream`, whatever messages are offered) leaves
the nine channels of every cell as `initFluid` set them, and the density of every interior
cell is 1. -/
theorem uniform_flow_fixed_point (W H : Nat) (_hW : 1 ≤ W) (_hH : 1 ≤ H)
    (speed_scale physical_speed viscosity : K) (_hnu : 0 < viscosity) (s : Fields K)
    (inbox1 inbox2 : Neighbor → HaloMsg K) :
    ∃ g, create W H 0 1 = some g ∧ g.dim_x = W ∧ g.dim_y = H ∧
      let s0 := initFluid g.dim_x g.dim_y speed_scale physical_speed (initBarrier g [] s)
      let s1 := exchangeBoundaries g inbox1 (collide g.dim_x g.dim_y viscosity s0)
      let s2 := exchangeBoundaries g inbox2 (stream g.dim_x g.dim_y s1)
      let s3 := bounceBackStream g.dim_x g.dim_y s2
      (∀ x y, x < W → y < H →
        s3.f_0 (y * W + x) = s0.f_0 (y * W + x) ∧ s3.f_N (y * W + x) = s0.f_N (y * W + x) ∧
        s3.f_E (y * W + x) = s0.f_E (y * W + x) ∧ s3.f_S (y * W + x) = s0.f_S (y * W + x) ∧
        s3.f_W (y * W + x) = s0.f_W (y * W + x) ∧ s3.f_NE (y * W + x) = s0.f_NE (y * W + x) ∧
        s3.f_NW (y * W + x) = s0.f_NW (y * W + x) ∧
        s3.f_SE (y * W + x) = s0.f_SE (y * W + x) ∧
        s3.f_SW (y * W + x) = s0.f_SW (y * W + x)) ∧
      (∀ x y, isInterior W H x y → s3.density (y * W + x) = 1) := by
  obtain ⟨hc, hdx, hdy, -, -, -, -, -, -, hnb⟩ := create_single W H
  refine ⟨_, hc, hdx, hdy, ?_⟩
  generalize layout W H 0 1 1 1 = g at *
  subst hdx hdy
  intro s0 s1 s2 s3
  have u0 : uniformTile g.dim_x g.dim_y (speed_scale * physical_speed) s0 :=
    initFluid_uniform _ _ _ _ _
  have b0 : ∀ x y, x < g.dim_x → y < g.dim_y → s0.barrier (y * g.dim_x + x) = false := by
    intro x y hx hy
    rw [(initFluid_cell g.dim_x g.dim_y speed_scale physical_speed _ x y hx hy).2.2.2.2.2.2]
    refine initBarrier_nil g s _ ?_
    have := (mul_facts g.dim_x y g.dim_y).2.2 hy
    rw [Nat.mul_comm g.dim_x g.dim_y]
    omega
  have e1 : s1 = collide g.dim_x g.dim_y viscosity s0 := exchange_alone g hnb _ _
  have e2 : s2 = stream g.dim_x g.dim_y s1 := exchange_alone g hnb _ _
  have u1 : uniformTile g.dim_x g.dim_y (speed_scale * physical_speed) s1 := by
    rw [e1]; exact collide_uniform _ _ _ _ _ u0
  have u2 : uniformTile g.dim_x g.dim_y (speed_scale * physical_speed) s2 := by
    rw [e2]; exact stream_uniform _ _ _ _ u1
  have b2 : ∀ x y, x < g.dim_x → y < g.dim_y → s2.barrier (y * g.dim_x + x) = false := by
    intro x y hx hy
    rw [e2, (stream_fixed g.dim_x g.dim_y s1).2.2.2.2.2.2, e1, collide_barrier]
    exact b0 x y hx hy
  have h3 : ∀ x y, x < g.dim_x → y < g.dim_y →
      sameChannels s3 (y * g.dim_x + x) s0 (y * g.dim_x + x) := by
    intro x y hx hy
    exact sameChannels_trans (bounce_no_barrier g.dim_x g.dim_y s2 b2 x y hx)
      (atEquilibrium_same (u2 x y hx hy).1 (u0 x y hx hy).1)
  refine ⟨?_, ?_⟩
  · intro x y hx hy
    obtain ⟨h0, hd⟩ := h3 x y hx hy
    exact ⟨h0, hd .NeighborN, hd .NeighborE, hd .NeighborS, hd .NeighborW, hd .NeighborNE,
      hd .NeighborNW, hd .NeighborSE, hd .NeighborSW⟩
  · intro x y hi
    obtain ⟨hx, hy⟩ := interior_stored hi
    have : s3.density = s2.density := (bounce_fixed g.dim_x g.dim_y s2).2.1
    rw [this]
    exact (u2 x y hx hy).2

/-- Witness for C20: the case of the specification, `W = H = 8` and inflow speed `1/10`, with
viscosity `1/50`, started from arrays that hold zero and with empty incoming messages. -/
theorem uniform_flow_fixed_point_witness :
    (1 ≤ 8 ∧ 1 ≤ 8 ∧ (0 : ℚ) < 1 / 50) ∧
    ∃ g, create 8 8 0 1 = some g ∧ g.dim_x = 8 ∧ g.dim_y = 8 ∧
      let s0 := initFluid g.dim_x g.dim_y (1 : ℚ) (1 / 10)
        (initBarrier g [] (uniformFields 0 true))
      let s1 := exchangeBoundaries g (fun _ => ⟨[], [], [], [], [], [], [], [], [], [], [], []⟩)
        (collide g.dim_x g.dim_y (1 / 50) s0)
      let s2 := exchangeBoundaries g (fun _ => ⟨[], [], [], [], [], [], [], [], [], [], [], []⟩)
        (stream g.dim_x g.dim_y s1)
      let s3 := bounceBackStream g.dim_x g.dim_y s2
      (∀ x y, x < 8 → y < 8 →
        s3.f_0 (y * 8 + x) = s0.f_0 (y * 8 + x) ∧ s3.f_N (y * 8 + x) = s0.f_N (y * 8 + x) ∧
        s3.f_E (y * 8 + x) = s0.f_E (y * 8 + x) ∧ s3.f_S (y * 8 + x) = s0.f_S (y * 8 + x) ∧
        s3.f_W (y * 8 + x) = s0.f_W (y * 8 + x) ∧ s3.f_NE (y * 8 + x) = s0.f_NE (y * 8 + x) ∧
        s3.f_NW (y * 8 + x) = s0.f_NW (y * 8 + x) ∧
        s3.f_SE (y * 8 + x) = s0.f_SE (y * 8 + x) ∧
        s3.f_SW (y * 8 + x) = s0.f_SW (y * 8 + x)) ∧
      (∀ x y, isInterior 8 8 x y → s3.density (y * 8 + x) = 1) :=
  ⟨⟨by decide, by decide, by norm_num⟩,
    uniform_flow_fixed_point 8 8 (by decide) (by decide) (1 : ℚ) (1 / 10) (1 / 50)
      (by norm_num) (uniformFields 0 true)
      (fun _ => ⟨[], [], [], [], [], [], [], [], [], [], [], []⟩)
      (fun _ => ⟨[], [], [], [], [], [], [], [], [], [], [], []⟩)⟩

/-! ### Mass balance of `stream` -/

theorem cellMass_eq (s : Fields K) (k : Nat) :
    cellMass s k = s.f_0 k + (directions.map fun d => chan s d k).sum := by
  simp only [cellMass, directions, List.map, List.sum_cons, List.sum_nil, chan]
  ring

/-- The change of the mass of one stored cell in `stream`. -/
theorem stream_cellMass (dim_x dim_y x y : Nat) (hx : x < dim_x) (s : Fields K) :
    cellMass (stream dim_x dim_y s) (y * dim_x + x)
      = cellMass s (y * dim_x + x)
        + (if isInterior dim_x dim_y x y then cellFlux dim_x s x y else 0) := by
  rw [cellMass_eq, cellMass_eq, (stream_fixed dim_x dim_y s).1]
  by_cases hi : isInterior dim_x dim_y x y
  · rw [if_pos hi]
    simp only [stream_chan dim_x dim_y x y hi s, cellFlux, directions, List.map, List.sum_cons,
      List.sum_nil]
    ring
  · rw [if_neg hi]
    simp only [stream_frame dim_x dim_y s _ (offInterior_of_cell hx hi), add_zero]

theorem sum_interior (n : Nat) (f : Nat → K) (c : Prop) [Decidable c] :
    (∑ x ∈ Finset.range n, if (1 ≤ x ∧ x < n - 1) ∧ c then f x else 0)
      = if c then ∑ x ∈ Finset.Ico 1 (n - 1), f x else 0 := by
  by_cases hc : c
  · simp only [hc, and_true, if_true]
    rw [← Finset.sum_filter]
    refine Finset.sum_congr ?_ fun _ _ => rfl
    ext x
    simp only [Finset.mem_filter, Finset.mem_range, Finset.mem_Ico]
    omega
  · simp [hc]

/-- Mass balance of `stream`: the total after the call is the total before plus what the
interior cells gain from their upstream neighbours. -/
theorem stream_balance (dim_x dim_y : Nat) (s : Fields K) :
    totalMass dim_x dim_y (stream dim_x dim_y s)
      = totalMass dim_x dim_y s + streamFlux dim_x dim_y s := by
  unfold totalMass streamFlux
  have h1 : ∀ y ∈ Finset.range dim_y,
      (∑ x ∈ Finset.range dim_x, cellMass (stream dim_x dim_y s) (y * dim_x + x))
        = (∑ x ∈ Finset.range dim_x, cellMass s (y * dim_x + x))
          + (if 1 ≤ y ∧ y < dim_y - 1
              then ∑ x ∈ Finset.Ico 1 (dim_x - 1), cellFlux dim_x s x y else 0) := by
    intro y _
    rw [← sum_interior dim_x (fun x => cellFlux dim_x s x y) (1 ≤ y ∧ y < dim_y - 1),
      ← Finset.sum_add_distrib]
    refine Finset.sum_congr rfl fun x hx => ?_
    rw [stream_cellMass dim_x dim_y x y (Finset.mem_range.mp hx) s]
    simp only [isInterior, and_assoc]
  rw [Finset.sum_congr rfl h1, Finset.sum_add_distrib]
  congr 1
  have h2 := sum_interior dim_y
    (fun y => ∑ x ∈ Finset.Ico 1 (dim_x - 1), cellFlux dim_x s x y) True
  simp only [and_true, if_true] at h2
  exact h2

/-- C19 (mass across `stream`), as the code behaves: for every tile and every state the
total of the nine channels over all stored cells after `stream` is the total before plus the
net gain of the interior cells, the sum over the interior cells and the eight directions of
the value the upstream neighbour held minus the value the cell held; the total is the same
before and after exactly when this sum is zero. -/
theorem stream_mass_balance (dim_x dim_y : Nat) (s : Fields K) :
    totalMass dim_x dim_y (stream dim_x dim_y s)
      = totalMass dim_x dim_y s + streamFlux dim_x dim_y s ∧
    (totalMass dim_x dim_y (stream dim_x dim_y s) = totalMass dim_x dim_y s ↔
      streamFlux dim_x dim_y s = 0) := by
  have h := stream_balance dim_x dim_y s
  refine ⟨h, ?_⟩
  rw [h]
  constructor
  · intro e
    exact add_right_eq_self.mp e
  · intro e
    rw [e, add_zero]

/-- Counterexample for C19: a single-rank 3 x 3 tile (no ghost cells) whose only non-zero
value is one unit in `f_E` of the ring cell `(0, 1)`; `stream` copies the unit into the
interior cell and the ring cell keeps it, so the total goes from 1 to 2. -/
theorem stream_mass_counterexample :
    (∃ g, create 3 3 0 1 = some g ∧ g.dim_x = 3 ∧ g.dim_y = 3 ∧
      g.num_x = 3 ∧ g.num_y = 3) ∧
    totalMass 3 3 inflowState = 1 ∧ totalMass 3 3 (stream 3 3 inflowState) = 2 ∧
    totalMass 3 3 (stream 3 3 inflowState) ≠ totalMass 3 3 inflowState := by
  obtain ⟨hc, h1, h2, h3, h4, -⟩ := create_single 3 3
  have e1 : totalMass 3 3 inflowState = 1 := by
    simp only [totalMass, Finset.sum_range_succ, Finset.sum_range_zero, cellMass, inflowState,
      uniformFields]
    norm_num
  have e2 : streamFlux 3 3 inflowState = 1 := by
    have hI : Finset.Ico 1 (3 - 1) = {1} := by decide
    simp only [streamFlux, hI, Finset.sum_singleton, cellFlux, directions, List.map,
      List.sum_cons, List.sum_nil, chan, upstream, inflowState, uniformFields]
    norm_num
  have e3 : totalMass 3 3 (stream 3 3 inflowState) = 2 := by
    rw [stream_balance, e1, e2]; norm_num
  refine ⟨⟨_, hc, h1, h2, h3, h4⟩, e1, e3, ?_⟩
  rw [e1, e3]
  norm_num

/-! ### Exchange on all ranks -/

/-- One direction of the decomposition when it has at least two non-empty chunks: start flag,
offset and stored extent of chunk `c`. -/
theorem tile_facts (total n P c : Nat) (hP : P ≠ 1) (hn : 2 ≤ n) (hc : c < n)
    (hs : ∀ c, c < n → 1 ≤ tileSize total n c) :
    1 ≤ tileSize total n c ∧
    (c = 0 → tileStart c = 0 ∧ tileOffset total n c = 0) ∧
    (0 < c → tileStart c = 1 ∧ 1 ≤ tileOffset total n c) ∧
    (c + 1 < n → tileDim total n P c = tileSize total n c + tileStart c + 1 ∧
      tileOffset total n c + tileSize total n c + 1 ≤ total) ∧
    (c + 1 = n → tileDim total n P c = tileSize total n c + tileStart c ∧
      tileOffset total n c + tileSize total n c = total) := by
  have h1 := hs c hc
  refine ⟨h1, ?_, ?_, ?_, ?_⟩
  · rintro rfl
    exact ⟨rfl, by simp [tileOffset]⟩
  · intro h0
    obtain ⟨c', rfl⟩ : ∃ c', c = c' + 1 := ⟨c - 1, by omega⟩
    refine ⟨rfl, ?_⟩
    rw [tileOffset_succ]
    have := hs c' (by omega)
    omega
  · intro h
    refine ⟨tile_has_next total n P c hP h, ?_⟩
    have e1 := tile_end_le total n (c + 1) (by omega) h
    have e2 := hs (c + 1) h
    rw [tileOffset_succ] at e1
    omega
  · intro h
    have e1 := chunk_off_total total n (by omega)
    have e2 := tileOffset_succ total n c
    rw [h] at e2
    unfold tileOffset at e2 ⊢
    refine ⟨?_, by omega⟩
    unfold tileDim tileStart
    rw [if_neg hP]
    split_ifs <;> omega

theorem zip_map_eq {α β γ : Type} (f : α → γ) (g : β → γ) :
    ∀ (l : List α) (l' : List β), l.map f = l'.map g → ∀ p ∈ l.zip l', f p.1 = g p.2
  | [], _, _, p, hp => by simp at hp
  | _ :: _, [], _, p, hp => by simp at hp
  | a :: l, b :: l', h, p, hp => by
    rw [List.map_cons, List.map_cons, List.cons.injEq] at h
    rw [List.zip_cons_cons, List.mem_cons] at hp
    rcases hp with rfl | hp
    · exact h.1
    · exact zip_map_eq f g l l' h.2 p hp

/-- A receive into the displacements `region` of a message packed from the displacements
`region'`: the entry at a displacement of `region` is the entry the sender held at the
displacement of `region'` with the same position. -/
theorem unpack_pack_cell (region : List Nat) :
    ∀ (region' : List Nat), region.Nodup → region.length = region'.length →
      ∀ k ∈ region, ∃ k', (k, k') ∈ region.zip region' ∧
        ∀ (α : Type) (a' a : Nat → α), unpack region (pack region' a') a k = a' k' := by
  induction region with
  | nil => intro _ _ _ k hk; simp at hk
  | cons i rs ih =>
    intro region' hnd hlen k hk
    cases region' with
    | nil => simp at hlen
    | cons i' rs' =>
      obtain ⟨hi, hnd'⟩ := List.nodup_cons.mp hnd
      have hlen' : rs.length = rs'.length := by simpa using hlen
      by_cases hki : k = i
      · subst hki
        refine ⟨i', by simp, ?_⟩
        intro α a' a
        simp only [pack, List.map_cons]
        rw [unpack_cons, unpack_of_not_mem _ _ _ _ hi]
        exact Function.update_same _ _ _
      · have hk' : k ∈ rs := by
          rcases List.mem_cons.mp hk with h | h
          · exact absurd h hki
          · exact h
        obtain ⟨k', hz, hv⟩ := ih rs' hnd' hlen' k hk'
        refine ⟨k', by simp [hz], ?_⟩
        intro α a' a
        simp only [pack, List.map_cons]
        rw [unpack_cons]
        exact hv α a' _

theorem recvHalo_fixed {α : Type} (g : Geometry) (d : Neighbor) (m : HaloMsg α)
    (s : Fields α) :
    (recvHalo g d m s).vorticity = s.vorticity ∧ (recvHalo g d m s).speed = s.speed ∧
    (recvHalo g d m s).barrier = s.barrier := ⟨rfl, rfl, rfl⟩

theorem recvHalo_frame {α : Type} (g : Geometry) (d : Neighbor) (m : HaloMsg α)
    (s : Fields α) (k : Nat) (hk : k ∉ recvRegion g d) : agreeAt (recvHalo g d m s) s k := by
  simp only [agreeAt, recvHalo, unpack_of_not_mem _ _ _ _ hk, and_self]

/-- One block of `exchangeBoundaries` at a cell of its receive region. -/
theorem recvHalo_cell {α : Type} (gr gn : Geometry) (d : Neighbor)
    (hnd : (recvRegion gr d).Nodup)
    (hlen : (recvRegion gr d).length = (sendRegion gn (opposite d)).length)
    (sr sn : Fields α) (k : Nat) (hk : k ∈ recvRegion gr d) :
    ∃ k', (k, k') ∈ (recvRegion gr d).zip (sendRegion gn (opposite d)) ∧
      syncedAt (recvHalo gr d (sendHalo gn (opposite d) sn) sr) k sn k' := by
  obtain ⟨k', hz, hv⟩ := unpack_pack_cell (recvRegion gr d) _ hnd hlen k hk
  refine ⟨k', hz, ⟨?_, fun e => ?_⟩, ?_, ?_, ?_⟩
  · exact hv α sn.f_0 sr.f_0
  · cases e <;> simp only [chan, recvHalo, sendHalo] <;> exact hv α _ _
  · exact hv α sn.density sr.density
  · exact hv α sn.velocity_x sr.velocity_x
  · exact hv α sn.velocity_y sr.velocity_y

theorem syncedAt_of_agreeAt {α : Type} {s t u : Fields α} {k k' : Nat}
    (h : agreeAt s t k) (h' : syncedAt t k u k') : syncedAt s k u k' := by
  obtain ⟨a1, a2, a3, a4, a5, a6, a7, a8, a9, a10, a11, a12, -, -, -⟩ := h
  obtain ⟨⟨b0, bd⟩, b1, b2, b3⟩ := h'
  refine ⟨⟨a1.trans b0, fun d => ?_⟩, a10.trans b1, a11.trans b2, a12.trans b3⟩
  have := bd d
  cases d <;> simp only [chan] at this ⊢
  · exact a2.trans this
  · exact a3.trans this
  · exact a4.trans this
  · exact a5.trans this
  · exact a6.trans this
  · exact a7.trans this
  · exact a8.trans this
  · exact a9.trans this

theorem syncedAt_refl_of_agreeAt {α : Type} {s t : Fields α} {k : Nat} (h : agreeAt s t k) :
    syncedAt s k t k := by
  obtain ⟨a1, a2, a3, a4, a5, a6, a7, a8, a9, a10, a11, a12, -, -, -⟩ := h
  refine ⟨⟨a1, fun d => ?_⟩, a10, a11, a12⟩
  cases d <;> assumption

/-- The blocks of `exchangeBoundaries` for a list of directions, at one index: the arrays are
untouched there when no executed block receives into the index, and otherwise the twelve
synchronised arrays hold there what the sender of some executed block held at the cell with the
same position in its send region. -/
theorem exchange_fold {α : Type} (g : Geometry) (gn : Neighbor → Geometry)
    (sn : Neighbor → Fields α)
    (hH : ∀ d, 0 ≤ g.neighbors d → (recvRegion g d).Nodup ∧
      (recvRegion g d).length = (sendRegion (gn d) (opposite d)).length)
    (k : Nat) (L : List Neighbor) :
    ∀ s : Fields α,
      ((∀ d ∈ L, 0 ≤ g.neighbors d → k ∉ recvRegion g d) →
        agreeAt (L.foldl (fun s d => if 0 ≤ g.neighbors d then
          recvHalo g d (sendHalo (gn d) (opposite d) (sn d)) s else s) s) s k) ∧
      ((∃ d ∈ L, 0 ≤ g.neighbors d ∧ k ∈ recvRegion g d) →
        ∃ d ∈ L, ∃ k', 0 ≤ g.neighbors d ∧
          (k, k') ∈ (recvRegion g d).zip (sendRegion (gn d) (opposite d)) ∧
          syncedAt (L.foldl (fun s d => if 0 ≤ g.neighbors d then
            recvHalo g d (sendHalo (gn d) (opposite d) (sn d)) s else s) s) k (sn d) k') ∧
      ((L.foldl (fun s d => if 0 ≤ g.neighbors d then
          recvHalo g d (sendHalo (gn d) (opposite d) (sn d)) s else s) s).vorticity
            = s.vorticity ∧
        (L.foldl (fun s d => if 0 ≤ g.neighbors d then
          recvHalo g d (sendHalo (gn d) (opposite d) (sn d)) s else s) s).speed = s.speed ∧
        (L.foldl (fun s d => if 0 ≤ g.neighbors d then
          recvHalo g d (sendHalo (gn d) (opposite d) (sn d)) s else s) s).barrier
            = s.barrier) := by
  induction L with
  | nil =>
    intro s
    refine ⟨fun _ => agreeAt_refl s k, ?_, rfl, rfl, rfl⟩
    rintro ⟨d, hd, -⟩
    simp at hd
  | cons d L ih =>
    intro s
    rw [List.foldl_cons]
    obtain ⟨i1, i2, i3, i4, i5⟩ := ih
      (if 0 ≤ g.neighbors d then recvHalo g d (sendHalo (gn d) (opposite d) (sn d)) s else s)
    have hfix : (if 0 ≤ g.neighbors d then
          recvHalo g d (sendHalo (gn d) (opposite d) (sn d)) s else s).vorticity = s.vorticity ∧
        (if 0 ≤ g.neighbors d then
          recvHalo g d (sendHalo (gn d) (opposite d) (sn d)) s else s).speed = s.speed ∧
        (if 0 ≤ g.neighbors d then
          recvHalo g d (sendHalo (gn d) (opposite d) (sn d)) s else s).barrier = s.barrier := by
      split_ifs
      · exact ⟨rfl, rfl, rfl⟩
      · exact ⟨rfl, rfl, rfl⟩
    refine ⟨?_, ?_, i3.trans hfix.1, i4.trans hfix.2.1, i5.trans hfix.2.2⟩
    · intro hall
      refine agreeAt_trans (i1 fun d' hd' => hall d' (List.mem_cons_of_mem _ hd')) ?_
      by_cases hact : 0 ≤ g.neighbors d
      · rw [if_pos hact]
        exact recvHalo_frame g d _ s k (hall d (List.mem_cons_self _ _) hact)
      · rw [if_neg hact]
        exact agreeAt_refl s k
    · rintro ⟨d', hd', hact', hk'⟩
      by_cases hlater : ∃ e ∈ L, 0 ≤ g.neighbors e ∧ k ∈ recvRegion g e
      · obtain ⟨e, he, k', h1, h2, h3⟩ := i2 hlater
        exact ⟨e, List.mem_cons_of_mem _ he, k', h1, h2, h3⟩
      · have hd : d' = d := by
          rcases List.mem_cons.mp hd' with h | h
          · exact h
          · exact absurd ⟨d', h, hact', hk'⟩ hlater
        subst hd
        have hnone : ∀ e ∈ L, 0 ≤ g.neighbors e → k ∉ recvRegion g e :=
          fun e he hact hk => hlater ⟨e, he, hact, hk⟩
        have hag := i1 hnone
        rw [if_pos hact'] at hag ⊢
        obtain ⟨k', hz, hs⟩ := recvHalo_cell g (gn d') d' (hH d' hact').1 (hH d' hact').2 s
          (sn d') k hk'
        exact ⟨d', List.mem_cons_self _ _, k', hact', hz, syncedAt_of_agreeAt hag hs⟩

theorem mem_row {d y0 x0 n x y : Nat} (hx : x < d) (h0 : x0 + n ≤ d) :
    (y * d + x ∈ (List.range n).map fun i => y0 * d + x0 + i) ↔
      y = y0 ∧ x0 ≤ x ∧ x < x0 + n := by
  simp only [List.mem_map, List.mem_range]
  constructor
  · rintro ⟨i, hi, e⟩
    obtain ⟨e1, e2⟩ := idx_inj (show x0 + i < d by omega) hx
      (show y0 * d + (x0 + i) = y * d + x by omega)
    omega
  · rintro ⟨rfl, h1, h2⟩
    exact ⟨x - x0, by omega, by omega⟩

theorem mem_column {d y0 x0 n x y : Nat} (hx : x < d) (h0 : x0 < d) :
    (y * d + x ∈ (List.range n).map fun i => (y0 + i) * d + x0) ↔
      x = x0 ∧ y0 ≤ y ∧ y < y0 + n := by
  simp only [List.mem_map, List.mem_range]
  constructor
  · rintro ⟨i, hi, e⟩
    obtain ⟨e1, e2⟩ := idx_inj h0 hx e
    omega
  · rintro ⟨rfl, h1, h2⟩
    refine ⟨y - y0, by omega, ?_⟩
    rw [Nat.add_sub_cancel' h1]

/-- Membership of a stored cell in a receive region, for the geometry of the constructor. -/
theorem mem_recvRegion (W H P Px Py r : Nat) (d : Neighbor) (x y : Nat)
    (hx : x < (layout W H r P Px Py).dim_x)
    (hsx : (layout W H r P Px Py).start_x + (layout W H r P Px Py).num_x
      ≤ (layout W H r P Px Py).dim_x) :
    y * (layout W H r P Px Py).dim_x + x ∈ recvRegion (layout W H r P Px Py) d ↔
      recvCell (layout W H r P Px Py) d x y := by
  obtain ⟨c1, -, -, c4⟩ := layout_columns W H P Px Py r
  generalize layout W H r P Px Py = g at *
  have e0 : ∀ m : Nat, m * g.dim_x + g.dim_x - 1 = m * g.dim_x + (g.dim_x - 1) := by
    intro m; omega
  have hr1 : List.range 1 = [0] := rfl
  cases d <;> simp only [recvRegion, recvCell, contiguous_eq, c1, c4]
  · exact mem_row hx hsx
  · exact mem_column hx (by omega)
  · have h := @mem_row g.dim_x 0 g.start_x g.num_x x y hx hsx
    simp only [Nat.zero_mul, Nat.zero_add] at h
    exact h
  · exact mem_column hx (by omega)
  · have h := @mem_row g.dim_x (g.dim_y - 1) (g.dim_x - 1) 1 x y hx (by omega)
    simp only [hr1, List.map_cons, List.map_nil, List.mem_singleton, Nat.add_zero]
      at h ⊢
    rw [e0, h]
    constructor
    · rintro ⟨h1, h2, h3⟩; exact ⟨by omega, h1⟩
    · rintro ⟨h1, h2⟩; exact ⟨h2, by omega, by omega⟩
  · have h := @mem_row g.dim_x (g.dim_y - 1) 0 1 x y hx (by omega)
    simp only [hr1, List.map_cons, List.map_nil, List.mem_singleton, Nat.add_zero]
      at h ⊢
    rw [h]
    constructor
    · rintro ⟨h1, h2, h3⟩; exact ⟨by omega, h1⟩
    · rintro ⟨h1, h2⟩; exact ⟨h2, by omega, by omega⟩
  · have h := @mem_row g.dim_x 0 (g.dim_x - 1) 1 x y hx (by omega)
    simp only [hr1, List.map_cons, List.map_nil, List.mem_singleton, Nat.add_zero,
      Nat.zero_mul, Nat.zero_add] at h ⊢
    rw [h]
    constructor
    · rintro ⟨h1, h2, h3⟩; exact ⟨by omega, h1⟩
    · rintro ⟨h1, h2⟩; exact ⟨h2, by omega, by omega⟩
  · have h := @mem_row g.dim_x 0 0 1 x y hx (by omega)
    simp only [hr1, List.map_cons, List.map_nil, List.mem_singleton, Nat.add_zero,
      Nat.zero_mul, Nat.zero_add] at h ⊢
    rw [h]
    constructor
    · rintro ⟨h1, h2, h3⟩; exact ⟨by omega, h1⟩
    · rintro ⟨h1, h2⟩; exact ⟨h2, by omega, by omega⟩

theorem active_iff (W H P Px Py a b : Nat) (ha : a < Py) (hb : b < Px) (d : Neighbor) :
    0 ≤ (layout W H (a * Px + b) P Px Py).neighbors d ↔ hasNeighbor Px Py a b d := by
  rw [neighbors_layout W H P Px Py a b hb d]
  cases d <;> simp only [hasNeighbor] <;> split_ifs <;> constructor <;> intro h <;> omega

/-- Start flags, offsets and stored extents of the tile at row `a`, column `b` of a proper
grid. -/
theorem rank_facts (W H P Px Py a b : Nat) (hp : properGrid W H P Px Py) (ha : a < Py)
    (hb : b < Px) :
    (1 ≤ (layout W H (a * Px + b) P Px Py).num_x ∧
      (b = 0 → (layout W H (a * Px + b) P Px Py).start_x = 0 ∧
        (layout W H (a * Px + b) P Px Py).offset_x = 0) ∧
      (0 < b → (layout W H (a * Px + b) P Px Py).start_x = 1 ∧
        1 ≤ (layout W H (a * Px + b) P Px Py).offset_x) ∧
      (b + 1 < Px → (layout W H (a * Px + b) P Px Py).dim_x
          = (layout W H (a * Px + b) P Px Py).num_x
            + (layout W H (a * Px + b) P Px Py).start_x + 1 ∧
        (layout W H (a * Px + b) P Px Py).offset_x
          + (layout W H (a * Px + b) P Px Py).num_x + 1 ≤ W) ∧
      (b + 1 = Px → (layout W H (a * Px + b) P Px Py).dim_x
          = (layout W H (a * Px + b) P Px Py).num_x
            + (layout W H (a * Px + b) P Px Py).start_x ∧
        (layout W H (a * Px + b) P Px Py).offset_x
          + (layout W H (a * Px + b) P Px Py).num_x = W)) ∧
    (1 ≤ (layout W H (a * Px + b) P Px Py).num_y ∧
      (a = 0 → (layout W H (a * Px + b) P Px Py).start_y = 0 ∧
        (layout W H (a * Px + b) P Px Py).offset_y = 0) ∧
      (0 < a → (layout W H (a * Px + b) P Px Py).start_y = 1 ∧
        1 ≤ (layout W H (a * Px + b) P Px Py).offset_y) ∧
      (a + 1 < Py → (layout W H (a * Px + b) P Px Py).dim_y
          = (layout W H (a * Px + b) P Px Py).num_y
            + (layout W H (a * Px + b) P Px Py).start_y + 1 ∧
        (layout W H (a * Px + b) P Px Py).offset_y
          + (layout W H (a * Px + b) P Px Py).num_y + 1 ≤ H) ∧
      (a + 1 = Py → (layout W H (a * Px + b) P Px Py).dim_y
          = (layout W H (a * Px + b) P Px Py).num_y
            + (layout W H (a * Px + b) P Px Py).start_y ∧
        (layout W H (a * Px + b) P Px Py).offset_y
          + (layout W H (a * Px + b) P Px Py).num_y = H)) := by
  obtain ⟨hPy, hle, hmul, hsx, hsy⟩ := hp
  have hP : P ≠ 1 := by
    intro h
    have := Nat.mul_le_mul (show 2 ≤ Px by omega) hPy
    omega
  obtain ⟨x1, x2, x3, x4⟩ := layout_x W H P Px Py a b hb
  obtain ⟨y1, y2, y3, y4⟩ := layout_y W H P Px Py a b hb
  rw [x1, x2, x3, x4, y1, y2, y3, y4]
  exact ⟨tile_facts W Px P b hP (by omega) hb hsx, tile_facts H Py P a hP hPy ha hsy⟩

/-- In a proper grid a block of `exchangeBoundaries` that is executed receives into cells that
are not owned, and every stored cell that is not owned is received by some executed block. -/
theorem recv_covers (W H P Px Py a b : Nat) (hp : properGrid W H P Px Py) (ha : a < Py)
    (hb : b < Px) (x y : Nat) (hx : x < (layout W H (a * Px + b) P Px Py).dim_x)
    (hy : y < (layout W H (a * Px + b) P Px Py).dim_y) :
    (ownedIndex (layout W H (a * Px + b) P Px Py)
        (y * (layout W H (a * Px + b) P Px Py).dim_x + x) →
      ∀ d, 0 ≤ (layout W H (a * Px + b) P Px Py).neighbors d →
        y * (layout W H (a * Px + b) P Px Py).dim_x + x
          ∉ recvRegion (layout W H (a * Px + b) P Px Py) d) ∧
    (¬ ownedIndex (layout W H (a * Px + b) P Px Py)
        (y * (layout W H (a * Px + b) P Px Py).dim_x + x) →
      ∃ d, 0 ≤ (layout W H (a * Px + b) P Px Py).neighbors d ∧
        y * (layout W H (a * Px + b) P Px Py).dim_x + x
          ∈ recvRegion (layout W H (a * Px + b) P Px Py) d) := by
  obtain ⟨⟨fx1, fx2, fx3, fx4, fx5⟩, fy1, fy2, fy3, fy4, fy5⟩ :=
    rank_facts W H P Px Py a b hp ha hb
  have hact := active_iff W H P Px Py a b ha hb
  have hmem := fun d => mem_recvRegion W H P Px Py (a * Px + b) d x y hx
    (by rcases Nat.lt_or_ge (b + 1) Px with h | h
        · have := fx4 h; omega
        · have := fx5 (by omega); omega)
  have hown := ownedIndex_at (layout W H (a * Px + b) P Px Py) x y hx
  generalize layout W H (a * Px + b) P Px Py = g at *
  constructor
  · intro ho d hd
    rw [hmem d]
    rw [hown] at ho
    rw [hact d] at hd
    cases d <;> simp only [recvCell, hasNeighbor] at hd ⊢ <;> omega
  · intro ho
    rw [hown] at ho
    have key : ∃ d, hasNeighbor Px Py a b d ∧ recvCell g d x y := by
      by_cases hxl : x < g.start_x
      · by_cases hyl : y < g.start_y
        · exact ⟨.NeighborSW, by simp only [hasNeighbor]; omega,
            by simp only [recvCell]; omega⟩
        · by_cases hyh : y < g.start_y + g.num_y
          · exact ⟨.NeighborW, by simp only [hasNeighbor]; omega,
              by simp only [recvCell]; omega⟩
          · exact ⟨.NeighborNW, by simp only [hasNeighbor]; omega,
              by simp only [recvCell]; omega⟩
      · by_cases hxh : x < g.start_x + g.num_x
        · by_cases hyl : y < g.start_y
          · exact ⟨.NeighborS, by simp only [hasNeighbor]; omega,
              by simp only [recvCell]; omega⟩
          · exact ⟨.NeighborN, by simp only [hasNeighbor]; omega,
              by simp only [recvCell]; omega⟩
        · by_cases hyl : y < g.start_y
          · exact ⟨.NeighborSE, by simp only [hasNeighbor]; omega,
              by simp only [recvCell]; omega⟩
          · by_cases hyh : y < g.start_y + g.num_y
            · exact ⟨.NeighborE, by simp only [hasNeighbor]; omega,
                by simp only [recvCell]; omega⟩
            · exact ⟨.NeighborNE, by simp only [hasNeighbor]; omega,
                by simp only [recvCell]; omega⟩
    obtain ⟨d, h1, h2⟩ := key
    exact ⟨d, (hact d).mpr h1, (hmem d).mpr h2⟩

/-- Function `exchangeBoundaries()` on all ranks of a proper grid, at a stored cell of rank
`r`: afterwards the twelve synchronised arrays hold there what the rank that owns the cell
held, before the exchange, at its owned cell with the same global coordinates.  The arrays
`vorticity`, `speed` and `barrier` are not exchanged. -/
theorem exchange_cell {α : Type} (W H P Px Py : Nat) (hp : properGrid W H P Px Py)
    (T : Nat → Fields α) (r : Nat) (hr : r < P) (x y : Nat)
    (hx : x < (layout W H r P Px Py).dim_x) (hy : y < (layout W H r P Px Py).dim_y) :
    (∃ n k', n < P ∧ ownedIndex (layout W H n P Px Py) k' ∧
      globalCell (layout W H n P Px Py) k'
        = globalCell (layout W H r P Px Py) (y * (layout W H r P Px Py).dim_x + x) ∧
      syncedAt (exchangeAll (fun q => layout W H q P Px Py) T r)
        (y * (layout W H r P Px Py).dim_x + x) (T n) k') ∧
    (exchangeAll (fun q => layout W H q P Px Py) T r).vorticity = (T r).vorticity ∧
    (exchangeAll (fun q => layout W H q P Px Py) T r).speed = (T r).speed ∧
    (exchangeAll (fun q => layout W H q P Px Py) T r).barrier = (T r).barrier := by
  have hp' := hp
  obtain ⟨hPy, hle, hmul, hsx, hsy⟩ := hp
  have hPx : 0 < Px := by omega
  obtain ⟨a, b, hb, ha, rfl⟩ : ∃ a b, b < Px ∧ a < Py ∧ r = a * Px + b :=
    ⟨r / Px, r % Px, Nat.mod_lt r hPx, rank_row_lt Px Py r (by rw [hmul]; exact hr),
      by rw [Nat.mul_comm]; exact (Nat.div_add_mod r Px).symm⟩
  have hhalo := fun d h0 => halo_layout W H P Px Py (by omega) hle hmul hsx hsy a b ha hb d h0
  have hH : ∀ d, 0 ≤ (layout W H (a * Px + b) P Px Py).neighbors d →
      (recvRegion (layout W H (a * Px + b) P Px Py) d).Nodup ∧
      (recvRegion (layout W H (a * Px + b) P Px Py) d).length
        = (sendRegion (layout W H ((layout W H (a * Px + b) P Px Py).neighbors d).toNat
            P Px Py) (opposite d)).length := by
    intro d h0
    obtain ⟨h1, -, h3⟩ := hhalo d h0
    have := congrArg List.length h1
    rw [List.length_map, List.length_map] at this
    exact ⟨h3, this⟩
  obtain ⟨f1, f2, f3, f4, f5⟩ := exchange_fold (layout W H (a * Px + b) P Px Py)
    (fun d => layout W H ((layout W H (a * Px + b) P Px Py).neighbors d).toNat P Px Py)
    (fun d => T ((layout W H (a * Px + b) P Px Py).neighbors d).toNat) hH
    (y * (layout W H (a * Px + b) P Px Py).dim_x + x)
    [Neighbor.NeighborN, .NeighborE, .NeighborS, .NeighborW, .NeighborNE, .NeighborNW,
      .NeighborSE, .NeighborSW] (T (a * Px + b))
  obtain ⟨c1, c2⟩ := recv_covers W H P Px Py a b hp' ha hb x y hx hy
  refine ⟨?_, f3, f4, f5⟩
  by_cases ho : ownedIndex (layout W H (a * Px + b) P Px Py)
      (y * (layout W H (a * Px + b) P Px Py).dim_x + x)
  · exact ⟨a * Px + b, _, hr, ho, rfl,
      syncedAt_refl_of_agreeAt (f1 fun d _ hd => c1 ho d hd)⟩
  · obtain ⟨d, hd0, hdm⟩ := c2 ho
    have hdl : d ∈ [Neighbor.NeighborN, .NeighborE, .NeighborS, .NeighborW, .NeighborNE,
        .NeighborNW, .NeighborSE, .NeighborSW] := by cases d <;> simp
    obtain ⟨e, -, k', he0, hz, hs⟩ := f2 ⟨d, hdl, hd0, hdm⟩
    obtain ⟨h1, h2, -⟩ := hhalo e he0
    have hn := (neighbors_layout_symm W H P Px Py hPx hmul (a * Px + b) hr e _ rfl he0).1
    refine ⟨((layout W H (a * Px + b) P Px Py).neighbors e).toNat, k', ?_,
      h2 k' (List.of_mem_zip hz).2, ?_, hs⟩
    · omega
    · exact (zip_map_eq _ _ _ _ h1 (_, k') hz).symm

/-! ### Partition independence -/

/-- One direction of a stored cell: the start flag does not exceed the offset, the global
coordinate lies in the grid, and the coordinate is interior in the tile iff it is owned and
interior in the grid. -/
theorem axis_geometry {S st off dim total c n x : Nat} (h1 : 1 ≤ S)
    (h2 : c = 0 → st = 0 ∧ off = 0) (h3 : 0 < c → st = 1 ∧ 1 ≤ off)
    (h4 : c + 1 < n → dim = S + st + 1 ∧ off + S + 1 ≤ total)
    (h5 : c + 1 = n → dim = S + st ∧ off + S = total) (hc : c < n) (hx : x < dim) :
    st ≤ off ∧ off + x - st < total ∧
    ((1 ≤ x ∧ x < dim - 1) ↔ (st ≤ x ∧ x < st + S) ∧
      (1 ≤ off + x - st ∧ off + x - st < total - 1)) := by
  have hxc : (c = 0 ∨ 0 < c) ∧ (c + 1 < n ∨ c + 1 = n) := by omega
  rcases hxc with ⟨e1 | e1, e2 | e2⟩
  · obtain ⟨a1, a2⟩ := h2 e1
    obtain ⟨b1, b2⟩ := h4 e2
    subst a1 a2 b1
    refine ⟨by omega, by omega, ?_⟩
    constructor <;> intro h <;> omega
  · obtain ⟨a1, a2⟩ := h2 e1
    obtain ⟨b1, b2⟩ := h5 e2
    subst a1 a2 b1
    refine ⟨by omega, by omega, ?_⟩
    constructor <;> intro h <;> omega
  · obtain ⟨a1, a2⟩ := h3 e1
    obtain ⟨b1, b2⟩ := h4 e2
    subst a1 b1
    refine ⟨by omega, by omega, ?_⟩
    constructor <;> intro h <;> omega
  · obtain ⟨a1, a2⟩ := h3 e1
    obtain ⟨b1, b2⟩ := h5 e2
    subst a1 b1
    refine ⟨by omega, by omega, ?_⟩
    constructor <;> intro h <;> omega

/-- A stored cell of a tile of a proper grid and the global cell it stands for. -/
theorem cell_geometry (W H P Px Py r : Nat) (hp : properGrid W H P Px Py) (hr : r < P)
    (x y : Nat) (hx : x < (layout W H r P Px Py).dim_x)
    (hy : y < (layout W H r P Px Py).dim_y) :
    (layout W H r P Px Py).start_x ≤ (layout W H r P Px Py).offset_x ∧
    (layout W H r P Px Py).start_y ≤ (layout W H r P Px Py).offset_y ∧
    (layout W H r P Px Py).offset_x + x - (layout W H r P Px Py).start_x < W ∧
    (layout W H r P Px Py).offset_y + y - (layout W H r P Px Py).start_y < H ∧
    (isInterior (layout W H r P Px Py).dim_x (layout W H r P Px Py).dim_y x y ↔
      ownedIndex (layout W H r P Px Py) (y * (layout W H r P Px Py).dim_x + x) ∧
      isInterior W H
        ((layout W H r P Px Py).offset_x + x - (layout W H r P Px Py).start_x)
        ((layout W H r P Px Py).offset_y + y - (layout W H r P Px Py).start_y)) := by
  have hPx : 0 < Px := by have := hp.1; have := hp.2.1; omega
  have hmul := hp.2.2.1
  obtain ⟨a, b, hb, ha, rfl⟩ : ∃ a b, b < Px ∧ a < Py ∧ r = a * Px + b :=
    ⟨r / Px, r % Px, Nat.mod_lt r hPx, rank_row_lt Px Py r (by rw [hmul]; exact hr),
      by rw [Nat.mul_comm]; exact (Nat.div_add_mod r Px).symm⟩
  obtain ⟨⟨fx1, fx2, fx3, fx4, fx5⟩, fy1, fy2, fy3, fy4, fy5⟩ :=
    rank_facts W H P Px Py a b hp ha hb
  obtain ⟨X1, X2, X3⟩ := axis_geometry fx1 fx2 fx3 fx4 fx5 hb hx
  obtain ⟨Y1, Y2, Y3⟩ := axis_geometry fy1 fy2 fy3 fy4 fy5 ha hy
  refine ⟨X1, Y1, X2, Y2, ?_⟩
  rw [ownedIndex_at _ x y hx]
  unfold isInterior
  constructor
  · rintro ⟨i1, i2, i3, i4⟩
    obtain ⟨⟨p1, p2⟩, p3, p4⟩ := X3.mp ⟨i1, i2⟩
    obtain ⟨⟨q1, q2⟩, q3, q4⟩ := Y3.mp ⟨i3, i4⟩
    exact ⟨⟨p1, p2, q1, q2⟩, p3, p4, q3, q4⟩
  · rintro ⟨⟨p1, p2, q1, q2⟩, p3, p4, q3, q4⟩
    obtain ⟨i1, i2⟩ := X3.mpr ⟨⟨p1, p2⟩, p3, p4⟩
    obtain ⟨i3, i4⟩ := Y3.mpr ⟨⟨q1, q2⟩, q3, q4⟩
    exact ⟨i1, i2, i3, i4⟩

/-- The stored extents of a tile of a proper grid hold the owned cells. -/
theorem owned_stored (W H P Px Py r : Nat) (hp : properGrid W H P Px Py) (hr : r < P) :
    (layout W H r P Px Py).start_x + (layout W H r P Px Py).num_x
      ≤ (layout W H r P Px Py).dim_x ∧
    (layout W H r P Px Py).start_y + (layout W H r P Px Py).num_y
      ≤ (layout W H r P Px Py).dim_y ∧
    1 ≤ (layout W H r P Px Py).num_x ∧ 1 ≤ (layout W H r P Px Py).num_y := by
  have hPx : 0 < Px := by have := hp.1; have := hp.2.1; omega
  have hmul := hp.2.2.1
  obtain ⟨a, b, hb, ha, rfl⟩ : ∃ a b, b < Px ∧ a < Py ∧ r = a * Px + b :=
    ⟨r / Px, r % Px, Nat.mod_lt r hPx, rank_row_lt Px Py r (by rw [hmul]; exact hr),
      by rw [Nat.mul_comm]; exact (Nat.div_add_mod r Px).symm⟩
  obtain ⟨⟨fx1, -, -, fx4, fx5⟩, fy1, -, -, fy4, fy5⟩ :=
    rank_facts W H P Px Py a b hp ha hb
  refine ⟨?_, ?_, fx1, fy1⟩
  · rcases Nat.lt_or_ge (b + 1) Px with h1 | h1
    · have := fx4 h1; omega
    · have := fx5 (by omega); omega
  · rcases Nat.lt_or_ge (a + 1) Py with h1 | h1
    · have := fy4 h1; omega
    · have := fy5 (by omega); omega

/-- Exchange turns agreement at the owned cells into agreement at all stored cells. -/
theorem exchange_agree {α : Type} (W H P Px Py : Nat) (hp : properGrid W H P Px Py)
    (c0 : Nat → Nat → Prop) (cd : Neighbor → Nat → Nat → Prop) (T : Nat → Fields α)
    (S : Fields α) (h : agreeOn W H P Px Py true c0 cd T S) :
    agreeOn W H P Px Py false c0 cd (exchangeAll (fun q => layout W H q P Px Py) T) S := by
  intro r x y hr hx hy _
  obtain ⟨⟨n, k', hn, hown, hglob, hs⟩, -⟩ := exchange_cell W H P Px Py hp T r hr x y hx hy
  obtain ⟨g1, g2, -⟩ := cell_geometry W H P Px Py r hp hr x y hx hy
  obtain ⟨os1, os2, os3, os4⟩ := owned_stored W H P Px Py n hp hn
  have hdn : 0 < (layout W H n P Px Py).dim_x := by omega
  have hk' : k' = (k' / (layout W H n P Px Py).dim_x) * (layout W H n P Px Py).dim_x
      + k' % (layout W H n P Px Py).dim_x := by
    rw [Nat.mul_comm]; exact (Nat.div_add_mod k' _).symm
  have hx' := Nat.mod_lt k' hdn
  generalize k' / (layout W H n P Px Py).dim_x = y' at hk'
  generalize k' % (layout W H n P Px Py).dim_x = x' at hk' hx'
  subst hk'
  rw [globalCell_at _ x' y' hx', globalCell_at _ x y hx] at hglob
  have hown' := (ownedIndex_at _ x' y' hx').mp hown
  have hy' : y' < (layout W H n P Px Py).dim_y := by omega
  obtain ⟨n1, n2, -⟩ := cell_geometry W H P Px Py n hp hn x' y' hx' hy'
  have ex : (layout W H n P Px Py).offset_x + x' - (layout W H n P Px Py).start_x
      = (layout W H r P Px Py).offset_x + x - (layout W H r P Px Py).start_x := by
    have := congrArg Prod.fst hglob
    simp only at this
    omega
  have ey : (layout W H n P Px Py).offset_y + y' - (layout W H n P Px Py).start_y
      = (layout W H r P Px Py).offset_y + y - (layout W H r P Px Py).start_y := by
    have := congrArg Prod.snd hglob
    simp only at this
    omega
  have hri : refIndex W (layout W H n P Px Py) x' y' = refIndex W (layout W H r P Px Py) x y := by
    unfold refIndex
    rw [ex, ey]
  obtain ⟨q0, qd⟩ := h n x' y' hn hx' hy' (fun _ => hown)
  rw [ex, ey, hri] at q0 qd
  obtain ⟨⟨s0, sd⟩, s1, -, -⟩ := hs
  refine ⟨fun hc => ?_, fun d hc => ?_⟩
  · obtain ⟨t0, t1⟩ := q0 hc
    exact ⟨s0.trans t0, s1.trans t1⟩
  · exact (sd d).trans (qd d hc)

theorem upstream_global (g : Geometry) (hsx : g.start_x ≤ g.offset_x)
    (hsy : g.start_y ≤ g.offset_y) (x y : Nat) (hx : 1 ≤ x) (hy : 1 ≤ y) (d : Neighbor) :
    g.offset_x + (upstream d x y).1 - g.start_x
      = (upstream d (g.offset_x + x - g.start_x) (g.offset_y + y - g.start_y)).1 ∧
    g.offset_y + (upstream d x y).2 - g.start_y
      = (upstream d (g.offset_x + x - g.start_x) (g.offset_y + y - g.start_y)).2 := by
  cases d <;> dsimp only [upstream] <;> constructor <;> omega

theorem upstream_opposite (gx gy : Nat) (hx : 1 ≤ gx) (hy : 1 ≤ gy) (d : Neighbor) :
    upstream (opposite d) (upstream d gx gy).1 (upstream d gx gy).2 = (gx, gy) := by
  cases d <;> dsimp only [upstream, opposite] <;> refine Prod.ext ?_ ?_ <;> dsimp only <;>
    omega

/-- `collide` on every tile and on the single-rank state keeps the agreement at the owned
cells that are not interior barrier cells. -/
theorem collide_agree_step (W H P Px Py : Nat) (hp : properGrid W H P Px Py)
    (mask : Nat → Bool) (viscosity : K) (T : Nat → Fields K) (S : Fields K)
    (h : agreeOn W H P Px Py true (goodCell W H mask) (fun _ => goodCell W H mask) T S) :
    agreeOn W H P Px Py true (goodCell W H mask) (fun _ => goodCell W H mask)
      (fun r => collide (layout W H r P Px Py).dim_x (layout W H r P Px Py).dim_y viscosity
        (T r))
      (collide W H viscosity S) := by
  intro r x y hr hx hy hown
  obtain ⟨-, -, g3, g4, g5⟩ := cell_geometry W H P Px Py r hp hr x y hx hy
  obtain ⟨q0, qd⟩ := h r x y hr hx hy hown
  have key : goodCell W H mask ((layout W H r P Px Py).offset_x + x
        - (layout W H r P Px Py).start_x)
      ((layout W H r P Px Py).offset_y + y - (layout W H r P Px Py).start_y) →
      sameChannels
        (collide (layout W H r P Px Py).dim_x (layout W H r P Px Py).dim_y viscosity (T r))
        (y * (layout W H r P Px Py).dim_x + x) (collide W H viscosity S)
        (refIndex W (layout W H r P Px Py) x y) ∧
      (collide (layout W H r P Px Py).dim_x (layout W H r P Px Py).dim_y viscosity
        (T r)).density (y * (layout W H r P Px Py).dim_x + x)
        = (collide W H viscosity S).density (refIndex W (layout W H r P Px Py) x y) := by
    intro hg
    have hsame : sameChannels (T r) (y * (layout W H r P Px Py).dim_x + x) S
        (refIndex W (layout W H r P Px Py) x y) := ⟨(q0 hg).1, fun d => qd d hg⟩
    by_cases hi : isInterior (layout W H r P Px Py).dim_x (layout W H r P Px Py).dim_y x y
    · exact collide_transfer _ _ x y W H _ _ hi (g5.mp hi).2 viscosity (T r) S hsame
    · have hgi : ¬ isInterior W H
          ((layout W H r P Px Py).offset_x + x - (layout W H r P Px Py).start_x)
          ((layout W H r P Px Py).offset_y + y - (layout W H r P Px Py).start_y) :=
        fun e => hi (g5.mpr ⟨hown rfl, e⟩)
      have a1 := collide_frame _ _ viscosity (T r) _ (offInterior_of_cell hx hi)
      have a2 := collide_frame W H viscosity S _ (offInterior_of_cell g3 hgi)
      refine ⟨sameChannels_trans (sameChannels_of_agreeAt a1)
        (sameChannels_trans hsame (sameChannels_symm (sameChannels_of_agreeAt a2))), ?_⟩
      exact a1.2.2.2.2.2.2.2.2.2.1.trans ((q0 hg).2.trans a2.2.2.2.2.2.2.2.2.2.1.symm)
  exact ⟨fun hg => ⟨(key hg).1.1, (key hg).2⟩, fun d hg => (key hg).1.2 d⟩

/-- `stream` on every tile and on the single-rank state: after it a channel of an owned cell
agrees when it was streamed from a cell that is not an interior barrier cell. -/
theorem stream_agree_step {α : Type} (W H P Px Py : Nat) (hp : properGrid W H P Px Py)
    (mask : Nat → Bool) (T : Nat → Fields α) (S : Fields α)
    (h : agreeOn W H P Px Py false (goodCell W H mask) (fun _ => goodCell W H mask) T S) :
    agreeOn W H P Px Py true (goodCell W H mask) (shiftGood W H mask)
      (fun r => stream (layout W H r P Px Py).dim_x (layout W H r P Px Py).dim_y (T r))
      (stream W H S) := by
  intro r x y hr hx hy hown
  obtain ⟨g1, g2, g3, g4, g5⟩ := cell_geometry W H P Px Py r hp hr x y hx hy
  obtain ⟨q0, qd⟩ := h r x y hr hx hy (fun e => absurd e (by decide))
  obtain ⟨t0, t1, -⟩ := stream_fixed (layout W H r P Px Py).dim_x
    (layout W H r P Px Py).dim_y (T r)
  obtain ⟨s0, s1, -⟩ := stream_fixed W H S
  refine ⟨fun hg => ?_, fun d hc => ?_⟩
  · simp only [t0, t1, s0, s1]
    exact q0 hg
  · by_cases hi : isInterior (layout W H r P Px Py).dim_x (layout W H r P Px Py).dim_y x y
    · have hgi := (g5.mp hi).2
      have hgood : goodCell W H mask
          (upstream d ((layout W H r P Px Py).offset_x + x - (layout W H r P Px Py).start_x)
            ((layout W H r P Px Py).offset_y + y - (layout W H r P Px Py).start_y)).1
          (upstream d ((layout W H r P Px Py).offset_x + x - (layout W H r P Px Py).start_x)
            ((layout W H r P Px Py).offset_y + y - (layout W H r P Px Py).start_y)).2 := by
        rcases hc with hc | hc
        · exact absurd hgi hc
        · exact hc
      obtain ⟨u1, u2⟩ := upstream_stored hi d
      obtain ⟨e1, e2⟩ := upstream_global (layout W H r P Px Py) g1 g2 x y hi.1 hi.2.2.1 d
      have hup := (h r _ _ hr u1 u2 (fun e => absurd e (by decide))).2 d
      rw [e1, e2] at hup
      have hri : refIndex W (layout W H r P Px Py) (upstream d x y).1 (upstream d x y).2
          = (upstream d ((layout W H r P Px Py).offset_x + x - (layout W H r P Px Py).start_x)
              ((layout W H r P Px Py).offset_y + y - (layout W H r P Px Py).start_y)).2 * W
            + (upstream d ((layout W H r P Px Py).offset_x + x
                - (layout W H r P Px Py).start_x)
              ((layout W H r P Px Py).offset_y + y - (layout W H r P Px Py).start_y)).1 := by
        unfold refIndex
        rw [e1, e2]
      show chan (stream _ _ (T r)) d _ = chan (stream W H S) d _
      rw [stream_chan _ _ x y hi (T r) d, hup hgood, hri]
      exact (stream_chan W H _ _ hgi S d).symm
    · have hgi : ¬ isInterior W H
          ((layout W H r P Px Py).offset_x + x - (layout W H r P Px Py).start_x)
          ((layout W H r P Px Py).offset_y + y - (layout W H r P Px Py).start_y) :=
        fun e => hi (g5.mpr ⟨hown rfl, e⟩)
      show chan (stream _ _ (T r)) d _ = chan (stream W H S) d _
      rw [stream_frame _ _ (T r) _ (offInterior_of_cell hx hi) d, qd d (Or.inr hgi)]
      exact (stream_frame W H S _ (offInterior_of_cell g3 hgi) d).symm

/-- `bounceBackStream` on every tile and on the single-rank state: afterwards the owned cells
that are not interior barrier cells agree in every channel. -/
theorem bounce_agree_step {α : Type} (W H P Px Py : Nat) (hp : properGrid W H P Px Py)
    (mask : Nat → Bool) (T : Nat → Fields α) (S : Fields α)
    (hm : masksAgree W H P Px Py mask T) (hS : S.barrier = mask)
    (h : agreeOn W H P Px Py false (goodCell W H mask) (shiftGood W H mask) T S) :
    agreeOn W H P Px Py true (goodCell W H mask) (fun _ => goodCell W H mask)
      (fun r => bounceBackStream (layout W H r P Px Py).dim_x (layout W H r P Px Py).dim_y
        (T r))
      (bounceBackStream W H S) := by
  intro r x y hr hx hy hown
  obtain ⟨g1, g2, g3, g4, g5⟩ := cell_geometry W H P Px Py r hp hr x y hx hy
  obtain ⟨q0, qd⟩ := h r x y hr hx hy (fun e => absurd e (by decide))
  obtain ⟨t0, t1, -⟩ := bounce_fixed (layout W H r P Px Py).dim_x
    (layout W H r P Px Py).dim_y (T r)
  obtain ⟨s0, s1, -⟩ := bounce_fixed W H S
  refine ⟨fun hg => ?_, fun d hg => ?_⟩
  · simp only [t0, t1, s0, s1]
    exact q0 hg
  · show chan (bounceBackStream _ _ (T r)) d _ = chan (bounceBackStream W H S) d _
    by_cases hi : isInterior (layout W H r P Px Py).dim_x (layout W H r P Px Py).dim_y x y
    · have hgi := (g5.mp hi).2
      have hfl : mask (refIndex W (layout W H r P Px Py) x y) = false := by
        rcases hg with hg | hg
        · exact hg
        · exact absurd hgi hg
      obtain ⟨u1, u2⟩ := upstream_stored hi d
      obtain ⟨e1, e2⟩ := upstream_global (layout W H r P Px Py) g1 g2 x y hi.1 hi.2.2.1 d
      have hup := (h r _ _ hr u1 u2 (fun e => absurd e (by decide))).2 (opposite d)
      have hbar := hm r _ _ hr u1 u2
      have hcell := hm r x y hr hx hy
      simp only [refIndex, e1, e2] at hup hbar hcell qd hfl ⊢
      rw [bounce_chan _ _ x y hi (T r) (hcell.trans hfl) d,
        bounce_chan W H _ _ hgi S (by rw [hS]; exact hfl) d, hbar, hS]
      by_cases hb : mask ((upstream d ((layout W H r P Px Py).offset_x + x
              - (layout W H r P Px Py).start_x)
            ((layout W H r P Px Py).offset_y + y - (layout W H r P Px Py).start_y)).2 * W
          + (upstream d ((layout W H r P Px Py).offset_x + x
              - (layout W H r P Px Py).start_x)
            ((layout W H r P Px Py).offset_y + y - (layout W H r P Px Py).start_y)).1) = true
      · rw [if_pos hb, if_pos hb]
        refine hup (Or.inr ?_)
        rw [upstream_opposite _ _ hgi.1 hgi.2.2.1 d]
        exact Or.inl hfl
      · rw [if_neg hb, if_neg hb]
        exact qd d (Or.inr (Or.inl (by simpa using hb)))
    · have hgi : ¬ isInterior W H
          ((layout W H r P Px Py).offset_x + x - (layout W H r P Px Py).start_x)
          ((layout W H r P Px Py).offset_y + y - (layout W H r P Px Py).start_y) :=
        fun e => hi (g5.mpr ⟨hown rfl, e⟩)
      have a1 := sameChannels_of_agreeAt
        (bounce_frame _ _ (T r) _ (offInterior_of_cell hx hi))
      have a2 := sameChannels_of_agreeAt (bounce_frame W H S _ (offInterior_of_cell g3 hgi))
      rw [a1.2 d, qd d (Or.inl hgi)]
      exact (a2.2 d).symm

/-- The barrier masks of the tiles do not change in a time step. -/
theorem masks_step (W H P Px Py : Nat) (hp : properGrid W H P Px Py) (mask : Nat → Bool)
    (viscosity : K) (T : Nat → Fields K) (hm : masksAgree W H P Px Py mask T) :
    masksAgree W H P Px Py mask (timeStep (fun q => layout W H q P Px Py) viscosity T) := by
  intro r x y hr hx hy
  have e := hm r x y hr hx hy
  simp only [timeStep]
  rw [(bounce_fixed _ _ _).2.2.2.2.2.2, (exchange_cell W H P Px Py hp _ r hr x y hx hy).2.2.2,
    (stream_fixed _ _ _).2.2.2.2.2.2, (exchange_cell W H P Px Py hp _ r hr x y hx hy).2.2.2,
    collide_barrier]
  exact e

/-- One time step keeps the agreement of the tiles of a proper grid with the single-rank
state at the owned cells that are not interior barrier cells. -/
theorem timeStep_agree (W H P Px Py : Nat) (hp : properGrid W H P Px Py) (mask : Nat → Bool)
    (viscosity : K) (T : Nat → Fields K) (S : Nat → Fields K)
    (hm : masksAgree W H P Px Py mask T) (hS : (S 0).barrier = mask)
    (h : agreeOn W H P Px Py true (goodCell W H mask) (fun _ => goodCell W H mask) T (S 0)) :
    agreeOn W H P Px Py true (goodCell W H mask) (fun _ => goodCell W H mask)
      (timeStep (fun q => layout W H q P Px Py) viscosity T)
      (timeStep (fun q => layout W H q 1 1 1) viscosity S 0) ∧
    (timeStep (fun q => layout W H q 1 1 1) viscosity S 0).barrier = mask := by
  obtain ⟨-, hdx, hdy, -, -, -, -, -, -, hnb⟩ := create_single W H
  have hS1 : timeStep (fun q => layout W H q 1 1 1) viscosity S 0
      = bounceBackStream W H (stream W H (collide W H viscosity (S 0))) := by
    simp only [timeStep, exchangeAll, exchange_alone _ hnb, hdx, hdy]
  rw [hS1]
  refine ⟨?_, ?_⟩
  · have h1 := exchange_agree W H P Px Py hp _ _ _ _
      (collide_agree_step W H P Px Py hp mask viscosity T (S 0) h)
    have h2 := exchange_agree W H P Px Py hp _ _ _ _
      (stream_agree_step W H P Px Py hp mask _ _ h1)
    refine bounce_agree_step W H P Px Py hp mask _ _ ?_ ?_ h2
    · intro r x y hr hx hy
      rw [(exchange_cell W H P Px Py hp _ r hr x y hx hy).2.2.2,
        (stream_fixed _ _ _).2.2.2.2.2.2, (exchange_cell W H P Px Py hp _ r hr x y hx hy).2.2.2,
        collide_barrier]
      exact hm r x y hr hx hy
    · rw [(stream_fixed _ _ _).2.2.2.2.2.2, collide_barrier]
      exact hS
  · rw [(bounce_fixed _ _ _).2.2.2.2.2.2, (stream_fixed _ _ _).2.2.2.2.2.2, collide_barrier]
    exact hS

/-- The owner of a global cell is unique: two owned cells of two ranks with the same global
coordinates are the same cell of the same rank. -/
theorem owner_unique (W H P Px Py : Nat) (hPx : 0 < Px) (i i' dx dy dx' dy' : Nat)
    (hdx : dx < (layout W H i P Px Py).num_x) (hdy : dy < (layout W H i P Px Py).num_y)
    (hdx' : dx' < (layout W H i' P Px Py).num_x) (hdy' : dy' < (layout W H i' P Px Py).num_y)
    (ex : (layout W H i P Px Py).offset_x + dx = (layout W H i' P Px Py).offset_x + dx')
    (ey : (layout W H i P Px Py).offset_y + dy = (layout W H i' P Px Py).offset_y + dy') :
    i = i' ∧ dx = dx' ∧ dy = dy' := by
  have hi : i / Px * Px + i % Px = i := by rw [Nat.mul_comm]; exact Nat.div_add_mod i Px
  have hi' : i' / Px * Px + i' % Px = i' := by rw [Nat.mul_comm]; exact Nat.div_add_mod i' Px
  obtain ⟨x1, x2, -, -⟩ := layout_x W H P Px Py (i / Px) (i % Px) (Nat.mod_lt i hPx)
  obtain ⟨y1, y2, -, -⟩ := layout_y W H P Px Py (i / Px) (i % Px) (Nat.mod_lt i hPx)
  obtain ⟨u1, u2, -, -⟩ := layout_x W H P Px Py (i' / Px) (i' % Px) (Nat.mod_lt i' hPx)
  obtain ⟨v1, v2, -, -⟩ := layout_y W H P Px Py (i' / Px) (i' % Px) (Nat.mod_lt i' hPx)
  rw [hi] at x1 x2 y1 y2
  rw [hi'] at u1 u2 v1 v2
  rw [x1] at hdx
  rw [y1] at hdy
  rw [u1] at hdx'
  rw [v1] at hdy'
  rw [x2, u2] at ex
  rw [y2, v2] at ey
  have sx := tileOffset_succ W Px (i % Px)
  have sx' := tileOffset_succ W Px (i' % Px)
  have sy := tileOffset_succ H Py (i / Px)
  have sy' := tileOffset_succ H Py (i' / Px)
  have hc : i % Px = i' % Px := by
    refine chunk_unique (W / Px) (W % Px) (tileOffset W Px (i % Px) + dx) _ _ ?_ ?_ ?_ ?_
    · exact Nat.le_add_right _ _
    · unfold tileOffset at sx; unfold tileOffset; omega
    · rw [ex]; exact Nat.le_add_right _ _
    · rw [ex]; unfold tileOffset at sx'; unfold tileOffset; omega
  have ha : i / Px = i' / Px := by
    refine chunk_unique (H / Py) (H % Py) (tileOffset H Py (i / Px) + dy) _ _ ?_ ?_ ?_ ?_
    · exact Nat.le_add_right _ _
    · unfold tileOffset at sy; unfold tileOffset; omega
    · rw [ey]; exact Nat.le_add_right _ _
    · rw [ey]; unfold tileOffset at sy'; unfold tileOffset; omega
  have hii : i = i' := by rw [← hi, ← hi', hc, ha]
  rw [hc] at ex
  rw [ha] at ey
  exact ⟨hii, by omega, by omega⟩

/-- Every global cell has an owner. -/
theorem owner_exists (W H P Px Py : Nat) (hPx : 0 < Px) (hPy : 0 < Py) (hmul : Px * Py = P)
    (gx gy : Nat) (hgx : gx < W) (hgy : gy < H) :
    ∃ q : Nat × Nat × Nat, q.1 < P ∧ q.2.1 < (layout W H q.1 P Px Py).num_x ∧
      q.2.2 < (layout W H q.1 P Px Py).num_y ∧
      (layout W H q.1 P Px Py).offset_x + q.2.1 = gx ∧
      (layout W H q.1 P Px Py).offset_y + q.2.2 = gy := by
  have hWt := chunk_off_total W Px hPx
  have hHt := chunk_off_total H Py hPy
  obtain ⟨c, hc, hc1, hc2⟩ := chunk_exists (W / Px) (W % Px) gx Px (by omega)
  obtain ⟨a, ha, ha1, ha2⟩ := chunk_exists (H / Py) (H % Py) gy Py (by omega)
  obtain ⟨x1, x2, -, -⟩ := layout_x W H P Px Py a c hc
  obtain ⟨y1, y2, -, -⟩ := layout_y W H P Px Py a c hc
  have sx := tileOffset_succ W Px c
  have sy := tileOffset_succ H Py a
  unfold tileOffset at sx sy
  refine ⟨(a * Px + c, gx - tileOffset W Px c, gy - tileOffset H Py a), ?_, ?_, ?_, ?_, ?_⟩
  · rw [← hmul]; exact rank_lt_of_decomp Px Py a c hc ha
  · show gx - tileOffset W Px c < _
    rw [x1]; unfold tileOffset; omega
  · show gy - tileOffset H Py a < _
    rw [y1]; unfold tileOffset; omega
  · show _ + (gx - tileOffset W Px c) = gx
    rw [x2]; unfold tileOffset; omega
  · show _ + (gy - tileOffset H Py a) = gy
    rw [y2]; unfold tileOffset; omega

/-- The fold of `gatherDataOnRank0` for one array, at a global cell: the buffer of rank 0
holds there what the owner of the cell holds at its owned cell. -/
theorem gather_owner {α : Type} (W H P Px Py : Nat) (hPx : 0 < Px) (hPy : 0 < Py)
    (hmul : Px * Py = P) (arr : Nat → Nat → α) (buf : Nat → α) (gx gy : Nat) (hgx : gx < W)
    (hgy : gy < H) :
    ∃ i dx dy, i < P ∧ dx < (layout W H i P Px Py).num_x ∧
      dy < (layout W H i P Px Py).num_y ∧ (layout W H i P Px Py).offset_x + dx = gx ∧
      (layout W H i P Px Py).offset_y + dy = gy ∧
      (List.range P).foldl (fun buf i =>
          unpack ((layout W H 0 P Px Py).other_scalar i).indices
            (pack (layout W H i P Px Py).own_scalar.indices (arr i)) buf) buf (gy * W + gx)
        = arr i (((layout W H i P Px Py).start_y + dy) * (layout W H i P Px Py).dim_x
          + ((layout W H i P Px Py).start_x + dx)) := by
  classical
  let f : Nat → Nat → α := fun gx gy =>
    if h : gx < W ∧ gy < H then
      arr (Classical.choose (owner_exists W H P Px Py hPx hPy hmul gx gy h.1 h.2)).1
        (((layout W H (Classical.choose
            (owner_exists W H P Px Py hPx hPy hmul gx gy h.1 h.2)).1 P Px Py).start_y
          + (Classical.choose (owner_exists W H P Px Py hPx hPy hmul gx gy h.1 h.2)).2.2)
          * (layout W H (Classical.choose
            (owner_exists W H P Px Py hPx hPy hmul gx gy h.1 h.2)).1 P Px Py).dim_x
        + ((layout W H (Classical.choose
            (owner_exists W H P Px Py hPx hPy hmul gx gy h.1 h.2)).1 P Px Py).start_x
          + (Classical.choose (owner_exists W H P Px Py hPx hPy hmul gx gy h.1 h.2)).2.1))
    else arr 0 0
  have hf : ∀ gx gy (h : gx < W ∧ gy < H), ∃ q : Nat × Nat × Nat, (q.1 < P ∧
      q.2.1 < (layout W H q.1 P Px Py).num_x ∧ q.2.2 < (layout W H q.1 P Px Py).num_y ∧
      (layout W H q.1 P Px Py).offset_x + q.2.1 = gx ∧
      (layout W H q.1 P Px Py).offset_y + q.2.2 = gy) ∧
      f gx gy = arr q.1 (((layout W H q.1 P Px Py).start_y + q.2.2)
        * (layout W H q.1 P Px Py).dim_x + ((layout W H q.1 P Px Py).start_x + q.2.1)) := by
    intro gx gy h
    refine ⟨Classical.choose (owner_exists W H P Px Py hPx hPy hmul gx gy h.1 h.2),
      Classical.choose_spec (owner_exists W H P Px Py hPx hPy hmul gx gy h.1 h.2), ?_⟩
    simp only [f, dif_pos h]
  have harr : ∀ i, i < P → ∀ dx dy, dx < (layout W H i P Px Py).num_x →
      dy < (layout W H i P Px Py).num_y →
      arr i (((layout W H i P Px Py).start_y + dy) * (layout W H i P Px Py).dim_x
          + ((layout W H i P Px Py).start_x + dx))
        = f ((layout W H i P Px Py).offset_x + dx) ((layout W H i P Px Py).offset_y + dy) := by
    intro i hi dx dy hdx hdy
    have hi' : i / Px * Px + i % Px = i := by rw [Nat.mul_comm]; exact Nat.div_add_mod i Px
    have hx := layout_x W H P Px Py (i / Px) (i % Px) (Nat.mod_lt i hPx)
    have hy := layout_y W H P Px Py (i / Px) (i % Px) (Nat.mod_lt i hPx)
    rw [hi'] at hx hy
    have e1 := tile_end_le W Px (i % Px) hPx (Nat.mod_lt i hPx)
    have e2 := tile_end_le H Py (i / Px) hPy (rank_row_lt Px Py i (by rw [hmul]; exact hi))
    have hin : (layout W H i P Px Py).offset_x + dx < W ∧
        (layout W H i P Px Py).offset_y + dy < H := by
      rw [hx.2.1, hy.2.1]
      rw [hx.1] at hdx
      rw [hy.1] at hdy
      omega
    obtain ⟨q, ⟨q1, q2, q3, q4, q5⟩, hq⟩ := hf _ _ hin
    obtain ⟨r1, r2, r3⟩ := owner_unique W H P Px Py hPx q.1 i q.2.1 q.2.2 dx dy q2 q3 hdx hdy
      q4 q5
    rw [hq, r1, r2, r3]
  obtain ⟨q, ⟨q1, q2, q3, q4, q5⟩, hq⟩ := hf gx gy ⟨hgx, hgy⟩
  refine ⟨q.1, q.2.1, q.2.2, q1, q2, q3, q4, q5, ?_⟩
  rw [gather_array W H P Px Py hPx hPy hmul f arr harr buf gx gy hgx hgy]
  exact hq

/-- In a proper grid the shift `initBarrier` subtracts is `offset - start`. -/
theorem barrier_shift_proper (W H P Px Py r : Nat) (hp : properGrid W H P Px Py) (hr : r < P) :
    (if (layout W H r P Px Py).offset_x = 0 then (0 : Int)
      else ((layout W H r P Px Py).offset_x : Int) - 1)
        = ((layout W H r P Px Py).offset_x : Int) - ((layout W H r P Px Py).start_x : Int) ∧
    (if (layout W H r P Px Py).offset_y = 0 then (0 : Int)
      else ((layout W H r P Px Py).offset_y : Int) - 1)
        = ((layout W H r P Px Py).offset_y : Int) - ((layout W H r P Px Py).start_y : Int) := by
  have hPx : 0 < Px := by have := hp.1; have := hp.2.1; omega
  have hmul := hp.2.2.1
  obtain ⟨a, b, hb, ha, rfl⟩ : ∃ a b, b < Px ∧ a < Py ∧ r = a * Px + b :=
    ⟨r / Px, r % Px, Nat.mod_lt r hPx, rank_row_lt Px Py r (by rw [hmul]; exact hr),
      by rw [Nat.mul_comm]; exact (Nat.div_add_mod r Px).symm⟩
  obtain ⟨⟨-, fx2, fx3, -, -⟩, -, fy2, fy3, -, -⟩ := rank_facts W H P Px Py a b hp ha hb
  constructor
  · rcases Nat.eq_zero_or_pos b with h | h
    · obtain ⟨e1, e2⟩ := fx2 h
      rw [e1, e2]; rfl
    · obtain ⟨e1, e2⟩ := fx3 h
      rw [e1, if_neg (by omega)]; rfl
  · rcases Nat.eq_zero_or_pos a with h | h
    · obtain ⟨e1, e2⟩ := fy2 h
      rw [e1, e2]; rfl
    · obtain ⟨e1, e2⟩ := fy3 h
      rw [e1, if_neg (by omega)]; rfl

/-- The mask `initBarrier` computes on a single rank that stores the whole grid. -/
theorem initBarrier_single {α : Type} (W H : Nat) (barriers : List Barrier) (s : Fields α)
    (gx gy : Nat) (hgx : gx < W) (hgy : gy < H) :
    (initBarrier (layout W H 0 1 1 1) barriers s).barrier (gy * W + gx) = true ↔
      ∃ seg ∈ barriers, specContains seg gx gy := by
  obtain ⟨-, hdx, hdy, -, -, -, -, hox, hoy, -⟩ := create_single W H
  have h := initBarrier_cell (layout W H 0 1 1 1) barriers s gx gy (by rw [hdx]; exact hgx)
    (by rw [hdy]; exact hgy)
  rw [hdx, hox, hoy] at h
  simpa using h

/-- After `initBarrier` and `initFluid` the tiles of a proper grid agree with the single-rank
state at every stored cell, and their barrier masks hold the mask of the single rank. -/
theorem init_agree (W H P Px Py : Nat) (hp : properGrid W H P Px Py)
    (barriers : List Barrier) (speed_scale physical_speed : K) (init : Nat → Fields K)
    (init1 : Fields K) :
    agreeOn W H P Px Py true
      (goodCell W H (initFluid W H speed_scale physical_speed
        (initBarrier (layout W H 0 1 1 1) barriers init1)).barrier)
      (fun _ => goodCell W H (initFluid W H speed_scale physical_speed
        (initBarrier (layout W H 0 1 1 1) barriers init1)).barrier)
      (fun r => initFluid (layout W H r P Px Py).dim_x (layout W H r P Px Py).dim_y
        speed_scale physical_speed (initBarrier (layout W H r P Px Py) barriers (init r)))
      (initFluid W H speed_scale physical_speed
        (initBarrier (layout W H 0 1 1 1) barriers init1)) ∧
    masksAgree W H P Px Py
      (initFluid W H speed_scale physical_speed
        (initBarrier (layout W H 0 1 1 1) barriers init1)).barrier
      (fun r => initFluid (layout W H r P Px Py).dim_x (layout W H r P Px Py).dim_y
        speed_scale physical_speed (initBarrier (layout W H r P Px Py) barriers (init r))) := by
  constructor
  · intro r x y hr hx hy _
    obtain ⟨-, -, g3, g4, -⟩ := cell_geometry W H P Px Py r hp hr x y hx hy
    obtain ⟨a1, a2, -⟩ := initFluid_cell (layout W H r P Px Py).dim_x
      (layout W H r P Px Py).dim_y speed_scale physical_speed
      (initBarrier (layout W H r P Px Py) barriers (init r)) x y hx hy
    obtain ⟨b1, b2, -⟩ := initFluid_cell W H speed_scale physical_speed
      (initBarrier (layout W H 0 1 1 1) barriers init1) _ _ g3 g4
    have hs := atEquilibrium_same a1 b1
    exact ⟨fun _ => ⟨hs.1, a2.trans b2.symm⟩, fun d _ => hs.2 d⟩
  · intro r x y hr hx hy
    obtain ⟨g1, g2, g3, g4, -⟩ := cell_geometry W H P Px Py r hp hr x y hx hy
    obtain ⟨s1, s2⟩ := barrier_shift_proper W H P Px Py r hp hr
    have a := (initFluid_cell (layout W H r P Px Py).dim_x
      (layout W H r P Px Py).dim_y speed_scale physical_speed
      (initBarrier (layout W H r P Px Py) barriers (init r)) x y hx hy).2.2.2.2.2.2
    have b := (initFluid_cell W H speed_scale physical_speed
      (initBarrier (layout W H 0 1 1 1) barriers init1) _ _ g3 g4).2.2.2.2.2.2
    show _ = (initFluid W H speed_scale physical_speed _).barrier
      (((layout W H r P Px Py).offset_y + y - (layout W H r P Px Py).start_y) * W
        + ((layout W H r P Px Py).offset_x + x - (layout W H r P Px Py).start_x))
    rw [a, b, Bool.eq_iff_iff, initBarrier_cell _ barriers _ x y hx hy,
      initBarrier_single W H barriers _ _ _ g3 g4, s1, s2]
    have ex : (x : Int) + (((layout W H r P Px Py).offset_x : Int)
        - ((layout W H r P Px Py).start_x : Int))
        = (((layout W H r P Px Py).offset_x + x - (layout W H r P Px Py).start_x : Nat) : Int) := by
      omega
    have ey : (y : Int) + (((layout W H r P Px Py).offset_y : Int)
        - ((layout W H r P Px Py).start_y : Int))
        = (((layout W H r P Px Py).offset_y + y - (layout W H r P Px Py).start_y : Nat) : Int) := by
      omega
    rw [ex, ey]

/-- After any number of time steps the tiles of a proper grid agree with the single-rank run
at the owned cells that are not interior barrier cells. -/
theorem simulate_agree (W H P Px Py : Nat) (hp : properGrid W H P Px Py)
    (barriers : List Barrier) (speed_scale physical_speed viscosity : K)
    (init init1 : Nat → Fields K) (k : Nat) :
    agreeOn W H P Px Py true
      (goodCell W H (initFluid W H speed_scale physical_speed
        (initBarrier (layout W H 0 1 1 1) barriers (init1 0))).barrier)
      (fun _ => goodCell W H (initFluid W H speed_scale physical_speed
        (initBarrier (layout W H 0 1 1 1) barriers (init1 0))).barrier)
      (simulate (fun q => layout W H q P Px Py) barriers speed_scale physical_speed viscosity
        k init)
      (simulate (fun q => layout W H q 1 1 1) barriers speed_scale physical_speed viscosity
        k init1 0) ∧
    masksAgree W H P Px Py
      (initFluid W H speed_scale physical_speed
        (initBarrier (layout W H 0 1 1 1) barriers (init1 0))).barrier
      (simulate (fun q => layout W H q P Px Py) barriers speed_scale physical_speed viscosity
        k init) ∧
    (simulate (fun q => layout W H q 1 1 1) barriers speed_scale physical_speed viscosity
        k init1 0).barrier
      = (initFluid W H speed_scale physical_speed
        (initBarrier (layout W H 0 1 1 1) barriers (init1 0))).barrier := by
  obtain ⟨-, hdx, hdy, -⟩ := create_single W H
  induction k with
  | zero =>
    obtain ⟨h1, h2⟩ := init_agree W H P Px Py hp barriers speed_scale physical_speed init
      (init1 0)
    simp only [simulate, Function.iterate_zero, id, hdx, hdy]
    exact ⟨h1, h2, trivial⟩
  | succ k ih =>
    obtain ⟨i1, i2, i3⟩ := ih
    have e1 : simulate (fun q => layout W H q P Px Py) barriers speed_scale physical_speed
        viscosity (k + 1) init
        = timeStep (fun q => layout W H q P Px Py) viscosity
          (simulate (fun q => layout W H q P Px Py) barriers speed_scale physical_speed
            viscosity k init) := by
      simp only [simulate, Function.iterate_succ_apply']
    have e2 : simulate (fun q => layout W H q 1 1 1) barriers speed_scale physical_speed
        viscosity (k + 1) init1
        = timeStep (fun q => layout W H q 1 1 1) viscosity
          (simulate (fun q => layout W H q 1 1 1) barriers speed_scale physical_speed
            viscosity k init1) := by
      simp only [simulate, Function.iterate_succ_apply']
    rw [e1, e2]
    obtain ⟨t1, t2⟩ := timeStep_agree W H P Px Py hp _ viscosity _ _ i2 i3 i1
    exact ⟨t1, masks_step W H P Px Py hp _ viscosity _ i2, t2⟩

/-- The receive buffer of `gatherDataOnRank0(Density)` as a fold over the ranks. -/
theorem gather_density_fold {α : Type} (W H P Px Py : Nat) (state : Nat → Fields α)
    (bufs : GatherBuffers α) :
    (gatherDataOnRank0 .Density (fun q => layout W H q P Px Py) state bufs).recv_buf
      = (List.range P).foldl (fun buf i =>
          unpack ((layout W H 0 P Px Py).other_scalar i).indices
            (pack (layout W H i P Px Py).own_scalar.indices ((state i).density)) buf)
          bufs.recv_buf := by
  have hnum : (layout W H 0 P Px Py).num_ranks = P := rfl
  simp only [gatherDataOnRank0, sendBuf, hnum]
  rw [foldl_pair (List.range P)
    (fun i buf => unpack ((layout W H 0 P Px Py).other_scalar i).indices
      (pack (layout W H i P Px Py).own_scalar.indices ((state i).density)) buf)
    (fun i buf => unpack ((layout W H 0 P Px Py).other_scalar i).indices
      (pack (layout W H i P Px Py).own_scalar.indices (state i).barrier) buf)]

/-- Partition independence on a proper grid: the density gathered from the tiles is the
density gathered from the single-rank run at every cell that is not an interior barrier
cell. -/
theorem gathered_agree (W H P Px Py : Nat) (hp : properGrid W H P Px Py)
    (barriers : List Barrier) (speed_scale physical_speed viscosity : K) (k : Nat)
    (init1 init : Nat → Fields K) (bufs1 bufs : GatherBuffers K) (gx gy : Nat)
    (hgx : gx < W) (hgy : gy < H)
    (hgood : (∃ seg ∈ barriers, specContains seg gx gy) → ¬ isInterior W H gx gy) :
    gatheredDensity (fun q => layout W H q 1 1 1) barriers speed_scale physical_speed
        viscosity k init1 bufs1 (gy * W + gx)
      = gatheredDensity (fun q => layout W H q P Px Py) barriers speed_scale physical_speed
        viscosity k init bufs (gy * W + gx) := by
  obtain ⟨-, hdx, hdy, -, -, hsx1, hsy1, hox1, hoy1, -⟩ := create_single W H
  obtain ⟨h1, -, -⟩ := simulate_agree W H P Px Py hp barriers speed_scale physical_speed
    viscosity init init1 k
  have hPx : 0 < Px := by have := hp.1; have := hp.2.1; omega
  have hPy : 0 < Py := by have := hp.1; omega
  have hmul := hp.2.2.1
  unfold gatheredDensity
  rw [gather_density_fold, gather_density_fold]
  -- the single rank
  have hleft := gather_array W H 1 1 1 (by decide) (by decide) rfl
    (fun gx gy => (simulate (fun q => layout W H q 1 1 1) barriers speed_scale physical_speed
      viscosity k init1 0).density (gy * W + gx))
    (fun i => (simulate (fun q => layout W H q 1 1 1) barriers speed_scale physical_speed
      viscosity k init1 i).density) ?_ bufs1.recv_buf gx gy hgx hgy
  · rw [hleft]
    -- the tiles
    obtain ⟨i, dx, dy, hi, hdx', hdy', ex, ey, hval⟩ := gather_owner W H P Px Py hPx hPy hmul
      (fun i => (simulate (fun q => layout W H q P Px Py) barriers speed_scale physical_speed
        viscosity k init i).density) bufs.recv_buf gx gy hgx hgy
    rw [hval]
    obtain ⟨o1, o2, -, -⟩ := owned_stored W H P Px Py i hp hi
    have hx : (layout W H i P Px Py).start_x + dx < (layout W H i P Px Py).dim_x := by omega
    have hy : (layout W H i P Px Py).start_y + dy < (layout W H i P Px Py).dim_y := by omega
    have hown : ownedIndex (layout W H i P Px Py)
        (((layout W H i P Px Py).start_y + dy) * (layout W H i P Px Py).dim_x
          + ((layout W H i P Px Py).start_x + dx)) := by
      rw [ownedIndex_at _ _ _ hx]
      omega
    have hcx : (layout W H i P Px Py).offset_x + ((layout W H i P Px Py).start_x + dx)
        - (layout W H i P Px Py).start_x = gx := by omega
    have hcy : (layout W H i P Px Py).offset_y + ((layout W H i P Px Py).start_y + dy)
        - (layout W H i P Px Py).start_y = gy := by omega
    have hq := (h1 i _ _ hi hx hy (fun _ => hown)).1
    simp only [refIndex, hcx, hcy] at hq
    refine ((hq ?_).2).symm
    by_cases hm : (initFluid W H speed_scale physical_speed
        (initBarrier (layout W H 0 1 1 1) barriers (init1 0))).barrier (gy * W + gx) = true
    · right
      refine hgood ?_
      rw [(initFluid_cell W H speed_scale physical_speed _ gx gy hgx hgy).2.2.2.2.2.2] at hm
      exact (initBarrier_single W H barriers _ gx gy hgx hgy).mp hm
    · left
      simpa using hm
  · intro i hi dx dy _ _
    obtain rfl : i = 0 := by omega
    simp only [hdx, hsx1, hsy1, hox1, hoy1, Nat.zero_add]

/-- The constructor on one rank plans the `1 x 1` process grid. -/
theorem create_one (W H r : Nat) : create W H r 1 = some (layout W H r 1 1 1) := by
  have h : Nat.sqrt 1 = 1 := (Nat.eq_sqrt.mpr ⟨by decide, by decide⟩).symm
  simp [create, getClosestFactors2, h, closestLoop]

/-- The constructor on four ranks plans the `2 x 2` process grid. -/
theorem create_four (W H r : Nat) : create W H r 4 = some (layout W H r 4 2 2) := by
  have h : Nat.sqrt 4 = 2 := (Nat.eq_sqrt.mpr ⟨by decide, by decide⟩).symm
  simp [create, getClosestFactors2, h, closestLoop]

/-- The `2 x 2` process grid is proper for every grid of at least `2 x 2` cells. -/
theorem proper_four (W H : Nat) (hW : 2 ≤ W) (hH : 2 ≤ H) : properGrid W H 4 2 2 := by
  refine ⟨le_refl _, le_refl _, rfl, ?_, ?_⟩
  · intro c _
    unfold tileSize
    have := Nat.div_pos hW (by decide : 0 < 2)
    omega
  · intro c _
    unfold tileSize
    have := Nat.div_pos hH (by decide : 0 < 2)
    omega

/-- C18 (partition independence), as the code behaves: for `W, H ≥ 2`, every list of barrier
segments, inflow speed, viscosity and number `k` of time steps, in exact arithmetic and with
every exchange delivered, the density gathered on rank 0 after `initBarrier`, `initFluid` and
`k` steps is the same for `P = 1` and `P = 4` at every global cell that is not an interior
barrier cell (every cell outside the segments and every cell of the outer ring), whatever the
arrays and buffers held before. -/
theorem partition_independence (W H : Nat) (hW : 2 ≤ W) (hH : 2 ≤ H) (barriers : List Barrier)
    (speed_scale physical_speed viscosity : K) (k : Nat) (init1 init4 : Nat → Fields K)
    (bufs1 bufs4 : GatherBuffers K) :
    ∃ geom1 geom4 : Nat → Geometry,
      (∀ r, create W H r 1 = some (geom1 r)) ∧ (∀ r, create W H r 4 = some (geom4 r)) ∧
      ∀ gx gy, gx < W → gy < H →
        ((∃ seg ∈ barriers, specContains seg gx gy) → ¬ isInterior W H gx gy) →
        gatheredDensity geom1 barriers speed_scale physical_speed viscosity k init1 bufs1
            (gy * W + gx)
          = gatheredDensity geom4 barriers speed_scale physical_speed viscosity k init4 bufs4
            (gy * W + gx) := by
  refine ⟨fun q => layout W H q 1 1 1, fun q => layout W H q 4 2 2, create_one W H,
    create_four W H, ?_⟩
  intro gx gy hgx hgy hgood
  exact gathered_agree W H 4 2 2 (proper_four W H hW hH) barriers speed_scale physical_speed
    viscosity k init1 init4 bufs1 bufs4 gx gy hgx hgy hgood

/-! ### A barrier cell on a tile seam -/

/-- `exchangeBoundaries` on all ranks of a proper grid leaves the owned cells untouched. -/
theorem exchange_owned {α : Type} (W H P Px Py : Nat) (hp : properGrid W H P Px Py)
    (T : Nat → Fields α) (r : Nat) (hr : r < P) (x y : Nat)
    (hx : x < (layout W H r P Px Py).dim_x) (hy : y < (layout W H r P Px Py).dim_y)
    (ho : ownedIndex (layout W H r P Px Py) (y * (layout W H r P Px Py).dim_x + x)) :
    agreeAt (exchangeAll (fun q => layout W H q P Px Py) T r) (T r)
      (y * (layout W H r P Px Py).dim_x + x) := by
  have hp' := hp
  obtain ⟨hPy, hle, hmul, hsx, hsy⟩ := hp
  have hPx : 0 < Px := by omega
  obtain ⟨a, b, hb, ha, rfl⟩ : ∃ a b, b < Px ∧ a < Py ∧ r = a * Px + b :=
    ⟨r / Px, r % Px, Nat.mod_lt r hPx, rank_row_lt Px Py r (by rw [hmul]; exact hr),
      by rw [Nat.mul_comm]; exact (Nat.div_add_mod r Px).symm⟩
  have hhalo := fun d h0 => halo_layout W H P Px Py (by omega) hle hmul hsx hsy a b ha hb d h0
  have hH : ∀ d, 0 ≤ (layout W H (a * Px + b) P Px Py).neighbors d →
      (recvRegion (layout W H (a * Px + b) P Px Py) d).Nodup ∧
      (recvRegion (layout W H (a * Px + b) P Px Py) d).length
        = (sendRegion (layout W H ((layout W H (a * Px + b) P Px Py).neighbors d).toNat
            P Px Py) (opposite d)).length := by
    intro d h0
    obtain ⟨h1, -, h3⟩ := hhalo d h0
    have := congrArg List.length h1
    rw [List.length_map, List.length_map] at this
    exact ⟨h3, this⟩
  obtain ⟨f1, -⟩ := exchange_fold (layout W H (a * Px + b) P Px Py)
    (fun d => layout W H ((layout W H (a * Px + b) P Px Py).neighbors d).toNat P Px Py)
    (fun d => T ((layout W H (a * Px + b) P Px Py).neighbors d).toNat) hH
    (y * (layout W H (a * Px + b) P Px Py).dim_x + x)
    [Neighbor.NeighborN, .NeighborE, .NeighborS, .NeighborW, .NeighborNE, .NeighborNW,
      .NeighborSE, .NeighborSW] (T (a * Px + b))
  obtain ⟨c1, -⟩ := recv_covers W H P Px Py a b hp' ha hb x y hx hy
  exact f1 fun d _ hd => c1 ho d hd

/-- `exchangeBoundaries` on all ranks of a proper grid keeps uniform tiles uniform. -/
theorem exchange_uniform (W H P Px Py : Nat) (hp : properGrid W H P Px Py) (u : K)
    (T : Nat → Fields K)
    (h : ∀ r, r < P →
      uniformTile (layout W H r P Px Py).dim_x (layout W H r P Px Py).dim_y u (T r))
    (r : Nat) (hr : r < P) :
    uniformTile (layout W H r P Px Py).dim_x (layout W H r P Px Py).dim_y u
      (exchangeAll (fun q => layout W H q P Px Py) T r) := by
  intro x y hx hy
  obtain ⟨⟨n, k', hn, hown, -, hs⟩, -⟩ := exchange_cell W H P Px Py hp T r hr x y hx hy
  obtain ⟨os1, os2, os3, os4⟩ := owned_stored W H P Px Py n hp hn
  have hdn : 0 < (layout W H n P Px Py).dim_x := by omega
  have hk' : k' = (k' / (layout W H n P Px Py).dim_x) * (layout W H n P Px Py).dim_x
      + k' % (layout W H n P Px Py).dim_x := by
    rw [Nat.mul_comm]; exact (Nat.div_add_mod k' _).symm
  have hx' := Nat.mod_lt k' hdn
  generalize k' / (layout W H n P Px Py).dim_x = y' at hk'
  generalize k' % (layout W H n P Px Py).dim_x = x' at hk' hx'
  subst hk'
  have hown' := (ownedIndex_at _ x' y' hx').mp hown
  obtain ⟨e1, e2⟩ := h n hn x' y' hx' (by omega)
  exact ⟨atEquilibrium_of_same hs.1 e1, hs.2.1.trans e2⟩

/-- The density `collide` stores at an interior cell. -/
theorem collide_density (dim_x dim_y x y : Nat) (h : isInterior dim_x dim_y x y)
    (viscosity : K) (s : Fields K) :
    (collide dim_x dim_y viscosity s).density (y * dim_x + x)
      = s.f_0 (y * dim_x + x) + chan s .NeighborN (y * dim_x + x)
        + chan s .NeighborS (y * dim_x + x) + chan s .NeighborE (y * dim_x + x)
        + chan s .NeighborW (y * dim_x + x) + chan s .NeighborNW (y * dim_x + x)
        + chan s .NeighborNE (y * dim_x + x) + chan s .NeighborSW (y * dim_x + x)
        + chan s .NeighborSE (y * dim_x + x) := by
  obtain ⟨-, -, -, -, -, -, -, -, -, a10, -⟩ := collide_agree dim_x dim_y x y h viscosity s
  rw [a10]
  exact (collideCell_values (1.0 / (3.0 * viscosity + 0.5)) (y * dim_x + x) s _ _ _
    rfl rfl rfl).1

/-- The density a time step leaves at an interior cell of a tile of a proper grid: the sum of
the nine channels the cell held before the step. -/
theorem step_density (W H P Px Py : Nat) (hp : properGrid W H P Px Py) (viscosity : K)
    (T : Nat → Fields K) (r : Nat) (hr : r < P) (x y : Nat)
    (hi : isInterior (layout W H r P Px Py).dim_x (layout W H r P Px Py).dim_y x y) :
    (timeStep (fun q => layout W H q P Px Py) viscosity T r).density
        (y * (layout W H r P Px Py).dim_x + x)
      = (T r).f_0 (y * (layout W H r P Px Py).dim_x + x)
        + chan (T r) .NeighborN (y * (layout W H r P Px Py).dim_x + x)
        + chan (T r) .NeighborS (y * (layout W H r P Px Py).dim_x + x)
        + chan (T r) .NeighborE (y * (layout W H r P Px Py).dim_x + x)
        + chan (T r) .NeighborW (y * (layout W H r P Px Py).dim_x + x)
        + chan (T r) .NeighborNW (y * (layout W H r P Px Py).dim_x + x)
        + chan (T r) .NeighborNE (y * (layout W H r P Px Py).dim_x + x)
        + chan (T r) .NeighborSW (y * (layout W H r P Px Py).dim_x + x)
        + chan (T r) .NeighborSE (y * (layout W H r P Px Py).dim_x + x) := by
  obtain ⟨hx, hy⟩ := interior_stored hi
  have ho := ((cell_geometry W H P Px Py r hp hr x y hx hy).2.2.2.2.mp hi).1
  simp only [timeStep]
  rw [(bounce_fixed _ _ _).2.1,
    (exchange_owned W H P Px Py hp _ r hr x y hx hy ho).2.2.2.2.2.2.2.2.2.1,
    (stream_fixed _ _ _).2.1,
    (exchange_owned W H P Px Py hp _ r hr x y hx hy ho).2.2.2.2.2.2.2.2.2.1]
  exact collide_density _ _ x y hi viscosity (T r)

/-- The density a time step leaves at an interior cell on a single rank. -/
theorem step_density_single (W H : Nat) (viscosity : K) (S : Nat → Fields K) (x y : Nat)
    (hi : isInterior W H x y) :
    (timeStep (fun q => layout W H q 1 1 1) viscosity S 0).density (y * W + x)
      = (S 0).f_0 (y * W + x) + chan (S 0) .NeighborN (y * W + x)
        + chan (S 0) .NeighborS (y * W + x) + chan (S 0) .NeighborE (y * W + x)
        + chan (S 0) .NeighborW (y * W + x) + chan (S 0) .NeighborNW (y * W + x)
        + chan (S 0) .NeighborNE (y * W + x) + chan (S 0) .NeighborSW (y * W + x)
        + chan (S 0) .NeighborSE (y * W + x) := by
  obtain ⟨-, hdx, hdy, -, -, -, -, -, -, hnb⟩ := create_single W H
  simp only [timeStep, exchangeAll, exchange_alone _ hnb, hdx, hdy]
  rw [(bounce_fixed _ _ _).2.1, (stream_fixed _ _ _).2.1]
  exact collide_density W H x y hi viscosity (S 0)

/-- The state a time step hands to `bounceBackStream` when all tiles of a proper grid are
uniform: it is uniform and the barrier masks are those before the step. -/
theorem prebounce_uniform (W H P Px Py : Nat) (hp : properGrid W H P Px Py)
    (viscosity u : K) (T : Nat → Fields K)
    (h : ∀ r, r < P →
      uniformTile (layout W H r P Px Py).dim_x (layout W H r P Px Py).dim_y u (T r))
    (r : Nat) (hr : r < P) :
    ∃ U : Fields K, timeStep (fun q => layout W H q P Px Py) viscosity T r
        = bounceBackStream (layout W H r P Px Py).dim_x (layout W H r P Px Py).dim_y U ∧
      uniformTile (layout W H r P Px Py).dim_x (layout W H r P Px Py).dim_y u U ∧
      U.barrier = (T r).barrier := by
  refine ⟨_, rfl, ?_, ?_⟩
  · refine exchange_uniform W H P Px Py hp u _ (fun q hq => ?_) r hr
    refine stream_uniform _ _ u _ ?_
    refine exchange_uniform W H P Px Py hp u _ (fun q' hq' => ?_) q hq
    exact collide_uniform _ _ viscosity u _ (h q' hq')
  · have hx : 0 < (layout W H r P Px Py).dim_x := by
      have := owned_stored W H P Px Py r hp hr; omega
    have hy : 0 < (layout W H r P Px Py).dim_y := by
      have := owned_stored W H P Px Py r hp hr; omega
    rw [(exchange_cell W H P Px Py hp _ r hr 0 0 hx hy).2.2.2,
      (stream_fixed _ _ _).2.2.2.2.2.2, (exchange_cell W H P Px Py hp _ r hr 0 0 hx hy).2.2.2,
      collide_barrier]

/-- The same on a single rank. -/
theorem prebounce_uniform_single (W H : Nat) (viscosity u : K) (S : Nat → Fields K)
    (h : uniformTile W H u (S 0)) :
    ∃ U : Fields K, timeStep (fun q => layout W H q 1 1 1) viscosity S 0
        = bounceBackStream W H U ∧ uniformTile W H u U ∧ U.barrier = (S 0).barrier := by
  obtain ⟨-, hdx, hdy, -, -, -, -, -, -, hnb⟩ := create_single W H
  refine ⟨stream W H (collide W H viscosity (S 0)), ?_, ?_, ?_⟩
  · simp only [timeStep, exchangeAll, exchange_alone _ hnb, hdx, hdy]
  · exact stream_uniform _ _ u _ (collide_uniform _ _ viscosity u _ h)
  · rw [(stream_fixed _ _ _).2.2.2.2.2.2, collide_barrier]

/-- On a uniform `3 x 3` tile whose barrier cells are the local cells `(0, 1)` and `(1, 1)`,
`bounceBackStream` leaves channels at the interior cell that sum to `1 - 2 u / 3`: the east
channel takes the west value of the ghost cell `(0, 1)`. -/
theorem seam_tile_sum (u : K) (U : Fields K) (hu : uniformTile 3 3 u U)
    (hb : ∀ x y, x < 3 → y < 3 → (U.barrier (y * 3 + x) = true ↔ y = 1 ∧ x ≤ 1)) :
    (bounceBackStream 3 3 U).f_0 (1 * 3 + 1)
      + chan (bounceBackStream 3 3 U) .NeighborN (1 * 3 + 1)
      + chan (bounceBackStream 3 3 U) .NeighborS (1 * 3 + 1)
      + chan (bounceBackStream 3 3 U) .NeighborE (1 * 3 + 1)
      + chan (bounceBackStream 3 3 U) .NeighborW (1 * 3 + 1)
      + chan (bounceBackStream 3 3 U) .NeighborNW (1 * 3 + 1)
      + chan (bounceBackStream 3 3 U) .NeighborNE (1 * 3 + 1)
      + chan (bounceBackStream 3 3 U) .NeighborSW (1 * 3 + 1)
      + chan (bounceBackStream 3 3 U) .NeighborSE (1 * 3 + 1) = 1 - 2 * u / 3 := by
  have hi : isInterior 3 3 1 1 := by decide
  have b0 : U.barrier 0 = false := by
    have := hb 0 0 (by decide) (by decide); simpa using this
  have b1 : U.barrier 1 = false := by
    have := hb 1 0 (by decide) (by decide); simpa using this
  have b2 : U.barrier 2 = false := by
    have := hb 2 0 (by decide) (by decide); simpa using this
  have b3 : U.barrier 3 = true := by
    have := hb 0 1 (by decide) (by decide); simpa using this
  have b5 : U.barrier 5 = false := by
    have := hb 2 1 (by decide) (by decide); simpa using this
  have b6 : U.barrier 6 = false := by
    have := hb 0 2 (by decide) (by decide); simpa using this
  have b7 : U.barrier 7 = false := by
    have := hb 1 2 (by decide) (by decide); simpa using this
  have b8 : U.barrier 8 = false := by
    have := hb 2 2 (by decide) (by decide); simpa using this
  obtain ⟨⟨c0, c⟩, -⟩ := hu 1 1 (by decide) (by decide)
  obtain ⟨⟨-, cg⟩, -⟩ := hu 0 1 (by decide) (by decide)
  have cN := c .NeighborN
  have cS := c .NeighborS
  have cE := cg .NeighborW
  have cW := c .NeighborW
  have cNW := c .NeighborNW
  have cNE := c .NeighborNE
  have cSW := c .NeighborSW
  have cSE := c .NeighborSE
  simp only [chan, equilibriumChan, specEquilibrium] at cN cS cE cW cNW cNE cSW cSE c0
  simp only [chan]
  rw [(bounce_fixed 3 3 U).1, bounce_f_N 3 3 1 1 hi U (Or.inr rfl), bounce_f_S 3 3 1 1 hi U,
    bounce_f_E 3 3 1 1 hi U (Or.inr rfl), bounce_f_W 3 3 1 1 hi U,
    bounce_f_NW 3 3 1 1 hi U (Or.inr (Or.inr rfl)),
    bounce_f_NE 3 3 1 1 hi U (Or.inr (Or.inr rfl)), bounce_f_SW 3 3 1 1 hi U,
    bounce_f_SE 3 3 1 1 hi U]
  norm_num at cN cS cE cW cNW cNE cSW cSE c0 ⊢
  simp only [b0, b1, b2, b3, b5, b6, b7, b8, if_true, Bool.false_eq_true, if_false]
  rw [c0, cN, cS, cE, cW, cNW, cNE, cSW, cSE]
  ring

/-- On a uniform `4 x 4` grid whose barrier cells are `(1, 1)` and `(2, 1)`,
`bounceBackStream` leaves channels at the cell `(2, 1)` that sum to `1`: the east channel is
first handed to the west channel of `(1, 1)` and then read back. -/
theorem whole_grid_sum (u : K) (V : Fields K) (hu : uniformTile 4 4 u V)
    (hb : ∀ x y, x < 4 → y < 4 → (V.barrier (y * 4 + x) = true ↔ y = 1 ∧ 1 ≤ x ∧ x ≤ 2)) :
    (bounceBackStream 4 4 V).f_0 (1 * 4 + 2)
      + chan (bounceBackStream 4 4 V) .NeighborN (1 * 4 + 2)
      + chan (bounceBackStream 4 4 V) .NeighborS (1 * 4 + 2)
      + chan (bounceBackStream 4 4 V) .NeighborE (1 * 4 + 2)
      + chan (bounceBackStream 4 4 V) .NeighborW (1 * 4 + 2)
      + chan (bounceBackStream 4 4 V) .NeighborNW (1 * 4 + 2)
      + chan (bounceBackStream 4 4 V) .NeighborNE (1 * 4 + 2)
      + chan (bounceBackStream 4 4 V) .NeighborSW (1 * 4 + 2)
      + chan (bounceBackStream 4 4 V) .NeighborSE (1 * 4 + 2) = 1 := by
  have hi : isInterior 4 4 2 1 := by decide
  have b1 : V.barrier 1 = false := by
    have := hb 1 0 (by decide) (by decide); simpa using this
  have b2 : V.barrier 2 = false := by
    have := hb 2 0 (by decide) (by decide); simpa using this
  have b3 : V.barrier 3 = false := by
    have := hb 3 0 (by decide) (by decide); simpa using this
  have b5 : V.barrier 5 = true := by
    have := hb 1 1 (by decide) (by decide); simpa using this
  have b6 : V.barrier 6 = true := by
    have := hb 2 1 (by decide) (by decide); simpa using this
  have b7 : V.barrier 7 = false := by
    have := hb 3 1 (by decide) (by decide); simpa using this
  have b9 : V.barrier 9 = false := by
    have := hb 1 2 (by decide) (by decide); simpa using this
  have b10 : V.barrier 10 = false := by
    have := hb 2 2 (by decide) (by decide); simpa using this
  have b11 : V.barrier 11 = false := by
    have := hb 3 2 (by decide) (by decide); simpa using this
  -- the east channel, by running the four iterations of the loop nest
  have hE : (bounceBackStream 4 4 V).f_E 6 = V.f_E 6 := by
    have hl : loopNest (interior 4) (interior 4) = [(1, 1), (1, 2), (2, 1), (2, 2)] := by
      decide
    rw [bounceBackStream_eq_foldl, hl]
    simp only [List.foldl_cons, List.foldl_nil]
    rw [(bounceBackBody_agree 4 2 2 _ 6 (by decide)).2.2.1,
      (bounceBackBody_agree 4 2 1 _ 6 (by decide)).2.2.1,
      bounceBackBody_eq 4 1 2 (by decide), bounceBackBody_eq 4 1 1 (by decide)]
    norm_num [b5, b6]
  obtain ⟨⟨c0, c⟩, -⟩ := hu 2 1 (by decide) (by decide)
  have cN := c .NeighborN
  have cS := c .NeighborS
  have cE := c .NeighborE
  have cW := c .NeighborW
  have cNW := c .NeighborNW
  have cNE := c .NeighborNE
  have cSW := c .NeighborSW
  have cSE := c .NeighborSE
  simp only [chan, equilibriumChan, specEquilibrium] at cN cS cE cW cNW cNE cSW cSE c0
  simp only [chan]
  rw [(bounce_fixed 4 4 V).1, bounce_f_N 4 4 2 1 hi V (Or.inr rfl), bounce_f_S 4 4 2 1 hi V,
    bounce_f_W 4 4 2 1 hi V, bounce_f_NW 4 4 2 1 hi V (Or.inr (Or.inr rfl)),
    bounce_f_NE 4 4 2 1 hi V (Or.inr (Or.inr rfl)), bounce_f_SW 4 4 2 1 hi V,
    bounce_f_SE 4 4 2 1 hi V]
  norm_num at cN cS cE cW cNW cNE cSW cSE c0 ⊢
  simp only [b1, b2, b3, b7, b9, b10, b11, hE, if_true, Bool.false_eq_true, if_false]
  rw [c0, cN, cS, cE, cW, cNW, cNE, cSW, cSE]
  ring

/-- Two steps on a single rank, `4 x 4` grid with the barrier cells `(1, 1)` and `(2, 1)`: the
gathered density of the barrier cell `(2, 1)` is `1`. -/
theorem barrier_density_single (speed_scale physical_speed viscosity : K)
    (init : Nat → Fields K) (bufs : GatherBuffers K) :
    gatheredDensity (fun q => layout 4 4 q 1 1 1) [BarrierHorizontal 1 2 1] speed_scale
      physical_speed viscosity 2 init bufs (1 * 4 + 2) = 1 := by
  obtain ⟨-, hdx, hdy, -, -, hsx1, hsy1, hox1, hoy1, -⟩ := create_single 4 4
  unfold gatheredDensity
  rw [gather_density_fold]
  have hleft := gather_array 4 4 1 1 1 (by decide) (by decide) rfl
    (fun gx gy => (simulate (fun q => layout 4 4 q 1 1 1) [BarrierHorizontal 1 2 1]
      speed_scale physical_speed viscosity 2 init 0).density (gy * 4 + gx))
    (fun i => (simulate (fun q => layout 4 4 q 1 1 1) [BarrierHorizontal 1 2 1]
      speed_scale physical_speed viscosity 2 init i).density) ?_ bufs.recv_buf 2 1
      (by decide) (by decide)
  · rw [hleft]
    have e : simulate (fun q => layout 4 4 q 1 1 1) [BarrierHorizontal 1 2 1] speed_scale
        physical_speed viscosity 2 init
        = timeStep (fun q => layout 4 4 q 1 1 1) viscosity
          (timeStep (fun q => layout 4 4 q 1 1 1) viscosity
            (fun r => initFluid (layout 4 4 r 1 1 1).dim_x (layout 4 4 r 1 1 1).dim_y
              speed_scale physical_speed
              (initBarrier (layout 4 4 r 1 1 1) [BarrierHorizontal 1 2 1] (init r)))) := rfl
    simp only [e]
    rw [step_density_single 4 4 viscosity _ 2 1 (by decide)]
    obtain ⟨V, hV, hu, hbar⟩ := prebounce_uniform_single 4 4 viscosity
      (speed_scale * physical_speed)
      (fun r => initFluid (layout 4 4 r 1 1 1).dim_x (layout 4 4 r 1 1 1).dim_y
        speed_scale physical_speed
        (initBarrier (layout 4 4 r 1 1 1) [BarrierHorizontal 1 2 1] (init r)))
      (by
        have := initFluid_uniform 4 4 speed_scale physical_speed
          (initBarrier (layout 4 4 0 1 1 1) [BarrierHorizontal 1 2 1] (init 0))
        simpa only [hdx, hdy] using this)
    rw [hV]
    refine whole_grid_sum (speed_scale * physical_speed) V hu ?_
    intro x y hx hy
    rw [hbar]
    simp only [hdx, hdy]
    rw [(initFluid_cell 4 4 speed_scale physical_speed _ x y hx hy).2.2.2.2.2.2,
      initBarrier_single 4 4 _ _ x y hx hy]
    simp only [List.mem_singleton, exists_eq_left, specContains, BarrierHorizontal]
    omega
  · intro i hi dx dy _ _
    obtain rfl : i = 0 := by omega
    simp only [hdx, hsx1, hsy1, hox1, hoy1, Nat.zero_add]

/-- Two steps on four ranks, `4 x 4` grid with the barrier cells `(1, 1)` and `(2, 1)`: the
gathered density of the barrier cell `(2, 1)`, which sits on the seam between rank 0 and
rank 1, is `1 - 2 u / 3` for the inflow speed `u`. -/
theorem barrier_density_four (speed_scale physical_speed viscosity : K)
    (init : Nat → Fields K) (bufs : GatherBuffers K) :
    gatheredDensity (fun q => layout 4 4 q 4 2 2) [BarrierHorizontal 1 2 1] speed_scale
      physical_speed viscosity 2 init bufs (1 * 4 + 2)
      = 1 - 2 * (speed_scale * physical_speed) / 3 := by
  have hp := proper_four 4 4 (by decide) (by decide)
  have hdx : (layout 4 4 1 4 2 2).dim_x = 3 := by decide
  have hdy : (layout 4 4 1 4 2 2).dim_y = 3 := by decide
  have hsx : (layout 4 4 1 4 2 2).start_x = 1 := by decide
  have hsy : (layout 4 4 1 4 2 2).start_y = 0 := by decide
  have hox : (layout 4 4 1 4 2 2).offset_x = 2 := by decide
  have hoy : (layout 4 4 1 4 2 2).offset_y = 0 := by decide
  unfold gatheredDensity
  rw [gather_density_fold]
  obtain ⟨i, dx, dy, hi, hdx', hdy', ex, ey, hval⟩ := gather_owner 4 4 4 2 2 (by decide)
    (by decide) rfl
    (fun i => (simulate (fun q => layout 4 4 q 4 2 2) [BarrierHorizontal 1 2 1] speed_scale
      physical_speed viscosity 2 init i).density) bufs.recv_buf 2 1 (by decide) (by decide)
  obtain ⟨rfl, rfl, rfl⟩ := owner_unique 4 4 4 2 2 (by decide) i 1 dx dy 0 1 hdx' hdy'
    (by decide) (by decide) (by rw [ex, hox]) (by rw [ey, hoy])
  rw [hval]
  have e : simulate (fun q => layout 4 4 q 4 2 2) [BarrierHorizontal 1 2 1] speed_scale
      physical_speed viscosity 2 init
      = timeStep (fun q => layout 4 4 q 4 2 2) viscosity
        (timeStep (fun q => layout 4 4 q 4 2 2) viscosity
          (fun r => initFluid (layout 4 4 r 4 2 2).dim_x (layout 4 4 r 4 2 2).dim_y
            speed_scale physical_speed
            (initBarrier (layout 4 4 r 4 2 2) [BarrierHorizontal 1 2 1] (init r)))) := rfl
  simp only [e, hsx, hsy, Nat.zero_add, Nat.add_zero]
  rw [step_density 4 4 4 2 2 hp viscosity _ 1 (by decide) 1 1 (by rw [hdx, hdy]; decide)]
  obtain ⟨U, hU, hu, hbar⟩ := prebounce_uniform 4 4 4 2 2 hp viscosity
    (speed_scale * physical_speed)
    (fun r => initFluid (layout 4 4 r 4 2 2).dim_x (layout 4 4 r 4 2 2).dim_y
      speed_scale physical_speed
      (initBarrier (layout 4 4 r 4 2 2) [BarrierHorizontal 1 2 1] (init r)))
    (fun r _ => initFluid_uniform _ _ speed_scale physical_speed _) 1 (by decide)
  rw [hU]
  simp only [hdx, hdy] at hu hbar ⊢
  refine seam_tile_sum (speed_scale * physical_speed) U hu ?_
  intro x y hx hy
  rw [hbar, (initFluid_cell 3 3 speed_scale physical_speed _ x y hx hy).2.2.2.2.2.2]
  have h := initBarrier_cell (layout 4 4 1 4 2 2) [BarrierHorizontal 1 2 1] (init 1) x y
    (by rw [hdx]; exact hx) (by rw [hdy]; exact hy)
  rw [hdx, hox, hoy] at h
  rw [h]
  simp only [List.mem_singleton, exists_eq_left, specContains, BarrierHorizontal]
  norm_num
  omega

/-- Witness for C18: the `4 x 4` grid with the barrier cells `(1, 1)` and `(2, 1)`, inflow
speed `1/10`, viscosity `1/50` and two time steps, started from arrays and buffers that hold
zero. -/
theorem partition_independence_witness :
    (2 ≤ 4 ∧ 2 ≤ 4) ∧
    ∃ geom1 geom4 : Nat → Geometry,
      (∀ r, create 4 4 r 1 = some (geom1 r)) ∧ (∀ r, create 4 4 r 4 = some (geom4 r)) ∧
      ∀ gx gy : Nat, gx < 4 → gy < 4 →
        ((∃ seg ∈ [BarrierHorizontal 1 2 1], specContains seg gx gy) →
          ¬ isInterior 4 4 gx gy) →
        gatheredDensity geom1 [BarrierHorizontal 1 2 1] (1 : ℚ) (1 / 10) (1 / 50) 2
            (fun _ => uniformFields 0 false) ⟨fun _ => 0, fun _ => false, .None⟩ (gy * 4 + gx)
          = gatheredDensity geom4 [BarrierHorizontal 1 2 1] (1 : ℚ) (1 / 10) (1 / 50) 2
            (fun _ => uniformFields 0 false) ⟨fun _ => 0, fun _ => false, .None⟩
            (gy * 4 + gx) :=
  ⟨by decide, partition_independence 4 4 (by decide) (by decide) [BarrierHorizontal 1 2 1]
    (1 : ℚ) (1 / 10) (1 / 50) 2 (fun _ => uniformFields 0 false)
    (fun _ => uniformFields 0 false) ⟨fun _ => 0, fun _ => false, .None⟩
    ⟨fun _ => 0, fun _ => false, .None⟩⟩

/-- Counterexample to C18 as stated: on the `4 x 4` grid with the barrier cells `(1, 1)` and
`(2, 1)`, inflow speed `1/10` and viscosity `1/50`, the density gathered after two time steps
at the barrier cell `(2, 1)` is `1` for `P = 1` and `14/15` for `P = 4`. -/
theorem partition_counterexample :
    ∃ geom1 geom4 : Nat → Geometry,
      (∀ r, create 4 4 r 1 = some (geom1 r)) ∧ (∀ r, create 4 4 r 4 = some (geom4 r)) ∧
      gatheredDensity geom1 [BarrierHorizontal 1 2 1] (1 : ℚ) (1 / 10) (1 / 50) 2
          (fun _ => uniformFields 0 false) ⟨fun _ => 0, fun _ => false, .None⟩ (1 * 4 + 2)
        = 1 ∧
      gatheredDensity geom4 [BarrierHorizontal 1 2 1] (1 : ℚ) (1 / 10) (1 / 50) 2
          (fun _ => uniformFields 0 false) ⟨fun _ => 0, fun _ => false, .None⟩ (1 * 4 + 2)
        = 14 / 15 ∧
      gatheredDensity geom1 [BarrierHorizontal 1 2 1] (1 : ℚ) (1 / 10) (1 / 50) 2
          (fun _ => uniformFields 0 false) ⟨fun _ => 0, fun _ => false, .None⟩ (1 * 4 + 2)
        ≠ gatheredDensity geom4 [BarrierHorizontal 1 2 1] (1 : ℚ) (1 / 10) (1 / 50) 2
          (fun _ => uniformFields 0 false) ⟨fun _ => 0, fun _ => false, .None⟩ (1 * 4 + 2) := by
  have h1 := barrier_density_single (1 : ℚ) (1 / 10) (1 / 50)
    (fun _ => uniformFields 0 false) ⟨fun _ => 0, fun _ => false, .None⟩
  have h4 := barrier_density_four (1 : ℚ) (1 / 10) (1 / 50)
    (fun _ => uniformFields 0 false) ⟨fun _ => 0, fun _ => false, .None⟩
  have e : (1 : ℚ) - 2 * (1 * (1 / 10)) / 3 = 14 / 15 := by norm_num
  rw [e] at h4
  refine ⟨fun q => layout 4 4 q 1 1 1, fun q => layout 4 4 q 4 2 2, create_one 4 4,
    create_four 4 4, h1, h4, ?_⟩
  rw [h1, h4]
  norm_num

/-! ### Inflow ring and initial state -/

/-- The cell `k` holds the equilibrium of density 1 and velocity `(u, 0)` in its nine channels
and these values in `density`, `velocity_x` and `velocity_y`. -/
theorem setEquilibrium_inflow (dim_x x y : Nat) (u : K) (s : Fields K) :
    atEquilibrium (setEquilibrium dim_x x y u 0.0 1.0 s) (y * dim_x + x) 1 u 0 ∧
    (setEquilibrium dim_x x y u 0.0 1.0 s).density (y * dim_x + x) = 1 ∧
    (setEquilibrium dim_x x y u 0.0 1.0 s).velocity_x (y * dim_x + x) = u ∧
    (setEquilibrium dim_x x y u 0.0 1.0 s).velocity_y (y * dim_x + x) = 0 := by
  obtain ⟨v0, vE, vW, vN, vS, vNE, vNW, vSE, vSW⟩ :=
    setEquilibrium_values dim_x x y u 0.0 1.0 s
  have hr : ∀ w ex ey : K,
      specEquilibrium w ex ey 1.0 u 0.0 = specEquilibrium w ex ey 1 u 0 := by
    intro w ex ey
    norm_num
  rw [hr] at v0 vE vW vN vS vNE vNW vSE vSW
  refine ⟨⟨v0, fun d => ?_⟩, ?_, ?_, ?_⟩
  · cases d <;> simp only [chan, equilibriumChan] <;> assumption
  · norm_num [setEquilibrium]
  · norm_num [setEquilibrium]
  · norm_num [setEquilibrium]

/-- A loop whose body makes two calls per iteration is the sequence of all calls. -/
theorem forLoop_pairs {σ ι : Type} (ks : List Nat) (f g : Nat → ι) (step : ι → σ → σ) (s : σ) :
    forLoop ks (fun i s => step (g i) (step (f i) s)) s
      = (ks.flatMap fun i => [f i, g i]).foldl (fun s c => step c s) s := by
  induction ks generalizing s with
  | nil => rfl
  | cons k ks ih =>
    rw [forLoop_cons, ih, List.flatMap_cons, List.foldl_append]
    rfl

/-- Function `updateFluid` as the sequence of its calls of `setEquilibrium`. -/
theorem updateFluid_eq_foldl (dim_x dim_y : Nat) (speed_scale physical_speed : K)
    (s : Fields K) :
    updateFluid dim_x dim_y speed_scale physical_speed s
      = (ringCells dim_x dim_y).foldl (fun s (c : Nat × Nat) =>
          setEquilibrium dim_x c.1 c.2 (speed_scale * physical_speed) 0.0 1.0 s) s := by
  unfold updateFluid ringCells
  rw [List.foldl_append]
  simp only
  rw [forLoop_pairs (List.range dim_x) (fun i => (i, 0)) (fun i => (i, dim_y - 1))
      (fun (c : Nat × Nat) s =>
        setEquilibrium dim_x c.1 c.2 (speed_scale * physical_speed) 0.0 1.0 s),
    forLoop_pairs (interior dim_y) (fun i => (0, i)) (fun i => (dim_x - 1, i))
      (fun (c : Nat × Nat) s =>
        setEquilibrium dim_x c.1 c.2 (speed_scale * physical_speed) 0.0 1.0 s)]

/-- A sequence of calls `setEquilibrium(x, y, u, 0.0, 1.0)` leaves the inflow equilibrium at
every cell one of the calls addresses. -/
theorem foldl_setEquilibrium_hit (dim_x : Nat) (u : K) (k : Nat) (L : List (Nat × Nat))
    (s : Fields K)
    (h : (∃ c ∈ L, c.2 * dim_x + c.1 = k) ∨
      (atEquilibrium s k 1 u 0 ∧ s.density k = 1 ∧ s.velocity_x k = u ∧ s.velocity_y k = 0)) :
    atEquilibrium (L.foldl (fun s (c : Nat × Nat) => setEquilibrium dim_x c.1 c.2 u 0.0 1.0 s) s)
        k 1 u 0 ∧
    (L.foldl (fun s (c : Nat × Nat) => setEquilibrium dim_x c.1 c.2 u 0.0 1.0 s) s).density k
      = 1 ∧
    (L.foldl (fun s (c : Nat × Nat) => setEquilibrium dim_x c.1 c.2 u 0.0 1.0 s) s).velocity_x k
      = u ∧
    (L.foldl (fun s (c : Nat × Nat) => setEquilibrium dim_x c.1 c.2 u 0.0 1.0 s) s).velocity_y k
      = 0 := by
  induction L generalizing s with
  | nil =>
    rcases h with ⟨c, hc, -⟩ | h
    · simp at hc
    · exact h
  | cons c L ih =>
    rw [List.foldl_cons]
    apply ih
    by_cases hL : ∃ c' ∈ L, c'.2 * dim_x + c'.1 = k
    · exact Or.inl hL
    · right
      by_cases hc : c.2 * dim_x + c.1 = k
      · rw [← hc]
        exact setEquilibrium_inflow dim_x c.1 c.2 u s
      · rcases h with ⟨c', hc', e⟩ | h
        · rcases List.mem_cons.mp hc' with rfl | hc'
          · exact absurd e hc
          · exact absurd ⟨c', hc', e⟩ hL
        · obtain ⟨a1, a2, a3, a4, a5, a6, a7, a8, a9, a10, a11, a12, -⟩ :=
            setEquilibrium_agree_of_ne dim_x c.1 c.2 u 0.0 1.0 s k hc
          obtain ⟨⟨h0, hd⟩, h1, h2, h3⟩ := h
          refine ⟨⟨a1.trans h0, fun d => ?_⟩, a10.trans h1, a11.trans h2, a12.trans h3⟩
          have := hd d
          cases d <;> simp only [chan] at this ⊢
          · exact a2.trans this
          · exact a3.trans this
          · exact a4.trans this
          · exact a5.trans this
          · exact a6.trans this
          · exact a7.trans this
          · exact a8.trans this
          · exact a9.trans this

/-- A sequence of calls of `setEquilibrium` never writes `vorticity`, `speed` or `barrier`. -/
theorem foldl_setEquilibrium_rest (dim_x : Nat) (u v rho : K) (L : List (Nat × Nat))
    (s : Fields K) :
    (L.foldl (fun s (c : Nat × Nat) => setEquilibrium dim_x c.1 c.2 u v rho s) s).vorticity
      = s.vorticity ∧
    (L.foldl (fun s (c : Nat × Nat) => setEquilibrium dim_x c.1 c.2 u v rho s) s).speed
      = s.speed ∧
    (L.foldl (fun s (c : Nat × Nat) => setEquilibrium dim_x c.1 c.2 u v rho s) s).barrier
      = s.barrier := by
  induction L generalizing s with
  | nil => exact ⟨rfl, rfl, rfl⟩
  | cons c L ih =>
    rw [List.foldl_cons]
    obtain ⟨h1, h2, h3⟩ := ih (setEquilibrium dim_x c.1 c.2 u v rho s)
    exact ⟨h1, h2, h3⟩

/-- The cells `updateFluid` sets are the cells of the outermost ring. -/
theorem mem_ringCells (dim_x dim_y : Nat) (hx : 1 ≤ dim_x) (hy : 1 ≤ dim_y) (x y : Nat) :
    (x, y) ∈ ringCells dim_x dim_y ↔ onRing dim_x dim_y x y := by
  simp only [ringCells, List.mem_append, List.mem_flatMap, List.mem_range, mem_interior,
    List.mem_cons, Prod.mk.injEq, List.mem_singleton, List.not_mem_nil, or_false, onRing]
  constructor
  · rintro (⟨i, hi, ⟨rfl, rfl⟩ | ⟨rfl, rfl⟩⟩ | ⟨i, hi, ⟨rfl, rfl⟩ | ⟨rfl, rfl⟩⟩)
    · exact ⟨hi, by omega, Or.inr (Or.inr (Or.inl rfl))⟩
    · exact ⟨hi, by omega, Or.inr (Or.inr (Or.inr rfl))⟩
    · exact ⟨by omega, by omega, Or.inl rfl⟩
    · exact ⟨by omega, by omega, Or.inr (Or.inl rfl)⟩
  · rintro ⟨h1, h2, h3⟩
    by_cases hy0 : y = 0
    · exact Or.inl ⟨x, h1, Or.inl ⟨rfl, hy0⟩⟩
    by_cases hy1 : y = dim_y - 1
    · exact Or.inl ⟨x, h1, Or.inr ⟨rfl, hy1⟩⟩
    rcases h3 with h | h | h | h
    · exact Or.inr ⟨y, by omega, Or.inl ⟨h, rfl⟩⟩
    · exact Or.inr ⟨y, by omega, Or.inr ⟨h, rfl⟩⟩
    · exact absurd h hy0
    · exact absurd h hy1

/-- C21 (`updateFluid` touches the outermost ring only): on a tile with `dim_x, dim_y ≥ 1`,
after `updateFluid(s)` every cell of the outermost ring holds the nine equilibrium channel
values for density 1 and velocity `(speed_scale * s, 0)`, with `density = 1`,
`velocity_x = speed_scale * s` and `velocity_y = 0`; at every other stored cell the nine
channels, `density`, `velocity_x` and `velocity_y` are unchanged; `vorticity`, `speed` and
`barrier` are unchanged everywhere. -/
theorem updateFluid_ring (dim_x dim_y : Nat) (hx : 1 ≤ dim_x) (hy : 1 ≤ dim_y)
    (speed_scale physical_speed : K) (s : Fields K) :
    (∀ x y, onRing dim_x dim_y x y →
      atEquilibrium (updateFluid dim_x dim_y speed_scale physical_speed s) (y * dim_x + x) 1
        (speed_scale * physical_speed) 0 ∧
      (updateFluid dim_x dim_y speed_scale physical_speed s).density (y * dim_x + x) = 1 ∧
      (updateFluid dim_x dim_y speed_scale physical_speed s).velocity_x (y * dim_x + x)
        = speed_scale * physical_speed ∧
      (updateFluid dim_x dim_y speed_scale physical_speed s).velocity_y (y * dim_x + x) = 0) ∧
    (∀ x y, x < dim_x → y < dim_y → ¬ onRing dim_x dim_y x y →
      syncedAt (updateFluid dim_x dim_y speed_scale physical_speed s) (y * dim_x + x) s
        (y * dim_x + x)) ∧
    (updateFluid dim_x dim_y speed_scale physical_speed s).vorticity = s.vorticity ∧
    (updateFluid dim_x dim_y speed_scale physical_speed s).speed = s.speed ∧
    (updateFluid dim_x dim_y speed_scale physical_speed s).barrier = s.barrier := by
  rw [updateFluid_eq_foldl]
  refine ⟨fun x y hr => ?_, fun x y hx' hy' hr => ?_, foldl_setEquilibrium_rest _ _ _ _ _ s⟩
  · exact foldl_setEquilibrium_hit dim_x _ _ _ s
      (Or.inl ⟨(x, y), (mem_ringCells dim_x dim_y hx hy x y).mpr hr, rfl⟩)
  · have hag := foldl_agree_of_ne (fun (c : Nat × Nat) (s : Fields K) =>
        setEquilibrium dim_x c.1 c.2 (speed_scale * physical_speed) 0.0 1.0 s)
      (y * dim_x + x) (ringCells dim_x dim_y) ?_ s
    · exact syncedAt_refl_of_agreeAt hag
    · intro c hc t
      refine setEquilibrium_agree_of_ne dim_x c.1 c.2 _ _ _ t _ ?_
      intro e
      have hc' := (mem_ringCells dim_x dim_y hx hy c.1 c.2).mp hc
      obtain ⟨e1, e2⟩ := idx_inj hc'.1 hx' e
      rw [e1, e2] at hc'
      exact hr hc'

/-- Witness for C21: a `4 x 3` tile whose arrays hold 7, scale 1 and speed `1/10`. -/
theorem updateFluid_ring_witness :
    (1 ≤ 4 ∧ 1 ≤ 3) ∧
    (∀ x y, onRing 4 3 x y →
      atEquilibrium (updateFluid 4 3 (1 : ℚ) (1 / 10) (uniformFields 7 false)) (y * 4 + x) 1
        (1 * (1 / 10)) 0 ∧
      (updateFluid 4 3 (1 : ℚ) (1 / 10) (uniformFields 7 false)).density (y * 4 + x) = 1 ∧
      (updateFluid 4 3 (1 : ℚ) (1 / 10) (uniformFields 7 false)).velocity_x (y * 4 + x)
        = 1 * (1 / 10) ∧
      (updateFluid 4 3 (1 : ℚ) (1 / 10) (uniformFields 7 false)).velocity_y (y * 4 + x) = 0) ∧
    (∀ x y, x < 4 → y < 3 → ¬ onRing 4 3 x y →
      syncedAt (updateFluid 4 3 (1 : ℚ) (1 / 10) (uniformFields 7 false)) (y * 4 + x)
        (uniformFields 7 false) (y * 4 + x)) ∧
    (updateFluid 4 3 (1 : ℚ) (1 / 10) (uniformFields 7 false)).vorticity
      = (uniformFields (7 : ℚ) false).vorticity ∧
    (updateFluid 4 3 (1 : ℚ) (1 / 10) (uniformFields 7 false)).speed
      = (uniformFields (7 : ℚ) false).speed ∧
    (updateFluid 4 3 (1 : ℚ) (1 / 10) (uniformFields 7 false)).barrier
      = (uniformFields (7 : ℚ) false).barrier :=
  ⟨by decide, updateFluid_ring 4 3 (by decide) (by decide) (1 : ℚ) (1 / 10)
    (uniformFields 7 false)⟩

/-- C22 (`initFluid`): after `initFluid(s)` every stored cell of the tile, ghost cells
included, holds the nine equilibrium channel values for density 1 and velocity
`(speed_scale * s, 0)`, with `density = 1`, `velocity_x = speed_scale * s`, `velocity_y = 0`
and `vorticity = 0`; these thirteen arrays hold the same values there whatever the tile held
before. -/
theorem initFluid_equilibrium (dim_x dim_y : Nat) (speed_scale physical_speed : K)
    (s : Fields K) (x y : Nat) (hx : x < dim_x) (hy : y < dim_y) :
    atEquilibrium (initFluid dim_x dim_y speed_scale physical_speed s) (y * dim_x + x) 1
      (speed_scale * physical_speed) 0 ∧
    (initFluid dim_x dim_y speed_scale physical_speed s).density (y * dim_x + x) = 1 ∧
    (initFluid dim_x dim_y speed_scale physical_speed s).velocity_x (y * dim_x + x)
      = speed_scale * physical_speed ∧
    (initFluid dim_x dim_y speed_scale physical_speed s).velocity_y (y * dim_x + x) = 0 ∧
    (initFluid dim_x dim_y speed_scale physical_speed s).vorticity (y * dim_x + x) = 0 ∧
    ∀ t : Fields K,
      syncedAt (initFluid dim_x dim_y speed_scale physical_speed s) (y * dim_x + x)
        (initFluid dim_x dim_y speed_scale physical_speed t) (y * dim_x + x) ∧
      (initFluid dim_x dim_y speed_scale physical_speed s).vorticity (y * dim_x + x)
        = (initFluid dim_x dim_y speed_scale physical_speed t).vorticity (y * dim_x + x) := by
  obtain ⟨a1, a2, a3, a4, a5, -⟩ :=
    initFluid_cell dim_x dim_y speed_scale physical_speed s x y hx hy
  refine ⟨a1, a2, a3, a4, a5, fun t => ?_⟩
  obtain ⟨b1, b2, b3, b4, b5, -⟩ :=
    initFluid_cell dim_x dim_y speed_scale physical_speed t x y hx hy
  exact ⟨⟨atEquilibrium_same a1 b1, a2.trans b2.symm, a3.trans b3.symm, a4.trans b4.symm⟩,
    a5.trans b5.symm⟩

/-- Witness for C22: the ghost cell `(3, 2)` of a `4 x 3` tile whose arrays hold 7, scale 1
and speed `1/10`. -/
theorem initFluid_equilibrium_witness :
    (3 < 4 ∧ 2 < 3) ∧
    atEquilibrium (initFluid 4 3 (1 : ℚ) (1 / 10) (uniformFields 7 false)) (2 * 4 + 3) 1
      (1 * (1 / 10)) 0 ∧
    (initFluid 4 3 (1 : ℚ) (1 / 10) (uniformFields 7 false)).density (2 * 4 + 3) = 1 ∧
    (initFluid 4 3 (1 : ℚ) (1 / 10) (uniformFields 7 false)).velocity_x (2 * 4 + 3)
      = 1 * (1 / 10) ∧
    (initFluid 4 3 (1 : ℚ) (1 / 10) (uniformFields 7 false)).velocity_y (2 * 4 + 3) = 0 ∧
    (initFluid 4 3 (1 : ℚ) (1 / 10) (uniformFields 7 false)).vorticity (2 * 4 + 3) = 0 ∧
    ∀ t : Fields ℚ,
      syncedAt (initFluid 4 3 (1 : ℚ) (1 / 10) (uniformFields 7 false)) (2 * 4 + 3)
        (initFluid 4 3 (1 : ℚ) (1 / 10) t) (2 * 4 + 3) ∧
      (initFluid 4 3 (1 : ℚ) (1 / 10) (uniformFields 7 false)).vorticity (2 * 4 + 3)
        = (initFluid 4 3 (1 : ℚ) (1 / 10) t).vorticity (2 * 4 + 3) :=
  ⟨by decide, initFluid_equilibrium 4 3 (1 : ℚ) (1 / 10) (uniformFields 7 false) 3 2
    (by decide) (by decide)⟩

/-! ### Stability check and vorticity -/

/-- The loop of `checkStability` over a list of columns: the arrays are not written, and the
flag is false at the end iff it was false at the start or one of the columns holds a
non-positive density on the row tested. -/
theorem checkStability_loop (dim_x dim_y : Nat) (L : List Nat) (s : Fields K) (b : Bool) :
    (forLoop L (fun i (acc : Fields K × Bool) =>
        let idx := (dim_y / 2) * dim_x + i
        if acc.1.density idx ≤ 0 then (acc.1, false) else acc) (s, b)).1 = s ∧
    ((forLoop L (fun i (acc : Fields K × Bool) =>
        let idx := (dim_y / 2) * dim_x + i
        if acc.1.density idx ≤ 0 then (acc.1, false) else acc) (s, b)).2 = false ↔
      b = false ∨ ∃ i ∈ L, s.density ((dim_y / 2) * dim_x + i) ≤ 0) := by
  induction L generalizing b with
  | nil => simp [forLoop]
  | cons k L ih =>
    rw [forLoop_cons]
    dsimp only
    by_cases hk : s.density (dim_y / 2 * dim_x + k) ≤ 0
    · rw [if_pos hk]
      obtain ⟨h1, h2⟩ := ih false
      refine ⟨h1, ?_⟩
      rw [h2]
      constructor
      · intro _
        exact Or.inr ⟨k, List.mem_cons_self _ _, hk⟩
      · intro _
        exact Or.inl rfl
    · rw [if_neg hk]
      obtain ⟨h1, h2⟩ := ih b
      refine ⟨h1, ?_⟩
      rw [h2]
      constructor
      · rintro (h | ⟨i, hi, hd⟩)
        · exact Or.inl h
        · exact Or.inr ⟨i, List.mem_cons_of_mem _ hi, hd⟩
      · rintro (h | ⟨i, hi, hd⟩)
        · exact Or.inl h
        · rcases List.mem_cons.mp hi with rfl | hi
          · exact absurd hd hk
          · exact Or.inr ⟨i, hi, hd⟩

/-- C23 (`checkStability`): the function returns false if and only if some cell of the row
`y = dim_y / 2` (integer division), at some `x` with `0 ≤ x < dim_x`, has `density ≤ 0`; it
returns true otherwise, and it leaves every array as it was. -/
theorem checkStability_spec (dim_x dim_y : Nat) (s : Fields K) :
    ((checkStability dim_x dim_y s).2 = false ↔
      ∃ x, x < dim_x ∧ s.density ((dim_y / 2) * dim_x + x) ≤ 0) ∧
    ((checkStability dim_x dim_y s).2 = true ↔
      ∀ x, x < dim_x → 0 < s.density ((dim_y / 2) * dim_x + x)) ∧
    (checkStability dim_x dim_y s).1 = s := by
  obtain ⟨h1, h2⟩ := checkStability_loop dim_x dim_y (List.range dim_x) s true
  have h3 : (checkStability dim_x dim_y s).2 = false ↔
      ∃ x, x < dim_x ∧ s.density ((dim_y / 2) * dim_x + x) ≤ 0 := by
    unfold checkStability
    rw [h2]
    simp only [Bool.true_eq_false, false_or, List.mem_range]
  refine ⟨h3, ?_, h1⟩
  rw [← Bool.not_eq_false, h3]
  push_neg
  rfl

theorem vorticityBody_agree_of_ne (dim_x j i : Nat) (s : Fields K) (k : Nat)
    (hk : j * dim_x + i ≠ k) : agreeAt (vorticityBody dim_x j i s) s k := by
  have hk' : k ≠ j * dim_x + i := fun e => hk e.symm
  simp [agreeAt, vorticityBody, Function.update_noteq hk']

theorem vorticityBody_value (dim_x j i : Nat) (s : Fields K) :
    (vorticityBody dim_x j i s).vorticity (j * dim_x + i)
      = s.velocity_y (j * dim_x + i + 1) - s.velocity_y (j * dim_x + i - 1)
        - s.velocity_x ((j + 1) * dim_x + i) + s.velocity_x ((j - 1) * dim_x + i) := by
  simp [vorticityBody]

theorem vorticityBody_rest (dim_x j i : Nat) (s : Fields K) :
    sameButVorticity (vorticityBody dim_x j i s) s := by
  simp [sameButVorticity, vorticityBody]

theorem foldl_sameButVorticity {α ι : Type} (step : ι → Fields α → Fields α) (L : List ι)
    (h : ∀ q s, sameButVorticity (step q s) s) (s : Fields α) :
    sameButVorticity (L.foldl (fun s q => step q s) s) s := by
  induction L generalizing s with
  | nil => simp [sameButVorticity]
  | cons q L ih =>
    rw [List.foldl_cons]
    obtain ⟨a1, a2, a3, a4, a5, a6, a7, a8, a9, a10, a11, a12, a13, a14⟩ := ih (step q s)
    obtain ⟨b1, b2, b3, b4, b5, b6, b7, b8, b9, b10, b11, b12, b13, b14⟩ := h q s
    exact ⟨a1.trans b1, a2.trans b2, a3.trans b3, a4.trans b4, a5.trans b5, a6.trans b6,
      a7.trans b7, a8.trans b8, a9.trans b9, a10.trans b10, a11.trans b11, a12.trans b12,
      a13.trans b13, a14.trans b14⟩

/-- Function `computeVorticity` as a fold over the iterations of its loop nest. -/
theorem computeVorticity_eq_foldl (dim_x dim_y : Nat) (s : Fields K) :
    computeVorticity dim_x dim_y s = (loopNest (interior dim_y) (interior dim_x)).foldl
      (fun s (q : Nat × Nat) => vorticityBody dim_x q.1 q.2 s) s := by
  unfold computeVorticity
  rw [forLoop_nest]
  rfl

/-- The value `computeVorticity` stores at an interior cell, from the velocities before the
call. -/
theorem computeVorticity_cell (dim_x dim_y x y : Nat) (h : isInterior dim_x dim_y x y)
    (s : Fields K) :
    (computeVorticity dim_x dim_y s).vorticity (y * dim_x + x)
      = s.velocity_y (y * dim_x + (x + 1)) - s.velocity_y (y * dim_x + (x - 1))
        - s.velocity_x ((y + 1) * dim_x + x) + s.velocity_x ((y - 1) * dim_x + x) := by
  obtain ⟨pre, post, hL, -, hwr, -⟩ := bounce_split dim_x dim_y x y h
  obtain ⟨hx1, hx2, hy1, hy2⟩ := h
  rw [computeVorticity_eq_foldl, hL, List.foldl_append, List.foldl_cons]
  have hpost := foldl_agree_of_ne (fun (q : Nat × Nat) (s : Fields K) =>
      vorticityBody dim_x q.1 q.2 s) (y * dim_x + x) post
    (fun q hq t => vorticityBody_agree_of_ne dim_x q.1 q.2 t _
      (hwr q (List.mem_append_right _ hq)))
    (vorticityBody dim_x y x (pre.foldl (fun s (q : Nat × Nat) =>
      vorticityBody dim_x q.1 q.2 s) s))
  rw [hpost.2.2.2.2.2.2.2.2.2.2.2.2.1]
  obtain ⟨-, -, -, -, -, -, -, -, -, -, ex, ey, -⟩ :=
    foldl_sameButVorticity (fun (q : Nat × Nat) (s : Fields K) =>
      vorticityBody dim_x q.1 q.2 s) pre (fun q t => vorticityBody_rest dim_x q.1 q.2 t) s
  have e1 : y * dim_x + x + 1 = y * dim_x + (x + 1) := by omega
  have e2 : y * dim_x + x - 1 = y * dim_x + (x - 1) := by omega
  rw [vorticityBody_value, ex, ey, e1, e2]

/-- C24 (`computeVorticity`): at every interior cell the function stores
`velocity_y[x+1,y] - velocity_y[x-1,y] - velocity_x[x,y+1] + velocity_x[x,y-1]`, taken from the
state before the call; `vorticity` is unchanged at the stored cells of the outer ring and every
other array is unchanged; when the velocity is the same at every stored cell the vorticity of
every interior cell is 0. -/
theorem computeVorticity_spec (dim_x dim_y : Nat) (s : Fields K) :
    (∀ x y, isInterior dim_x dim_y x y →
      (computeVorticity dim_x dim_y s).vorticity (y * dim_x + x)
        = s.velocity_y (y * dim_x + (x + 1)) - s.velocity_y (y * dim_x + (x - 1))
          - s.velocity_x ((y + 1) * dim_x + x) + s.velocity_x ((y - 1) * dim_x + x)) ∧
    (∀ x y, x < dim_x → y < dim_y → ¬ isInterior dim_x dim_y x y →
      (computeVorticity dim_x dim_y s).vorticity (y * dim_x + x)
        = s.vorticity (y * dim_x + x)) ∧
    sameButVorticity (computeVorticity dim_x dim_y s) s ∧
    (∀ ux uy : K,
      (∀ x y, x < dim_x → y < dim_y →
        s.velocity_x (y * dim_x + x) = ux ∧ s.velocity_y (y * dim_x + x) = uy) →
      ∀ x y, isInterior dim_x dim_y x y →
        (computeVorticity dim_x dim_y s).vorticity (y * dim_x + x) = 0) := by
  refine ⟨fun x y h => computeVorticity_cell dim_x dim_y x y h s, ?_, ?_, ?_⟩
  · intro x y hx hy hn
    rw [computeVorticity_eq_foldl]
    refine (foldl_agree_of_ne (fun (q : Nat × Nat) (s : Fields K) =>
      vorticityBody dim_x q.1 q.2 s) (y * dim_x + x) _ ?_ s).2.2.2.2.2.2.2.2.2.2.2.2.1
    intro q hq t
    obtain ⟨h1, h2⟩ := mem_nest.mp hq
    rw [mem_interior] at h1 h2
    exact vorticityBody_agree_of_ne dim_x q.1 q.2 t _
      (offInterior_of_cell hx hn q.2 q.1 ⟨h2.1, h2.2, h1.1, h1.2⟩)
  · rw [computeVorticity_eq_foldl]
    exact foldl_sameButVorticity (fun (q : Nat × Nat) (s : Fields K) =>
      vorticityBody dim_x q.1 q.2 s) _ (fun q t => vorticityBody_rest dim_x q.1 q.2 t) s
  · intro ux uy hu x y h
    rw [computeVorticity_cell dim_x dim_y x y h s]
    obtain ⟨hx1, hx2, hy1, hy2⟩ := h
    rw [(hu (x + 1) y (by omega) (by omega)).2, (hu (x - 1) y (by omega) (by omega)).2,
      (hu x (y + 1) (by omega) (by omega)).1, (hu x (y - 1) (by omega) (by omega)).1]
    ring

/-! ### Calls of the exchange and of the gather -/

theorem opposite_opposite (d : Neighbor) : opposite (opposite d) = d := by
  cases d <;> rfl

/-- The blocks of `exchangeBoundaries` are those of `exchangeOrder`. -/
theorem exchangeBoundaries_order {α : Type} (g : Geometry) (inbox : Neighbor → HaloMsg α)
    (s : Fields α) :
    exchangeBoundaries g inbox s = exchangeOrder.foldl
      (fun s d => if 0 ≤ g.neighbors d then recvHalo g d (inbox d) s else s) s := rfl

theorem mem_exchangeCalls (g : Geometry) (c : HaloCall) :
    c ∈ exchangeCalls g ↔ 0 ≤ g.neighbors c.block ∧ c.array < 12 ∧
      c.sendbuf = sendRegion g c.block ∧ c.dest = g.neighbors c.block ∧
      c.sendtag = tagValue (sendTag c.block) ∧ c.recvbuf = recvRegion g c.block ∧
      c.source = g.neighbors c.block ∧ c.recvtag = tagValue (recvTag c.block) := by
  simp only [exchangeCalls, List.mem_flatMap]
  constructor
  · rintro ⟨d, -, hc⟩
    split_ifs at hc with h0
    · simp only [List.mem_map, List.mem_range] at hc
      obtain ⟨a, ha, rfl⟩ := hc
      exact ⟨h0, ha, rfl, rfl, rfl, rfl, rfl, rfl⟩
    · simp at hc
  · rintro ⟨h0, ha, h1, h2, h3, h4, h5, h6⟩
    refine ⟨c.block, by unfold exchangeOrder; cases c.block <;> simp, ?_⟩
    rw [if_pos h0]
    simp only [List.mem_map, List.mem_range]
    refine ⟨c.array, ha, ?_⟩
    cases c
    simp only [haloCall] at h1 h2 h3 h4 h5 h6 ⊢
    rw [h1, h2, h3, h4, h5, h6]

/-- A rank without neighbours issues no call in `exchangeBoundaries`. -/
theorem exchangeCalls_alone (g : Geometry) (h : ∀ d, g.neighbors d = -1) :
    exchangeCalls g = [] := by
  simp [exchangeCalls, exchangeOrder, h]

/-- C26 (single-rank layout): for `P = 1` and every `W`, `H` the planner gives
`Px = Py = 1`, and the constructor gives `num_x = dim_x = W`, `num_y = dim_y = H`,
`start_x = start_y = 0`, `offset_x = offset_y = 0` and the sentinel `-1` for all eight
neighbours, so `exchangeBoundaries` issues no call of `MPI_Sendrecv` and leaves every array as
it was. -/
theorem single_rank_layout (W H : Nat) :
    getClosestFactors2 1 = some (1, 1) ∧
    ∃ g, create W H 0 1 = some g ∧ g.n_x = 1 ∧ g.n_y = 1 ∧
      g.num_x = W ∧ g.dim_x = W ∧ g.num_y = H ∧ g.dim_y = H ∧
      g.start_x = 0 ∧ g.start_y = 0 ∧ g.offset_x = 0 ∧ g.offset_y = 0 ∧
      (∀ d, g.neighbors d = -1) ∧ exchangeCalls g = [] ∧
      ∀ (α : Type) (inbox : Neighbor → HaloMsg α) (s : Fields α),
        exchangeBoundaries g inbox s = s := by
  obtain ⟨h1, h2, h3, h4, h5, h6, h7, h8, h9, h10⟩ := create_single W H
  have hf : getClosestFactors2 1 = some (1, 1) := by
    have h : Nat.sqrt 1 = 1 := (Nat.eq_sqrt.mpr ⟨by decide, by decide⟩).symm
    simp [getClosestFactors2, h, closestLoop]
  exact ⟨hf, _, h1, rfl, rfl, h4, h2, h5, h3, h6, h7, h8, h9, h10,
    exchangeCalls_alone _ h10, fun α inbox s => exchange_alone _ h10 inbox s⟩

/-- C27 (`gatherDataOnRank0(None)` is a no-op): on every rank the function issues no call of
`MPI_Sendrecv`, `MPI_Recv` or `MPI_Send`, and leaves the receive buffers, `stored_property`
and the arrays of the rank as they were. -/
theorem gather_none {α : Type} (rank num_ranks : Nat) (geom : Nat → Geometry)
    (state : Nat → Fields α) (bufs : GatherBuffers α) :
    gatherCalls .None rank num_ranks = [] ∧
    gatherOnRank rank .None geom state bufs = (state rank, bufs) ∧
    (gatherOnRank rank .None geom state bufs).2.recv_buf = bufs.recv_buf ∧
    (gatherOnRank rank .None geom state bufs).2.brecv_buf = bufs.brecv_buf ∧
    (gatherOnRank rank .None geom state bufs).2.stored_property = bufs.stored_property := by
  have h : gatherOnRank rank .None geom state bufs = (state rank, bufs) := by
    unfold gatherOnRank
    split_ifs <;> rfl
  rw [h]
  exact ⟨rfl, rfl, rfl, rfl, rfl⟩

/-- The blocks of the calls `exchangeBoundaries` issues: those of the existing neighbours, in
program order, twelve calls each. -/
theorem exchangeCalls_blocks (g : Geometry) (L : List Neighbor) :
    (L.flatMap fun d =>
        if 0 ≤ g.neighbors d then (List.range 12).map (haloCall g d) else []).map
        HaloCall.block
      = (L.filter fun d => decide (0 ≤ g.neighbors d)).flatMap fun d => List.replicate 12 d := by
  induction L with
  | nil => rfl
  | cons d L ih =>
    rw [List.flatMap_cons, List.map_append, ih]
    by_cases h : 0 ≤ g.neighbors d
    · rw [if_pos h, List.filter_cons_of_pos (by simpa using h), List.flatMap_cons]
      congr 1
    · rw [if_neg h, List.filter_cons_of_neg (by simpa using h)]
      rfl

/-- C30 (tag pairing): the send tag of the block for direction `d` is the receive tag of the
block for `opposite d`; when rank `r` has a neighbour `n` in direction `d`, `r` is the
neighbour of `n` in direction `opposite d`, each of the twelve calls of `r` in its block `d`
is addressed to `n`, and the call of `n` for the same array in its block `opposite d` receives
from `r` with the tag `r` sends; and the calls are issued block by block in the order
N, E, S, W, NE, NW, SE, SW, twelve calls for each existing neighbour. -/
theorem tag_pairing :
    (∀ d, tagValue (sendTag d) = tagValue (recvTag (opposite d))) ∧
    (∀ (W H P r : Nat) (gr : Geometry) (d : Neighbor), r < P → create W H r P = some gr →
      0 ≤ gr.neighbors d →
      ∃ gn, create W H (gr.neighbors d).toNat P = some gn ∧
        gn.neighbors (opposite d) = (r : Int) ∧
        (∀ c ∈ exchangeCalls gr, c.block = d → c.dest = gr.neighbors d ∧
          ∀ c' ∈ exchangeCalls gn, c'.block = opposite d →
            c'.source = (r : Int) ∧ c'.recvtag = c.sendtag) ∧
        ∀ a, a < 12 →
          (∃ c ∈ exchangeCalls gr, c.block = d ∧ c.array = a) ∧
          (∃ c' ∈ exchangeCalls gn, c'.block = opposite d ∧ c'.array = a)) ∧
    (∀ g : Geometry, (exchangeCalls g).map HaloCall.block
      = ([Neighbor.NeighborN, .NeighborE, .NeighborS, .NeighborW, .NeighborNE, .NeighborNW,
          .NeighborSE, .NeighborSW].filter fun d => decide (0 ≤ g.neighbors d)).flatMap
        fun d => List.replicate 12 d) := by
  have htag : ∀ d, tagValue (sendTag d) = tagValue (recvTag (opposite d)) := by
    intro d; cases d <;> rfl
  refine ⟨htag, ?_, fun g => exchangeCalls_blocks g _⟩
  intro W H P r gr d hr hgr h0
  obtain ⟨Px, Py, hget, hPx, hPy, hmul, hle, hcreate, -⟩ := create_layout P (by omega)
  rw [hcreate] at hgr
  obtain rfl := Option.some.inj hgr
  obtain ⟨hn, hsym⟩ := neighbors_layout_symm W H P Px Py hPx hmul r hr d _ rfl h0
  refine ⟨_, hcreate W H _, hsym, ?_, ?_⟩
  · intro c hc hb
    rw [mem_exchangeCalls] at hc
    subst hb
    refine ⟨hc.2.2.2.1, fun c' hc' hb' => ?_⟩
    rw [mem_exchangeCalls] at hc'
    rw [hc'.2.2.2.2.2.2.1, hc'.2.2.2.2.2.2.2, hc.2.2.2.2.1, hb', hsym, htag c.block]
    exact ⟨rfl, rfl⟩
  · intro a ha
    constructor
    · exact ⟨haloCall _ d a,
        (mem_exchangeCalls _ _).mpr ⟨h0, ha, rfl, rfl, rfl, rfl, rfl, rfl⟩, rfl, rfl⟩
    · refine ⟨haloCall _ (opposite d) a,
        (mem_exchangeCalls _ _).mpr ⟨?_, ha, rfl, rfl, rfl, rfl, rfl, rfl⟩, rfl, rfl⟩
      show 0 ≤ (layout W H _ P Px Py).neighbors (opposite d)
      rw [hsym]
      exact Int.natCast_nonneg r

/-! ### Bounce-back at fluid cells -/

theorem specBounce_chan {α : Type} (dim_x dim_y : Nat) (s : Fields α) (d : Neighbor) :
    chan (specBounce dim_x dim_y s) d = specBounceRule dim_x dim_y s d := by
  cases d <;> rfl

/-- A channel keeps its value at index `k` through a part of the sweep of `bounceBackStream`
when the iteration of `k`, if it belongs to that part, finds no barrier upstream. -/
theorem bounce_prefix_chan {α : Type} (d : Nat) (hd : 2 ≤ d) (L : List (Nat × Nat))
    (hL : ∀ q ∈ L, 1 ≤ q.1 ∧ 1 ≤ q.2) (s : Fields α) (c : Neighbor) (k : Nat)
    (h : ∀ q ∈ L, q.1 * d + q.2 = k →
      s.barrier ((upstream c q.2 q.1).2 * d + (upstream c q.2 q.1).1) = false) :
    chan (L.foldl (fun s (q : Nat × Nat) => bounceBackBody d q.1 q.2 s) s) c k = chan s c k := by
  have hb : ∀ (q : Nat × Nat) (s : Fields α), (bounceBackBody d q.1 q.2 s).barrier = s.barrier :=
    fun q s => bounceBackBody_barrier d q.1 q.2 s
  cases c <;> simp only [chan, upstream] at h ⊢
  · exact guarded_unchanged (fun (q : Nat × Nat) s => bounceBackBody d q.1 q.2 s)
      Fields.f_N Fields.f_S (fun q => q.1 * d + q.2) (fun q => (q.1 - 1) * d + q.2) L hb
      (fun q _ s => by dsimp only; rw [bounceBackBody_eq d q.1 q.2 hd s]) k s h
  · refine guarded_unchanged (fun (q : Nat × Nat) s => bounceBackBody d q.1 q.2 s)
      Fields.f_E Fields.f_W (fun q => q.1 * d + q.2) (fun q => q.1 * d + q.2 - 1) L hb
      (fun q _ s => by dsimp only; rw [bounceBackBody_eq d q.1 q.2 hd s]) k s ?_
    intro q hq e
    have := hL q hq
    rw [← h q hq e]
    dsimp only
    congr 1
    omega
  · exact guarded_unchanged (fun (q : Nat × Nat) s => bounceBackBody d q.1 q.2 s)
      Fields.f_S Fields.f_N (fun q => q.1 * d + q.2) (fun q => (q.1 + 1) * d + q.2) L hb
      (fun q _ s => by dsimp only; rw [bounceBackBody_eq d q.1 q.2 hd s]) k s h
  · exact guarded_unchanged (fun (q : Nat × Nat) s => bounceBackBody d q.1 q.2 s)
      Fields.f_W Fields.f_E (fun q => q.1 * d + q.2) (fun q => q.1 * d + q.2 + 1) L hb
      (fun q _ s => by dsimp only; rw [bounceBackBody_eq d q.1 q.2 hd s]) k s
      (fun q hq e => by rw [← h q hq e]; rfl)
  · refine guarded_unchanged (fun (q : Nat × Nat) s => bounceBackBody d q.1 q.2 s)
      Fields.f_NE Fields.f_SW (fun q => q.1 * d + q.2) (fun q => (q.1 - 1) * d + q.2 - 1) L hb
      (fun q _ s => by dsimp only; rw [bounceBackBody_eq d q.1 q.2 hd s]) k s ?_
    intro q hq e
    have := hL q hq
    rw [← h q hq e]
    dsimp only
    congr 1
    omega
  · exact guarded_unchanged (fun (q : Nat × Nat) s => bounceBackBody d q.1 q.2 s)
      Fields.f_NW Fields.f_SE (fun q => q.1 * d + q.2) (fun q => (q.1 - 1) * d + q.2 + 1) L hb
      (fun q _ s => by dsimp only; rw [bounceBackBody_eq d q.1 q.2 hd s]) k s
      (fun q hq e => by rw [← h q hq e]; rfl)
  · refine guarded_unchanged (fun (q : Nat × Nat) s => bounceBackBody d q.1 q.2 s)
      Fields.f_SE Fields.f_NW (fun q => q.1 * d + q.2) (fun q => (q.1 + 1) * d + q.2 - 1) L hb
      (fun q _ s => by dsimp only; rw [bounceBackBody_eq d q.1 q.2 hd s]) k s ?_
    intro q hq e
    have := hL q hq
    have f := (mul_facts d q.1 0).2.1
    rw [← h q hq e]
    dsimp only
    congr 1
    omega
  · exact guarded_unchanged (fun (q : Nat × Nat) s => bounceBackBody d q.1 q.2 s)
      Fields.f_SW Fields.f_NE (fun q => q.1 * d + q.2) (fun q => (q.1 + 1) * d + q.2 + 1) L hb
      (fun q _ s => by dsimp only; rw [bounceBackBody_eq d q.1 q.2 hd s]) k s
      (fun q hq e => by rw [← h q hq e]; rfl)

/-- C28 (bounce-back is order-independent at fluid cells): at an interior cell `(x, y)` that is
not a barrier, the eight directional channels after the in-place sweep of `bounceBackStream`
are those the eight rules give when applied simultaneously to the state before the call; and
whenever the iteration of an interior cell `(x, y)` starts, a value it may reflect (the
opposite channel of an upstream neighbour) can differ from the value before the call only if
`(x, y)` is itself a barrier. -/
theorem bounce_order_independent {α : Type} (dim_x dim_y : Nat) (s : Fields α) (x y : Nat)
    (h : isInterior dim_x dim_y x y) :
    (s.barrier (y * dim_x + x) = false →
      ∀ d, chan (bounceBackStream dim_x dim_y s) d (y * dim_x + x)
        = chan (specBounce dim_x dim_y s) d (y * dim_x + x)) ∧
    (∀ pre post d, loopNest (interior dim_y) (interior dim_x) = pre ++ (y, x) :: post →
      chan (runNest pre (bounceBackBody dim_x) s) (opposite d)
          ((upstream d x y).2 * dim_x + (upstream d x y).1)
        ≠ chan s (opposite d) ((upstream d x y).2 * dim_x + (upstream d x y).1) →
      s.barrier (y * dim_x + x) = true) := by
  have hx : x < dim_x := (interior_stored h).1
  constructor
  · intro hfluid d
    obtain ⟨h1, h2⟩ := rank_decomp dim_x y x hx
    rw [bounce_chan dim_x dim_y x y h s hfluid d, specBounce_chan]
    simp only [specBounceRule, h1, h2, h, true_and]
  · intro pre post d hL hne
    by_contra hb
    have hfluid : s.barrier (y * dim_x + x) = false := by simpa using hb
    refine hne ?_
    have hmem : ∀ q ∈ pre, q ∈ loopNest (interior dim_y) (interior dim_x) := by
      intro q hq
      rw [hL]
      exact List.mem_append_left _ hq
    have hq' : ∀ q ∈ pre, 1 ≤ q.1 ∧ 1 ≤ q.2 ∧ q.2 < dim_x := by
      intro q hq
      obtain ⟨m1, m2⟩ := mem_nest.mp (hmem q hq)
      rw [mem_interior] at m1 m2
      omega
    refine bounce_prefix_chan dim_x (by unfold isInterior at h; omega) pre
      (fun q hq => ⟨(hq' q hq).1, (hq' q hq).2.1⟩) s (opposite d) _ ?_
    intro q hq e
    obtain ⟨e1, e2⟩ := idx_inj (hq' q hq).2.2 (upstream_stored h d).1 e
    rw [e1, e2, upstream_opposite x y h.1 h.2.2.1 d]
    exact hfluid

/-- Witness for C28: the fluid cell `(1, 1)` of the `4 x 3` tile `fluidInput`, whose east
neighbour is a barrier. -/
theorem bounce_order_independent_witness :
    isInterior 4 3 1 1 ∧
    (fluidInput.barrier (1 * 4 + 1) = false →
      ∀ d, chan (bounceBackStream 4 3 fluidInput) d (1 * 4 + 1)
        = chan (specBounce 4 3 fluidInput) d (1 * 4 + 1)) ∧
    (∀ pre post d, loopNest (interior 3) (interior 4) = pre ++ (1, 1) :: post →
      chan (runNest pre (bounceBackBody 4) fluidInput) (opposite d)
          ((upstream d 1 1).2 * 4 + (upstream d 1 1).1)
        ≠ chan fluidInput (opposite d) ((upstream d 1 1).2 * 4 + (upstream d 1 1).1) →
      fluidInput.barrier (1 * 4 + 1) = true) :=
  ⟨by decide, bounce_order_independent 4 3 fluidInput 1 1 (by decide)⟩

/-! ### Receive and send regions -/

/-- One direction of the decomposition, for every grid the planner can return: the owned range
lies inside the stored extent, a chunk with a predecessor starts at 1, and a chunk with a
successor stores exactly one cell after its owned range. -/
theorem axis_facts (total n P c : Nat) (hP1 : P = 1 → n = 1) (hc : c < n) :
    tileStart c + tileSize total n c ≤ tileDim total n P c ∧
    (0 < c → tileStart c = 1) ∧
    (c + 1 < n → tileDim total n P c = tileSize total n c + tileStart c + 1) := by
  unfold tileDim tileStart
  refine ⟨?_, ?_, ?_⟩
  · split_ifs <;> omega
  · intro h
    rw [if_neg (by omega)]
  · intro h
    split_ifs <;> omega

/-- Start flags and stored extents of the tile at row `a`, column `b` of any grid of ranks. -/
theorem grid_facts (W H P Px Py a b : Nat) (hmul : Px * Py = P) (ha : a < Py) (hb : b < Px) :
    ((layout W H (a * Px + b) P Px Py).start_x + (layout W H (a * Px + b) P Px Py).num_x
        ≤ (layout W H (a * Px + b) P Px Py).dim_x ∧
      (0 < b → (layout W H (a * Px + b) P Px Py).start_x = 1) ∧
      (b + 1 < Px → (layout W H (a * Px + b) P Px Py).dim_x
        = (layout W H (a * Px + b) P Px Py).num_x
          + (layout W H (a * Px + b) P Px Py).start_x + 1)) ∧
    ((layout W H (a * Px + b) P Px Py).start_y + (layout W H (a * Px + b) P Px Py).num_y
        ≤ (layout W H (a * Px + b) P Px Py).dim_y ∧
      (0 < a → (layout W H (a * Px + b) P Px Py).start_y = 1) ∧
      (a + 1 < Py → (layout W H (a * Px + b) P Px Py).dim_y
        = (layout W H (a * Px + b) P Px Py).num_y
          + (layout W H (a * Px + b) P Px Py).start_y + 1)) := by
  obtain ⟨x1, -, x3, x4⟩ := layout_x W H P Px Py a b hb
  obtain ⟨y1, -, y3, y4⟩ := layout_y W H P Px Py a b hb
  rw [x1, x3, x4, y1, y3, y4]
  have hPx1 : P = 1 → Px = 1 := fun h => Nat.dvd_one.mp ⟨Py, by rw [hmul, h]⟩
  have hPy1 : P = 1 → Py = 1 := fun h => Nat.dvd_one.mp ⟨Px, by rw [Nat.mul_comm, hmul, h]⟩
  exact ⟨axis_facts W Px P b hPx1 hb, axis_facts H Py P a hPy1 ha⟩

/-- A stored cell of the receive region of an existing neighbour lies in the zone of the tile
that the direction names, and inside the stored array. -/
theorem recv_zone (g : Geometry) (Px Py a b : Nat) (hnx : 1 ≤ g.num_x) (hny : 1 ≤ g.num_y)
    (fx : g.start_x + g.num_x ≤ g.dim_x ∧ (0 < b → g.start_x = 1) ∧
      (b + 1 < Px → g.dim_x = g.num_x + g.start_x + 1))
    (fy : g.start_y + g.num_y ≤ g.dim_y ∧ (0 < a → g.start_y = 1) ∧
      (a + 1 < Py → g.dim_y = g.num_y + g.start_y + 1))
    (d : Neighbor) (hd : hasNeighbor Px Py a b d) (x y : Nat) (hc : recvCell g d x y) :
    x < g.dim_x ∧ y < g.dim_y ∧
    (zone g.start_x g.num_x x, zone g.start_y g.num_y y) = specNeighborOffset d := by
  obtain ⟨fx1, fx2, fx3⟩ := fx
  obtain ⟨fy1, fy2, fy3⟩ := fy
  cases d <;> simp only [hasNeighbor] at hd <;> simp only [recvCell] at hc <;>
    simp only [specNeighborOffset, zone, Prod.mk.injEq]
  · have := fy3 hd
    refine ⟨by omega, by omega, ?_, ?_⟩ <;> split_ifs <;> first | rfl | omega
  · have := fx3 hd
    refine ⟨by omega, by omega, ?_, ?_⟩ <;> split_ifs <;> first | rfl | omega
  · have := fy2 hd
    refine ⟨by omega, by omega, ?_, ?_⟩ <;> split_ifs <;> first | rfl | omega
  · have := fx2 hd
    refine ⟨by omega, by omega, ?_, ?_⟩ <;> split_ifs <;> first | rfl | omega
  · have := fy3 hd.1
    have := fx3 hd.2
    refine ⟨by omega, by omega, ?_, ?_⟩ <;> split_ifs <;> first | rfl | omega
  · have := fy3 hd.1
    have := fx2 hd.2
    refine ⟨by omega, by omega, ?_, ?_⟩ <;> split_ifs <;> first | rfl | omega
  · have := fy2 hd.1
    have := fx3 hd.2
    refine ⟨by omega, by omega, ?_, ?_⟩ <;> split_ifs <;> first | rfl | omega
  · have := fy2 hd.1
    have := fx2 hd.2
    refine ⟨by omega, by omega, ?_, ?_⟩ <;> split_ifs <;> first | rfl | omega

/-- An owned cell lies in the zone `(0, 0)`. -/
theorem owned_zone (g : Geometry) (k : Nat) :
    ownedIndex g k ↔
      (zone g.start_x g.num_x (k % g.dim_x), zone g.start_y g.num_y (k / g.dim_x)) = (0, 0) := by
  simp only [ownedIndex, zone, Prod.mk.injEq]
  constructor
  · rintro ⟨h1, h2, h3, h4⟩
    rw [if_neg (by omega), if_pos h2, if_neg (by omega), if_pos h4]
    exact ⟨rfl, rfl⟩
  · rintro ⟨h1, h2⟩
    split_ifs at h1 h2 <;> omega

/-- A cell of the receive region of an existing neighbour of a rank of the constructor, with
non-empty tiles: it is a stored cell in the zone the direction names. -/
theorem recvRegion_zone (W H P Px Py a b : Nat) (hmul : Px * Py = P)
    (hsx : ∀ c, c < Px → 1 ≤ tileSize W Px c) (hsy : ∀ c, c < Py → 1 ≤ tileSize H Py c)
    (ha : a < Py) (hb : b < Px) (d : Neighbor)
    (h0 : 0 ≤ (layout W H (a * Px + b) P Px Py).neighbors d) (k : Nat)
    (hk : k ∈ recvRegion (layout W H (a * Px + b) P Px Py) d) :
    k < (layout W H (a * Px + b) P Px Py).dim_x * (layout W H (a * Px + b) P Px Py).dim_y ∧
    (zone (layout W H (a * Px + b) P Px Py).start_x (layout W H (a * Px + b) P Px Py).num_x
        (k % (layout W H (a * Px + b) P Px Py).dim_x),
      zone (layout W H (a * Px + b) P Px Py).start_y (layout W H (a * Px + b) P Px Py).num_y
        (k / (layout W H (a * Px + b) P Px Py).dim_x)) = specNeighborOffset d := by
  obtain ⟨fx, fy⟩ := grid_facts W H P Px Py a b hmul ha hb
  have hnx : 1 ≤ (layout W H (a * Px + b) P Px Py).num_x := by
    rw [(layout_x W H P Px Py a b hb).1]; exact hsx b hb
  have hny : 1 ≤ (layout W H (a * Px + b) P Px Py).num_y := by
    rw [(layout_y W H P Px Py a b hb).1]; exact hsy a ha
  have hd := (active_iff W H P Px Py a b ha hb d).mp h0
  have hdx : 0 < (layout W H (a * Px + b) P Px Py).dim_x := by have := fx.1; omega
  have hx := Nat.mod_lt k hdx
  have hkk : k = (k / (layout W H (a * Px + b) P Px Py).dim_x)
      * (layout W H (a * Px + b) P Px Py).dim_x
      + k % (layout W H (a * Px + b) P Px Py).dim_x := by
    rw [Nat.mul_comm]; exact (Nat.div_add_mod k _).symm
  rw [hkk, mem_recvRegion W H P Px Py (a * Px + b) d _ _ hx fx.1] at hk
  obtain ⟨z1, z2, z3⟩ := recv_zone _ Px Py a b hnx hny fx fy d hd _ _ hk
  refine ⟨?_, z3⟩
  have := (mul_facts (layout W H (a * Px + b) P Px Py).dim_x
    (k / (layout W H (a * Px + b) P Px Py).dim_x)
    (layout W H (a * Px + b) P Px Py).dim_y).2.2 z2
  rw [Nat.mul_comm (layout W H (a * Px + b) P Px Py).dim_x]
  omega

/-- The exchange never writes `vorticity`, `speed` or `barrier`, whatever arrives. -/
theorem exchange_fixed {α : Type} (g : Geometry) (inbox : Neighbor → HaloMsg α)
    (s : Fields α) :
    (exchangeBoundaries g inbox s).vorticity = s.vorticity ∧
    (exchangeBoundaries g inbox s).speed = s.speed ∧
    (exchangeBoundaries g inbox s).barrier = s.barrier := by
  unfold exchangeBoundaries
  generalize [Neighbor.NeighborN, .NeighborE, .NeighborS, .NeighborW, .NeighborNE,
    .NeighborNW, .NeighborSE, .NeighborSW] = L
  induction L generalizing s with
  | nil => exact ⟨rfl, rfl, rfl⟩
  | cons d L ih =>
    rw [List.foldl_cons]
    obtain ⟨h1, h2, h3⟩ := ih (if 0 ≤ g.neighbors d then recvHalo g d (inbox d) s else s)
    rw [h1, h2, h3]
    split_ifs
    · exact ⟨rfl, rfl, rfl⟩
    · exact ⟨rfl, rfl, rfl⟩

/-- A cell a rank sends to an existing neighbour is one of its owned cells. -/
theorem sendRegion_owned (W H P Px Py : Nat) (hPy : 0 < Py) (hle : Py ≤ Px)
    (hmul : Px * Py = P) (hsx : ∀ c, c < Px → 1 ≤ tileSize W Px c)
    (hsy : ∀ c, c < Py → 1 ≤ tileSize H Py c) (r : Nat) (hr : r < P) (d : Neighbor)
    (h0 : 0 ≤ (layout W H r P Px Py).neighbors d) (k : Nat)
    (hk : k ∈ sendRegion (layout W H r P Px Py) d) : ownedIndex (layout W H r P Px Py) k := by
  have hPx : 0 < Px := by omega
  obtain ⟨hn, hsym⟩ := neighbors_layout_symm W H P Px Py hPx hmul r hr d _ rfl h0
  generalize hnn : ((layout W H r P Px Py).neighbors d).toNat = n at hsym
  have hnP : n < P := by
    have := Int.toNat_of_nonneg h0
    rw [hnn] at this
    omega
  obtain ⟨a', b', hb', ha', rfl⟩ : ∃ a b, b < Px ∧ a < Py ∧ n = a * Px + b :=
    ⟨n / Px, n % Px, Nat.mod_lt n hPx, rank_row_lt Px Py n (by rw [hmul]; exact hnP),
      by rw [Nat.mul_comm]; exact (Nat.div_add_mod n Px).symm⟩
  have h0' : 0 ≤ (layout W H (a' * Px + b') P Px Py).neighbors (opposite d) := by
    rw [hsym]; exact Int.natCast_nonneg r
  obtain ⟨-, h2, -⟩ := halo_layout W H P Px Py hPy hle hmul hsx hsy a' b' ha' hb'
    (opposite d) h0'
  rw [hsym, Int.toNat_natCast, opposite_opposite] at h2
  exact h2 k hk

/-- C29 (the exchange never overwrites owned data): with non-empty tiles, for every rank and
every call of `MPI_Sendrecv` that `exchangeBoundaries` issues (one block of twelve calls per
existing neighbour), the receive buffer lies inside the stored array and outside the owned
rectangle and the send buffer lies inside the owned rectangle; the receive buffers of calls of
different blocks are disjoint; and `vorticity`, `speed` and `barrier` are not touched, whatever
the messages hold. -/
theorem exchange_regions (W H P : Nat)
    (hne : ∀ q g, q < P → create W H q P = some g → 1 ≤ g.num_x ∧ 1 ≤ g.num_y)
    (r : Nat) (hr : r < P) (g : Geometry) (hg : create W H r P = some g) :
    (∀ c ∈ exchangeCalls g,
      (∀ k ∈ c.recvbuf, k < g.dim_x * g.dim_y ∧ ¬ ownedIndex g k) ∧
      (∀ k ∈ c.sendbuf, ownedIndex g k)) ∧
    (∀ c ∈ exchangeCalls g, ∀ c' ∈ exchangeCalls g, c.block ≠ c'.block →
      ∀ k ∈ c.recvbuf, k ∉ c'.recvbuf) ∧
    (∀ (α : Type) (inbox : Neighbor → HaloMsg α) (s : Fields α),
      (exchangeBoundaries g inbox s).vorticity = s.vorticity ∧
      (exchangeBoundaries g inbox s).speed = s.speed ∧
      (exchangeBoundaries g inbox s).barrier = s.barrier) := by
  obtain ⟨Px, Py, hget, hPx, hPy, hmul, hle, hcreate, hdec⟩ := create_layout P (by omega)
  rw [hcreate] at hg
  obtain rfl := Option.some.inj hg
  obtain ⟨hsx, hsy⟩ := tiles_nonempty W H P Px Py hPx hPy hmul
    (fun q hq => hne q _ hq (hcreate W H q))
  obtain ⟨hb, ha, hrr⟩ := hdec r hr
  have hz := fun d h0 k hk =>
    recvRegion_zone W H P Px Py (r / Px) (r % Px) hmul hsx hsy ha hb d h0 k hk
  rw [← hrr] at hz
  refine ⟨fun c hc => ?_, fun c hc c' hc' hne' k hk hk' => ?_,
    fun α inbox s => exchange_fixed _ inbox s⟩
  · rw [mem_exchangeCalls] at hc
    obtain ⟨h0, -, hs, -, -, hrcv, -, -⟩ := hc
    rw [hs, hrcv]
    refine ⟨fun k hk => ?_, fun k hk =>
      sendRegion_owned W H P Px Py hPy hle hmul hsx hsy r hr c.block h0 k hk⟩
    obtain ⟨z1, z2⟩ := hz c.block h0 k hk
    refine ⟨z1, fun ho => ?_⟩
    rw [owned_zone, z2] at ho
    revert ho
    cases c.block <;> decide
  · rw [mem_exchangeCalls] at hc hc'
    rw [hc.2.2.2.2.2.1] at hk
    rw [hc'.2.2.2.2.2.1] at hk'
    have z := (hz c.block hc.1 k hk).2
    rw [(hz c'.block hc'.1 k hk').2] at z
    revert z hne'
    cases c.block <;> cases c'.block <;> decide

/-- Witness for C29: `W = 16`, `H = 8`, `P = 2`, rank 0. -/
theorem exchange_regions_witness :
    ((∀ q g, q < 2 → create 16 8 q 2 = some g → 1 ≤ g.num_x ∧ 1 ≤ g.num_y) ∧ 0 < 2 ∧
      create 16 8 0 2 = some (layout 16 8 0 2 2 1)) ∧
    (∀ c ∈ exchangeCalls (layout 16 8 0 2 2 1),
      (∀ k ∈ c.recvbuf, k < (layout 16 8 0 2 2 1).dim_x * (layout 16 8 0 2 2 1).dim_y ∧
        ¬ ownedIndex (layout 16 8 0 2 2 1) k) ∧
      (∀ k ∈ c.sendbuf, ownedIndex (layout 16 8 0 2 2 1) k)) ∧
    (∀ c ∈ exchangeCalls (layout 16 8 0 2 2 1), ∀ c' ∈ exchangeCalls (layout 16 8 0 2 2 1),
      c.block ≠ c'.block → ∀ k ∈ c.recvbuf, k ∉ c'.recvbuf) ∧
    (∀ (α : Type) (inbox : Neighbor → HaloMsg α) (s : Fields α),
      (exchangeBoundaries (layout 16 8 0 2 2 1) inbox s).vorticity = s.vorticity ∧
      (exchangeBoundaries (layout 16 8 0 2 2 1) inbox s).speed = s.speed ∧
      (exchangeBoundaries (layout 16 8 0 2 2 1) inbox s).barrier = s.barrier) :=
  have hne : ∀ q g, q < 2 → create 16 8 q 2 = some g → 1 ≤ g.num_x ∧ 1 ≤ g.num_y := by
    intro q g hq hg
    rw [create_two] at hg
    obtain rfl := Option.some.inj hg
    have hq' : q = 0 ∨ q = 1 := by omega
    rcases hq' with rfl | rfl <;> decide
  ⟨⟨hne, by decide, create_two 16 8 0⟩,
    exchange_regions 16 8 2 hne 0 (by decide) _ (create_two 16 8 0)⟩

/-- The exchange leaves every array untouched at an index that lies in no receive region of an
existing neighbour, whatever arrives. -/
theorem exchange_frame {α : Type} (g : Geometry) (inbox : Neighbor → HaloMsg α)
    (s : Fields α) (k : Nat) (hk : ∀ d, 0 ≤ g.neighbors d → k ∉ recvRegion g d) :
    agreeAt (exchangeBoundaries g inbox s) s k := by
  unfold exchangeBoundaries
  refine foldl_agree_of_ne (fun (d : Neighbor) (s : Fields α) =>
    if 0 ≤ g.neighbors d then recvHalo g d (inbox d) s else s) k _ ?_ s
  intro d _ t
  dsimp only
  split_ifs with h0
  · exact recvHalo_frame g d (inbox d) t k (hk d h0)
  · exact agreeAt_refl t k

/-- Halo coverage on a proper grid (at least two rows of ranks, non-empty tiles): every stored
cell that is not owned lies in the receive region of exactly one existing neighbour. -/
theorem halo_coverage_proper (W H P Px Py : Nat) (hp : properGrid W H P Px Py) (r : Nat)
    (hr : r < P) (x y : Nat) (hx : x < (layout W H r P Px Py).dim_x)
    (hy : y < (layout W H r P Px Py).dim_y)
    (ho : ¬ ownedIndex (layout W H r P Px Py) (y * (layout W H r P Px Py).dim_x + x)) :
    ∃! d, 0 ≤ (layout W H r P Px Py).neighbors d ∧
      y * (layout W H r P Px Py).dim_x + x ∈ recvRegion (layout W H r P Px Py) d := by
  have hp' := hp
  obtain ⟨hPy, hle, hmul, hsx, hsy⟩ := hp
  have hPx : 0 < Px := by omega
  obtain ⟨a, b, hb, ha, rfl⟩ : ∃ a b, b < Px ∧ a < Py ∧ r = a * Px + b :=
    ⟨r / Px, r % Px, Nat.mod_lt r hPx, rank_row_lt Px Py r (by rw [hmul]; exact hr),
      by rw [Nat.mul_comm]; exact (Nat.div_add_mod r Px).symm⟩
  obtain ⟨d, hd0, hdk⟩ := (recv_covers W H P Px Py a b hp' ha hb x y hx hy).2 ho
  refine ⟨d, ⟨hd0, hdk⟩, fun d' hd' => ?_⟩
  have z := (recvRegion_zone W H P Px Py a b hmul hsx hsy ha hb d hd0 _ hdk).2
  rw [(recvRegion_zone W H P Px Py a b hmul hsx hsy ha hb d' hd'.1 _ hd'.2).2] at z
  revert z
  cases d <;> cases d' <;> decide

/-- C25 at `W = 16`, `H = 8`, `P = 2`, rank 0 (tiles of `8 x 8` cells): the constructor stores
nine rows; the cell `(0, 8)` of the ninth row is a stored cell that is not owned, its global
row is 8, which no rank owns, no call of `exchangeBoundaries` receives into it, and the
exchange leaves every array as it was there, whatever arrives. -/
theorem halo_coverage_two_ranks :
    create 16 8 0 2 = some (layout 16 8 0 2 2 1) ∧
    (∀ q g, q < 2 → create 16 8 q 2 = some g → 1 ≤ g.num_x ∧ 1 ≤ g.num_y) ∧
    0 < (layout 16 8 0 2 2 1).dim_x ∧ 8 < (layout 16 8 0 2 2 1).dim_y ∧
    ¬ ownedIndex (layout 16 8 0 2 2 1) (8 * (layout 16 8 0 2 2 1).dim_x + 0) ∧
    globalCell (layout 16 8 0 2 2 1) (8 * (layout 16 8 0 2 2 1).dim_x + 0) = (0, 8) ∧
    (∀ c ∈ exchangeCalls (layout 16 8 0 2 2 1),
      8 * (layout 16 8 0 2 2 1).dim_x + 0 ∉ c.recvbuf) ∧
    (∀ (α : Type) (inbox : Neighbor → HaloMsg α) (s : Fields α),
      agreeAt (exchangeBoundaries (layout 16 8 0 2 2 1) inbox s) s
        (8 * (layout 16 8 0 2 2 1).dim_x + 0)) := by
  have hne : ∀ q g, q < 2 → create 16 8 q 2 = some g → 1 ≤ g.num_x ∧ 1 ≤ g.num_y := by
    intro q g hq hg
    rw [create_two] at hg
    obtain rfl := Option.some.inj hg
    have hq' : q = 0 ∨ q = 1 := by omega
    rcases hq' with rfl | rfl <;> decide
  have hfree : ∀ d, 0 ≤ (layout 16 8 0 2 2 1).neighbors d →
      8 * (layout 16 8 0 2 2 1).dim_x + 0 ∉ recvRegion (layout 16 8 0 2 2 1) d := by
    intro d h0 hk
    obtain ⟨hsx, hsy⟩ := tiles_nonempty 16 8 2 2 1 (by decide) (by decide) rfl
      (fun q hq => hne q _ hq (create_two 16 8 q))
    have z := (recvRegion_zone 16 8 2 2 1 0 0 rfl hsx hsy (by decide) (by decide) d h0 _ hk).2
    revert z h0
    cases d <;> decide
  refine ⟨create_two 16 8 0, hne, by decide, by decide, by decide, by decide, ?_, ?_⟩
  · intro c hc
    rw [mem_exchangeCalls] at hc
    rw [hc.2.2.2.2.2.1]
    exact hfree c.block hc.1
  · intro α inbox s
    exact exchange_frame _ inbox s _ hfree

/-! ### Per-rank tables and tile sizes -/

/-- C31 (per-rank tables): for `P ≥ 1` and all ranks `q` and `i`, the entries the constructor
run on rank `q` stores for rank `i`, `rank_local_size[2i]`, `rank_local_size[2i+1]`,
`rank_local_start[2i]` and `rank_local_start[2i+1]`, are the `num_x`, `num_y`, `start_x` and
`start_y` the constructor run on rank `i` computes for itself; the tables are therefore the
same on every rank. -/
theorem rank_tables_agree (W H P : Nat) (hP : 1 ≤ P) (q i : Nat) :
    ∃ gq gi, create W H q P = some gq ∧ create W H i P = some gi ∧
      gq.rank_local_size (2 * i) = gi.num_x ∧ gq.rank_local_size (2 * i + 1) = gi.num_y ∧
      gq.rank_local_start (2 * i) = gi.start_x ∧ gq.rank_local_start (2 * i + 1) = gi.start_y ∧
      ∀ q' gq', create W H q' P = some gq' →
        gq'.rank_local_size (2 * i) = gq.rank_local_size (2 * i) ∧
        gq'.rank_local_size (2 * i + 1) = gq.rank_local_size (2 * i + 1) ∧
        gq'.rank_local_start (2 * i) = gq.rank_local_start (2 * i) ∧
        gq'.rank_local_start (2 * i + 1) = gq.rank_local_start (2 * i + 1) := by
  obtain ⟨Px, Py, -, -, -, -, -, hcreate, -⟩ := create_layout P hP
  have e1 : 2 * i / 2 = i := by omega
  have e2 : 2 * i % 2 = 0 := by omega
  have e3 : (2 * i + 1) / 2 = i := by omega
  have e4 : (2 * i + 1) % 2 = 1 := by omega
  refine ⟨_, _, hcreate W H q, hcreate W H i, ?_, ?_, ?_, ?_, ?_⟩
  · simp only [layout, e1, e2, if_true]
  · simp only [layout, e3, e4, if_false, Nat.one_ne_zero]
  · simp only [layout, e1, e2, if_true]
  · simp only [layout, e3, e4, if_false, Nat.one_ne_zero]
  · intro q' gq' hq'
    rw [hcreate] at hq'
    obtain rfl := Option.some.inj hq'
    exact ⟨rfl, rfl, rfl, rfl⟩

/-- Witness for C31: `W = 16`, `H = 8`, `P = 4`, the entries rank 0 stores for rank 3. -/
theorem rank_tables_agree_witness :
    1 ≤ 4 ∧
    ∃ gq gi, create 16 8 0 4 = some gq ∧ create 16 8 3 4 = some gi ∧
      gq.rank_local_size (2 * 3) = gi.num_x ∧ gq.rank_local_size (2 * 3 + 1) = gi.num_y ∧
      gq.rank_local_start (2 * 3) = gi.start_x ∧ gq.rank_local_start (2 * 3 + 1) = gi.start_y ∧
      ∀ q' gq', create 16 8 q' 4 = some gq' →
        gq'.rank_local_size (2 * 3) = gq.rank_local_size (2 * 3) ∧
        gq'.rank_local_size (2 * 3 + 1) = gq.rank_local_size (2 * 3 + 1) ∧
        gq'.rank_local_start (2 * 3) = gq.rank_local_start (2 * 3) ∧
        gq'.rank_local_start (2 * 3 + 1) = gq.rank_local_start (2 * 3 + 1) :=
  ⟨by decide, rank_tables_agree 16 8 4 (by decide) 0 3⟩

/-- C35 (no empty tile under the coverage precondition): for `P ≥ 1` with `P ≤ W` and `P ≤ H`
the planner returns `Px`, `Py` with `Px ≤ P ≤ W` and `Py ≤ P ≤ H`, and every rank has
`num_x ≥ 1`, `num_y ≥ 1`, hence `dim_x ≥ 1` and `dim_y ≥ 1`. -/
theorem no_empty_tile (W H P : Nat) (hP : 1 ≤ P) (hW : P ≤ W) (hH : P ≤ H) (r : Nat) :
    ∃ Px Py g, getClosestFactors2 P = some (Px, Py) ∧ Px ≤ P ∧ Py ≤ P ∧
      create W H r P = some g ∧ 1 ≤ g.num_x ∧ 1 ≤ g.num_y ∧ 1 ≤ g.dim_x ∧ 1 ≤ g.dim_y := by
  obtain ⟨Px, Py, hget, hPx, hPy, hmul, -, hcreate, -⟩ := create_layout P hP
  have hPxP : Px ≤ P := by rw [← hmul]; exact Nat.le_mul_of_pos_right Px hPy
  have hPyP : Py ≤ P := by rw [← hmul]; exact Nat.le_mul_of_pos_left Py hPx
  have hr : r = r / Px * Px + r % Px := by rw [Nat.mul_comm]; exact (Nat.div_add_mod r Px).symm
  have hb := Nat.mod_lt r hPx
  obtain ⟨x1, -, -, x4⟩ := layout_x W H P Px Py (r / Px) (r % Px) hb
  obtain ⟨y1, -, -, y4⟩ := layout_y W H P Px Py (r / Px) (r % Px) hb
  rw [← hr] at x1 x4 y1 y4
  have hw : 1 ≤ W / Px := Nat.div_pos (by omega) hPx
  have hh : 1 ≤ H / Py := Nat.div_pos (by omega) hPy
  refine ⟨Px, Py, _, hget, hPxP, hPyP, hcreate W H r, ?_, ?_, ?_, ?_⟩
  · rw [x1]; unfold tileSize; omega
  · rw [y1]; unfold tileSize; omega
  · rw [x4]; unfold tileDim tileSize; omega
  · rw [y4]; unfold tileDim tileSize; omega

/-- Witness for C35: `W = 16`, `H = 8`, `P = 6`, rank 5. -/
theorem no_empty_tile_witness :
    (1 ≤ 6 ∧ 6 ≤ 16 ∧ 6 ≤ 8) ∧
    ∃ Px Py g, getClosestFactors2 6 = some (Px, Py) ∧ Px ≤ 6 ∧ Py ≤ 6 ∧
      create 16 8 5 6 = some g ∧ 1 ≤ g.num_x ∧ 1 ≤ g.num_y ∧ 1 ≤ g.dim_x ∧ 1 ≤ g.dim_y :=
  ⟨by decide, no_empty_tile 16 8 6 (by decide) (by decide) (by decide) 5⟩

/-! ### Momentum in `collide` -/

/-- C32 (`collide` conserves momentum per cell): at an interior cell whose nine pre-collision
channels sum to `rho ≠ 0`, for every viscosity, the x-momentum
`f_E + f_NE + f_SE - f_W - f_NW - f_SW` and the y-momentum
`f_N + f_NE + f_NW - f_S - f_SE - f_SW` after `collide` equal their values before, and equal
`density * velocity_x` and `density * velocity_y` as `collide` stores them. -/
theorem collide_momentum (dim_x dim_y x y : Nat) (h : isInterior dim_x dim_y x y)
    (viscosity : K) (s : Fields K)
    (hρ : s.f_0 (y * dim_x + x) + s.f_N (y * dim_x + x) + s.f_S (y * dim_x + x)
      + s.f_E (y * dim_x + x) + s.f_W (y * dim_x + x) + s.f_NW (y * dim_x + x)
      + s.f_NE (y * dim_x + x) + s.f_SW (y * dim_x + x) + s.f_SE (y * dim_x + x) ≠ 0) :
    ((collide dim_x dim_y viscosity s).f_E (y * dim_x + x)
        + (collide dim_x dim_y viscosity s).f_NE (y * dim_x + x)
        + (collide dim_x dim_y viscosity s).f_SE (y * dim_x + x)
        - (collide dim_x dim_y viscosity s).f_W (y * dim_x + x)
        - (collide dim_x dim_y viscosity s).f_NW (y * dim_x + x)
        - (collide dim_x dim_y viscosity s).f_SW (y * dim_x + x)
      = s.f_E (y * dim_x + x) + s.f_NE (y * dim_x + x) + s.f_SE (y * dim_x + x)
        - s.f_W (y * dim_x + x) - s.f_NW (y * dim_x + x) - s.f_SW (y * dim_x + x)) ∧
    ((collide dim_x dim_y viscosity s).f_N (y * dim_x + x)
        + (collide dim_x dim_y viscosity s).f_NE (y * dim_x + x)
        + (collide dim_x dim_y viscosity s).f_NW (y * dim_x + x)
        - (collide dim_x dim_y viscosity s).f_S (y * dim_x + x)
        - (collide dim_x dim_y viscosity s).f_SE (y * dim_x + x)
        - (collide dim_x dim_y viscosity s).f_SW (y * dim_x + x)
      = s.f_N (y * dim_x + x) + s.f_NE (y * dim_x + x) + s.f_NW (y * dim_x + x)
        - s.f_S (y * dim_x + x) - s.f_SE (y * dim_x + x) - s.f_SW (y * dim_x + x)) ∧
    ((collide dim_x dim_y viscosity s).density (y * dim_x + x)
        * (collide dim_x dim_y viscosity s).velocity_x (y * dim_x + x)
      = s.f_E (y * dim_x + x) + s.f_NE (y * dim_x + x) + s.f_SE (y * dim_x + x)
        - s.f_W (y * dim_x + x) - s.f_NW (y * dim_x + x) - s.f_SW (y * dim_x + x)) ∧
    ((collide dim_x dim_y viscosity s).density (y * dim_x + x)
        * (collide dim_x dim_y viscosity s).velocity_y (y * dim_x + x)
      = s.f_N (y * dim_x + x) + s.f_NE (y * dim_x + x) + s.f_NW (y * dim_x + x)
        - s.f_S (y * dim_x + x) - s.f_SE (y * dim_x + x) - s.f_SW (y * dim_x + x)) := by
  obtain ⟨-, aN, aE, aS, aW, aNE, aNW, aSE, aSW, aρ, au, av, -⟩ :=
    collide_agree dim_x dim_y x y h viscosity s
  obtain ⟨vρ, vu, vv, -, vE, vW, vN, vS, vNE, vSE, vNW, vSW⟩ :=
    collideCell_values (1.0 / (3.0 * viscosity + 0.5)) (y * dim_x + x) s _ _ _ rfl rfl rfl
  rw [aN, aE, aS, aW, aNE, aNW, aSE, aSW, aρ, au, av, vρ, vu, vv, vE, vW, vN, vS, vNE, vSE,
    vNW, vSW]
  generalize 1.0 / (3.0 * viscosity + 0.5) = ω
  generalize s.f_0 (y * dim_x + x) + s.f_N (y * dim_x + x) + s.f_S (y * dim_x + x)
    + s.f_E (y * dim_x + x) + s.f_W (y * dim_x + x) + s.f_NW (y * dim_x + x)
    + s.f_NE (y * dim_x + x) + s.f_SW (y * dim_x + x) + s.f_SE (y * dim_x + x) = ρ at hρ ⊢
  generalize hmx : s.f_E (y * dim_x + x) + s.f_NE (y * dim_x + x) + s.f_SE (y * dim_x + x)
    - s.f_W (y * dim_x + x) - s.f_NW (y * dim_x + x) - s.f_SW (y * dim_x + x) = mx
  generalize hmy : s.f_N (y * dim_x + x) + s.f_NE (y * dim_x + x) + s.f_NW (y * dim_x + x)
    - s.f_S (y * dim_x + x) - s.f_SE (y * dim_x + x) - s.f_SW (y * dim_x + x) = my
  have hx : ρ * (mx / ρ) = mx := mul_div_cancel₀ mx hρ
  have hy : ρ * (my / ρ) = my := mul_div_cancel₀ my hρ
  generalize mx / ρ = u at hx ⊢
  generalize my / ρ = v at hy ⊢
  refine ⟨?_, ?_, hx, hy⟩
  · norm_num
    linear_combination ω * hx + (1 - ω) * hmx
  · norm_num
    linear_combination ω * hy + (1 - ω) * hmy

/-- Witness for C32: the interior cell of a `3 x 3` tile all of whose arrays hold 1, with
viscosity `1/50`. -/
theorem collide_momentum_witness :
    (isInterior 3 3 1 1 ∧
      (uniformFields (1 : ℚ) false).f_0 (1 * 3 + 1) + (uniformFields (1 : ℚ) false).f_N (1 * 3 + 1)
        + (uniformFields (1 : ℚ) false).f_S (1 * 3 + 1)
        + (uniformFields (1 : ℚ) false).f_E (1 * 3 + 1)
        + (uniformFields (1 : ℚ) false).f_W (1 * 3 + 1)
        + (uniformFields (1 : ℚ) false).f_NW (1 * 3 + 1)
        + (uniformFields (1 : ℚ) false).f_NE (1 * 3 + 1)
        + (uniformFields (1 : ℚ) false).f_SW (1 * 3 + 1)
        + (uniformFields (1 : ℚ) false).f_SE (1 * 3 + 1) ≠ 0) ∧
    (collide 3 3 (1 / 50) (uniformFields (1 : ℚ) false)).density (1 * 3 + 1)
        * (collide 3 3 (1 / 50) (uniformFields (1 : ℚ) false)).velocity_x (1 * 3 + 1)
      = (uniformFields (1 : ℚ) false).f_E (1 * 3 + 1)
        + (uniformFields (1 : ℚ) false).f_NE (1 * 3 + 1)
        + (uniformFields (1 : ℚ) false).f_SE (1 * 3 + 1)
        - (uniformFields (1 : ℚ) false).f_W (1 * 3 + 1)
        - (uniformFields (1 : ℚ) false).f_NW (1 * 3 + 1)
        - (uniformFields (1 : ℚ) false).f_SW (1 * 3 + 1) :=
  ⟨⟨by decide, by norm_num [uniformFields]⟩,
    (collide_momentum 3 3 1 1 (by decide) (1 / 50) (uniformFields (1 : ℚ) false)
      (by norm_num [uniformFields])).2.2.1⟩

/-! ### Barrier masks across ranks -/

/-- The shift `initBarrier` subtracts, for every rank of a non-empty grid. -/
theorem barrier_shift_rank (W H P Px Py r : Nat) (hW : 1 ≤ W) (hH : 1 ≤ H) (hPx : 0 < Px)
    (hPy : 0 < Py) :
    (if (layout W H r P Px Py).offset_x = 0 then (0 : Int)
      else ((layout W H r P Px Py).offset_x : Int) - 1)
        = ((layout W H r P Px Py).offset_x : Int) - ((layout W H r P Px Py).start_x : Int) ∧
    (if (layout W H r P Px Py).offset_y = 0 then (0 : Int)
      else ((layout W H r P Px Py).offset_y : Int) - 1)
        = ((layout W H r P Px Py).offset_y : Int) - ((layout W H r P Px Py).start_y : Int) := by
  have hr : r = r / Px * Px + r % Px := by rw [Nat.mul_comm]; exact (Nat.div_add_mod r Px).symm
  have hb := Nat.mod_lt r hPx
  obtain ⟨-, x2, x3, -⟩ := layout_x W H P Px Py (r / Px) (r % Px) hb
  obtain ⟨-, y2, y3, -⟩ := layout_y W H P Px Py (r / Px) (r % Px) hb
  rw [← hr] at x2 x3 y2 y3
  rw [x2, x3, y2, y3]
  exact ⟨barrier_shift W Px _ hW hPx, barrier_shift H Py _ hH hPy⟩

/-- C36 (barrier masks agree across ranks): for `W, H ≥ 1`, `P ≥ 1`, every list of segments
and any two ranks `r` and `s`, when the stored cell `(x, y)` of `r` and the stored cell
`(x', y')` of `s` are the same global cell, the masks the two ranks compute with `initBarrier`
hold the same value there, whatever the masks held before; and on every rank the shift the
code subtracts, `offset_x == 0 ? 0 : offset_x - 1`, is `offset_x - start_x`, and likewise in
`y`. -/
theorem barrier_masks_agree {α : Type} (W H P : Nat) (hW : 1 ≤ W) (hH : 1 ≤ H) (hP : 1 ≤ P)
    (r s : Nat) (barriers : List Barrier) (tr ts : Fields α) :
    ∃ gr gs, create W H r P = some gr ∧ create W H s P = some gs ∧
      ((if gr.offset_x = 0 then (0 : Int) else (gr.offset_x : Int) - 1)
        = (gr.offset_x : Int) - (gr.start_x : Int)) ∧
      ((if gr.offset_y = 0 then (0 : Int) else (gr.offset_y : Int) - 1)
        = (gr.offset_y : Int) - (gr.start_y : Int)) ∧
      ∀ x y x' y', x < gr.dim_x → y < gr.dim_y → x' < gs.dim_x → y' < gs.dim_y →
        (gr.offset_x : Int) + x - gr.start_x = (gs.offset_x : Int) + x' - gs.start_x →
        (gr.offset_y : Int) + y - gr.start_y = (gs.offset_y : Int) + y' - gs.start_y →
        (initBarrier gr barriers tr).barrier (y * gr.dim_x + x)
          = (initBarrier gs barriers ts).barrier (y' * gs.dim_x + x') := by
  obtain ⟨Px, Py, -, hPx, hPy, -, -, hcreate, -⟩ := create_layout P hP
  obtain ⟨r1, r2⟩ := barrier_shift_rank W H P Px Py r hW hH hPx hPy
  obtain ⟨s1, s2⟩ := barrier_shift_rank W H P Px Py s hW hH hPx hPy
  refine ⟨_, _, hcreate W H r, hcreate W H s, r1, r2, ?_⟩
  intro x y x' y' hx hy hx' hy' ex ey
  have hr := initBarrier_cell (layout W H r P Px Py) barriers tr x y hx hy
  have hs := initBarrier_cell (layout W H s P Px Py) barriers ts x' y' hx' hy'
  rw [r1, r2] at hr
  rw [s1, s2] at hs
  have e1 : (x : Int) + ((layout W H r P Px Py).offset_x - (layout W H r P Px Py).start_x)
      = (x' : Int) + ((layout W H s P Px Py).offset_x - (layout W H s P Px Py).start_x) := by
    omega
  have e2 : (y : Int) + ((layout W H r P Px Py).offset_y - (layout W H r P Px Py).start_y)
      = (y' : Int) + ((layout W H s P Px Py).offset_y - (layout W H s P Px Py).start_y) := by
    omega
  rw [e1, e2] at hr
  rw [Bool.eq_iff_iff, hr, hs]

/-- Witness for C36: `W = 16`, `H = 8`, `P = 2`, ranks 0 and 1, one horizontal segment. -/
theorem barrier_masks_agree_witness :
    (1 ≤ 16 ∧ 1 ≤ 8 ∧ 1 ≤ 2) ∧
    ∃ gr gs, create 16 8 0 2 = some gr ∧ create 16 8 1 2 = some gs ∧
      ((if gr.offset_x = 0 then (0 : Int) else (gr.offset_x : Int) - 1)
        = (gr.offset_x : Int) - (gr.start_x : Int)) ∧
      ((if gr.offset_y = 0 then (0 : Int) else (gr.offset_y : Int) - 1)
        = (gr.offset_y : Int) - (gr.start_y : Int)) ∧
      ∀ x y x' y', x < gr.dim_x → y < gr.dim_y → x' < gs.dim_x → y' < gs.dim_y →
        (gr.offset_x : Int) + x - gr.start_x = (gs.offset_x : Int) + x' - gs.start_x →
        (gr.offset_y : Int) + y - gr.start_y = (gs.offset_y : Int) + y' - gs.start_y →
        (initBarrier gr [BarrierHorizontal 6 9 3] (uniformFields (0 : Nat) true)).barrier
            (y * gr.dim_x + x)
          = (initBarrier gs [BarrierHorizontal 6 9 3] (uniformFields (0 : Nat) false)).barrier
            (y' * gs.dim_x + x') :=
  ⟨by decide, barrier_masks_agree 16 8 2 (by decide) (by decide) (by decide) 0 1
    [BarrierHorizontal 6 9 3] (uniformFields 0 true) (uniformFields 0 false)⟩

/-! ### Stability reduction in the driver -/

/-- A fold with `max`: the result bounds the start value and every element, and it is the
start value or one of the elements. -/
theorem foldl_max_spec (L : List Nat) (init : Nat) :
    init ≤ L.foldl max init ∧ (∀ v ∈ L, v ≤ L.foldl max init) ∧
    (L.foldl max init = init ∨ L.foldl max init ∈ L) := by
  induction L generalizing init with
  | nil => simp
  | cons a L ih =>
    rw [List.foldl_cons]
    obtain ⟨h1, h2, h3⟩ := ih (max init a)
    refine ⟨le_trans (le_max_left _ _) h1, ?_, ?_⟩
    · intro v hv
      rcases List.mem_cons.mp hv with rfl | hv
      · exact le_trans (le_max_right _ _) h1
      · exact h2 v hv
    · rcases h3 with h3 | h3
      · rcases le_total init a with h | h
        · right
          rw [h3, max_eq_right h]
          exact List.mem_cons_self _ _
        · left
          rw [h3, max_eq_left h]
      · exact Or.inr (List.mem_cons_of_mem _ h3)

/-- C37 (driver stability reduction): the value `all_stable` on rank 0 is the maximum over the
ranks of the results of `checkStability` (true as 1, false as 0): it bounds every contribution
and, with at least one rank, is one of them.  The warning is printed if and only if every rank
reports unstable; if at least one rank reports stable no warning is printed, whatever the
other ranks report. -/
theorem stability_reduction (num_ranks : Nat) (geom : Nat → Geometry)
    (state : Nat → Fields K) :
    (∀ r, r < num_ranks →
      stableFlag (checkStability (geom r).dim_x (geom r).dim_y (state r)).2
        ≤ allStable num_ranks geom state) ∧
    (1 ≤ num_ranks → ∃ r, r < num_ranks ∧ allStable num_ranks geom state
      = stableFlag (checkStability (geom r).dim_x (geom r).dim_y (state r)).2) ∧
    (instabilityWarning num_ranks geom state = true ↔
      ∀ r, r < num_ranks →
        (checkStability (geom r).dim_x (geom r).dim_y (state r)).2 = false) ∧
    ((∃ r, r < num_ranks ∧
        (checkStability (geom r).dim_x (geom r).dim_y (state r)).2 = true) →
      instabilityWarning num_ranks geom state = false) := by
  obtain ⟨-, h2, h3⟩ := foldl_max_spec ((List.range num_ranks).map fun r =>
    stableFlag (checkStability (geom r).dim_x (geom r).dim_y (state r)).2) 0
  have hle : ∀ r, r < num_ranks →
      stableFlag (checkStability (geom r).dim_x (geom r).dim_y (state r)).2
        ≤ allStable num_ranks geom state := by
    intro r hr
    exact h2 _ (List.mem_map.mpr ⟨r, List.mem_range.mpr hr, rfl⟩)
  have hiff : instabilityWarning num_ranks geom state = true ↔
      ∀ r, r < num_ranks →
        (checkStability (geom r).dim_x (geom r).dim_y (state r)).2 = false := by
    unfold instabilityWarning
    rw [beq_iff_eq]
    constructor
    · intro h0 r hr
      have := hle r hr
      rw [h0] at this
      by_contra hb
      have hb' : (checkStability (geom r).dim_x (geom r).dim_y (state r)).2 = true := by
        simpa using hb
      rw [hb'] at this
      simp [stableFlag] at this
    · intro hall
      rcases h3 with h | h
      · exact h
      · obtain ⟨r, hr, e⟩ := List.mem_map.mp h
        rw [hall r (List.mem_range.mp hr)] at e
        exact e.symm
  refine ⟨hle, ?_, hiff, ?_⟩
  · intro hP
    rcases h3 with h | h
    · by_cases hall : ∀ r, r < num_ranks →
          (checkStability (geom r).dim_x (geom r).dim_y (state r)).2 = false
      · refine ⟨0, hP, ?_⟩
        rw [hall 0 hP]
        exact h
      · have := hiff.not.mpr hall
        unfold instabilityWarning at this
        rw [beq_iff_eq] at this
        exact absurd h this
    · obtain ⟨r, hr, e⟩ := List.mem_map.mp h
      exact ⟨r, List.mem_range.mp hr, e.symm⟩
  · rintro ⟨r, hr, hb⟩
    by_contra hw
    have hw' : instabilityWarning num_ranks geom state = true := by simpa using hw
    rw [hiff.mp hw' r hr] at hb
    exact Bool.noConfusion hb

/-! ### The outer ring under the kernels -/

theorem speedBody_agree_of_ne (sqrt : K → K) (dim_x j i : Nat) (s : Fields K) (k : Nat)
    (hk : j * dim_x + i ≠ k) : agreeAt (speedBody sqrt dim_x j i s) s k := by
  have hk' : k ≠ j * dim_x + i := fun e => hk e.symm
  simp [agreeAt, speedBody, Function.update_noteq hk']

/-- `computeSpeed` leaves every array untouched at an index that is not an interior cell. -/
theorem computeSpeed_frame (sqrt : K → K) (dim_x dim_y : Nat) (s : Fields K) (k : Nat)
    (hk : offInterior dim_x dim_y k) : agreeAt (computeSpeed sqrt dim_x dim_y s) s k := by
  unfold computeSpeed
  rw [forLoop_nest]
  refine foldl_agree_of_ne (fun (q : Nat × Nat) (s : Fields K) =>
    speedBody sqrt dim_x q.1 q.2 s) k _ ?_ s
  intro q hq t
  obtain ⟨h1, h2⟩ := mem_nest.mp hq
  rw [mem_interior] at h1 h2
  exact speedBody_agree_of_ne sqrt dim_x q.1 q.2 t k (hk q.2 q.1 ⟨h2.1, h2.2, h1.1, h1.2⟩)

/-- `computeVorticity` leaves every array untouched at an index that is not an interior
cell. -/
theorem computeVorticity_frame (dim_x dim_y : Nat) (s : Fields K) (k : Nat)
    (hk : offInterior dim_x dim_y k) : agreeAt (computeVorticity dim_x dim_y s) s k := by
  rw [computeVorticity_eq_foldl]
  refine foldl_agree_of_ne (fun (q : Nat × Nat) (s : Fields K) =>
    vorticityBody dim_x q.1 q.2 s) k _ ?_ s
  intro q hq t
  obtain ⟨h1, h2⟩ := mem_nest.mp hq
  rw [mem_interior] at h1 h2
  exact vorticityBody_agree_of_ne dim_x q.1 q.2 t k (hk q.2 q.1 ⟨h2.1, h2.2, h1.1, h1.2⟩)

/-- `stream` leaves every array untouched at an index that is not an interior cell. -/
theorem stream_agree_frame {α : Type} (dim_x dim_y : Nat) (s : Fields α) (k : Nat)
    (hk : offInterior dim_x dim_y k) : agreeAt (stream dim_x dim_y s) s k := by
  obtain ⟨a1, a2, a3, a4, a5, a6, a7⟩ := stream_fixed dim_x dim_y s
  have hc := fun d => stream_frame dim_x dim_y s k hk d
  exact ⟨congrFun a1 k, hc .NeighborN, hc .NeighborE, hc .NeighborS, hc .NeighborW,
    hc .NeighborNE, hc .NeighborNW, hc .NeighborSE, hc .NeighborSW, congrFun a2 k,
    congrFun a3 k, congrFun a4 k, congrFun a5 k, congrFun a6 k, congrFun a7 k⟩

/-- A cell of the outermost ring is no interior cell. -/
theorem offInterior_of_ring {dim_x dim_y x y : Nat} (h : onRing dim_x dim_y x y) :
    offInterior dim_x dim_y (y * dim_x + x) := by
  refine offInterior_of_cell h.1 ?_
  unfold isInterior
  obtain ⟨h1, h2, h3⟩ := h
  omega

/-- On a rank without neighbours a kernel call leaves every array untouched at an index that
is not an interior cell. -/
theorem runKernel_frame (sqrt : K → K) (g : Geometry) (hnb : ∀ d, g.neighbors d = -1)
    (inbox : Neighbor → HaloMsg K) (c : KernelCall K) (s : Fields K) (k : Nat)
    (hk : offInterior g.dim_x g.dim_y k) : agreeAt (runKernel sqrt g inbox c s) s k := by
  cases c <;> simp only [runKernel, exchange_alone g hnb]
  · exact collide_frame _ _ _ s k hk
  · exact stream_agree_frame _ _ s k hk
  · exact bounce_frame _ _ s k hk
  · exact computeSpeed_frame sqrt _ _ s k hk
  · exact computeVorticity_frame _ _ s k hk

/-- C33 (the outer ring is never written by a kernel): on a single rank (`P = 1`) with
`W, H ≥ 1` the tile is the `W x H` grid, and for every tile state no sequence of calls of
`collide`, `stream`, `bounceBackStream`, `computeSpeed` and `computeVorticity` changes any of
the fifteen arrays at a cell with `x` in `{0, W - 1}` or `y` in `{0, H - 1}`; in particular the
ring holds, after any such sequence, the equilibrium `initFluid` or `updateFluid` wrote
last. -/
theorem ring_never_written (W H : Nat) (hW : 1 ≤ W) (hH : 1 ≤ H) :
    ∃ g, create W H 0 1 = some g ∧ g.dim_x = W ∧ g.dim_y = H ∧
      ∀ (sqrt : K → K) (inbox : Neighbor → HaloMsg K) (calls : List (KernelCall K))
        (s : Fields K) (x y : Nat), onRing W H x y →
        agreeAt (runKernels sqrt g inbox calls s) s (y * W + x) ∧
        (∀ c, agreeAt (runKernel sqrt g inbox c s) s (y * W + x)) ∧
        (∀ speed_scale physical_speed : K,
          atEquilibrium
            (runKernels sqrt g inbox calls (initFluid W H speed_scale physical_speed s))
            (y * W + x) 1 (speed_scale * physical_speed) 0 ∧
          atEquilibrium
            (runKernels sqrt g inbox calls (updateFluid W H speed_scale physical_speed s))
            (y * W + x) 1 (speed_scale * physical_speed) 0) := by
  obtain ⟨hc, hdx, hdy, -, -, -, -, -, -, hnb⟩ := create_single W H
  refine ⟨_, hc, hdx, hdy, ?_⟩
  intro sqrt inbox calls s x y hr
  have hoff := offInterior_of_ring hr
  have hall : ∀ t : Fields K,
      agreeAt (runKernels sqrt (layout W H 0 1 1 1) inbox calls t) t (y * W + x) := by
    intro t
    unfold runKernels
    refine foldl_agree_of_ne (fun (c : KernelCall K) (s : Fields K) =>
      runKernel sqrt (layout W H 0 1 1 1) inbox c s) (y * W + x) calls ?_ t
    intro c _ u
    refine runKernel_frame sqrt _ hnb inbox c u _ ?_
    rw [hdx, hdy]
    exact hoff
  refine ⟨hall s, fun c => ?_, fun speed_scale physical_speed => ⟨?_, ?_⟩⟩
  · refine runKernel_frame sqrt _ hnb inbox c s _ ?_
    rw [hdx, hdy]
    exact hoff
  · exact atEquilibrium_of_same (sameChannels_of_agreeAt (hall _))
      (initFluid_cell W H speed_scale physical_speed s x y hr.1 hr.2.1).1
  · refine atEquilibrium_of_same (sameChannels_of_agreeAt (hall _)) ?_
    rw [updateFluid_eq_foldl]
    exact (foldl_setEquilibrium_hit W _ _ _ s
      (Or.inl ⟨(x, y), (mem_ringCells W H hW hH x y).mpr hr, rfl⟩)).1

/-- Witness for C33: the `4 x 3` grid. -/
theorem ring_never_written_witness :
    (1 ≤ 4 ∧ 1 ≤ 3) ∧
    ∃ g, create 4 3 0 1 = some g ∧ g.dim_x = 4 ∧ g.dim_y = 3 ∧
      ∀ (sqrt : ℚ → ℚ) (inbox : Neighbor → HaloMsg ℚ) (calls : List (KernelCall ℚ))
        (s : Fields ℚ) (x y : Nat), onRing 4 3 x y →
        agreeAt (runKernels sqrt g inbox calls s) s (y * 4 + x) ∧
        (∀ c, agreeAt (runKernel sqrt g inbox c s) s (y * 4 + x)) ∧
        (∀ speed_scale physical_speed : ℚ,
          atEquilibrium
            (runKernels sqrt g inbox calls (initFluid 4 3 speed_scale physical_speed s))
            (y * 4 + x) 1 (speed_scale * physical_speed) 0 ∧
          atEquilibrium
            (runKernels sqrt g inbox calls (updateFluid 4 3 speed_scale physical_speed s))
            (y * 4 + x) 1 (speed_scale * physical_speed) 0) :=
  ⟨by decide, ring_never_written 4 3 (by decide) (by decide)⟩

/-! ### Array accesses with machine integers -/

theorem toU32_cast (k : Nat) (hk : k < 4294967296) : toU32 (k : Int) = k := by
  unfold toU32
  rw [Int.emod_eq_of_lt (Int.natCast_nonneg k) (by omega)]
  exact Int.toNat_natCast k

theorem toI32_of_fits (z : Int) (h1 : -2147483648 ≤ z) (h2 : z < 2147483648) :
    toI32 z = z := by
  unfold toI32
  split_ifs <;> omega

theorem i32add_of_fits (a b : Int) (h1 : -2147483648 ≤ a + b) (h2 : a + b < 2147483648) :
    i32add a b = a + b := toI32_of_fits _ h1 h2

theorem i32sub_of_fits (a b : Int) (h1 : -2147483648 ≤ a - b) (h2 : a - b < 2147483648) :
    i32sub a b = a - b := toI32_of_fits _ h1 h2

theorem u32sub_of_le (a b : Nat) (hb : b ≤ a) (ha : a < 4294967296) : u32sub a b = a - b := by
  unfold u32sub
  have e : (a : Int) - (b : Int) = ((a - b : Nat) : Int) := by omega
  rw [e]
  exact toU32_cast _ (by omega)

/-- The start value `dim - 2` of a downward loop, as an `int`: for `dim = 1` the unsigned
difference wraps and the conversion gives `-1`. -/
theorem down_start (dim : Nat) (h1 : 1 ≤ dim) (h2 : dim < 2147483648) :
    toI32 (u32sub dim 2) = (dim : Int) - 2 := by
  unfold u32sub toU32 toI32
  rcases Nat.lt_or_ge dim 2 with h | h
  · obtain rfl : dim = 1 := by omega
    decide
  · have e : ((dim : Int) - ((2 : Nat) : Int)) % 4294967296 = (dim : Int) - 2 := by
      rw [Int.emod_eq_of_lt] <;> omega
    rw [e, Int.toNat_of_nonneg (by omega)]
    split_ifs <;> omega

theorem rowIndex_cast (dim_x j : Nat) (h : j * dim_x < 2147483648) (hj : j < 2147483648) :
    rowIndex dim_x (j : Int) = ((j * dim_x : Nat) : Int) := by
  unfold rowIndex u32mul
  rw [toU32_cast j (by omega), Nat.mod_eq_of_lt (by omega)]
  exact toI32_of_fits _ (by omega) (by omega)

theorem cellIndex_cast (dim_x x y : Nat) (h : y * dim_x + x < 2147483648)
    (hy : y < 2147483648) :
    cellIndex dim_x (x : Int) (y : Int) = ((y * dim_x + x : Nat) : Int) := by
  unfold cellIndex u32add u32mul
  rw [toU32_cast y (by omega), toU32_cast x (by omega), Nat.mod_eq_of_lt (by omega),
    Nat.mod_eq_of_lt (by omega)]
  exact toI32_of_fits _ (by omega) (by omega)

/-- An upward loop with enough fuel runs its body for `k0, k0 + 1, ..., bound - 1`. -/
theorem forUp_flat {β : Type} (bound : Nat) (hb : bound < 2147483648) (body : Int → List β)
    (fuel k0 : Nat) (hk : k0 ≤ 2147483648) (hf : bound ≤ k0 + fuel) :
    forUp bound body fuel (k0 : Int)
      = (List.range' k0 (bound - k0)).flatMap fun k => body (k : Int) := by
  induction fuel generalizing k0 with
  | zero =>
    have e : bound - k0 = 0 := by omega
    rw [e]
    rfl
  | succ fuel ih =>
    unfold forUp
    rw [toU32_cast k0 (by omega)]
    by_cases h : k0 < bound
    · rw [if_pos h, i32add_of_fits _ _ (by omega) (by omega)]
      have e : bound - k0 = (bound - (k0 + 1)) + 1 := by omega
      have := ih (k0 + 1) (by omega) (by omega)
      rw [Nat.cast_add, Nat.cast_one] at this
      rw [this, e, List.range'_succ, List.flatMap_cons]
    · rw [if_neg h]
      have e : bound - k0 = 0 := by omega
      rw [e]
      rfl

/-- A downward loop with enough fuel runs its body for `k0, k0 - 1, ..., 1`. -/
theorem forDown_flat {β : Type} (body : Int → List β) (fuel : Nat) (k0 : Int)
    (hk : -2147483648 ≤ k0 ∧ k0 < 2147483648) (hf : k0 ≤ fuel) :
    forDown body fuel k0
      = (List.range' 1 k0.toNat).reverse.flatMap fun k => body (k : Int) := by
  induction fuel generalizing k0 with
  | zero =>
    have e : k0.toNat = 0 := Int.toNat_eq_zero.mpr (by omega)
    rw [e]
    rfl
  | succ fuel ih =>
    unfold forDown
    by_cases h : 0 < k0
    · rw [if_pos h, i32sub_of_fits _ _ (by omega) (by omega),
        ih (k0 - 1) ⟨by omega, by omega⟩ (by push_cast at hf; omega)]
      obtain ⟨m, rfl⟩ : ∃ m : Nat, k0 = (m : Int) + 1 :=
        ⟨(k0 - 1).toNat, by rw [Int.toNat_of_nonneg (by omega)]; omega⟩
      have e1 : ((m : Int) + 1 - 1).toNat = m := by
        rw [Int.add_sub_cancel]; exact Int.toNat_natCast m
      have e2 : ((m : Int) + 1).toNat = m + 1 := by
        have : ((m : Int) + 1) = ((m + 1 : Nat) : Int) := by push_cast; rfl
        rw [this]; exact Int.toNat_natCast _
      rw [e1, e2, List.range'_concat, List.reverse_append, List.reverse_singleton,
        List.singleton_append, List.flatMap_cons]
      congr 2
      push_cast
      omega
    · rw [if_neg h]
      have e : k0.toNat = 0 := Int.toNat_eq_zero.mpr (by omega)
      rw [e]
      rfl

/-- The upward loops over the interior, `for (k = 1; k < dim - 1; k++)`: with enough fuel they
run for the counter values of `interior dim`. -/
theorem up_interior {β : Type} (dim fuel : Nat) (h1 : 1 ≤ dim) (h2 : dim < 2147483648) (hf : dim ≤ fuel)
    (body : Int → List β) :
    forUp (u32sub dim 1) body fuel 1 = (interior dim).flatMap fun k => body (k : Int) := by
  rw [u32sub_of_le dim 1 h1 (by omega)]
  have := forUp_flat (dim - 1) (by omega) body fuel 1 (by omega) (by omega)
  rw [Nat.cast_one] at this
  rw [this]
  rfl

/-- The downward loops over the interior, `for (k = dim - 2; k > 0; k--)`: with enough fuel
they run for the counter values of `interiorDown dim`. -/
theorem down_interior {β : Type} (dim fuel : Nat) (h1 : 1 ≤ dim) (h2 : dim < 2147483648)
    (hf : dim ≤ fuel) (body : Int → List β) :
    forDown body fuel (toI32 (u32sub dim 2))
      = (interiorDown dim).flatMap fun k => body (k : Int) := by
  rw [down_start dim h1 h2, forDown_flat body fuel _ ⟨by omega, by omega⟩ (by omega)]
  have e : ((dim : Int) - 2).toNat = dim - 2 := by
    rcases Nat.lt_or_ge dim 2 with h | h
    · have e0 : dim - 2 = 0 := by omega
      rw [e0]
      exact Int.toNat_eq_zero.mpr (by omega)
    · have : (dim : Int) - 2 = ((dim - 2 : Nat) : Int) := by omega
      rw [this]
      exact Int.toNat_natCast _
  rw [e]
  rfl

/-- The loops over a whole extent, `for (k = 0; k < dim; k++)`. -/
theorem up_range {β : Type} (dim fuel : Nat) (h2 : dim < 2147483648) (hf : dim ≤ fuel)
    (body : Int → List β) :
    forUp dim body fuel 0 = (List.range dim).flatMap fun k => body (k : Int) := by
  have := forUp_flat dim h2 body fuel 0 (by omega) (by omega)
  rw [Nat.cast_zero] at this
  rw [this, List.range_eq_range']
  rfl

theorem row_le (dim_x dim_y j : Nat) (h : j + 1 ≤ dim_y) :
    j * dim_x + dim_x ≤ dim_x * dim_y := by
  have := Nat.mul_le_mul_right dim_x h
  rw [Nat.add_mul, Nat.one_mul, Nat.mul_comm dim_y] at this
  exact this

theorem dim_lt (dim_x dim_y : Nat) (hx : 1 ≤ dim_x) (hy : 1 ≤ dim_y)
    (hN : dim_x * dim_y < 2147483648) : dim_x < 2147483648 ∧ dim_y < 2147483648 :=
  ⟨lt_of_le_of_lt (Nat.le_mul_of_pos_right dim_x hy) hN,
    lt_of_le_of_lt (Nat.le_mul_of_pos_left dim_y hx) hN⟩

/-- The three indices `row + i`, `row + i - 1`, `row + i + 1` of one row of a stencil. -/
theorem row_bounds (P i N : Nat) (h1 : 1 ≤ P + i) (h2 : P + i + 1 < N) (hN : N < 2147483648) :
    (0 ≤ i32add (P : Int) (i : Int) ∧ i32add (P : Int) (i : Int) < (N : Int)) ∧
    (0 ≤ i32sub (i32add (P : Int) (i : Int)) 1 ∧
      i32sub (i32add (P : Int) (i : Int)) 1 < (N : Int)) ∧
    (0 ≤ i32add (i32add (P : Int) (i : Int)) 1 ∧
      i32add (i32add (P : Int) (i : Int)) 1 < (N : Int)) := by
  have a0 : i32add (P : Int) (i : Int) = P + i := i32add_of_fits _ _ (by omega) (by omega)
  rw [a0, i32sub_of_fits _ _ (by omega) (by omega), i32add_of_fits _ _ (by omega) (by omega)]
  omega

/-- The nine indices of the stencil of an interior cell, as the kernels compute them, lie in
the array when the tile has fewer than `2^31` cells. -/
theorem stencil_bounds (dim_x dim_y j i : Nat) (hN : dim_x * dim_y < 2147483648)
    (hj1 : 1 ≤ j) (hj2 : j < dim_y - 1) (hi1 : 1 ≤ i) (hi2 : i < dim_x - 1) :
    ∀ z ∈ [i32add (rowIndex dim_x j) i, i32sub (i32add (rowIndex dim_x j) i) 1,
        i32add (i32add (rowIndex dim_x j) i) 1, i32add (rowIndex dim_x (i32sub j 1)) i,
        i32add (rowIndex dim_x (i32add j 1)) i,
        i32sub (i32add (rowIndex dim_x (i32sub j 1)) i) 1,
        i32add (i32add (rowIndex dim_x (i32sub j 1)) i) 1,
        i32sub (i32add (rowIndex dim_x (i32add j 1)) i) 1,
        i32add (i32add (rowIndex dim_x (i32add j 1)) i) 1],
      0 ≤ z ∧ z < ((dim_x * dim_y : Nat) : Int) := by
  have f0 := row_le dim_x dim_y (j + 1) (by omega)
  have f1 : (j + 1) * dim_x = j * dim_x + dim_x := Nat.succ_mul j dim_x
  have f2 := (mul_facts dim_x j 0).1 hj1
  have hx : 1 ≤ dim_x := by omega
  have hy : 1 ≤ dim_y := by omega
  obtain ⟨dx, dy⟩ := dim_lt dim_x dim_y hx hy hN
  have c1 : j < 2147483648 := by omega
  have c2 : j - 1 < 2147483648 := by omega
  have c3 : j + 1 < 2147483648 := by omega
  have c4 : j * dim_x < 2147483648 := by omega
  have c5 : (j - 1) * dim_x < 2147483648 := by omega
  have c6 : (j + 1) * dim_x < 2147483648 := by omega
  have c7 : 1 ≤ j * dim_x + i := by omega
  have c8 : j * dim_x + i + 1 < dim_x * dim_y := by omega
  have c9 : 1 ≤ (j - 1) * dim_x + i := by omega
  have c10 : (j - 1) * dim_x + i + 1 < dim_x * dim_y := by omega
  have c11 : 1 ≤ (j + 1) * dim_x + i := by omega
  have c12 : (j + 1) * dim_x + i + 1 < dim_x * dim_y := by omega
  have ep : i32sub (j : Int) 1 = ((j - 1 : Nat) : Int) := by
    rw [i32sub_of_fits _ _ (by omega) (by omega)]; omega
  have en : i32add (j : Int) 1 = ((j + 1 : Nat) : Int) := by
    rw [i32add_of_fits _ _ (by omega) (by omega)]; omega
  have r0 := rowIndex_cast dim_x j c4 c1
  have rp := rowIndex_cast dim_x (j - 1) c5 c2
  have rn := rowIndex_cast dim_x (j + 1) c6 c3
  obtain ⟨b1, b2, b3⟩ := row_bounds (j * dim_x) i (dim_x * dim_y) c7 c8 hN
  obtain ⟨p1, p2, p3⟩ := row_bounds ((j - 1) * dim_x) i (dim_x * dim_y) c9 c10 hN
  obtain ⟨n1, n2, n3⟩ := row_bounds ((j + 1) * dim_x) i (dim_x * dim_y) c11 c12 hN
  rw [ep, en, r0, rp, rn]
  intro z hz
  simp only [List.mem_cons, List.mem_singleton, List.not_mem_nil, or_false] at hz
  rcases hz with h | h | h | h | h | h | h | h | h <;> rw [h]
  · exact b1
  · exact b2
  · exact b3
  · exact p1
  · exact n1
  · exact p2
  · exact p3
  · exact n2
  · exact n3

/-- The index of a stored cell, computed by `setEquilibrium` or as `row + i`, lies in the
array when the tile has fewer than `2^31` cells. -/
theorem cell_bounds (dim_x dim_y x y : Nat) (hN : dim_x * dim_y < 2147483648)
    (hx : x < dim_x) (hy : y < dim_y) :
    cellIndex dim_x (x : Int) (y : Int) = ((y * dim_x + x : Nat) : Int) ∧
    i32add (rowIndex dim_x (y : Int)) (x : Int) = ((y * dim_x + x : Nat) : Int) ∧
    y * dim_x + x < dim_x * dim_y := by
  have f0 := row_le dim_x dim_y y (by omega)
  obtain ⟨dx, dy⟩ := dim_lt dim_x dim_y (by omega) (by omega) hN
  refine ⟨cellIndex_cast dim_x x y (by omega) (by omega), ?_, by omega⟩
  rw [rowIndex_cast dim_x y (by omega) (by omega),
    i32add_of_fits _ _ (by omega) (by omega)]
  omega

/-- Every access of a loop nest over interior cells whose body uses indices of the stencil
has an index of the array. -/
theorem nest_bounds (dim_x dim_y : Nat) (hN : dim_x * dim_y < 2147483648)
    (body : Int → Int → List (TileArray × Int))
    (hsub : ∀ j i p, p ∈ body j i → p.2 ∈ stencilIndices dim_x j i) (Ly Lx : List Nat)
    (hLy : ∀ j ∈ Ly, 1 ≤ j ∧ j < dim_y - 1) (hLx : ∀ i ∈ Lx, 1 ≤ i ∧ i < dim_x - 1) :
    ∀ p ∈ Ly.flatMap (fun j => Lx.flatMap fun i => body (j : Int) (i : Int)),
      0 ≤ p.2 ∧ p.2 < ((dim_x * dim_y : Nat) : Int) := by
  intro p hp
  obtain ⟨j, hj, hp⟩ := List.mem_flatMap.mp hp
  obtain ⟨i, hi, hp⟩ := List.mem_flatMap.mp hp
  exact stencil_bounds dim_x dim_y j i hN (hLy j hj).1 (hLy j hj).2 (hLx i hi).1 (hLx i hi).2
    p.2 (hsub _ _ p hp)

theorem flatMap_nil_right {α β : Type} (L : List α) :
    L.flatMap (fun _ => ([] : List β)) = [] := by
  induction L with
  | nil => rfl
  | cons a L ih => rw [List.flatMap_cons, ih]; rfl

theorem interior_nil (dim : Nat) (h : dim ≤ 2) : interior dim = [] ∧ interiorDown dim = [] := by
  unfold interior interiorDown
  rw [Nat.sub_eq_zero_of_le h]
  exact ⟨rfl, rfl⟩

/-- The bound `dim - 1` of an upward loop, as an `int`. -/
theorem up_bound (dim : Nat) (h1 : 1 ≤ dim) (h2 : dim < 2147483648) :
    toI32 (u32sub dim 1) = ((dim - 1 : Nat) : Int) := by
  rw [u32sub_of_le dim 1 h1 (by omega)]
  exact toI32_of_fits _ (by omega) (by omega)

/-- The index `checkStability` computes for column `i`. -/
theorem stability_index (dim_x dim_y i : Nat) (hN : dim_x * dim_y < 2147483648)
    (hy : 1 ≤ dim_y) (hi : i < dim_x) :
    0 ≤ toI32 (u32add (u32mul (dim_y / 2) dim_x) (toU32 (i : Int))) ∧
    toI32 (u32add (u32mul (dim_y / 2) dim_x) (toU32 (i : Int)))
      < ((dim_x * dim_y : Nat) : Int) := by
  have f0 := row_le dim_x dim_y (dim_y / 2) (by omega)
  have c1 : i < 4294967296 := by omega
  have c2 : dim_y / 2 * dim_x < 4294967296 := by omega
  have c3 : dim_y / 2 * dim_x + i < 4294967296 := by omega
  have c4 : dim_y / 2 * dim_x + i < dim_x * dim_y := by omega
  unfold u32add u32mul
  rw [toU32_cast i c1, Nat.mod_eq_of_lt c2, Nat.mod_eq_of_lt c3,
    toI32_of_fits _ (by omega) (by omega)]
  omega

/-- All stores of `setEquilibrium(x, y, ...)` use the index `y * dim_x + x`. -/
theorem setEquilibrium_index (dim_x : Nat) (x y : Int) :
    ∀ p ∈ setEquilibriumAccess dim_x x y, p.2 = cellIndex dim_x x y := by
  intro p hz
  simp only [setEquilibriumAccess, List.mem_cons, List.mem_singleton, List.not_mem_nil,
    or_false] at hz
  rcases hz with h | h | h | h | h | h | h | h | h | h | h | h <;> rw [h]

/-- An index of the array belongs to the allocated storage, whichever array it is used with,
when the fourteen `double` arrays together have fewer than `2^32` elements. -/
theorem storage_of_range (dim_x dim_y : Nat) (h14 : 14 * (dim_x * dim_y) < 4294967296)
    (p : TileArray × Int) (hp : 0 ≤ p.2 ∧ p.2 < ((dim_x * dim_y : Nat) : Int)) :
    inStorage (tileCells dim_x dim_y) p := by
  obtain ⟨a, z⟩ := p
  have hsize : tileCells dim_x dim_y = dim_x * dim_y := by
    unfold tileCells u32mul
    exact Nat.mod_eq_of_lt (by omega)
  rw [hsize]
  generalize dim_x * dim_y = N at *
  dsimp only at hp
  have m0 : 0 * N < 4294967296 := by omega
  have m1 : 1 * N < 4294967296 := by omega
  have m2 : 2 * N < 4294967296 := by omega
  have m3 : 3 * N < 4294967296 := by omega
  have m4 : 4 * N < 4294967296 := by omega
  have m5 : 5 * N < 4294967296 := by omega
  have m6 : 6 * N < 4294967296 := by omega
  have m7 : 7 * N < 4294967296 := by omega
  have m8 : 8 * N < 4294967296 := by omega
  have m9 : 9 * N < 4294967296 := by omega
  have m10 : 10 * N < 4294967296 := by omega
  have m11 : 11 * N < 4294967296 := by omega
  have m12 : 12 * N < 4294967296 := by omega
  have m13 : 13 * N < 4294967296 := by omega
  have m14 : 14 * N < 4294967296 := by omega
  cases a <;>
    simp only [inStorage, TileArray.position, arrayBase, blockLength, barrierLength, u32mul,
      Nat.mod_eq_of_lt m0, Nat.mod_eq_of_lt m1, Nat.mod_eq_of_lt m2, Nat.mod_eq_of_lt m3, Nat.mod_eq_of_lt m4, Nat.mod_eq_of_lt m5, Nat.mod_eq_of_lt m6, Nat.mod_eq_of_lt m7, Nat.mod_eq_of_lt m8, Nat.mod_eq_of_lt m9, Nat.mod_eq_of_lt m10, Nat.mod_eq_of_lt m11, Nat.mod_eq_of_lt m12, Nat.mod_eq_of_lt m13, Nat.mod_eq_of_lt m14] <;>
    omega

/-- The accesses of the five sweeps use indices of the array when the tile has fewer than
`2^31` cells. -/
theorem sweep_bounds (dim_x dim_y fuel : Nat) (hx : 1 ≤ dim_x) (hy : 1 ≤ dim_y)
    (hN : dim_x * dim_y < 2147483648) (hfx : dim_x ≤ fuel) (hfy : dim_y ≤ fuel) :
    ∀ p ∈ sweepAccesses dim_x dim_y fuel, 0 ≤ p.2 ∧ p.2 < ((dim_x * dim_y : Nat) : Int) := by
  obtain ⟨dx, dy⟩ := dim_lt dim_x dim_y hx hy hN
  have hI : ∀ n : Nat, ∀ k ∈ interior n, 1 ≤ k ∧ k < n - 1 := fun n k hk => mem_interior.mp hk
  have hD : ∀ n : Nat, ∀ k ∈ interiorDown n, 1 ≤ k ∧ k < n - 1 :=
    fun n k hk => mem_interiorDown.mp hk
  unfold sweepAccesses
  simp only [collideAccess, streamAccess, bounceAccess, computeSpeedAccess,
    computeVorticityAccess, up_interior dim_x fuel hx dx hfx, up_interior dim_y fuel hy dy hfy,
    down_interior dim_x fuel hx dx hfx, down_interior dim_y fuel hy dy hfy]
  refine List.forall_mem_append.mpr ⟨List.forall_mem_append.mpr ⟨List.forall_mem_append.mpr
    ⟨List.forall_mem_append.mpr ⟨?_, List.forall_mem_append.mpr ⟨List.forall_mem_append.mpr
      ⟨List.forall_mem_append.mpr ⟨?_, ?_⟩, ?_⟩, ?_⟩⟩, ?_⟩, ?_⟩, ?_⟩
  · exact nest_bounds dim_x dim_y hN
      (fun j i => [(.density, i32add (rowIndex dim_x j) i), (.f_0, i32add (rowIndex dim_x j) i),
        (.f_N, i32add (rowIndex dim_x j) i), (.f_S, i32add (rowIndex dim_x j) i),
        (.f_E, i32add (rowIndex dim_x j) i), (.f_W, i32add (rowIndex dim_x j) i),
        (.f_NW, i32add (rowIndex dim_x j) i), (.f_NE, i32add (rowIndex dim_x j) i),
        (.f_SW, i32add (rowIndex dim_x j) i), (.f_SE, i32add (rowIndex dim_x j) i),
        (.velocity_x, i32add (rowIndex dim_x j) i), (.velocity_y, i32add (rowIndex dim_x j) i)])
      (by intro j i p hz
          simp only [List.mem_cons, List.mem_singleton, List.not_mem_nil, or_false] at hz
          rcases hz with h | h | h | h | h | h | h | h | h | h | h | h <;> rw [h] <;>
            simp only [stencilIndices, List.mem_cons, true_or, or_true]) _ _ (hI dim_y) (hI dim_x)
  · exact nest_bounds dim_x dim_y hN
      (fun j i => [(.f_N, i32add (rowIndex dim_x j) i),
        (.f_N, i32add (rowIndex dim_x (i32sub j 1)) i), (.f_NW, i32add (rowIndex dim_x j) i),
        (.f_NW, i32add (i32add (rowIndex dim_x (i32sub j 1)) i) 1)])
      (by intro j i p hz
          simp only [List.mem_cons, List.mem_singleton, List.not_mem_nil, or_false] at hz
          rcases hz with h | h | h | h <;> rw [h] <;>
            simp only [stencilIndices, List.mem_cons, true_or, or_true]) _ _ (hD dim_y) (hI dim_x)
  · exact nest_bounds dim_x dim_y hN
      (fun j i => [(.f_E, i32add (rowIndex dim_x j) i),
        (.f_E, i32sub (i32add (rowIndex dim_x j) i) 1), (.f_NE, i32add (rowIndex dim_x j) i),
        (.f_NE, i32sub (i32add (rowIndex dim_x (i32sub j 1)) i) 1)])
      (by intro j i p hz
          simp only [List.mem_cons, List.mem_singleton, List.not_mem_nil, or_false] at hz
          rcases hz with h | h | h | h <;> rw [h] <;>
            simp only [stencilIndices, List.mem_cons, true_or, or_true]) _ _ (hD dim_y) (hD dim_x)
  · exact nest_bounds dim_x dim_y hN
      (fun j i => [(.f_S, i32add (rowIndex dim_x j) i),
        (.f_S, i32add (rowIndex dim_x (i32add j 1)) i), (.f_SE, i32add (rowIndex dim_x j) i),
        (.f_SE, i32sub (i32add (rowIndex dim_x (i32add j 1)) i) 1)])
      (by intro j i p hz
          simp only [List.mem_cons, List.mem_singleton, List.not_mem_nil, or_false] at hz
          rcases hz with h | h | h | h <;> rw [h] <;>
            simp only [stencilIndices, List.mem_cons, true_or, or_true]) _ _ (hI dim_y) (hD dim_x)
  · exact nest_bounds dim_x dim_y hN
      (fun j i => [(.f_W, i32add (rowIndex dim_x j) i),
        (.f_W, i32add (i32add (rowIndex dim_x j) i) 1), (.f_SW, i32add (rowIndex dim_x j) i),
        (.f_SW, i32add (i32add (rowIndex dim_x (i32add j 1)) i) 1)])
      (by intro j i p hz
          simp only [List.mem_cons, List.mem_singleton, List.not_mem_nil, or_false] at hz
          rcases hz with h | h | h | h <;> rw [h] <;>
            simp only [stencilIndices, List.mem_cons, true_or, or_true]) _ _ (hI dim_y) (hI dim_x)
  · exact nest_bounds dim_x dim_y hN
      (fun j i => [(.barrier, i32sub (i32add (rowIndex dim_x j) i) 1),
        (.f_E, i32add (rowIndex dim_x j) i), (.f_W, i32sub (i32add (rowIndex dim_x j) i) 1),
        (.barrier, i32add (i32add (rowIndex dim_x j) i) 1), (.f_W, i32add (rowIndex dim_x j) i),
        (.f_E, i32add (i32add (rowIndex dim_x j) i) 1),
        (.barrier, i32add (rowIndex dim_x (i32sub j 1)) i), (.f_N, i32add (rowIndex dim_x j) i),
        (.f_S, i32add (rowIndex dim_x (i32sub j 1)) i),
        (.barrier, i32add (rowIndex dim_x (i32add j 1)) i), (.f_S, i32add (rowIndex dim_x j) i),
        (.f_N, i32add (rowIndex dim_x (i32add j 1)) i),
        (.barrier, i32sub (i32add (rowIndex dim_x (i32sub j 1)) i) 1),
        (.f_NE, i32add (rowIndex dim_x j) i),
        (.f_SW, i32sub (i32add (rowIndex dim_x (i32sub j 1)) i) 1),
        (.barrier, i32add (i32add (rowIndex dim_x (i32sub j 1)) i) 1),
        (.f_NW, i32add (rowIndex dim_x j) i),
        (.f_SE, i32add (i32add (rowIndex dim_x (i32sub j 1)) i) 1),
        (.barrier, i32sub (i32add (rowIndex dim_x (i32add j 1)) i) 1),
        (.f_SE, i32add (rowIndex dim_x j) i),
        (.f_NW, i32sub (i32add (rowIndex dim_x (i32add j 1)) i) 1),
        (.barrier, i32add (i32add (rowIndex dim_x (i32add j 1)) i) 1),
        (.f_SW, i32add (rowIndex dim_x j) i),
        (.f_NE, i32add (i32add (rowIndex dim_x (i32add j 1)) i) 1)])
      (by intro j i p hz
          simp only [List.mem_cons, List.mem_singleton, List.not_mem_nil, or_false] at hz
          rcases hz with h | h | h | h | h | h | h | h | h | h | h | h | h | h | h | h | h | h | h | h | h | h | h | h <;> rw [h] <;>
            simp only [stencilIndices, List.mem_cons, true_or, or_true]) _ _ (hI dim_y) (hI dim_x)
  · exact nest_bounds dim_x dim_y hN
      (fun j i => [(.speed, i32add (rowIndex dim_x j) i),
        (.velocity_x, i32add (rowIndex dim_x j) i), (.velocity_y, i32add (rowIndex dim_x j) i)])
      (by intro j i p hz
          simp only [List.mem_cons, List.mem_singleton, List.not_mem_nil, or_false] at hz
          rcases hz with h | h | h <;> rw [h] <;>
            simp only [stencilIndices, List.mem_cons, true_or, or_true]) _ _ (hI dim_y) (hI dim_x)
  · exact nest_bounds dim_x dim_y hN
      (fun j i => [(.vorticity, i32add (rowIndex dim_x j) i),
        (.velocity_y, i32add (i32add (rowIndex dim_x j) i) 1),
        (.velocity_y, i32sub (i32add (rowIndex dim_x j) i) 1),
        (.velocity_x, i32add (rowIndex dim_x (i32add j 1)) i),
        (.velocity_x, i32add (rowIndex dim_x (i32sub j 1)) i)])
      (by intro j i p hz
          simp only [List.mem_cons, List.mem_singleton, List.not_mem_nil, or_false] at hz
          rcases hz with h | h | h | h | h <;> rw [h] <;>
            simp only [stencilIndices, List.mem_cons, true_or, or_true]) _ _ (hI dim_y) (hI dim_x)

/-- The accesses of `initFluid`, `updateFluid` and `checkStability` use indices of the array
when the tile has fewer than `2^31` cells. -/
theorem whole_tile_bounds (dim_x dim_y fuel : Nat) (hx : 1 ≤ dim_x) (hy : 1 ≤ dim_y)
    (hN : dim_x * dim_y < 2147483648) (hfx : dim_x ≤ fuel) (hfy : dim_y ≤ fuel) :
    (∀ p ∈ initFluidAccess dim_x dim_y fuel,
      0 ≤ p.2 ∧ p.2 < ((dim_x * dim_y : Nat) : Int)) ∧
    (∀ p ∈ updateFluidAccess dim_x dim_y fuel,
      0 ≤ p.2 ∧ p.2 < ((dim_x * dim_y : Nat) : Int)) ∧
    (∀ p ∈ checkStabilityAccess dim_x dim_y fuel,
      0 ≤ p.2 ∧ p.2 < ((dim_x * dim_y : Nat) : Int)) := by
  obtain ⟨dx, dy⟩ := dim_lt dim_x dim_y hx hy hN
  have hcell : ∀ x y : Nat, x < dim_x → y < dim_y →
      (0 ≤ cellIndex dim_x (x : Int) (y : Int) ∧
        cellIndex dim_x (x : Int) (y : Int) < ((dim_x * dim_y : Nat) : Int)) ∧
      (0 ≤ i32add (rowIndex dim_x (y : Int)) (x : Int) ∧
        i32add (rowIndex dim_x (y : Int)) (x : Int) < ((dim_x * dim_y : Nat) : Int)) := by
    intro x y hx' hy'
    obtain ⟨e1, e2, e3⟩ := cell_bounds dim_x dim_y x y hN hx' hy'
    rw [e1, e2]
    omega
  have hub_x := up_bound dim_x hx dx
  have hub_y := up_bound dim_y hy dy
  refine ⟨?_, ?_, ?_⟩
  · simp only [initFluidAccess, up_range dim_x fuel dx hfx, up_range dim_y fuel dy hfy]
    intro p hp
    obtain ⟨j, hj, hp⟩ := List.mem_flatMap.mp hp
    obtain ⟨i, hi, hp⟩ := List.mem_flatMap.mp hp
    obtain ⟨c1, c2⟩ := hcell i j (List.mem_range.mp hi) (List.mem_range.mp hj)
    rcases List.mem_append.mp hp with h | h
    · rw [setEquilibrium_index dim_x _ _ p h]
      exact c1
    · rw [List.mem_singleton.mp h]
      dsimp only
      exact c2
  · simp only [updateFluidAccess, up_range dim_x fuel dx hfx,
      up_interior dim_y fuel hy dy hfy, hub_x, hub_y]
    refine List.forall_mem_append.mpr ⟨?_, ?_⟩
    · intro p hp
      obtain ⟨i, hi, hp⟩ := List.mem_flatMap.mp hp
      have c1 := (hcell i 0 (List.mem_range.mp hi) (by omega)).1
      have c2 := (hcell i (dim_y - 1) (List.mem_range.mp hi) (by omega)).1
      rw [Nat.cast_zero] at c1
      rcases List.mem_append.mp hp with h | h
      · rw [setEquilibrium_index dim_x _ _ p h]
        exact c1
      · rw [setEquilibrium_index dim_x _ _ p h]
        exact c2
    · intro p hp
      obtain ⟨i, hi, hp⟩ := List.mem_flatMap.mp hp
      have hi' := mem_interior.mp hi
      have c1 := (hcell 0 i (by omega) (by omega)).1
      have c2 := (hcell (dim_x - 1) i (by omega) (by omega)).1
      rw [Nat.cast_zero] at c1
      rcases List.mem_append.mp hp with h | h
      · rw [setEquilibrium_index dim_x _ _ p h]
        exact c1
      · rw [setEquilibrium_index dim_x _ _ p h]
        exact c2
  · simp only [checkStabilityAccess, up_range dim_x fuel dx hfx]
    intro p hp
    obtain ⟨i, hi, hp⟩ := List.mem_flatMap.mp hp
    rw [List.mem_singleton.mp hp]
    dsimp only
    exact stability_index dim_x dim_y i hN hy (List.mem_range.mp hi)

/-- With enough fuel the accesses of the loops do not depend on the fuel: the loops end. -/
theorem accesses_fuel (dim_x dim_y fuel fuel' : Nat) (hx : 1 ≤ dim_x) (hy : 1 ≤ dim_y)
    (hN : dim_x * dim_y < 2147483648) (hfx : dim_x ≤ fuel) (hfy : dim_y ≤ fuel)
    (hfx' : dim_x ≤ fuel') (hfy' : dim_y ≤ fuel') :
    kernelAccesses dim_x dim_y fuel' = kernelAccesses dim_x dim_y fuel := by
  obtain ⟨dx, dy⟩ := dim_lt dim_x dim_y hx hy hN
  simp only [kernelAccesses, sweepAccesses, initFluidAccess, updateFluidAccess, collideAccess,
    streamAccess, bounceAccess, computeSpeedAccess, computeVorticityAccess,
    checkStabilityAccess, up_interior dim_x fuel hx dx hfx, up_interior dim_y fuel hy dy hfy,
    down_interior dim_x fuel hx dx hfx, down_interior dim_y fuel hy dy hfy,
    up_range dim_x fuel dx hfx, up_range dim_y fuel dy hfy,
    up_interior dim_x fuel' hx dx hfx', up_interior dim_y fuel' hy dy hfy',
    down_interior dim_x fuel' hx dx hfx', down_interior dim_y fuel' hy dy hfy',
    up_range dim_x fuel' dx hfx', up_range dim_y fuel' dy hfy']

/-- The sweeps access nothing when the tile has no interior cell. -/
theorem sweeps_empty (dim_x dim_y fuel : Nat) (hx : 1 ≤ dim_x) (hy : 1 ≤ dim_y)
    (hN : dim_x * dim_y < 2147483648) (hfx : dim_x ≤ fuel) (hfy : dim_y ≤ fuel)
    (h : dim_x ≤ 2 ∨ dim_y ≤ 2) : sweepAccesses dim_x dim_y fuel = [] := by
  obtain ⟨dx, dy⟩ := dim_lt dim_x dim_y hx hy hN
  simp only [sweepAccesses, collideAccess, streamAccess, bounceAccess, computeSpeedAccess,
    computeVorticityAccess, up_interior dim_x fuel hx dx hfx, up_interior dim_y fuel hy dy hfy,
    down_interior dim_x fuel hx dx hfx, down_interior dim_y fuel hy dy hfy]
  rcases h with h | h
  · obtain ⟨e1, e2⟩ := interior_nil dim_x h
    simp only [e1, e2, List.flatMap_nil, flatMap_nil_right, List.append_nil]
  · obtain ⟨e1, e2⟩ := interior_nil dim_y h
    simp only [e1, e2, List.flatMap_nil, List.append_nil]

/-- C34 (in-bounds access), as the code behaves: for every tile with `dim_x ≥ 1`, `dim_y ≥ 1`
and `14 * dim_x * dim_y < 2^32` (the block of the fourteen `double` arrays is allocated with
the number of elements the arrays need), with the dimensions as 32-bit unsigned, the loop
counters and indices as 32-bit signed and the comparisons as the code performs them, every
array access of `initFluid`, `updateFluid`, `collide`, `stream`, `bounceBackStream`,
`computeSpeed`, `computeVorticity` and `checkStability` uses an index in `[0, dim_x * dim_y)`
and lies in the storage the constructor has allocated; the sweeps access nothing when
`dim_x ≤ 2` or `dim_y ≤ 2`; and every loop ends (the accesses are the same for every
sufficient bound on the number of iterations). -/
theorem accesses_in_bounds (dim_x dim_y fuel : Nat) (hx : 1 ≤ dim_x) (hy : 1 ≤ dim_y)
    (h14 : 14 * (dim_x * dim_y) < 4294967296) (hfx : dim_x ≤ fuel) (hfy : dim_y ≤ fuel) :
    (∀ p ∈ kernelAccesses dim_x dim_y fuel,
      (0 ≤ p.2 ∧ p.2 < ((dim_x * dim_y : Nat) : Int)) ∧
      inStorage (tileCells dim_x dim_y) p) ∧
    (dim_x ≤ 2 ∨ dim_y ≤ 2 → sweepAccesses dim_x dim_y fuel = []) ∧
    (∀ fuel', dim_x ≤ fuel' → dim_y ≤ fuel' →
      kernelAccesses dim_x dim_y fuel' = kernelAccesses dim_x dim_y fuel) := by
  have hN : dim_x * dim_y < 2147483648 := by omega
  obtain ⟨w1, w2, w3⟩ := whole_tile_bounds dim_x dim_y fuel hx hy hN hfx hfy
  have hall : ∀ p ∈ kernelAccesses dim_x dim_y fuel,
      0 ≤ p.2 ∧ p.2 < ((dim_x * dim_y : Nat) : Int) := by
    unfold kernelAccesses
    exact List.forall_mem_append.mpr ⟨List.forall_mem_append.mpr
      ⟨List.forall_mem_append.mpr ⟨w1, w2⟩, sweep_bounds dim_x dim_y fuel hx hy hN hfx hfy⟩, w3⟩
  exact ⟨fun p hp => ⟨hall p hp, storage_of_range dim_x dim_y h14 p (hall p hp)⟩,
    sweeps_empty dim_x dim_y fuel hx hy hN hfx hfy,
    fun fuel' h1 h2 => accesses_fuel dim_x dim_y fuel fuel' hx hy hN hfx hfy h1 h2⟩

/-- Witness for C34: a `4 x 3` tile, loops bounded by 4 iterations. -/
theorem accesses_in_bounds_witness :
    (1 ≤ 4 ∧ 1 ≤ 3 ∧ 14 * (4 * 3) < 4294967296 ∧ 4 ≤ 4 ∧ 3 ≤ 4) ∧
    (∀ p ∈ kernelAccesses 4 3 4,
      (0 ≤ p.2 ∧ p.2 < ((4 * 3 : Nat) : Int)) ∧ inStorage (tileCells 4 3) p) ∧
    (4 ≤ 2 ∨ 3 ≤ 2 → sweepAccesses 4 3 4 = []) ∧
    (∀ fuel', 4 ≤ fuel' → 3 ≤ fuel' → kernelAccesses 4 3 fuel' = kernelAccesses 4 3 4) :=
  ⟨by decide, accesses_in_bounds 4 3 4 (by decide) (by decide) (by decide) (by decide)
    (by decide)⟩

/-- One iteration of an upward loop whose test succeeds. -/
theorem forUp_step {β : Type} (bound : Nat) (body : Int → List β) (fuel : Nat) (k : Int)
    (h : toU32 k < bound) :
    forUp bound body (fuel + 1) k = body k ++ forUp bound body fuel (i32add k 1) := by
  rw [forUp]
  exact if_pos h

/-- Counterexample to C34 as stated: a tile of `32768 x 9363` cells (both dimensions are
32-bit unsigned values).  `size` is `306806784` and `14 * size` is `2^32 + 327680`, so the block
`dbl_arrays` is allocated with `327680` elements only, while `f_E` starts at element
`2 * size = 613613568`.  The first call `setEquilibrium(0, 0, ...)` of `initFluid` stores to
`f_0[0]`, inside the block, and then to `f_E[0]`, outside of it: the index `0` lies in
`[0, dim_x * dim_y)` but the element does not exist. -/
theorem accesses_counterexample :
    (1 ≤ 32768 ∧ 1 ≤ 9363 ∧ 32768 < 4294967296 ∧ 9363 < 4294967296) ∧
    tileCells 32768 9363 = 306806784 ∧
    blockLength (tileCells 32768 9363) = 327680 ∧
    arrayBase (tileCells 32768 9363) 2 = 613613568 ∧
    (∃ rest, initFluidAccess 32768 9363 32768
      = (TileArray.f_0, 0) :: (TileArray.f_E, 0) :: rest) ∧
    inStorage (tileCells 32768 9363) (TileArray.f_0, 0) ∧
    ¬ inStorage (tileCells 32768 9363) (TileArray.f_E, 0) ∧
    ¬ (∀ p ∈ kernelAccesses 32768 9363 32768, inStorage (tileCells 32768 9363) p) := by
  have hsize : tileCells 32768 9363 = 306806784 := by decide
  have hblock : blockLength 306806784 = 327680 := by decide
  have hbase : arrayBase 306806784 2 = 613613568 := by decide
  have hc : cellIndex 32768 0 0 = 0 := by decide
  have hpre : ∃ rest, initFluidAccess 32768 9363 32768
      = (TileArray.f_0, 0) :: (TileArray.f_E, 0) :: rest := by
    show ∃ rest, initFluidAccess 32768 9363 (32767 + 1) = _
    unfold initFluidAccess
    rw [forUp_step _ _ _ _ (by decide), forUp_step _ _ _ _ (by decide)]
    simp only [setEquilibriumAccess, hc]
    exact ⟨_, rfl⟩
  have hin : inStorage 306806784 (TileArray.f_0, 0) := by
    simp only [inStorage, TileArray.position, hblock]
    decide
  have hout : ¬ inStorage 306806784 (TileArray.f_E, 0) := by
    simp only [inStorage, TileArray.position, hblock, hbase]
    decide
  rw [hsize]
  refine ⟨by decide, rfl, hblock, hbase, hpre, hin, hout, fun h => hout (h _ ?_)⟩
  obtain ⟨rest, hrest⟩ := hpre
  unfold kernelAccesses
  rw [hrest]
  simp only [List.mem_append, List.mem_cons, true_or, or_true]

/-! ### Gather into the allocated buffers -/

/-- A cell of the global grid has a linear index below `W * H`. -/
theorem global_index_lt (W H gx gy : Nat) (hgx : gx < W) (hgy : gy < H) :
    gy * W + gx < W * H := by
  have h1 : (gy + 1) * W ≤ H * W := Nat.mul_le_mul_right W hgy
  have h2 : (gy + 1) * W = gy * W + W := Nat.succ_mul gy W
  have h3 : H * W = W * H := Nat.mul_comm H W
  omega

/-- Every displacement the receives of the gather store to is the linear index of a cell of
the global grid. -/
theorem gatherWrites_lt (W H P : Nat) (hP : 1 ≤ P) (geom : Nat → Geometry)
    (hgeom : create W H 0 P = some (geom 0)) :
    ∀ k ∈ gatherWrites geom, k < W * H := by
  obtain ⟨Px, Py, -, hPx, hPy, hmul, -, hcreate, hdec⟩ := create_layout P hP
  have hg : geom 0 = layout W H 0 P Px Py :=
    (Option.some.inj ((hcreate W H 0).symm.trans hgeom)).symm
  intro k hk
  unfold gatherWrites at hk
  rw [hg, (layout_scalars W H P Px Py 0 0).2.2] at hk
  obtain ⟨i, hi, hk⟩ := List.mem_flatMap.mp hk
  rw [List.mem_range] at hi
  obtain ⟨hb, ha, -⟩ := hdec i hi
  rw [(layout_scalars W H P Px Py 0 i).2.1] at hk
  simp only [Subarray.indices, List.mem_flatMap, List.mem_map, List.mem_range] at hk
  obtain ⟨dy, hdy, dx, hdx, rfl⟩ := hk
  have h1 := tile_end_le H Py (i / Px) hPy ha
  have h2 := tile_end_le W Px (i % Px) hPx hb
  exact global_index_lt W H _ _ (by omega) (by omega)

/-- C5 (gather round-trip), as the code behaves: for `P ≥ 1`, `P ≤ min W H` and
`W * H < 2^32`, a selector among Density, Speed and Vorticity (one for which `sendBuf` selects
an array), and any functions `f`, `b` of global coordinates: if on each rank the selected array
holds `f` and the barrier mask holds `b` at every owned cell (local
`(start_x + dx, start_y + dy)` for global `(offset_x + dx, offset_y + dy)`), then every
displacement the receives of `gatherDataOnRank0` store to lies inside the receive buffers as
the constructor allocates them, and after the call rank 0 has, inside the buffers,
`recv_buf[gy * W + gx] = f gx gy` and `brecv_buf[gy * W + gx] = b gx gy` for all `gx < W`,
`gy < H`, whatever the buffers held before. -/
theorem gather_round_trip {α : Type} (W H P : Nat) (hP : 1 ≤ P) (_hmin : P ≤ min W H)
    (hWH : W * H < 4294967296)
    (property : FluidProperty) (send_buf : Fields α → Nat → α)
    (hprop : sendBuf property = some send_buf)
    (f : Nat → Nat → α) (b : Nat → Nat → Bool)
    (geom : Nat → Geometry) (hgeom : ∀ i, i < P → create W H i P = some (geom i))
    (state : Nat → Fields α)
    (hstate : ∀ i, i < P → ∀ dx dy, dx < (geom i).num_x → dy < (geom i).num_y →
      send_buf (state i)
          (((geom i).start_y + dy) * (geom i).dim_x + ((geom i).start_x + dx))
        = f ((geom i).offset_x + dx) ((geom i).offset_y + dy) ∧
      (state i).barrier
          (((geom i).start_y + dy) * (geom i).dim_x + ((geom i).start_x + dx))
        = b ((geom i).offset_x + dx) ((geom i).offset_y + dy))
    (bufs : GatherBuffers α) :
    (∀ k ∈ gatherWrites geom, k < recvBufLength W H) ∧
    ∀ gx gy, gx < W → gy < H →
      gy * W + gx < recvBufLength W H ∧
      (gatherDataOnRank0 property geom state bufs).recv_buf (gy * W + gx) = f gx gy ∧
      (gatherDataOnRank0 property geom state bufs).brecv_buf (gy * W + gx) = b gx gy := by
  have hlen : recvBufLength W H = W * H := by
    unfold recvBufLength u32mul
    exact Nat.mod_eq_of_lt hWH
  rw [hlen]
  refine ⟨gatherWrites_lt W H P hP geom (hgeom 0 (by omega)), ?_⟩
  intro gx gy hgx hgy
  exact ⟨global_index_lt W H gx gy hgx hgy,
    gather_values W H P hP property send_buf hprop f b geom hgeom state hstate bufs gx gy
      hgx hgy⟩

/-- Witness for C5: a 2 x 2 grid on two ranks, gathering the density. -/
theorem gather_round_trip_witness :
    (1 ≤ 2 ∧ 2 ≤ min 2 2 ∧ 2 * 2 < 4294967296 ∧
      sendBuf FluidProperty.Density = some (Fields.density : Fields Nat → Nat → Nat) ∧
      (∀ i, i < 2 → create 2 2 i 2 = some (layout 2 2 i 2 2 1)) ∧
      (∀ i, i < 2 → ∀ dx dy, dx < (layout 2 2 i 2 2 1).num_x → dy < (layout 2 2 i 2 2 1).num_y →
        (coordFields (layout 2 2 i 2 2 1)).density
            (((layout 2 2 i 2 2 1).start_y + dy) * (layout 2 2 i 2 2 1).dim_x
              + ((layout 2 2 i 2 2 1).start_x + dx))
          = (layout 2 2 i 2 2 1).offset_x + dx + 10 * ((layout 2 2 i 2 2 1).offset_y + dy) ∧
        (coordFields (layout 2 2 i 2 2 1)).barrier
            (((layout 2 2 i 2 2 1).start_y + dy) * (layout 2 2 i 2 2 1).dim_x
              + ((layout 2 2 i 2 2 1).start_x + dx))
          = ((layout 2 2 i 2 2 1).offset_x + dx == 1))) ∧
    (∀ k ∈ gatherWrites (fun i => layout 2 2 i 2 2 1), k < recvBufLength 2 2) ∧
    ∀ gx gy, gx < 2 → gy < 2 →
      gy * 2 + gx < recvBufLength 2 2 ∧
      (gatherDataOnRank0 .Density (fun i => layout 2 2 i 2 2 1)
        (fun i => coordFields (layout 2 2 i 2 2 1))
        ⟨fun _ => 0, fun _ => false, .None⟩).recv_buf (gy * 2 + gx) = gx + 10 * gy ∧
      (gatherDataOnRank0 .Density (fun i => layout 2 2 i 2 2 1)
        (fun i => coordFields (layout 2 2 i 2 2 1))
        ⟨fun _ => 0, fun _ => false, .None⟩).brecv_buf (gy * 2 + gx) = (gx == 1) :=
  have hstate : ∀ i, i < 2 → ∀ dx dy, dx < (layout 2 2 i 2 2 1).num_x →
      dy < (layout 2 2 i 2 2 1).num_y →
      (coordFields (layout 2 2 i 2 2 1)).density
          (((layout 2 2 i 2 2 1).start_y + dy) * (layout 2 2 i 2 2 1).dim_x
            + ((layout 2 2 i 2 2 1).start_x + dx))
        = (layout 2 2 i 2 2 1).offset_x + dx + 10 * ((layout 2 2 i 2 2 1).offset_y + dy) ∧
      (coordFields (layout 2 2 i 2 2 1)).barrier
          (((layout 2 2 i 2 2 1).start_y + dy) * (layout 2 2 i 2 2 1).dim_x
            + ((layout 2 2 i 2 2 1).start_x + dx))
        = ((layout 2 2 i 2 2 1).offset_x + dx == 1) := by
    intro i hi dx dy hdx hdy
    have hi' : i = 0 ∨ i = 1 := by omega
    rcases hi' with rfl | rfl
    · have h1 : dx = 0 := by
        have : (layout 2 2 0 2 2 1).num_x = 1 := by decide
        omega
      have h2 : dy = 0 ∨ dy = 1 := by
        have : (layout 2 2 0 2 2 1).num_y = 2 := by decide
        omega
      subst h1
      rcases h2 with rfl | rfl <;> decide
    · have h1 : dx = 0 := by
        have : (layout 2 2 1 2 2 1).num_x = 1 := by decide
        omega
      have h2 : dy = 0 ∨ dy = 1 := by
        have : (layout 2 2 1 2 2 1).num_y = 2 := by decide
        omega
      subst h1
      rcases h2 with rfl | rfl <;> decide
  ⟨⟨by decide, by decide, by decide, rfl, fun i _ => create_two 2 2 i, hstate⟩,
    gather_round_trip 2 2 2 (by decide) (by decide) (by decide) .Density Fields.density rfl
      (fun gx gy => gx + 10 * gy) (fun gx _ => gx == 1) (fun i => layout 2 2 i 2 2 1)
      (fun i _ => create_two 2 2 i) (fun i => coordFields (layout 2 2 i 2 2 1)) hstate
      ⟨fun _ => 0, fun _ => false, .None⟩⟩

/-- The constructor on 1024 ranks plans the `32 x 32` process grid. -/
theorem create_1024 (W H r : Nat) : create W H r 1024 = some (layout W H r 1024 32 32) := by
  have h : Nat.sqrt 1024 = 32 := (Nat.eq_sqrt.mpr ⟨by decide, by decide⟩).symm
  simp [create, getClosestFactors2, h, closestLoop]

/-- Counterexample to C5 as stated: a grid of `65536 x 65536` cells on `1024` ranks
(`P ≤ min W H`; every tile has `2048 x 2048` cells).  The product `total_x * total_y` is `2^32`,
which is `0` as a `uint32_t`: the two receive buffers are allocated with no element, so no
cell `(gx, gy)` has an element `recv_buf[gy * W + gx]`, while the receive from rank 0 stores to
displacement `0`. -/
theorem gather_buffer_counterexample :
    (1 ≤ 1024 ∧ 1024 ≤ min 65536 65536) ∧
    (∀ i, i < 1024 → create 65536 65536 i 1024 = some (layout 65536 65536 i 1024 32 32)) ∧
    (layout 65536 65536 0 1024 32 32).num_x = 2048 ∧
    (layout 65536 65536 0 1024 32 32).num_y = 2048 ∧
    recvBufLength 65536 65536 = 0 ∧
    0 ∈ gatherWrites (fun i => layout 65536 65536 i 1024 32 32) ∧
    ¬ (∀ k ∈ gatherWrites (fun i => layout 65536 65536 i 1024 32 32),
      k < recvBufLength 65536 65536) ∧
    ¬ (0 * 65536 + 0 < recvBufLength 65536 65536) := by
  have hlen : recvBufLength 65536 65536 = 0 := by decide
  have hmem : 0 ∈ gatherWrites (fun i => layout 65536 65536 i 1024 32 32) := by
    unfold gatherWrites
    refine List.mem_flatMap.mpr ⟨0, List.mem_range.mpr (by decide), ?_⟩
    simp only [Subarray.indices, List.mem_flatMap, List.mem_map, List.mem_range]
    exact ⟨0, by decide, 0, by decide, by decide⟩
  refine ⟨by decide, fun i _ => create_1024 65536 65536 i, by decide, by decide, hlen, hmem,
    fun h => ?_, by rw [hlen]; decide⟩
  have := h 0 hmem
  rw [hlen] at this
  exact absurd this (by decide)

/-! ### Termination of `initBarrier` -/

/-- A value converted to `int` lies in the range of `int`. -/
theorem toI32_range (z : Int) : -2147483648 ≤ toI32 z ∧ toI32 z < 2147483648 := by
  unfold toI32
  have h1 := Int.emod_nonneg z (show (4294967296 : Int) ≠ 0 by decide)
  have h2 := Int.emod_lt_of_pos z (show (0 : Int) < 4294967296 by decide)
  split_ifs <;> omega

theorem countUp_cons (lo hi : Int) (h : lo ≤ hi) :
    countUp lo hi = lo :: countUp (lo + 1) hi := by
  unfold countUp
  obtain ⟨m, hm⟩ : ∃ m : Nat, (hi + 1 - lo).toNat = m + 1 :=
    ⟨(hi + 1 - lo).toNat - 1, by have := Int.toNat_of_nonneg (show 0 ≤ hi + 1 - lo by omega); omega⟩
  have hm' : (hi + 1 - (lo + 1)).toNat = m := by
    have := Int.toNat_of_nonneg (show 0 ≤ hi + 1 - lo by omega)
    have := Int.toNat_of_nonneg (show 0 ≤ hi + 1 - (lo + 1) by omega)
    omega
  rw [hm, hm', List.range_succ_eq_map, List.map_cons, List.map_map]
  congr 1
  · simp
  · refine List.map_congr_left ?_
    intro k _
    simp only [Function.comp_apply]
    push_cast
    omega

theorem countUp_nil (lo hi : Int) (h : hi < lo) : countUp lo hi = [] := by
  unfold countUp
  rw [Int.toNat_eq_zero.mpr (by omega)]
  rfl

/-- A loop `for (j = lo; j <= hi; j++)` whose bound is below `INT_MAX` ends, after running its
body for `lo, lo + 1, ..., hi`. -/
theorem forLe_ends {σ : Type} (hi : Int) (hhi : hi < 2147483647) (body : Int → σ → σ)
    (fuel : Nat) (lo : Int) (hlo : -2147483648 ≤ lo) (hf : (hi + 1 - lo).toNat < fuel) (s : σ) :
    forLe hi body fuel lo s = some ((countUp lo hi).foldl (fun s j => body j s) s) := by
  induction fuel generalizing lo s with
  | zero => omega
  | succ fuel ih =>
    rw [forLe]
    by_cases h : lo ≤ hi
    · have e1 := Int.toNat_of_nonneg (show 0 ≤ hi + 1 - lo by omega)
      have e2 := Int.toNat_of_nonneg (show 0 ≤ hi + 1 - (lo + 1) by omega)
      rw [if_pos h, i32add_of_fits lo 1 (by omega) (by omega),
        ih (lo + 1) (by omega) (by omega), countUp_cons lo hi h, List.foldl_cons]
    · rw [if_neg h, countUp_nil lo hi (by omega)]
      rfl

/-- A loop `for (j = lo; j <= hi; j++)` with `hi = INT_MAX` does not end: every value of the
counter passes the test, and the increment of `INT_MAX` wraps around. -/
theorem forLe_runs_on {σ : Type} (body : Int → σ → σ) (fuel : Nat) (j : Int)
    (hj : -2147483648 ≤ j ∧ j < 2147483648) (s : σ) :
    forLe 2147483647 body fuel j s = none := by
  induction fuel generalizing j s with
  | zero => rfl
  | succ fuel ih =>
    rw [forLe, if_pos (by omega)]
    exact ih _ (toI32_range _) _

theorem initBarrier_eq_foldl {α : Type} (g : Geometry) (barriers : List Barrier)
    (s : Fields α) :
    initBarrier g barriers s = { s with
      barrier := barriers.foldl (barrierMarks g)
        (fun k => if k < g.dim_x * g.dim_y then false else s.barrier k) } := rfl

/-- The loop of a segment that does not meet the tile, or whose bound is below `INT_MAX`,
ends and leaves the marks of the segment. -/
theorem barrierSegment_ends (g : Geometry) (fuel : Nat) (hfuel : 4294967296 < fuel)
    (b : Nat → Bool) (seg : Barrier) (hint : intCoords seg)
    (h : meetsTile g seg → loopBound seg < 2147483647) :
    barrierSegment g fuel b seg = some (barrierMarks g b seg) := by
  obtain ⟨⟨a1, a2⟩, ⟨a3, a4⟩, ⟨a5, a6⟩, ⟨a7, a8⟩⟩ := hint
  rcases seg with ⟨ty, x1, x2, y1, y2⟩
  dsimp only at a1 a2 a3 a4 a5 a6 a7 a8
  have ex : (x2 + 1 - x1).toNat < fuel := by
    have := Int.toNat_le.mpr (show x2 + 1 - x1 ≤ ((4294967296 : Nat) : Int) by omega)
    omega
  have ey : (y2 + 1 - y1).toNat < fuel := by
    have := Int.toNat_le.mpr (show y2 + 1 - y1 ≤ ((4294967296 : Nat) : Int) by omega)
    omega
  cases ty
  · simp only [barrierSegment, barrierMarks, meetsTile, loopBound] at h ⊢
    generalize (if g.offset_x = 0 then (0 : Int) else (g.offset_x : Int) - 1) = sx at *
    generalize (if g.offset_y = 0 then (0 : Int) else (g.offset_y : Int) - 1) = sy at *
    by_cases hg : 0 ≤ y1 - sy ∧ y1 - sy < g.dim_y
    · rw [if_pos hg, if_pos hg]
      exact forLe_ends x2 (h hg) _ fuel x1 a1 ex b
    · rw [if_neg hg, if_neg hg]
  · simp only [barrierSegment, barrierMarks, meetsTile, loopBound] at h ⊢
    generalize (if g.offset_x = 0 then (0 : Int) else (g.offset_x : Int) - 1) = sx at *
    generalize (if g.offset_y = 0 then (0 : Int) else (g.offset_y : Int) - 1) = sy at *
    by_cases hg : 0 ≤ x1 - sx ∧ x1 - sx < g.dim_x
    · rw [if_pos hg, if_pos hg]
      exact forLe_ends y2 (h hg) _ fuel y1 a5 ey b
    · rw [if_neg hg, if_neg hg]

/-- The loop of a segment that meets the tile and whose bound is `INT_MAX` does not end. -/
theorem barrierSegment_runs_on (g : Geometry) (fuel : Nat) (b : Nat → Bool) (seg : Barrier)
    (hint : intCoords seg) (hm : meetsTile g seg) (hb : loopBound seg = 2147483647) :
    barrierSegment g fuel b seg = none := by
  obtain ⟨⟨a1, a2⟩, ⟨a3, a4⟩, ⟨a5, a6⟩, ⟨a7, a8⟩⟩ := hint
  rcases seg with ⟨ty, x1, x2, y1, y2⟩
  dsimp only at a1 a2 a3 a4 a5 a6 a7 a8
  cases ty
  · simp only [barrierSegment, meetsTile, loopBound] at hm hb ⊢
    rw [if_pos hm, hb]
    exact forLe_runs_on _ fuel x1 ⟨a1, a2⟩ b
  · simp only [barrierSegment, meetsTile, loopBound] at hm hb ⊢
    rw [if_pos hm, hb]
    exact forLe_runs_on _ fuel y1 ⟨a5, a6⟩ b

theorem barrierSegments_ends (g : Geometry) (fuel : Nat) (hfuel : 4294967296 < fuel)
    (L : List Barrier) (hint : ∀ seg ∈ L, intCoords seg)
    (h : ∀ seg ∈ L, meetsTile g seg → loopBound seg < 2147483647) (b : Nat → Bool) :
    barrierSegments g fuel L b = some (L.foldl (barrierMarks g) b) := by
  induction L generalizing b with
  | nil => rfl
  | cons seg L ih =>
    rw [barrierSegments, barrierSegment_ends g fuel hfuel b seg
      (hint seg (List.mem_cons_self _ _)) (h seg (List.mem_cons_self _ _))]
    exact ih (fun q hq => hint q (List.mem_cons_of_mem _ hq))
      (fun q hq => h q (List.mem_cons_of_mem _ hq)) _

theorem barrierSegments_runs_on (g : Geometry) (fuel : Nat) (L : List Barrier)
    (hint : ∀ seg ∈ L, intCoords seg)
    (h : ∃ seg ∈ L, meetsTile g seg ∧ loopBound seg = 2147483647) (b : Nat → Bool) :
    barrierSegments g fuel L b = none := by
  induction L generalizing b with
  | nil =>
    obtain ⟨seg, hseg, -⟩ := h
    exact absurd hseg (List.not_mem_nil _)
  | cons seg L ih =>
    rw [barrierSegments]
    cases hstep : barrierSegment g fuel b seg with
    | none => rfl
    | some b' =>
      dsimp only
      refine ih (fun q hq => hint q (List.mem_cons_of_mem _ hq)) ?_ b'
      obtain ⟨q, hq, hm, hb⟩ := h
      rcases List.mem_cons.mp hq with e | e
      · subst e
        rw [barrierSegment_runs_on g fuel b q (hint q (List.mem_cons_self _ _)) hm hb] at hstep
        exact Option.noConfusion hstep
      · exact ⟨q, e, hm, hb⟩

/-- C11 (`initBarrier` rasterisation), as the code behaves: for `W, H ≥ 1`, every rank
`r < P` and every list of segments with `int` coordinates, the loop over a segment runs when
the row of a horizontal segment (the column of a vertical one) is stored on the tile.  If no
such segment has its loop bound `x_end` (`y_end`) equal to `INT_MAX = 2^31 - 1`, `initBarrier`
returns, and then the mask of a stored cell `(x, y)` is `true` iff some segment contains the
global cell `(x + offset_x - start_x, y + offset_y - start_y)`, whatever the mask held before;
if some such segment has its bound equal to `INT_MAX`, the loop `for (j = ...; j <= bound; j++)`
never ends and `initBarrier` does not return.  A horizontal segment `(x_start, x_end, y0)`
contains `(gx, gy)` iff `gy = y0` and `x_start ≤ gx ≤ x_end`, a vertical segment
`(y_start, y_end, x0)` iff `gx = x0` and `y_start ≤ gy ≤ y_end`. -/
theorem initBarrier_rasterisation {α : Type} (W H P : Nat) (hW : 1 ≤ W) (hH : 1 ≤ H)
    (hP : 1 ≤ P) (r : Nat) (hr : r < P) (barriers : List Barrier)
    (hint : ∀ seg ∈ barriers, intCoords seg) (s : Fields α) :
    ∃ g, create W H r P = some g ∧
      ((∀ seg ∈ barriers, meetsTile g seg → loopBound seg < 2147483647) →
        ∀ fuel, 4294967296 < fuel →
          initBarrierRun g barriers fuel s = some (initBarrier g barriers s) ∧
          ∀ x y, x < g.dim_x → y < g.dim_y →
            ((initBarrier g barriers s).barrier (y * g.dim_x + x) = true ↔
              ∃ seg ∈ barriers, specContains seg
                ((x : Int) + g.offset_x - g.start_x) ((y : Int) + g.offset_y - g.start_y))) ∧
      ((∃ seg ∈ barriers, meetsTile g seg ∧ loopBound seg = 2147483647) →
        ∀ fuel, initBarrierRun g barriers fuel s = none) ∧
      (∀ x_start x_end y0, meetsTile g (BarrierHorizontal x_start x_end y0) ↔
        ∃ y : Nat, y < g.dim_y ∧ (y : Int) + g.offset_y - g.start_y = y0) ∧
      (∀ y_start y_end x0, meetsTile g (BarrierVertical y_start y_end x0) ↔
        ∃ x : Nat, x < g.dim_x ∧ (x : Int) + g.offset_x - g.start_x = x0) ∧
      (∀ x_start x_end y0 gx gy, specContains (BarrierHorizontal x_start x_end y0) gx gy ↔
        gy = y0 ∧ x_start ≤ gx ∧ gx ≤ x_end) ∧
      (∀ y_start y_end x0 gx gy, specContains (BarrierVertical y_start y_end x0) gx gy ↔
        gx = x0 ∧ y_start ≤ gy ∧ gy ≤ y_end) := by
  obtain ⟨Px, Py, hget, hPx, hPy, hmul, hle, hcreate, hdec⟩ := create_layout P hP
  obtain ⟨hb, ha, hrr⟩ := hdec r hr
  refine ⟨_, hcreate W H r, ?_, ?_, ?_, ?_, fun _ _ _ _ _ => Iff.rfl,
    fun _ _ _ _ _ => Iff.rfl⟩
  · intro hend fuel hfuel
    constructor
    · unfold initBarrierRun
      dsimp only
      rw [barrierSegments_ends _ fuel hfuel barriers hint hend, initBarrier_eq_foldl]
    · intro x y hx hy
      rw [initBarrier_cell _ barriers s x y hx hy]
      generalize r / Px = a at *
      generalize r % Px = b at *
      subst hrr
      obtain ⟨-, x2, x3, -⟩ := layout_x W H P Px Py a b hb
      obtain ⟨-, y2, y3, -⟩ := layout_y W H P Px Py a b hb
      rw [x2, x3, y2, y3, barrier_shift W Px b hW hPx, barrier_shift H Py a hH hPy]
      simp only [add_sub_assoc]
  · intro hex fuel
    unfold initBarrierRun
    dsimp only
    rw [barrierSegments_runs_on _ fuel barriers hint hex]
  · intro x_start x_end y0
    generalize r / Px = a at *
    generalize r % Px = b at *
    subst hrr
    obtain ⟨-, y2, y3, -⟩ := layout_y W H P Px Py a b hb
    simp only [meetsTile, BarrierHorizontal]
    rw [y2, y3, barrier_shift H Py a hH hPy]
    constructor
    · intro h
      exact ⟨(y0 - ((tileOffset H Py a : Int) - (tileStart a : Int))).toNat, by omega, by omega⟩
    · rintro ⟨y, hy, rfl⟩
      omega
  · intro y_start y_end x0
    generalize r / Px = a at *
    generalize r % Px = b at *
    subst hrr
    obtain ⟨-, x2, x3, -⟩ := layout_x W H P Px Py a b hb
    simp only [meetsTile, BarrierVertical]
    rw [x2, x3, barrier_shift W Px b hW hPx]
    constructor
    · intro h
      exact ⟨(x0 - ((tileOffset W Px b : Int) - (tileStart b : Int))).toNat, by omega, by omega⟩
    · rintro ⟨x, hx, rfl⟩
      omega

/-- Witness for C11: `W = 8`, `H = 3`, `P = 2`, rank 1, one horizontal and one vertical
segment, on a mask that was `true` everywhere. -/
theorem initBarrier_rasterisation_witness :
    (1 ≤ 8 ∧ 1 ≤ 3 ∧ 1 ≤ 2 ∧ 1 < 2 ∧
      ∀ seg ∈ [BarrierHorizontal 2 5 1, BarrierVertical (-1) 7 6], intCoords seg) ∧
    ∃ g, create 8 3 1 2 = some g ∧
      ((∀ seg ∈ [BarrierHorizontal 2 5 1, BarrierVertical (-1) 7 6],
          meetsTile g seg → loopBound seg < 2147483647) →
        ∀ fuel, 4294967296 < fuel →
          initBarrierRun g [BarrierHorizontal 2 5 1, BarrierVertical (-1) 7 6] fuel
              (uniformFields (0 : Nat) true)
            = some (initBarrier g [BarrierHorizontal 2 5 1, BarrierVertical (-1) 7 6]
              (uniformFields (0 : Nat) true)) ∧
          ∀ x y, x < g.dim_x → y < g.dim_y →
            ((initBarrier g [BarrierHorizontal 2 5 1, BarrierVertical (-1) 7 6]
                (uniformFields (0 : Nat) true)).barrier (y * g.dim_x + x) = true ↔
              ∃ seg ∈ [BarrierHorizontal 2 5 1, BarrierVertical (-1) 7 6], specContains seg
                ((x : Int) + g.offset_x - g.start_x) ((y : Int) + g.offset_y - g.start_y))) ∧
      ((∃ seg ∈ [BarrierHorizontal 2 5 1, BarrierVertical (-1) 7 6],
          meetsTile g seg ∧ loopBound seg = 2147483647) →
        ∀ fuel, initBarrierRun g [BarrierHorizontal 2 5 1, BarrierVertical (-1) 7 6] fuel
          (uniformFields (0 : Nat) true) = none) ∧
      (∀ x_start x_end y0, meetsTile g (BarrierHorizontal x_start x_end y0) ↔
        ∃ y : Nat, y < g.dim_y ∧ (y : Int) + g.offset_y - g.start_y = y0) ∧
      (∀ y_start y_end x0, meetsTile g (BarrierVertical y_start y_end x0) ↔
        ∃ x : Nat, x < g.dim_x ∧ (x : Int) + g.offset_x - g.start_x = x0) ∧
      (∀ x_start x_end y0 gx gy, specContains (BarrierHorizontal x_start x_end y0) gx gy ↔
        gy = y0 ∧ x_start ≤ gx ∧ gx ≤ x_end) ∧
      (∀ y_start y_end x0 gx gy, specContains (BarrierVertical y_start y_end x0) gx gy ↔
        gx = x0 ∧ y_start ≤ gy ∧ gy ≤ y_end) :=
  ⟨by decide, initBarrier_rasterisation 8 3 2 (by decide) (by decide) (by decide) 1 (by decide)
    [BarrierHorizontal 2 5 1, BarrierVertical (-1) 7 6] (by decide)
    (uniformFields (0 : Nat) true)⟩

/-- Counterexample to C11 as stated: `W = 8`, `H = 3`, `P = 2`, rank 1 and the single
horizontal segment from `x = 2` to `x = INT_MAX` in row 1.  The row is stored on the tile, so
the loop `for (j = 2; j <= 2147483647; j++)` is entered; its test holds for every `int`, the
increment of `INT_MAX` wraps around, and `initBarrier` does not return, whatever bound is put
on the number of iterations: no mask is produced. -/
theorem initBarrier_counterexample :
    (1 ≤ 8 ∧ 1 ≤ 3 ∧ 1 < 2) ∧
    ∃ g, create 8 3 1 2 = some g ∧ intCoords (BarrierHorizontal 2 2147483647 1) ∧
      meetsTile g (BarrierHorizontal 2 2147483647 1) ∧
      ∀ fuel, initBarrierRun g [BarrierHorizontal 2 2147483647 1] fuel
        (uniformFields (0 : Nat) true) = none := by
  refine ⟨by decide, _, create_two 8 3 1, by decide, by decide, fun fuel => ?_⟩
  unfold initBarrierRun
  dsimp only
  rw [barrierSegments_runs_on _ fuel _ (by decide)
    ⟨_, List.mem_cons_self _ _, by decide, by decide⟩]

/-! ### Zero-sized tiles and the type creations -/

/-- When a step of the first part of a run fails, the completed steps belong to that part. -/
theorem completed_in_prefix (L1 L2 : List CtorStep) (h : ∃ c ∈ L1, failsStep c = true) :
    ∀ c ∈ completedSteps (L1 ++ L2), c ∈ L1 := by
  unfold completedSteps
  induction L1 with
  | nil =>
    obtain ⟨c, hc, -⟩ := h
    exact absurd hc (List.not_mem_nil _)
  | cons a L1 ih =>
    intro c hc
    rw [List.cons_append, List.takeWhile_cons] at hc
    by_cases ha : failsStep a = true
    · simp only [ha, Bool.not_true] at hc
      exact absurd hc (List.not_mem_nil _)
    · have ha' : failsStep a = false := by simpa using ha
      simp only [ha', Bool.not_false, if_true] at hc
      rcases List.mem_cons.mp hc with e | e
      · exact e ▸ List.mem_cons_self _ _
      · refine List.mem_cons_of_mem _ (ih ?_ c e)
        obtain ⟨q, hq, hf⟩ := h
        rcases List.mem_cons.mp hq with e' | e'
        · rw [e', ha'] at hf
          exact Bool.noConfusion hf
        · exact ⟨q, e', hf⟩

/-- A subarray call with a sub-size `0` is erroneous. -/
theorem fails_of_zero (a0 a1 s0 s1 o0 o1 : Int) (h : s0 = 0 ∨ s1 = 0) :
    failsStep (.createSubarray a0 a1 s0 s1 o0 o1) = true := by
  unfold failsStep
  rcases h with h | h <;> subst h <;> simp

theorem toI32_zero : toI32 ((0 : Nat) : Int) = 0 := by decide

/-- The creation of `own_scalar` fails on a rank whose tile is empty. -/
theorem own_fails (g : Geometry) (h : g.num_x = 0 ∨ g.num_y = 0) :
    ∃ c ∈ ownTypeSteps g, failsStep c = true := by
  refine ⟨.createSubarray (toI32 g.dim_y) (toI32 g.dim_x) (toI32 g.num_y) (toI32 g.num_x)
    (toI32 g.start_y) (toI32 g.start_x), ?_, ?_⟩
  · simp only [ownTypeSteps, List.mem_cons, true_or, or_true]
  · refine fails_of_zero _ _ _ _ _ _ ?_
    rcases h with h | h
    · exact Or.inr (by rw [h]; exact toI32_zero)
    · exact Or.inl (by rw [h]; exact toI32_zero)

/-- The loop over all ranks contains a failing call as soon as some rank has an empty tile. -/
theorem other_fails (g : Geometry) (i : Nat) (hi : i < g.num_ranks)
    (h : (g.other_scalar i).subsize0 = 0 ∨ (g.other_scalar i).subsize1 = 0) :
    ∃ c ∈ otherTypeSteps g, failsStep c = true := by
  refine ⟨.createSubarray (toI32 (g.other_scalar i).array0) (toI32 (g.other_scalar i).array1)
    (toI32 (g.other_scalar i).subsize0) (toI32 (g.other_scalar i).subsize1)
    (toI32 (g.other_scalar i).offsets0) (toI32 (g.other_scalar i).offsets1), ?_, ?_⟩
  · unfold otherTypeSteps
    refine List.mem_flatMap.mpr ⟨i, List.mem_range.mpr hi, ?_⟩
    simp only [List.mem_cons, true_or]
  · refine fails_of_zero _ _ _ _ _ _ ?_
    rcases h with h | h
    · exact Or.inl (by rw [h]; exact toI32_zero)
    · exact Or.inr (by rw [h]; exact toI32_zero)

/-- The type creations allocate nothing. -/
theorem types_allocate_nothing (g : Geometry) (a : CtorArray) :
    CtorStep.allocate a ∉ ownTypeSteps g ∧ CtorStep.allocate a ∉ otherTypeSteps g := by
  constructor
  · simp [ownTypeSteps]
  · unfold otherTypeSteps
    intro h
    obtain ⟨i, -, hi⟩ := List.mem_flatMap.mp h
    simp at hi

/-- An empty chunk exists as soon as there are more chunks than cells: the last one. -/
theorem tileSize_last (total n : Nat) (h : total < n) : tileSize total n (n - 1) = 0 := by
  unfold tileSize
  rw [Nat.div_eq_of_lt h, Nat.mod_eq_of_lt h, if_neg (by omega)]

/-- C15 (zero-sized tile), as the code behaves: the constructor itself has no test of `W`
against `Px` or of `H` against `Py`.  For `P ≥ 1`, every `W`, `H` and every rank with
`W < Px` or `H < Py`, some rank has a tile with `num_x = 0` or `num_y = 0`, and on every rank
the constructor passes erroneous arguments (a sub-size `0`) to `MPI_Type_create_subarray`, a
type-creation failure, which is fatal.  The run of the constructor ends there, before
`recv_buf`, `brecv_buf`, the block of the `double` arrays and `barrier` are allocated; the only
arrays it may have allocated are the four tables `other_scalar`, `other_bool`,
`rank_local_size` and `rank_local_start`, and on a rank whose own tile is empty it has
allocated nothing. -/
theorem zero_tile_fatal (W H P : Nat) (hP : 1 ≤ P) (r : Nat) :
    ∃ Px Py g, getClosestFactors2 P = some (Px, Py) ∧ create W H r P = some g ∧
      (W < Px ∨ H < Py →
        (∃ q g', q < P ∧ create W H q P = some g' ∧ (g'.num_x = 0 ∨ g'.num_y = 0)) ∧
        endsFatally (constructorSteps g) = true ∧
        (∀ a, CtorStep.allocate a ∈ completedSteps (constructorSteps g) →
          a = .other_scalar ∨ a = .other_bool ∨ a = .rank_local_size ∨
            a = .rank_local_start) ∧
        (g.num_x = 0 ∨ g.num_y = 0 →
          ∀ a, CtorStep.allocate a ∉ completedSteps (constructorSteps g))) := by
  obtain ⟨Px, Py, hget, hPx, hPy, hmul, hle, hcreate, hdec⟩ := create_layout P hP
  refine ⟨Px, Py, _, hget, hcreate W H r, ?_⟩
  intro hzero

  have hq : ∃ q, q < P ∧ (tileSize H Py (q / Px) = 0 ∨ tileSize W Px (q % Px) = 0) := by
    rcases hzero with h | h
    · refine ⟨0 * Px + (Px - 1), ?_, Or.inr ?_⟩
      · rw [← hmul]; exact rank_lt_of_decomp Px Py 0 (Px - 1) (by omega) hPy
      · rw [(rank_decomp Px 0 (Px - 1) (by omega)).1]
        exact tileSize_last W Px h
    · refine ⟨(Py - 1) * Px + 0, ?_, Or.inl ?_⟩
      · rw [← hmul]; exact rank_lt_of_decomp Px Py (Py - 1) 0 hPx (by omega)
      · rw [(rank_decomp Px (Py - 1) 0 hPx).2]
        exact tileSize_last H Py h
  obtain ⟨q, hqP, hq0⟩ := hq
  have hother : ∃ c ∈ otherTypeSteps (layout W H r P Px Py), failsStep c = true := by
    refine other_fails _ q hqP ?_
    rw [(layout_scalars W H P Px Py r q).2.1]
    exact hq0
  have hpre : ∃ c ∈ ownTypeSteps (layout W H r P Px Py) ++ tableSteps
      ++ otherTypeSteps (layout W H r P Px Py), failsStep c = true := by
    obtain ⟨c, hc, hf⟩ := hother
    exact ⟨c, List.mem_append_right _ hc, hf⟩
  refine ⟨?_, ?_, ?_, ?_⟩
  · refine ⟨q, _, hqP, hcreate W H q, ?_⟩
    obtain ⟨hb, -, hrr⟩ := hdec q hqP
    have hx := (layout_x W H P Px Py (q / Px) (q % Px) hb).1
    have hy := (layout_y W H P Px Py (q / Px) (q % Px) hb).1
    rw [← hrr] at hx hy
    rw [hx, hy]
    exact hq0.symm
  · unfold endsFatally constructorSteps
    obtain ⟨c, hc, hf⟩ := hpre
    exact List.any_eq_true.mpr ⟨c, List.mem_append_left _ hc, hf⟩
  · intro a ha
    have hmem := completed_in_prefix _ fieldSteps hpre _ ha
    obtain ⟨n1, n2⟩ := types_allocate_nothing (layout W H r P Px Py) a
    rcases List.mem_append.mp hmem with h | h
    · rcases List.mem_append.mp h with h | h
      · exact absurd h n1
      · simp only [tableSteps, List.mem_cons, CtorStep.allocate.injEq, List.mem_singleton,
          List.not_mem_nil, or_false] at h
        exact h
    · exact absurd h n2
  · intro hown a ha
    have hmem := completed_in_prefix (ownTypeSteps (layout W H r P Px Py))
      (tableSteps ++ otherTypeSteps (layout W H r P Px Py) ++ fieldSteps)
      (own_fails _ hown) (.allocate a)
      (by unfold constructorSteps at ha; simpa only [List.append_assoc] using ha)
    exact (types_allocate_nothing (layout W H r P Px Py) a).1 hmem

/-- Witness for C15: `W = 1`, `H = 4`, `P = 2`, rank 1, whose tile has width `0`. -/
theorem zero_tile_fatal_witness :
    (1 ≤ 2) ∧
    ∃ Px Py g, getClosestFactors2 2 = some (Px, Py) ∧ create 1 4 1 2 = some g ∧
      (1 < Px ∨ 4 < Py →
        (∃ q g', q < 2 ∧ create 1 4 q 2 = some g' ∧ (g'.num_x = 0 ∨ g'.num_y = 0)) ∧
        endsFatally (constructorSteps g) = true ∧
        (∀ a, CtorStep.allocate a ∈ completedSteps (constructorSteps g) →
          a = .other_scalar ∨ a = .other_bool ∨ a = .rank_local_size ∨
            a = .rank_local_start) ∧
        (g.num_x = 0 ∨ g.num_y = 0 →
          ∀ a, CtorStep.allocate a ∉ completedSteps (constructorSteps g))) :=
  ⟨by decide, zero_tile_fatal 1 4 2 (by decide) 1⟩

/-- Counterexample to C15 as stated: `W = 1`, `H = 4`, `P = 2` (the planner gives
`Px = 2 > W`), rank 0.  The tile of rank 0 has `1 x 4` cells and its own six type creations
succeed; the run allocates `other_scalar`, `other_bool`, `rank_local_size` and
`rank_local_start`, creates the two types of rank 0 in the loop and fails at the creation of
`other_scalar[1]`, whose sub-size in x is `0`: the fatal error comes after four arrays have
been allocated.  On rank 1, whose tile is empty, the second call already fails (start `1` in a
dimension of size `1`) and nothing is allocated. -/
theorem zero_tile_counterexample :
    create 1 4 0 2 = some (layout 1 4 0 2 2 1) ∧
    create 1 4 1 2 = some (layout 1 4 1 2 2 1) ∧ (1 < 2) ∧
    (layout 1 4 0 2 2 1).num_x = 1 ∧ (layout 1 4 0 2 2 1).num_y = 4 ∧
    (layout 1 4 1 2 2 1).num_x = 0 ∧
    endsFatally (constructorSteps (layout 1 4 0 2 2 1)) = true ∧
    completedSteps (constructorSteps (layout 1 4 0 2 2 1)) =
      [.createSubarray 5 2 4 1 0 0, .createSubarray 5 2 4 1 0 0, .createSubarray 5 2 4 1 0 0,
        .createSubarray 5 2 4 1 0 1, .createSubarray 5 2 4 1 0 0, .createSubarray 5 2 4 1 0 0,
        .allocate .other_scalar, .allocate .other_bool, .allocate .rank_local_size,
        .allocate .rank_local_start, .createSubarray 4 1 4 1 0 0,
        .createSubarray 4 1 4 1 0 0] ∧
    CtorStep.allocate .other_scalar ∈ completedSteps (constructorSteps (layout 1 4 0 2 2 1)) ∧
    completedSteps (constructorSteps (layout 1 4 1 2 2 1)) = [.createSubarray 5 1 4 1 0 0] :=
  ⟨create_two 1 4 0, create_two 1 4 1, by decide, by decide, by decide, by decide, by decide,
    by decide, by decide, by decide⟩

end LbmD2Q9
